import Mathlib

/-!
# Fixed-chunk memory pool (`allocator/memory_pool.hpp`)

A shallow embedding of `pool::memory_pool<T, dest>`.

* Addresses and `size_t` values are natural numbers; `nullptr` is `0`.
  Counter arithmetic on `size_t` wraps modulo `2 ^ 64`.
* Raw memory is a function from byte addresses to bytes.  A `size_t` object
  is eight bytes, least significant byte first.
* Block headers (`struct block`, obtained with `new`) live in a heap of
  `(address, header)` entries.  The pointers `first_block`, `next_block` and
  `previous_block` are addresses into that heap and every loop of the source
  that walks the block list follows them.
* The results of `new block` and of `std::aligned_alloc` are arguments
  (`hdr`, `reg`) of the operations that may create a block.
* A loop of the source that has no bound of its own runs on a budget taken
  from the state (number of headers, chunks per block).  Exhausting the
  budget, like dereferencing a header address that is not in the heap, yields
  `none`: the source has no defined result there.
-/

namespace pool

/-! ## Machine words and raw memory -/

/-- Number of values of `size_t` (64-bit). -/
def size_max : Nat := 2 ^ 64

/-- The value of `sizeof(void *)`, also `sizeof(size_t)`. -/
def sizeof_ptr : Nat := 8

/-- Increment of a `size_t` (`++x`). -/
def incr (x : Nat) : Nat := (x + 1) % size_max

/-- Decrement of a `size_t` (`--x`): zero wraps to `2 ^ 64 - 1`. -/
def decr (x : Nat) : Nat := if x = 0 then size_max - 1 else x - 1

/-- The `size_t` sum `x + y`. -/
def add_sz (x y : Nat) : Nat := (x + y) % size_max

/-- The `size_t` difference `x - y`, wrapping below zero. -/
def sub_sz (x y : Nat) : Nat := (x + (size_max - y % size_max)) % size_max

/-- Byte-addressed raw memory. -/
abbrev memory := Nat → Nat

/-- Value of the `size_t` object stored at address `a` (little endian). -/
def read_word (m : memory) (a : Nat) : Nat :=
  m a % 256 + 256 * (m (a + 1) % 256) + 256 ^ 2 * (m (a + 2) % 256)
    + 256 ^ 3 * (m (a + 3) % 256) + 256 ^ 4 * (m (a + 4) % 256)
    + 256 ^ 5 * (m (a + 5) % 256) + 256 ^ 6 * (m (a + 6) % 256)
    + 256 ^ 7 * (m (a + 7) % 256)

/-- Store of the `size_t` value `v` at address `a`. -/
def write_word (m : memory) (a v : Nat) : memory :=
  fun x => if a ≤ x ∧ x < a + 8 then v / 256 ^ (x - a) % 256 else m x

/-- The call `memset(a, 0, n)`. -/
def mem_zero (m : memory) (a n : Nat) : memory :=
  fun x => if a ≤ x ∧ x < a + n then 0 else m x

/-- Store of the bytes `bytes` at address `a` and following. -/
def write_bytes (m : memory) (a : Nat) (bytes : List Nat) : memory :=
  fun x => if a ≤ x ∧ x < a + bytes.length then bytes.getD (x - a) 0 % 256 else m x

/-! ## Errors -/

/-- The exceptions thrown by `memory_pool`. -/
inductive pool_error where
  /-- Is `std::runtime_error("chunk size must fit in the block size")`. -/
  | chunk_must_fit
  /-- Is `std::runtime_error("chunk size must be at least the size of void *")`. -/
  | chunk_too_small
  /-- Is `std::runtime_error("block info: out of memory")`. -/
  | block_info_out_of_memory
  /-- Is `std::runtime_error("block: out of memory")`. -/
  | block_out_of_memory
  /-- Is `std::out_of_range("block does not belong to the pool")`. -/
  | not_in_pool
  deriving DecidableEq

/-- The message of the exception (`what()`). -/
def pool_error.what : pool_error → String
  | .chunk_must_fit => "chunk size must fit in the block size"
  | .chunk_too_small => "chunk size must be at least the size of void *"
  | .block_info_out_of_memory => "block info: out of memory"
  | .block_out_of_memory => "block: out of memory"
  | .not_in_pool => "block does not belong to the pool"

/-- Whether the exception is a `std::out_of_range` (the others are
`std::runtime_error`). -/
def pool_error.is_out_of_range : pool_error → Bool
  | .not_in_pool => true
  | _ => false

/-- Whether the text `needle` occurs in `msg` (Catch2 `ContainsSubstring`). -/
def contains_substring (msg needle : String) : Prop :=
  needle.toList <:+: msg.toList

instance (msg needle : String) : Decidable (contains_substring msg needle) := by
  unfold contains_substring
  infer_instance

/-! ## Block headers -/

/-- The header `struct block`. -/
structure block where
  _block : Nat := 0
  available_space : Nat := 0
  used_space : Nat := 0
  available_chunks : Nat := 0
  used_chunks : Nat := 0
  next_free_chunk : Nat := 0
  block_beginning : Nat := 0
  block_end : Nat := 0
  next_block : Nat := 0
  previous_block : Nat := 0
  deriving DecidableEq

/-- The constructor `block(size_t blockSize, size_t chunk)`. -/
def block.create (blockSize chunk : Nat) : block :=
  { available_space := blockSize, available_chunks := blockSize / chunk }

/-- The heap of block headers: the address of each live header with its
contents. -/
abbrev header_heap := List (Nat × block)

/-- The header at address `a`, if one is live there. -/
def hdr_read (H : header_heap) (a : Nat) : Option block :=
  match H with
  | [] => none
  | e :: rest => if e.1 = a then some e.2 else hdr_read rest a

/-- Update of the header at address `a` (an assignment through `a->...`). -/
def hdr_write (H : header_heap) (a : Nat) (f : block → block) : header_heap :=
  H.map (fun e => if e.1 = a then (e.1, f e.2) else e)

/-! ## The pool -/

/-- The template arguments of `memory_pool<T, dest>`, as far as the pool
depends on them. -/
structure template_args where
  /-- The value of `sizeof(T)` (zero for `T = void`). -/
  sizeof_T : Nat
  /-- Whether `std::is_destructible<T>::value &&
  !std::is_trivially_destructible<T>::value`. -/
  nontrivial_destructor : Bool
  /-- The template parameter `dest`. -/
  dest : Bool

/-- The object `memory_pool<T, dest>` together with the memory it works on. -/
structure memory_pool where
  targs : template_args
  block_size : Nat
  chunk_size : Nat
  first_block : Nat
  blocks : header_heap
  mem : memory

/-- The place a new header address is stored to: `&first_block` or
`&owner->next_block`. -/
inductive block_slot where
  | first_block
  | next_block (owner : Nat)

/-- The assignment `*pBlock = v`. -/
def store_slot (s : memory_pool) : block_slot → Nat → memory_pool
  | .first_block, v => { s with first_block := v }
  | .next_block owner, v =>
    { s with blocks := hdr_write s.blocks owner (fun b => { b with next_block := v }) }

/-- The loop of `allocate_block` that threads the free list through a new
block: `k` iterations remain, `n` is the loop counter, `currentChunk` the
chunk written next, `first` the value of `next_free_chunk` and `avail` the
value of `available_chunks`. -/
def init_free_list (chunk_size first avail : Nat) : Nat → Nat → Nat → memory → memory
  | 0, _, _, m => m
  | k + 1, n, currentChunk, m =>
    if n = avail - 1 then
      init_free_list chunk_size first avail k (n + 1) currentChunk (write_word m currentChunk 0)
    else
      let nextChunk := first + chunk_size * (n + 1)
      init_free_list chunk_size first avail k (n + 1) nextChunk
        (write_word m currentChunk nextChunk)

/-- The member `allocate_block(block **pBlock, block *previous)`; `hdr` is the
result of `new block` and `reg` the result of `std::aligned_alloc`. -/
def memory_pool.allocate_block (s : memory_pool) (pBlock : block_slot) (previous : Nat)
    (hdr reg : Nat) : Except pool_error Unit × memory_pool :=
  let b0 := block.create s.block_size s.chunk_size
  let s1 := store_slot s pBlock hdr
  if hdr = 0 then (.error .block_info_out_of_memory, s1) else
  let b1 := { b0 with _block := reg }
  if reg = 0 then
    (.error .block_out_of_memory, { s1 with blocks := s1.blocks ++ [(hdr, b1)] })
  else
    let m1 := mem_zero s1.mem reg s.block_size
    let b2 := { b1 with
      next_free_chunk := reg
      block_beginning := reg
      block_end := reg + s.block_size
      previous_block := previous }
    let m2 := init_free_list s.chunk_size b2.next_free_chunk b2.available_chunks
      b2.available_chunks 0 reg m1
    (.ok (), { s1 with blocks := s1.blocks ++ [(hdr, b2)], mem := m2 })

/-- The constructor `memory_pool(size_t blockSize, size_t chunk)`, run on the
memory `m`.  Division by a zero `chunk` has no defined result. -/
def memory_pool.create (targs : template_args) (blockSize chunk : Nat) (m : memory)
    (hdr reg : Nat) : Option (Except pool_error memory_pool) :=
  if chunk = 0 then none
  else if blockSize % chunk ≠ 0 then some (.error .chunk_must_fit)
  else if ¬ (chunk ≥ sizeof_ptr) then some (.error .chunk_too_small)
  else
    let s : memory_pool :=
      { targs := targs, block_size := blockSize, chunk_size := chunk,
        first_block := 0, blocks := [], mem := m }
    match s.allocate_block .first_block 0 hdr reg with
    | (.error e, _) => some (.error e)
    | (.ok _, s1) => some (.ok s1)

/-- The member `free_block(block *pBlock)`. -/
def memory_pool.free_block (s : memory_pool) (pBlock : Nat) : memory_pool :=
  { s with blocks := s.blocks.filter (fun e => e.1 ≠ pBlock) }

/-- The loop of `block_from_pointer`, entered with `next`. -/
def block_from_pointer_loop (H : header_heap) (ptr : Nat) :
    Nat → Nat → Option (Except pool_error Nat)
  | 0, next => if next = 0 then some (.error .not_in_pool) else none
  | fuel + 1, next =>
    if next = 0 then some (.error .not_in_pool)
    else
      match hdr_read H next with
      | none => none
      | some currentBlock =>
        if ptr ≥ currentBlock.block_beginning ∧ ptr ≤ currentBlock.block_end then
          some (.ok next)
        else block_from_pointer_loop H ptr fuel currentBlock.next_block

/-- The member `block_from_pointer(T *ptr)`: the address of the header of the
block that is taken to hold `ptr`. -/
def memory_pool.block_from_pointer (s : memory_pool) (ptr : Nat) :
    Option (Except pool_error Nat) :=
  block_from_pointer_loop s.blocks ptr s.blocks.length s.first_block

/-- The `while (true)` loop of `get_available_chunk`, entered with `next`:
the value of `current_block` when it exits. -/
def available_block_loop (H : header_heap) : Nat → Nat → Option Nat
  | 0, _ => none
  | fuel + 1, next =>
    match hdr_read H next with
    | none => none
    | some current_block =>
      if current_block.available_chunks ≠ 0 then some next
      else if current_block.next_block = 0 then some next
      else available_block_loop H fuel current_block.next_block

/-- The header after `get_available_chunk` took the head of its free list
out of the memory `m`. -/
def block.take (b : block) (cs : Nat) (m : memory) : block :=
  { b with
    used_chunks := incr b.used_chunks
    available_chunks := decr b.available_chunks
    available_space := sub_sz b.available_space cs
    used_space := add_sz b.used_space cs
    next_free_chunk := read_word m b.next_free_chunk }

/-- The member `get_available_chunk()`: the outcome, the pool afterwards. -/
def memory_pool.get_available_chunk (s : memory_pool) (hdr reg : Nat) :
    Option (Except pool_error Nat × memory_pool) :=
  match available_block_loop s.blocks s.blocks.length s.first_block with
  | none => none
  | some found =>
    match hdr_read s.blocks found with
    | none => none
    | some fb =>
      let grown : Option (Except pool_error Nat × memory_pool) :=
        if fb.available_chunks = 0 then
          match s.allocate_block (.next_block found) found hdr reg with
          | (.error e, s1) => some (.error e, s1)
          | (.ok _, s1) =>
            match hdr_read s1.blocks found with
            | none => none
            | some fb1 => some (.ok fb1.next_block, s1)
        else some (.ok found, s)
      match grown with
      | none => none
      | some (.error e, s1) => some (.error e, s1)
      | some (.ok current_block, s1) =>
        match hdr_read s1.blocks current_block with
        | none => none
        | some cb =>
          let available := cb.next_free_chunk
          let s2 := { s1 with blocks := hdr_write s1.blocks current_block (fun b =>
            b.take s1.chunk_size s1.mem) }
          some (.ok available, s2)

/-- The member `alloc(args...)`: placement construction of a `T` at the chunk
that `get_available_chunk` returns.  The constructor stores the object
representation `val` (at most `sizeof(T)` bytes of it). -/
def memory_pool.alloc (s : memory_pool) (hdr reg : Nat) (val : List Nat) :
    Option (Except pool_error Nat × memory_pool) :=
  match s.get_available_chunk hdr reg with
  | none => none
  | some (.error e, s1) => some (.error e, s1)
  | some (.ok p, s1) =>
    some (.ok p, { s1 with mem := write_bytes s1.mem p (val.take s1.targs.sizeof_T) })

/-- What a call of `release(T *&ptr)` leaves behind. -/
structure release_result where
  /-- The exception thrown, if any. -/
  error : Option pool_error
  /-- The pool afterwards. -/
  pool : memory_pool
  /-- The caller's handle afterwards. -/
  ptr : Nat
  /-- Whether `ptr->~T()` was run. -/
  destroyed : Bool

/-- The condition of `if constexpr (dest && std::is_destructible<T>::value &&
!std::is_trivially_destructible<T>::value)`. -/
def memory_pool.runs_destructor (s : memory_pool) : Bool :=
  s.targs.dest && s.targs.nontrivial_destructor

/-- The header after `release` adjusted its counters. -/
def block.give (b : block) (cs : Nat) : block :=
  { b with
    used_chunks := decr b.used_chunks
    available_chunks := incr b.available_chunks
    available_space := add_sz b.available_space cs
    used_space := sub_sz b.used_space cs }

/-- The part of `release` that takes the block `ub` out of the doubly linked
list when it has no used chunk left and is not the only block: the pool
after the unlinking, or `none` when `releaseUsedBlock` stays `false`. -/
def release_unlink (s1 : memory_pool) (ub : block) : Option memory_pool :=
  if ub.used_chunks = 0 then
    if ub.previous_block = 0 then
      if ub.next_block ≠ 0 then
        let s2 := { s1 with first_block := ub.next_block }
        some { s2 with blocks := hdr_write s2.blocks s2.first_block (fun b =>
          { b with previous_block := 0 }) }
      else none
    else
      if ub.next_block ≠ 0 then
        let s2 := { s1 with blocks := hdr_write s1.blocks ub.previous_block (fun b =>
          { b with next_block := ub.next_block }) }
        some { s2 with blocks := hdr_write s2.blocks ub.next_block (fun b =>
          { b with previous_block := ub.previous_block }) }
      else
        some { s1 with blocks := hdr_write s1.blocks ub.previous_block (fun b =>
          { b with next_block := 0 }) }
  else none

/-- The part of `release` that puts the chunk `ptr` at the head of the free
list of the block `used_block`, whose header is `ub`. -/
def release_push (s1 : memory_pool) (used_block ptr : Nat) (ub : block) : memory_pool :=
  if ub.available_chunks = 1 then
    let s2 := { s1 with blocks := hdr_write s1.blocks used_block (fun b =>
      { b with next_free_chunk := ptr }) }
    { s2 with mem := write_word s2.mem ptr 0 }
  else
    let s2 := { s1 with mem := write_word s1.mem ptr ub.next_free_chunk }
    { s2 with blocks := hdr_write s2.blocks used_block (fun b =>
      { b with next_free_chunk := ptr }) }

/-- The member `release(T *&ptr)`. -/
def memory_pool.release (s : memory_pool) (ptr : Nat) : Option release_result :=
  if ptr = 0 then some { error := none, pool := s, ptr := ptr, destroyed := false }
  else
    match s.block_from_pointer ptr with
    | none => none
    | some (.error e) => some { error := some e, pool := s, ptr := ptr, destroyed := false }
    | some (.ok used_block) =>
      let s1 := { s with blocks := hdr_write s.blocks used_block (fun b =>
        b.give s.chunk_size) }
      match hdr_read s1.blocks used_block with
      | none => none
      | some ub =>
        match release_unlink s1 ub with
        | some s3 =>
          some { error := none, pool := s3.free_block used_block, ptr := 0,
                 destroyed := s.runs_destructor }
        | none =>
          some { error := none, pool := release_push s1 used_block ptr ub, ptr := 0,
                 destroyed := s.runs_destructor }

/-- The member `get_chunk_size()`. -/
def memory_pool.get_chunk_size (s : memory_pool) : Nat := s.chunk_size

/-- The `do ... while` loop of `block_count`, entered with `block` and
`count`. -/
def block_count_loop (H : header_heap) : Nat → Nat → Nat → Option Nat
  | 0, _, _ => none
  | fuel + 1, blk, count =>
    match hdr_read H blk with
    | none => none
    | some b =>
      if b.next_block ≠ 0 then block_count_loop H fuel b.next_block (incr count)
      else some (incr count)

/-- The member `block_count()`. -/
def memory_pool.block_count (s : memory_pool) : Option Nat :=
  block_count_loop s.blocks s.blocks.length s.first_block 0

/-- A member that returns one field of `*block_from_pointer(p)`. -/
def memory_pool.field_of_block (s : memory_pool) (p : Nat) (field : block → Nat) :
    Option (Except pool_error Nat) :=
  match s.block_from_pointer p with
  | none => none
  | some (.error e) => some (.error e)
  | some (.ok a) =>
    match hdr_read s.blocks a with
    | none => none
    | some b => some (.ok (field b))

/-- The member `available_chunks_in_block(T *p)`. -/
def memory_pool.available_chunks_in_block (s : memory_pool) (p : Nat) :=
  s.field_of_block p block.available_chunks

/-- The member `available_space_in_block(T *p)`. -/
def memory_pool.available_space_in_block (s : memory_pool) (p : Nat) :=
  s.field_of_block p block.available_space

/-- The member `used_chunks_in_block(T *p)`. -/
def memory_pool.used_chunks_in_block (s : memory_pool) (p : Nat) :=
  s.field_of_block p block.used_chunks

/-- The member `used_space_in_block(T *p)`. -/
def memory_pool.used_space_in_block (s : memory_pool) (p : Nat) :=
  s.field_of_block p block.used_space

/-- The member `block_address(T *p)`. -/
def memory_pool.block_address (s : memory_pool) (p : Nat) : Option (Except pool_error Nat) :=
  if p = 0 then
    match hdr_read s.blocks s.first_block with
    | none => none
    | some b => some (.ok b.block_beginning)
  else s.field_of_block p block.block_beginning

/-- The `do ... while` loop of `dump_free_list`, entered with `free`. -/
def dump_free_list_loop (m : memory) : Nat → Nat → Option (List (Nat × Nat))
  | 0, _ => none
  | fuel + 1, free =>
    let next := read_word m free
    if next ≠ 0 then
      match dump_free_list_loop m fuel next with
      | none => none
      | some data => some ((free, next) :: data)
    else some [(free, next)]

/-- The member `dump_free_list(T *p)`. -/
def memory_pool.dump_free_list (s : memory_pool) (p : Nat) :
    Option (Except pool_error (List (Nat × Nat))) :=
  match s.block_from_pointer p with
  | none => none
  | some (.error e) => some (.error e)
  | some (.ok a) =>
    match hdr_read s.blocks a with
    | none => none
    | some b =>
      if b.available_chunks = 0 then some (.ok [])
      else
        match dump_free_list_loop s.mem (s.block_size / s.chunk_size) b.next_free_chunk with
        | none => none
        | some data => some (.ok data)

/-! ## What `allocate_block` leaves -/

/-- The header that `allocate_block` leaves for a block at region `reg` whose
predecessor is `previous`. -/
def block.init (bs cs reg previous : Nat) : block :=
  { _block := reg, available_space := bs, available_chunks := bs / cs,
    next_free_chunk := reg, block_beginning := reg, block_end := reg + bs,
    previous_block := previous }

/-- The memory that `allocate_block` leaves: the region zeroed and the free
list threaded through it. -/
def init_mem (bs cs reg : Nat) (m : memory) : memory :=
  init_free_list cs reg (bs / cs) (bs / cs) 0 reg (mem_zero m reg bs)

/-! ## Well-formed pools and reachable states -/

/-- The addresses of the live headers. -/
def hdr_keys (H : header_heap) : List Nat := H.map Prod.fst

/-- The headers of the heap, in heap order, are the doubly linked list that
starts at `first` and whose first member has predecessor `prev`. -/
def linked : Nat → Nat → header_heap → Prop
  | first, _, [] => first = 0
  | first, prev, e :: rest =>
    first = e.1 ∧ e.1 ≠ 0 ∧ e.2.previous_block = prev ∧ linked e.2.next_block e.1 rest

/-- The headers `seg`, in order, are a stretch of a doubly linked list: it is
entered at `first` coming from `prev`, and left towards `nxt` coming from
`lastk`. -/
def linked_seg : Nat → Nat → header_heap → Nat → Nat → Prop
  | first, prev, [], nxt, lastk => first = nxt ∧ prev = lastk
  | first, prev, e :: rest, nxt, lastk =>
    first = e.1 ∧ e.1 ≠ 0 ∧ e.2.previous_block = prev ∧
      linked_seg e.2.next_block e.1 rest nxt lastk

/-- The block list of the pool is a well-formed, non-empty doubly linked list
of the live headers. -/
structure list_wf (s : memory_pool) : Prop where
  nonempty : s.blocks ≠ []
  keys_nodup : (hdr_keys s.blocks).Nodup
  is_linked : linked s.first_block 0 s.blocks

/-- The words at the addresses `fl`, in this order, are the free list that
starts at `head` and ends in zero. -/
def free_chain (m : memory) : Nat → List Nat → Prop
  | head, [] => head = 0
  | head, c :: rest => head = c ∧ c ≠ 0 ∧ free_chain m (read_word m c) rest

/-- The address `c` is the start of a chunk of block `b`. -/
def is_chunk (s : memory_pool) (b : block) (c : Nat) : Prop :=
  ∃ i, i < s.block_size / s.chunk_size ∧ c = b.block_beginning + i * s.chunk_size

/-- The address `p` lies in the region `[block_beginning, block_end)` of `b`. -/
def in_block (b : block) (p : Nat) : Bool :=
  decide (b.block_beginning ≤ p ∧ p < b.block_end)

/-- The assumption on the results `hdr` of `new block` and `reg` of
`std::aligned_alloc(chunk_size, block_size)`, obtained while the headers `H`
are live, under which `reachable` and `allocs_only` follow a pool: both calls
succeed, the header address is unused, the region is aligned and fits into
the address space, and at least one byte lies between the region and the
region of every live block. The last condition asks for more than
`std::aligned_alloc` promises, which is that live regions are disjoint: it
leaves out the executions in which a region begins at the `block_end` of a
live block, where `block_from_pointer` takes a pointer of the upper block
for a member of the lower one (C6; `pool16_adj` is such a pool). -/
structure fresh (H : header_heap) (block_size chunk_size hdr reg : Nat) : Prop where
  hdr_ne : hdr ≠ 0
  hdr_new : hdr ∉ hdr_keys H
  reg_ne : reg ≠ 0
  reg_aligned : reg % chunk_size = 0
  reg_fits : reg + block_size < size_max
  reg_apart : ∀ e ∈ H, reg + block_size < e.2.block_beginning ∨ e.2.block_end < reg

/-- The state of one block while the pointers `out` are outstanding. -/
structure block_ok (s : memory_pool) (out : List Nat) (b : block) : Prop where
  base_ne : b.block_beginning ≠ 0
  base_eq : b._block = b.block_beginning
  base_aligned : b.block_beginning % s.chunk_size = 0
  end_eq : b.block_end = b.block_beginning + s.block_size
  end_lt : b.block_end < size_max
  chunks : b.available_chunks + b.used_chunks = s.block_size / s.chunk_size
  avail_space : b.available_space = b.available_chunks * s.chunk_size
  used_space : b.used_space = b.used_chunks * s.chunk_size
  used_count : out.countP (in_block b) = b.used_chunks
  free_list : ∃ fl, free_chain s.mem b.next_free_chunk fl ∧ fl.length = b.available_chunks ∧
    fl.Nodup ∧ ∀ c ∈ fl, is_chunk s b c ∧ c ∉ out

/-- The regions of two blocks have at least one byte between them. -/
def apart (b1 b2 : block) : Prop :=
  b1.block_end < b2.block_beginning ∨ b2.block_end < b1.block_beginning

/-- The address bounds `(block_beginning, block_end)` of the live blocks. -/
def regions (H : header_heap) : List (Nat × Nat) :=
  H.map (fun e => (e.2.block_beginning, e.2.block_end))

/-- Any two of the regions have at least one byte between them. -/
def separated (H : header_heap) : Prop :=
  (regions H).Pairwise (fun r1 r2 => r1.2 < r2.1 ∨ r2.2 < r1.1)

/-- The headers `b` and `b1` differ at most in their list pointers. -/
def same_body (b b1 : block) : Prop :=
  b1._block = b._block ∧ b1.available_space = b.available_space ∧
    b1.used_space = b.used_space ∧ b1.available_chunks = b.available_chunks ∧
    b1.used_chunks = b.used_chunks ∧ b1.next_free_chunk = b.next_free_chunk ∧
    b1.block_beginning = b.block_beginning ∧ b1.block_end = b.block_end

/-- The part of the invariant that also holds between the two steps of an
`alloc` that creates a block (after `allocate_block`, before the first chunk
of the new block is taken). -/
structure pool_core (s : memory_pool) (out : List Nat) : Prop where
  chunk_ge : sizeof_ptr ≤ s.chunk_size
  fits : s.block_size % s.chunk_size = 0
  size_pos : 0 < s.block_size
  elem_fits : s.targs.sizeof_T ≤ s.chunk_size
  wf : list_wf s
  blocks_ok : ∀ e ∈ s.blocks, block_ok s out e.2
  is_separated : separated s.blocks
  out_nodup : out.Nodup
  out_chunks : ∀ p ∈ out, ∃ e ∈ s.blocks, is_chunk s e.2 p

/-- The invariant of the pool while the pointers `out` are outstanding. -/
structure pool_inv (s : memory_pool) (out : List Nat) : Prop where
  core : pool_core s out
  busy : 1 < s.blocks.length → ∀ e ∈ s.blocks, e.2.used_chunks ≠ 0

/-- The pool states reachable from a successful construction, each with the
pointers that `alloc` returned and that were not released since, in the
executions that satisfy these assumptions. The pool is constructed with a
positive block size (the constructor also accepts zero, C32) for an element
type that fits into a chunk (the constructor does not compare `sizeof(T)`
with `chunk_size`, C39; `pool_args` is a pool it accepts with a wider
element). Every `alloc` succeeds, and a region it obtains is as `fresh` asks,
so no two regions touch. `release` is applied to outstanding pointers, and
between the calls the caller may store into the chunks it holds. -/
inductive reachable : memory_pool → List Nat → Prop
  | create (targs : template_args) (bs cs : Nat) (m : memory) (hdr reg : Nat)
      (s : memory_pool) :
      0 < bs → targs.sizeof_T ≤ cs → fresh [] bs cs hdr reg →
      memory_pool.create targs bs cs m hdr reg = some (.ok s) → reachable s []
  | alloc (s : memory_pool) (out : List Nat) (hdr reg : Nat) (val : List Nat) (p : Nat)
      (s1 : memory_pool) :
      reachable s out → fresh s.blocks s.block_size s.chunk_size hdr reg →
      s.alloc hdr reg val = some (.ok p, s1) → reachable s1 (p :: out)
  | release (s : memory_pool) (out : List Nat) (p : Nat) (r : release_result) :
      reachable s out → p ∈ out → s.release p = some r → r.error = none →
      reachable r.pool (out.erase p)
  | store (s : memory_pool) (out : List Nat) (q a v : Nat) :
      reachable s out → q ∈ out → q ≤ a → a < q + s.chunk_size →
      reachable { s with mem := Function.update s.mem a v } out

/-- The pool states that arise from a successful construction by calls of
`alloc` that return a chunk and by calls of `release` with any argument
whatsoever (outstanding pointers, null, foreign pointers whose release
throws), with any stores to memory in between. The address `hdr` that
`new block` returns is below `2 ^ 64` and is not the address of a live
header. -/
inductive called : memory_pool → Prop
  | create (targs : template_args) (bs cs : Nat) (m : memory) (hdr reg : Nat)
      (s : memory_pool) :
      hdr < size_max → memory_pool.create targs bs cs m hdr reg = some (.ok s) → called s
  | alloc (s : memory_pool) (hdr reg : Nat) (val : List Nat) (p : Nat) (s1 : memory_pool) :
      called s → hdr < size_max → hdr ∉ hdr_keys s.blocks →
      s.alloc hdr reg val = some (.ok p, s1) → called s1
  | release (s : memory_pool) (p : Nat) (r : release_result) :
      called s → s.release p = some r → called r.pool
  | store (s : memory_pool) (m : memory) :
      called s → called { s with mem := m }

/-! ## Sequences of calls -/

/-- One call of `alloc` for each entry `(hdr, reg, val)` of the list, in
order: the pointers returned, in call order, and the pool afterwards. The
result is `none` unless every call returns a chunk. -/
def alloc_seq (s : memory_pool) : List (Nat × Nat × List Nat) → Option (List Nat × memory_pool)
  | [] => some ([], s)
  | (hdr, reg, val) :: rest =>
    match s.alloc hdr reg val with
    | some (.ok p, s1) =>
      match alloc_seq s1 rest with
      | some (ps, s2) => some (p :: ps, s2)
      | none => none
    | _ => none

/-- One call of `release` for each pointer of the list, in order: the pool
afterwards. The result is `none` unless every call returns normally. -/
def release_seq (s : memory_pool) : List Nat → Option memory_pool
  | [] => some s
  | p :: rest =>
    match s.release p with
    | some r =>
      match r.error with
      | none => release_seq r.pool rest
      | some _ => none
    | none => none

/-- The pool states after `k` calls of `alloc` on the pool `s0`, with no
`release` in between; `created` lists the header addresses of the blocks that
these calls created, in the order of their creation. -/
inductive allocs_only (s0 : memory_pool) : Nat → List Nat → memory_pool → Prop
  | start : allocs_only s0 0 [] s0
  | step (k : Nat) (created : List Nat) (s : memory_pool) (hdr reg : Nat) (val : List Nat)
      (p : Nat) (s1 : memory_pool) :
      allocs_only s0 k created s → fresh s.blocks s.block_size s.chunk_size hdr reg →
      s.alloc hdr reg val = some (.ok p, s1) →
      allocs_only s0 (k + 1)
        (if s1.blocks.length = s.blocks.length then created else created ++ [hdr]) s1

/-- The entries of a free list that walks the `n` chunks of `cs` bytes of the
region at `reg` from the lowest address to the highest: entry `i` is the
chunk `i` with the address of chunk `i + 1`, and the last entry has null. -/
def full_free_list (reg cs n : Nat) : List (Nat × Nat) :=
  (List.range n).map (fun i => (reg + i * cs, if i + 1 < n then reg + (i + 1) * cs else 0))

/-! ## Example pools -/

/-- The template arguments of `memory_pool<uint64_t>`. -/
def targs_u64 : template_args :=
  { sizeof_T := 8, nontrivial_destructor := false, dest := true }

/-- A memory that holds zero everywhere. -/
def zero_mem : memory := fun _ => 0

/-- The pool `memory_pool<uint64_t>(16, 8)` right after construction, with
its header at address 4096 and its two chunks at addresses 64 and 72. -/
def pool16 : memory_pool :=
  { targs := targs_u64, block_size := 16, chunk_size := 8, first_block := 4096,
    blocks := [(4096, block.init 16 8 64 0)], mem := init_mem 16 8 64 zero_mem }

/-- The pool of an outcome of `alloc`, and `d` when there is none. -/
def pool_after (r : Option (Except pool_error Nat × memory_pool)) (d : memory_pool) :
    memory_pool :=
  match r with
  | some (_, s) => s
  | none => d

/-- The pool of an outcome of `release`, and `d` when there is none. -/
def pool_released (r : Option release_result) (d : memory_pool) : memory_pool :=
  match r with
  | some x => x.pool
  | none => d

/-- The pool `pool16` after one `alloc`, which returns the chunk 64. -/
def pool16_a : memory_pool := pool_after (pool16.alloc 4097 128 [1]) pool16

/-- The pool `pool16` after two calls of `alloc`, which return the chunks 64
and 72 and saturate the block. -/
def pool16_b : memory_pool := pool_after (pool16_a.alloc 4097 128 [2]) pool16

/-- The pool `pool16` after three calls of `alloc`: the third creates a second
block, with its header at 4097 and its chunks at 128 and 136. -/
def pool16_c : memory_pool := pool_after (pool16_b.alloc 4097 128 [3]) pool16

/-- The pool `pool16_a` after the chunk 64 was released again. -/
def pool16_r : memory_pool := pool_released (pool16_a.release 64) pool16

/-- The pool `pool16` after four calls of `alloc`: both blocks are
saturated. -/
def pool16_d : memory_pool := pool_after (pool16_c.alloc 4098 256 [4]) pool16

/-- The pool `pool16_d` after the chunk 64 of the first block was
released. -/
def pool16_e : memory_pool := pool_released (pool16_d.release 64) pool16

/-- The header of the first block of `pool16_c`: both chunks are in use. -/
def block16_full : block :=
  { _block := 64, available_space := 0, used_space := 16, available_chunks := 0,
    used_chunks := 2, next_free_chunk := 0, block_beginning := 64, block_end := 80,
    next_block := 4097, previous_block := 0 }

/-- The header of the second block of `pool16_c`: the chunk 128 is in use and
the chunk 136 is free. -/
def block16_half : block :=
  { _block := 128, available_space := 8, used_space := 8, available_chunks := 1,
    used_chunks := 1, next_free_chunk := 136, block_beginning := 128, block_end := 144,
    next_block := 0, previous_block := 4096 }

/-!
# Size-class allocator (`allocator/allocator.hpp`)

A shallow embedding of `pool::global_allocator` and `pool::pool_allocator<T>`
(the configuration without reporters).

* Values of type `int` are integers, wrapped into 32 bits where the source
  computes with them; `int64_t` is an integer whose overflow has no defined
  result.
* The registry `std::unordered_map<std::size_t, pool_type *>` is a list of
  `(chunk size, pool address)` entries with distinct keys; the order of the
  list is the order in which a range-`for` visits the entries (a new entry
  is put in front).
* The per-class pools are objects of type `pool_type`, constructed in chunks
  of the meta-pool `global_block`; they are kept in a heap of
  `(address, pool)` entries.  Each pool is kept together with the memory of
  its own blocks: the regions that `std::aligned_alloc` hands out to
  different pools are disjoint, so no pool writes the memory of another.
* The static pointer `global_allocator::_global` is an optional
  `global_allocator`; `none` is `nullptr`.
* The mutexes are not modelled: every operation runs from its first to its
  last statement without interleaving.
* A call that does not return to its caller (undefined behaviour, or
  `std::terminate` when an exception leaves a `noexcept` function or a
  destructor) yields `none`.
-/

/-! ## Integer arithmetic of `adjust_chunk_size` -/

/-- The number of binary digits of `x`, with `fuel` digits examined at
most. -/
def bit_width_loop : Nat → Nat → Nat
  | 0, _ => 0
  | fuel + 1, x => if x = 0 then 0 else bit_width_loop fuel (x / 2) + 1

/-- The value of `std::bit_width(x)` for a `size_t` value `x`: zero for zero,
and `1 + floor(log2(x))` otherwise. -/
def bit_width (x : Nat) : Nat := bit_width_loop 64 x

/-- The value of type `int` (32 bits, two's complement) that is congruent to
`v` modulo `2 ^ 32`. -/
def wrap_int (v : Int) : Int := (v + 2 ^ 31) % 2 ^ 32 - 2 ^ 31

/-- The `int` expression `x << k` (C++20): the value congruent to
`x * 2 ^ k` modulo `2 ^ 32`; a negative shift count, or one of 32 or more,
has no defined result. -/
def shl_int (x k : Int) : Option Int :=
  if 0 ≤ k ∧ k < 32 then some (wrap_int (x * 2 ^ k.toNat)) else none

/-- The conversion `static_cast<std::size_t>(v)` of an `int`. -/
def size_t_of_int (v : Int) : Nat := (v % 2 ^ 64).toNat

/-! ## Errors and the environment -/

/-- The exceptions that leave the allocator. -/
inductive allocator_error where
  /-- An exception thrown by a `memory_pool`. -/
  | pool (e : pool_error)
  /-- Is `std::bad_array_new_length`. -/
  | bad_array_new_length
  /-- Is `std::bad_alloc`. -/
  | bad_alloc
  deriving DecidableEq

/-- What the environment hands to one call of `global_allocator::allocate` or
`create_pool`. -/
structure alloc_env where
  /-- Result of `new block` when the meta-pool creates a block. -/
  meta_hdr : Nat
  /-- Result of `std::aligned_alloc` when the meta-pool creates a block. -/
  meta_reg : Nat
  /-- The object representation that the constructor of `pool_type` leaves
  in the chunk of the meta-pool. -/
  pool_val : List Nat
  /-- The memory that the first block of a new per-class pool is taken from. -/
  pool_mem : memory
  /-- Result of `new block` for the first block of a new per-class pool. -/
  pool_hdr : Nat
  /-- Result of `std::aligned_alloc` for the first block of a new per-class
  pool. -/
  pool_reg : Nat
  /-- Result of `new block` when the per-class pool creates a block. -/
  hdr : Nat
  /-- Result of `std::aligned_alloc` when the per-class pool creates a
  block. -/
  reg : Nat

/-! ## The registry and the heap of pools -/

/-- The call `local_blocks.find(chunkSize)`: the mapped pool address, or
`none` for `local_blocks.end()`. -/
def map_find (m : List (Nat × Nat)) (chunkSize : Nat) : Option Nat :=
  match m with
  | [] => none
  | e :: rest => if e.1 = chunkSize then some e.2 else map_find rest chunkSize

/-- The assignment `local_blocks[chunkSize] = v`. -/
def map_assign (m : List (Nat × Nat)) (chunkSize v : Nat) : List (Nat × Nat) :=
  match map_find m chunkSize with
  | some _ => m.map (fun e => if e.1 = chunkSize then (e.1, v) else e)
  | none => (chunkSize, v) :: m

/-- The heap of per-class pools: the address of each `pool_type` object with
its state. -/
abbrev pool_heap := List (Nat × memory_pool)

/-- The pool object at address `a`, if one was constructed there. -/
def pool_read (P : pool_heap) (a : Nat) : Option memory_pool :=
  match P with
  | [] => none
  | e :: rest => if e.1 = a then some e.2 else pool_read rest a

/-- The heap after the pool object at address `a` took the state `s`
(construction at `a`, or a member call through the pointer `a`). -/
def pool_store (P : pool_heap) (a : Nat) (s : memory_pool) : pool_heap :=
  (a, s) :: P.filter (fun e => e.1 ≠ a)

/-! ## `global_allocator` -/

/-- The template arguments of `pool_type = memory_pool<void, false>`. -/
def targs_pool_type : template_args :=
  { sizeof_T := 0, nontrivial_destructor := false, dest := false }

/-- The value of `sizeof(pool_type)`: the members `first_block`, `block_size`
and `chunk_size`. -/
def sizeof_pool_type : Nat := 24

/-- The template arguments of `global_pool = memory_pool<pool_type, false>`. -/
def targs_global_pool : template_args :=
  { sizeof_T := sizeof_pool_type, nontrivial_destructor := true, dest := false }

/-- The constant `pool_type_size_adjusted`,
`static_cast<size_t>(static_cast<int>(2 << (std::bit_width(sizeof(pool_type)) - 1)))`. -/
def pool_type_size_adjusted : Nat :=
  match shl_int 2 ((bit_width sizeof_pool_type : Int) - 1) with
  | some v => size_t_of_int v
  | none => 0

/-- The object `global_allocator` with the pools it owns. -/
structure global_allocator where
  count_ref : Int
  global_block : memory_pool
  local_blocks : List (Nat × Nat)
  /-- The `pool_type` objects constructed in the chunks of `global_block`. -/
  pools : pool_heap

/-- The constructor `global_allocator()`, which constructs
`global_block(32768, pool_type_size_adjusted)` on the memory `m`. -/
def global_allocator.create (m : memory) (hdr reg : Nat) :
    Option (Except pool_error global_allocator) :=
  match memory_pool.create targs_global_pool 32768 pool_type_size_adjusted m hdr reg with
  | none => none
  | some (.error e) => some (.error e)
  | some (.ok gb) =>
    some (.ok { count_ref := 0, global_block := gb, local_blocks := [], pools := [] })

/-- The static member `adjust_chunk_size(chunkSize)`. -/
def global_allocator.adjust_chunk_size (chunkSize : Nat) : Option Nat :=
  if chunkSize < 8 then some 8
  else
    let bw : Int := bit_width chunkSize
    match shl_int 2 (bw - 1) with
    | none => none
    | some v => some (size_t_of_int v)

/-- The static member `usable_size_from_chunk_size(chunkSize)`. -/
def global_allocator.usable_size_from_chunk_size (chunkSize : Nat) : Nat :=
  let usableSize := (chunkSize * 1000) % size_max
  if usableSize > size_t_of_int (wrap_int (2 * 2 ^ 19)) then (chunkSize * 1000) % size_max
  else usableSize

/-- The member `create_pool(size, chunkSize)`, which is `noexcept`: the
registry entry that the returned iterator points to, and the allocator
afterwards.  When the key is absent, `global_block.alloc(size, chunkSize)`
takes a chunk of the meta-pool and constructs `pool_type(size, chunkSize)` in
it. -/
def global_allocator.create_pool (g : global_allocator) (size chunkSize : Nat)
    (env : alloc_env) : Option ((Nat × Nat) × global_allocator) :=
  match map_find g.local_blocks chunkSize with
  | some a => some ((chunkSize, a), g)
  | none =>
    match g.global_block.alloc env.meta_hdr env.meta_reg env.pool_val with
    | none => none
    | some (.error _, _) => none
    | some (.ok p, gb1) =>
      match memory_pool.create targs_pool_type size chunkSize env.pool_mem env.pool_hdr
          env.pool_reg with
      | none => none
      | some (.error _) => none
      | some (.ok s) =>
        some ((chunkSize, p),
          { g with
            global_block := gb1
            local_blocks := map_assign g.local_blocks chunkSize p
            pools := pool_store g.pools p s })

/-- The member `allocate(n)`: the chunk returned or the exception thrown, and
the allocator afterwards. -/
def global_allocator.allocate (g : global_allocator) (n : Nat) (env : alloc_env) :
    Option (Except pool_error Nat × global_allocator) :=
  match global_allocator.adjust_chunk_size n with
  | none => none
  | some chunk_size =>
    match g.create_pool (global_allocator.usable_size_from_chunk_size chunk_size) chunk_size
        env with
    | none => none
    | some (pool, g1) =>
      match pool_read g1.pools pool.2 with
      | none => none
      | some s =>
        match s.alloc env.hdr env.reg [] with
        | none => none
        | some (r, s1) => some (r, { g1 with pools := pool_store g1.pools pool.2 s1 })

/-- The member `deallocate(p, chunkSize)`: the exception thrown, if any, and
the allocator afterwards. -/
def global_allocator.deallocate (g : global_allocator) (p chunkSize : Nat) :
    Option (Option pool_error × global_allocator) :=
  match map_find g.local_blocks chunkSize with
  | none => some (none, g)
  | some a =>
    match pool_read g.pools a with
    | none => none
    | some s =>
      match s.release p with
      | none => none
      | some r => some (r.error, { g with pools := pool_store g.pools a r.pool })

/-! ## `pool_allocator<T>` -/

/-- The steps of the destructor `~pool_allocator()` that the order of
tear-down is about. -/
inductive adapter_event where
  /-- The call `global_block.release(block)` for the registry entry
  `(chunk, block)` returned. -/
  | pool_released (chunk block : Nat)
  /-- The expression `delete _global` destroyed the meta-pool
  `global_block`. -/
  | meta_pool_destroyed
  /-- The assignment `_global = nullptr`. -/
  | global_reset
  deriving DecidableEq

/-- The member `initialize_pool()`, the body of the constructor
`pool_allocator()`; `m`, `hdr` and `reg` are what `new global_allocator`
works with. -/
def pool_allocator.initialize_pool (G : Option global_allocator) (m : memory)
    (hdr reg : Nat) : Option (Except allocator_error Unit × Option global_allocator) :=
  let made : Option (Except allocator_error global_allocator) :=
    match G with
    | some g => some (.ok g)
    | none =>
      match global_allocator.create m hdr reg with
      | none => none
      | some (.error e) => some (.error (.pool e))
      | some (.ok g) => some (.ok g)
  match made with
  | none => none
  | some (.error e) => some (.error e, G)
  | some (.ok g) =>
    if g.count_ref + 1 < (2 : Int) ^ 63 then
      some (.ok (), some { g with count_ref := g.count_ref + 1 })
    else none

/-- The copy constructor `pool_allocator(const pool_allocator &)`. -/
def pool_allocator.copy (G : Option global_allocator) : Option (Option global_allocator) :=
  match G with
  | none => none
  | some g =>
    if g.count_ref + 1 < (2 : Int) ^ 63 then some (some { g with count_ref := g.count_ref + 1 })
    else none

/-- The move constructor `pool_allocator(pool_allocator &&)`. -/
def pool_allocator.move (G : Option global_allocator) : Option (Option global_allocator) :=
  match G with
  | none => none
  | some g =>
    if g.count_ref + 1 < (2 : Int) ^ 63 then some (some { g with count_ref := g.count_ref + 1 })
    else none

/-- The loop of the destructor `~memory_pool()`, entered with `next`: every
block of the list is freed. -/
def destroy_loop (s : memory_pool) : Nat → Nat → Option memory_pool
  | 0, next => if next = 0 then some s else none
  | fuel + 1, next =>
    if next = 0 then some s
    else
      match hdr_read s.blocks next with
      | none => none
      | some currentBlock => destroy_loop (s.free_block next) fuel currentBlock.next_block

/-- The destructor `~memory_pool()`. -/
def memory_pool.destroy (s : memory_pool) : Option memory_pool :=
  destroy_loop s s.blocks.length s.first_block

/-- The effect of `ptr->~T()` on the heap of pools when `release` of the
meta-pool ran it for the pool at address `a`: the destructor of that pool
frees its blocks. -/
def run_pool_destructor (P : pool_heap) (a : Nat) (destroyed : Bool) : Option pool_heap :=
  if destroyed then
    match pool_read P a with
    | none => none
    | some s =>
      match s.destroy with
      | none => none
      | some s1 => some (pool_store P a s1)
  else some P

/-- The loop `for (auto &[chunk, block] : local_blocks)
global_block.release(block)` of `~pool_allocator()` over the entries `m`,
with the heap `P` of pools: the releases made, the meta-pool, the entries and
the heap of pools afterwards. -/
def release_pools (gb : memory_pool) (m : List (Nat × Nat)) (P : pool_heap) :
    Option (List adapter_event × memory_pool × List (Nat × Nat) × pool_heap) :=
  match m with
  | [] => some ([], gb, [], P)
  | e :: rest =>
    match gb.release e.2 with
    | none => none
    | some r =>
      match r.error with
      | some _ => none
      | none =>
        match run_pool_destructor P e.2 r.destroyed with
        | none => none
        | some P1 =>
          match release_pools r.pool rest P1 with
          | none => none
          | some (evs, gb1, m1, P2) =>
            some (.pool_released e.1 e.2 :: evs, gb1, (e.1, r.ptr) :: m1, P2)

/-- The destructor `~pool_allocator()`: the steps of the tear-down in the
order in which they happen (none when the singleton stays), and `_global`
afterwards. -/
def pool_allocator.destroy (G : Option global_allocator) :
    Option (List adapter_event × Option global_allocator) :=
  match G with
  | none => some ([], none)
  | some g =>
    if g.count_ref - 1 < -((2 : Int) ^ 63) then none
    else
      let g1 := { g with count_ref := g.count_ref - 1 }
      if g1.count_ref ≤ (0 : Int) then
        match release_pools g1.global_block g1.local_blocks g1.pools with
        | none => none
        | some (evs, gb, _, _) =>
          match gb.destroy with
          | none => none
          | some _ => some (evs ++ [.meta_pool_destroyed, .global_reset], none)
      else some ([], some g1)

/-- The member `pool_allocator<T>::create_pool(chunk_size)`. -/
def pool_allocator.create_pool (G : Option global_allocator) (chunk_size : Nat)
    (env : alloc_env) : Option (Option global_allocator) :=
  match G with
  | none => none
  | some g =>
    match g.create_pool (global_allocator.usable_size_from_chunk_size chunk_size) chunk_size
        env with
    | none => none
    | some (_, g1) => some (some g1)

/-- The member `pool_allocator<T>::allocate(n)` for an element type of
`sizeof_T` bytes (at least one): the pointer returned or the exception
thrown, and `_global` afterwards. -/
def pool_allocator.allocate (sizeof_T : Nat) (G : Option global_allocator) (n : Nat)
    (env : alloc_env) : Option (Except allocator_error Nat × Option global_allocator) :=
  match G with
  | none => none
  | some g =>
    if sizeof_T = 0 then none
    else if n > (size_max - 1) / sizeof_T then some (.error .bad_array_new_length, G)
    else
      match g.allocate ((n * sizeof_T) % size_max) env with
      | none => none
      | some (.error e, g1) => some (.error (.pool e), some g1)
      | some (.ok t, g1) =>
        if t ≠ 0 then some (.ok t, some g1) else some (.error .bad_alloc, some g1)

/-- The size class that `pool_allocator<T>::deallocate(p, _n)` computes
inline from `n = _n * sizeof(value_type)`. -/
def pool_allocator.deallocate_chunk_size (sizeof_T _n : Nat) : Option Nat :=
  let n := (_n * sizeof_T) % size_max
  if n < 8 then some 8
  else
    let bw : Int := bit_width n
    match shl_int 2 (bw - 1) with
    | none => none
    | some v => some (size_t_of_int v)

/-- The member `pool_allocator<T>::deallocate(p, _n)`, which is `noexcept`:
`_global` afterwards. -/
def pool_allocator.deallocate (sizeof_T : Nat) (G : Option global_allocator) (p _n : Nat) :
    Option (Option global_allocator) :=
  match G with
  | none => none
  | some g =>
    match pool_allocator.deallocate_chunk_size sizeof_T _n with
    | none => none
    | some chunk_size =>
      match g.deallocate p chunk_size with
      | none => none
      | some (some _, _) => none
      | some (none, g1) => some (some g1)

/-- The lifecycle events of the adapters. -/
inductive lifecycle_event where
  /-- The constructor `pool_allocator()`; the arguments are what
  `new global_allocator` works with when it runs. -/
  | construct (m : memory) (hdr reg : Nat)
  /-- The copy constructor, from a live adapter. -/
  | copy
  /-- The move constructor, from a live adapter. -/
  | move
  /-- The destructor of a live adapter. -/
  | destroy

/-- The state of the program as far as the adapters are concerned. -/
structure adapters where
  /-- Number of live adapters. -/
  live : Nat
  /-- The static `global_allocator::_global`. -/
  _global : Option global_allocator
  /-- How many times `delete _global` ran. -/
  deleted : Nat

/-- One lifecycle event; `none` unless the event applies (copy, move and
destruction need a live adapter) and the constructor or destructor returns
normally. -/
def adapters.step (st : adapters) : lifecycle_event → Option adapters
  | .construct m hdr reg =>
    match pool_allocator.initialize_pool st._global m hdr reg with
    | some (.ok _, G) => some { st with live := st.live + 1, _global := G }
    | _ => none
  | .copy =>
    if st.live = 0 then none
    else
      match pool_allocator.copy st._global with
      | some G => some { st with live := st.live + 1, _global := G }
      | none => none
  | .move =>
    if st.live = 0 then none
    else
      match pool_allocator.move st._global with
      | some G => some { st with live := st.live + 1, _global := G }
      | none => none
  | .destroy =>
    if st.live = 0 then none
    else
      match pool_allocator.destroy st._global with
      | some (evs, G) =>
        some { live := st.live - 1, _global := G,
               deleted := st.deleted + evs.count .meta_pool_destroyed }
      | none => none

/-- The events of the list, in order. -/
def adapters.run (st : adapters) : List lifecycle_event → Option adapters
  | [] => some st
  | ev :: rest =>
    match st.step ev with
    | some st1 => st1.run rest
    | none => none

/-- The lifecycle events of the list can happen one after the other when `n`
adapters are live: a copy, a move and a destruction need a live adapter, and
the allocations of a construction succeed. -/
def events_valid : Nat → List lifecycle_event → Prop
  | _, [] => True
  | n, .construct _ hdr reg :: rest =>
    fresh [] 32768 pool_type_size_adjusted hdr reg ∧ events_valid (n + 1) rest
  | n, .copy :: rest => 0 < n ∧ events_valid (n + 1) rest
  | n, .move :: rest => 0 < n ∧ events_valid (n + 1) rest
  | n, .destroy :: rest => 0 < n ∧ events_valid (n - 1) rest

/-- The state of the program before the first adapter is constructed. -/
def adapters.start : adapters := { live := 0, _global := none, deleted := 0 }

/-- The invariant of the lifecycle: the singleton exists exactly while an
adapter is live, its reference count is the number of live adapters, and, as
long as only lifecycle events happen, its registry is empty. -/
def lifecycle_inv (st : adapters) : Prop :=
  match st._global with
  | none => st.live = 0
  | some g => 0 < st.live ∧ g.count_ref = st.live ∧ g.local_blocks = [] ∧
      pool_inv g.global_block []

/-- How an adapter came to be. -/
inductive adapter_origin where
  /-- By the constructor `pool_allocator()`. -/
  | constructed
  /-- By the copy constructor. -/
  | copied
  /-- By the move constructor. -/
  | moved
  deriving DecidableEq

/-- An object of type `pool_allocator<T>`. The class has no data member; an
adapter is told from another by its element type, of which the size is kept,
and by the constructor that made it. -/
structure adapter where
  sizeof_T : Nat
  origin : adapter_origin
  deriving DecidableEq

/-- The function `operator==(const pool_allocator<T> &, const pool_allocator<U> &)`. -/
def pool_allocator.operator_eq (_a _b : adapter) : Bool := true

/-- The function `operator!=(const pool_allocator<T> &, const pool_allocator<U> &)`. -/
def pool_allocator.operator_ne (_a _b : adapter) : Bool := false

/-- The sum of `used_chunks` over the blocks of the pool. -/
def memory_pool.used_chunks_total (s : memory_pool) : Nat :=
  (s.blocks.map (fun e => e.2.used_chunks)).sum

/-- The pool that the constructor `memory_pool(blockSize, chunk)` leaves when
it returns: one block, at the region `reg`, with its header at `hdr`. -/
def memory_pool.created (targs : template_args) (blockSize chunk : Nat) (m : memory)
    (hdr reg : Nat) : memory_pool :=
  { targs := targs, block_size := blockSize, chunk_size := chunk, first_block := hdr,
    blocks := [(hdr, block.init blockSize chunk reg 0)],
    mem := init_mem blockSize chunk reg m }

/-! ## Reachable states of the allocator -/

/-- What the results of `new block` and `std::aligned_alloc` in `env` satisfy
when each allocation that a call for the class `chunkSize` makes succeeds: a
call that finds no pool of the class takes a chunk of the meta-pool and
constructs a pool with blocks of `size` bytes; a call that finds the pool
saturated makes it create a block. -/
structure env_fresh (g : global_allocator) (size chunkSize : Nat) (env : alloc_env) :
    Prop where
  meta_fresh : map_find g.local_blocks chunkSize = none →
    fresh g.global_block.blocks g.global_block.block_size g.global_block.chunk_size
      env.meta_hdr env.meta_reg
  pool_fresh : map_find g.local_blocks chunkSize = none →
    fresh [] size chunkSize env.pool_hdr env.pool_reg
  grow_fresh : ∀ a s, map_find g.local_blocks chunkSize = some a →
    pool_read g.pools a = some s → fresh s.blocks s.block_size s.chunk_size env.hdr env.reg

/-- The invariant of the allocator while, for each size class `c`, the
pointers `outs c` are outstanding: the registered pools are the outstanding
chunks of the meta-pool, and each of them satisfies the invariant of a
pool. -/
structure ga_inv (g : global_allocator) (outs : Nat → List Nat) : Prop where
  meta_inv : pool_inv g.global_block (g.local_blocks.map Prod.snd)
  keys_nodup : (g.local_blocks.map Prod.fst).Nodup
  pools_ok : ∀ e ∈ g.local_blocks, ∃ s, pool_read g.pools e.2 = some s ∧
    pool_inv s (outs e.1) ∧ s.chunk_size = e.1 ∧ s.targs = targs_pool_type
  unregistered : ∀ c, map_find g.local_blocks c = none → outs c = []

/-- The states of the allocator that arise from its construction by calls of
`create_pool` and `allocate` that return, with allocations that succeed, and
by calls of `deallocate` for outstanding pointers under the size class they
were allocated with; `outs c` lists the outstanding pointers of the size
class `c`. The reference count may take any value. -/
inductive ga_reachable : global_allocator → (Nat → List Nat) → Prop
  | create (m : memory) (hdr reg : Nat) (g : global_allocator) :
      fresh [] 32768 pool_type_size_adjusted hdr reg →
      global_allocator.create m hdr reg = some (.ok g) → ga_reachable g (fun _ => [])
  | create_pool (g : global_allocator) (outs : Nat → List Nat) (size chunkSize : Nat)
      (env : alloc_env) (it : Nat × Nat) (g1 : global_allocator) :
      ga_reachable g outs → 0 < size → env_fresh g size chunkSize env →
      g.create_pool size chunkSize env = some (it, g1) → ga_reachable g1 outs
  | allocate (g : global_allocator) (outs : Nat → List Nat) (n c : Nat) (env : alloc_env)
      (p : Nat) (g1 : global_allocator) :
      ga_reachable g outs → global_allocator.adjust_chunk_size n = some c →
      0 < global_allocator.usable_size_from_chunk_size c →
      env_fresh g (global_allocator.usable_size_from_chunk_size c) c env →
      g.allocate n env = some (.ok p, g1) →
      ga_reachable g1 (Function.update outs c (p :: outs c))
  | deallocate (g : global_allocator) (outs : Nat → List Nat) (p c : Nat)
      (g1 : global_allocator) :
      ga_reachable g outs → p ∈ outs c → g.deallocate p c = some (none, g1) →
      ga_reachable g1 (Function.update outs c ((outs c).erase p))
  | count (g : global_allocator) (outs : Nat → List Nat) (n : Int) :
      ga_reachable g outs → ga_reachable { g with count_ref := n } outs

/-! ## Example states of the allocator -/

/-- The allocator right after its construction on a zeroed memory, with the
header of the only block of its meta-pool at address 8192 and the region of
that block at address 65536. -/
def ga_new : global_allocator :=
  { count_ref := 0
    global_block :=
      memory_pool.created targs_global_pool 32768 pool_type_size_adjusted zero_mem 8192 65536
    local_blocks := []
    pools := [] }

/-- An environment in which every allocation succeeds and returns memory that
is not in use in `ga_new`. -/
def env_example : alloc_env :=
  { meta_hdr := 8193, meta_reg := 131072, pool_val := [], pool_mem := zero_mem,
    pool_hdr := 8194, pool_reg := 262144, hdr := 8195, reg := 524288 }

/-- The meta-pool of `ga_new` after one `alloc`, which returns the chunk
65536. -/
def ga_one_block : memory_pool :=
  pool_after (ga_new.global_block.alloc 8193 131072 []) ga_new.global_block

/-- The allocator `ga_new` after `create_pool(16000, 16)` in the environment
`env_example`, held by one adapter: the pool of the size class 16 lives in
the chunk 65536 of the meta-pool. -/
def ga_one : global_allocator :=
  { count_ref := 1
    global_block := ga_one_block
    local_blocks := [(16, 65536)]
    pools := pool_store [] 65536
      (memory_pool.created targs_pool_type 16000 16 zero_mem 8194 262144) }

/-- The pool `memory_pool<uint64_t>(0, 8)` after its constructor returned,
with the header at address 4096 and the result 64 of
`std::aligned_alloc(8, 0)`. -/
def pool_zero : memory_pool := memory_pool.created targs_u64 0 8 zero_mem 4096 64

/-- The template arguments of `memory_pool<T>` for a trivially destructible
`T` of 16 bytes. -/
def targs_two_words : template_args :=
  { sizeof_T := 16, nontrivial_destructor := false, dest := true }

/-- The pool `memory_pool<T>(24, 8)` for a `T` of 16 bytes after its
constructor returned, with the chunks at the addresses 64, 72 and 80. -/
def pool_wide : memory_pool := memory_pool.created targs_two_words 24 8 zero_mem 4096 64

/-- The pool `pool_wide` after one `alloc` whose constructor stores sixteen
bytes of value 255. -/
def pool_wide_a : memory_pool :=
  pool_after (pool_wide.alloc 4097 128 (List.replicate 16 255)) pool_wide

/-- The header of the only block of `pool16_a`: the chunk 64 is in use and
the chunk 72 is free. -/
def block16_one : block :=
  { _block := 64, available_space := 8, used_space := 8, available_chunks := 1,
    used_chunks := 1, next_free_chunk := 72, block_beginning := 64, block_end := 80,
    next_block := 0, previous_block := 0 }

/-! ## Example pools: adjacent regions, and an element wider than a chunk -/

/-- The pool `pool16` after three calls of `alloc` when `std::aligned_alloc`
returns, for the second block, the region that begins where the first block
ends: the blocks are `[64, 80)` and `[80, 96)`, and the third call returns
the chunk 80. -/
def pool16_adj : memory_pool := pool_after (pool16_b.alloc 4097 80 [3]) pool16

/-- The pool `pool16_adj` after `release(80)`. -/
def pool16_adj_r : memory_pool := pool_released (pool16_adj.release 80) pool16

/-- The pool `pool16_adj_r` after `release(64)`. -/
def pool16_adj_rr : memory_pool := pool_released (pool16_adj_r.release 64) pool16

/-- The pool `pool16_adj_rr` after one more `alloc`, which returns the chunk
88. -/
def pool16_adj_s : memory_pool := pool_after (pool16_adj_rr.alloc 4098 256 [4]) pool16

/-- The pool `pool16_adj_s` after one more `alloc`, for which `new block`
returns 4098 and `std::aligned_alloc` returns the region 64 again. -/
def pool16_adj_t : memory_pool := pool_after (pool16_adj_s.alloc 4098 64 [5]) pool16

/-- The pool `pool16_adj_t` after one more `alloc`. -/
def pool16_adj_u : memory_pool := pool_after (pool16_adj_t.alloc 4099 256 [6]) pool16

/-- The object representation of an element of 16 bytes whose two members of
type `uint64_t` hold `0x45` and `0x32`, the first two members of the element
that the test "Arguments passed to object via alloc" constructs. -/
def args_val : List Nat := [0x45, 0, 0, 0, 0, 0, 0, 0, 0x32, 0, 0, 0, 0, 0, 0, 0]

/-- The pool `memory_pool<T>(32, 8)` for a `T` of 16 bytes after its
constructor returned, with the chunks at the addresses 64, 72, 80 and 88. -/
def pool_args : memory_pool := memory_pool.created targs_two_words 32 8 zero_mem 4096 64

/-- The pool `pool_args` after one `alloc` that constructs `args_val`. -/
def pool_args_a : memory_pool := pool_after (pool_args.alloc 4097 128 args_val) pool_args

/-- The pool `pool_args` after two calls of `alloc` that construct
`args_val`. -/
def pool_args_b : memory_pool := pool_after (pool_args_a.alloc 4097 128 args_val) pool_args

/-- The pool `pool_args` after three calls of `alloc` that construct
`args_val`. -/
def pool_args_c : memory_pool := pool_after (pool_args_b.alloc 4097 128 args_val) pool_args

/-! ## Raw memory -/

theorem read_word_lt (m : memory) (a : Nat) : read_word m a < size_max := by
  unfold read_word size_max
  norm_num
  omega

theorem read_word_congr (m1 m2 : memory) (a : Nat)
    (h : ∀ x, a ≤ x → x < a + 8 → m1 x = m2 x) : read_word m1 a = read_word m2 a := by
  unfold read_word
  rw [h a (by omega) (by omega), h (a + 1) (by omega) (by omega),
    h (a + 2) (by omega) (by omega), h (a + 3) (by omega) (by omega),
    h (a + 4) (by omega) (by omega), h (a + 5) (by omega) (by omega),
    h (a + 6) (by omega) (by omega), h (a + 7) (by omega) (by omega)]

theorem read_write_word_same (m : memory) (a v : Nat) (hv : v < size_max) :
    read_word (write_word m a v) a = v := by
  unfold read_word write_word size_max at *
  have e1 : a + 1 - a = 1 := by omega
  have e2 : a + 2 - a = 2 := by omega
  have e3 : a + 3 - a = 3 := by omega
  have e4 : a + 4 - a = 4 := by omega
  have e5 : a + 5 - a = 5 := by omega
  have e6 : a + 6 - a = 6 := by omega
  have e7 : a + 7 - a = 7 := by omega
  simp only [le_refl, Nat.lt_add_of_pos_right, Nat.le_add_right, Nat.add_lt_add_iff_left,
    Nat.sub_self, e1, e2, e3, e4, e5, e6, e7, and_self, if_true, Nat.reduceLT, Nat.reducePow,
    Nat.div_one, Nat.lt_add_right_iff_pos, Nat.ofNat_pos, true_and, if_pos]
  norm_num
  omega

theorem write_word_outside (m : memory) (a v x : Nat) (h : x < a ∨ a + 8 ≤ x) :
    write_word m a v x = m x := by
  unfold write_word
  rw [if_neg (by omega)]

theorem mem_zero_outside (m : memory) (a n x : Nat) (h : x < a ∨ a + n ≤ x) :
    mem_zero m a n x = m x := by
  unfold mem_zero
  rw [if_neg (by omega)]

theorem write_bytes_outside (m : memory) (a : Nat) (l : List Nat) (x : Nat)
    (h : x < a ∨ a + l.length ≤ x) : write_bytes m a l x = m x := by
  unfold write_bytes
  rw [if_neg (by omega)]

/-! ## The header heap -/

theorem hdr_read_append (pre H : header_heap) (a : Nat) (h : a ∉ hdr_keys pre) :
    hdr_read (pre ++ H) a = hdr_read H a := by
  induction pre with
  | nil => rfl
  | cons e pre ih =>
    simp only [hdr_keys, List.map_cons, List.mem_cons, not_or] at h
    simp only [List.cons_append, hdr_read]
    rw [if_neg (fun hh => h.1 hh.symm)]
    exact ih h.2

theorem hdr_read_mid (pre post : header_heap) (a : Nat) (b : block) (h : a ∉ hdr_keys pre) :
    hdr_read (pre ++ (a, b) :: post) a = some b := by
  rw [hdr_read_append pre _ a h]
  simp [hdr_read]

theorem hdr_write_not_mem (H : header_heap) (a : Nat) (f : block → block)
    (h : a ∉ hdr_keys H) : hdr_write H a f = H := by
  induction H with
  | nil => rfl
  | cons e H ih =>
    simp only [hdr_keys, List.map_cons, List.mem_cons, not_or] at h
    simp only [hdr_write, List.map_cons]
    rw [if_neg (fun hh => h.1 hh.symm)]
    congr 1
    exact ih h.2

theorem hdr_write_append (pre post : header_heap) (a : Nat) (f : block → block) :
    hdr_write (pre ++ post) a f = hdr_write pre a f ++ hdr_write post a f := by
  simp [hdr_write]

theorem hdr_write_mid (pre post : header_heap) (a : Nat) (b : block) (f : block → block)
    (h1 : a ∉ hdr_keys pre) (h2 : a ∉ hdr_keys post) :
    hdr_write (pre ++ (a, b) :: post) a f = pre ++ (a, f b) :: post := by
  rw [hdr_write_append, hdr_write_not_mem pre a f h1]
  have : hdr_write ((a, b) :: post) a f = (a, f b) :: hdr_write post a f := by
    simp [hdr_write]
  rw [this, hdr_write_not_mem post a f h2]

theorem hdr_keys_append (pre post : header_heap) :
    hdr_keys (pre ++ post) = hdr_keys pre ++ hdr_keys post := by
  simp [hdr_keys]

theorem hdr_keys_cons (e : Nat × block) (post : header_heap) :
    hdr_keys (e :: post) = e.1 :: hdr_keys post := by
  simp [hdr_keys]

/-- In a heap with distinct addresses the entry in the middle is not repeated
on either side. -/
theorem keys_split (pre post : header_heap) (a : Nat) (b : block)
    (h : (hdr_keys (pre ++ (a, b) :: post)).Nodup) :
    a ∉ hdr_keys pre ∧ a ∉ hdr_keys post ∧ (hdr_keys pre).Nodup ∧ (hdr_keys post).Nodup ∧
      ∀ x ∈ hdr_keys pre, x ∉ hdr_keys post := by
  rw [hdr_keys_append, hdr_keys_cons, List.nodup_append] at h
  obtain ⟨h1, h2, h3⟩ := h
  rw [List.nodup_cons] at h2
  refine ⟨?_, h2.1, h1, h2.2, ?_⟩
  · intro hx
    exact h3 hx (List.mem_cons_self _ _)
  · intro x hx hx2
    exact h3 hx (List.mem_cons_of_mem _ hx2)

/-! ## Walking the block list -/

theorem linked_append (pre post : header_heap) (first prev : Nat) :
    linked first prev (pre ++ post) ↔
      ∃ nxt lastk, linked_seg first prev pre nxt lastk ∧ linked nxt lastk post := by
  induction pre generalizing first prev with
  | nil =>
    simp only [List.nil_append, linked_seg]
    constructor
    · intro h
      exact ⟨first, prev, ⟨rfl, rfl⟩, h⟩
    · rintro ⟨nxt, lastk, ⟨h1, h2⟩, h3⟩
      subst h1 h2
      exact h3
  | cons e pre ih =>
    rw [List.cons_append]
    simp only [linked, linked_seg]
    rw [ih]
    constructor
    · rintro ⟨h1, h2, h3, nxt, lastk, h4, h5⟩
      exact ⟨nxt, lastk, ⟨h1, h2, h3, h4⟩, h5⟩
    · rintro ⟨nxt, lastk, ⟨h1, h2, h3, h4⟩, h5⟩
      exact ⟨h1, h2, h3, nxt, lastk, h4, h5⟩

theorem linked_seg_snoc (pre : header_heap) (e : Nat × block) (first prev nxt lastk : Nat) :
    linked_seg first prev (pre ++ [e]) nxt lastk ↔
      ∃ n1 k1, linked_seg first prev pre n1 k1 ∧ n1 = e.1 ∧ e.1 ≠ 0 ∧
        e.2.previous_block = k1 ∧ e.2.next_block = nxt ∧ e.1 = lastk := by
  induction pre generalizing first prev with
  | nil =>
    simp only [List.nil_append, linked_seg]
    constructor
    · rintro ⟨h1, h2, h3, h4, h5⟩
      exact ⟨first, prev, ⟨rfl, rfl⟩, h1, h2, h3, h4, h5⟩
    · rintro ⟨n1, k1, ⟨h1, h2⟩, h3, h4, h5, h6, h7⟩
      subst h1 h2
      exact ⟨h3, h4, h5, h6, h7⟩
  | cons e0 pre ih =>
    rw [List.cons_append]
    simp only [linked_seg]
    rw [ih]
    constructor
    · rintro ⟨h1, h2, h3, n1, k1, h4, h5⟩
      exact ⟨n1, k1, ⟨h1, h2, h3, h4⟩, h5⟩
    · rintro ⟨n1, k1, ⟨h1, h2, h3, h4⟩, h5⟩
      exact ⟨h1, h2, h3, n1, k1, h4, h5⟩

/-- Entering a well-formed list at the header `first`, the loop of
`block_from_pointer` returns the first header whose closed address range
holds `ptr`, and throws when there is none. -/
theorem block_from_pointer_loop_spec (Hfull : header_heap) (ptr : Nat)
    (hnd : (hdr_keys Hfull).Nodup) :
    ∀ (H pre : header_heap) (first prev fuel : Nat), Hfull = pre ++ H →
      linked first prev H → H.length ≤ fuel →
      block_from_pointer_loop Hfull ptr fuel first =
        match H.find? (fun e => decide (ptr ≥ e.2.block_beginning ∧ ptr ≤ e.2.block_end)) with
        | some e => some (.ok e.1)
        | none => some (.error .not_in_pool) := by
  intro H
  induction H with
  | nil =>
    intro pre first prev fuel _ hl _
    simp only [linked] at hl
    subst hl
    cases fuel <;> simp [block_from_pointer_loop]
  | cons e rest ih =>
    intro pre first prev fuel hH hl hf
    obtain ⟨h1, h2, _, h4⟩ := hl
    obtain ⟨a, b⟩ := e
    simp only at h1 h2 h4
    subst h1
    obtain ⟨fuel, rfl⟩ : ∃ k, fuel = k + 1 := ⟨fuel - 1, by simp at hf; omega⟩
    have hk := keys_split pre rest first b (hH ▸ hnd)
    have hr : hdr_read Hfull first = some b := by
      rw [hH]; exact hdr_read_mid pre rest first b hk.1
    simp only [block_from_pointer_loop, if_neg h2, hr, List.find?_cons]
    by_cases hc : ptr ≥ b.block_beginning ∧ ptr ≤ b.block_end
    · simp [hc]
    · simp only [hc, if_false, decide_False]
      exact ih (pre ++ [(first, b)]) b.next_block first fuel (by simp [hH]) h4
        (by simp at hf; omega)

theorem block_from_pointer_spec (s : memory_pool) (ptr : Nat) (hw : list_wf s) :
    s.block_from_pointer ptr =
      match s.blocks.find? (fun e => decide (ptr ≥ e.2.block_beginning ∧ ptr ≤ e.2.block_end)) with
      | some e => some (.ok e.1)
      | none => some (.error .not_in_pool) :=
  block_from_pointer_loop_spec s.blocks ptr hw.keys_nodup s.blocks [] s.first_block 0
    s.blocks.length rfl hw.is_linked (le_refl _)

/-- Entering a well-formed list, the search loop of `get_available_chunk`
stops at the first header that has a free chunk, and at the last header when
there is none. -/
theorem available_block_loop_spec (Hfull : header_heap) (hnd : (hdr_keys Hfull).Nodup) :
    ∀ (H pre : header_heap) (first prev fuel : Nat), Hfull = pre ++ H → H ≠ [] →
      linked first prev H → H.length ≤ fuel →
      available_block_loop Hfull fuel first =
        match H.find? (fun e => decide (e.2.available_chunks ≠ 0)) with
        | some e => some e.1
        | none => H.getLast?.map Prod.fst := by
  intro H
  induction H with
  | nil => intro pre first prev fuel _ hne; exact absurd rfl hne
  | cons e rest ih =>
    intro pre first prev fuel hH _ hl hf
    obtain ⟨h1, h2, _, h4⟩ := hl
    obtain ⟨a, b⟩ := e
    simp only at h1 h2 h4
    subst h1
    obtain ⟨fuel, rfl⟩ : ∃ k, fuel = k + 1 := ⟨fuel - 1, by simp at hf; omega⟩
    have hk := keys_split pre rest first b (hH ▸ hnd)
    have hr : hdr_read Hfull first = some b := by
      rw [hH]; exact hdr_read_mid pre rest first b hk.1
    simp only [available_block_loop, hr, List.find?_cons]
    by_cases hc : b.available_chunks ≠ 0
    · simp [hc]
    · simp only [hc, if_false, decide_False]
      cases rest with
      | nil =>
        simp only [linked] at h4
        simp [h4]
      | cons e2 rest2 =>
        have hne : b.next_block ≠ 0 := by
          obtain ⟨h5, h6, _⟩ := h4
          rw [h5]; exact h6
        rw [if_neg hne]
        rw [ih (pre ++ [(first, b)]) b.next_block first fuel (by simp [hH]) (by simp) h4
          (by simp at hf ⊢; omega)]
        simp [List.getLast?_cons_cons]

/-- On a well-formed list `block_count` returns the number of headers. -/
theorem block_count_loop_spec (Hfull : header_heap) (hnd : (hdr_keys Hfull).Nodup) :
    ∀ (H pre : header_heap) (first prev fuel count : Nat), Hfull = pre ++ H → H ≠ [] →
      linked first prev H → H.length ≤ fuel → count + H.length < size_max →
      block_count_loop Hfull fuel first count = some (count + H.length) := by
  intro H
  induction H with
  | nil => intro pre first prev fuel count _ hne; exact absurd rfl hne
  | cons e rest ih =>
    intro pre first prev fuel count hH _ hl hf hc
    obtain ⟨h1, h2, _, h4⟩ := hl
    obtain ⟨a, b⟩ := e
    simp only at h1 h2 h4
    subst h1
    obtain ⟨fuel, rfl⟩ : ∃ k, fuel = k + 1 := ⟨fuel - 1, by simp at hf; omega⟩
    have hk := keys_split pre rest first b (hH ▸ hnd)
    have hr : hdr_read Hfull first = some b := by
      rw [hH]; exact hdr_read_mid pre rest first b hk.1
    simp only [List.length_cons] at hc hf
    have hi : incr count = count + 1 := by
      unfold incr; exact Nat.mod_eq_of_lt (by omega)
    simp only [block_count_loop, hr]
    cases rest with
    | nil =>
      simp only [linked] at h4
      simp [h4, hi]
    | cons e2 rest2 =>
      have hne : b.next_block ≠ 0 := by
        obtain ⟨h5, h6, _⟩ := h4
        rw [h5]; exact h6
      rw [if_pos hne, hi]
      rw [ih (pre ++ [(first, b)]) b.next_block first fuel (count + 1) (by simp [hH])
        (by simp) h4 (by omega) (by simp only [List.length_cons] at hc ⊢; omega)]
      simp only [List.length_cons]
      congr 1
      omega

/-! ## Free lists in memory -/

theorem free_chain_congr (m1 m2 : memory) (fl : List Nat) :
    ∀ head, (∀ c ∈ fl, ∀ x, c ≤ x → x < c + 8 → m1 x = m2 x) →
      free_chain m1 head fl → free_chain m2 head fl := by
  induction fl with
  | nil => intro head _ h; exact h
  | cons c rest ih =>
    intro head hm h
    obtain ⟨h1, h2, h3⟩ := h
    refine ⟨h1, h2, ?_⟩
    rw [← read_word_congr m1 m2 c (hm c (List.mem_cons_self _ _))]
    exact ih _ (fun c1 hc1 => hm c1 (List.mem_cons_of_mem _ hc1)) h3

/-- A free list is determined by its head and the memory. -/
theorem free_chain_unique (m : memory) (fl1 : List Nat) :
    ∀ (fl2 : List Nat) (head : Nat), free_chain m head fl1 → free_chain m head fl2 →
      fl1 = fl2 := by
  induction fl1 with
  | nil =>
    intro fl2 head h1 h2
    cases fl2 with
    | nil => rfl
    | cons c rest =>
      simp only [free_chain] at h1 h2
      exact absurd (h2.1 ▸ h1) h2.2.1
  | cons c rest ih =>
    intro fl2 head h1 h2
    cases fl2 with
    | nil =>
      simp only [free_chain] at h1 h2
      exact absurd (h1.1 ▸ h2) h1.2.1
    | cons c2 rest2 =>
      obtain ⟨a1, _, a3⟩ := h1
      obtain ⟨b1, _, b3⟩ := h2
      have : c = c2 := a1.symm.trans b1
      subst this
      rw [ih rest2 _ a3 b3]

/-- The chunks `n, n + 1, ..., n + k - 1` of the block at `base`. -/
theorem chunk_range_succ (base cs n k : Nat) :
    (List.range' n (k + 1)).map (fun i => base + i * cs) =
      (base + n * cs) :: (List.range' (n + 1) k).map (fun i => base + i * cs) := by
  rw [List.range'_succ, List.map_cons]

/-- The loop of `allocate_block` writes only into the chunks it visits. -/
theorem init_free_list_outside (cs first N : Nat) (hcs : 8 ≤ cs) :
    ∀ (k n : Nat) (m : memory) (x : Nat), n + k = N →
      (x < first + n * cs ∨ first + N * cs ≤ x) →
      init_free_list cs first N k n (first + n * cs) m x = m x := by
  intro k
  induction k with
  | zero => intro n m x _ _; rfl
  | succ k ih =>
    intro n m x hn hx
    have h1 : n * cs + cs ≤ N * cs := by
      have : (n + 1) * cs ≤ N * cs := Nat.mul_le_mul_right cs (by omega)
      rw [Nat.add_mul, Nat.one_mul] at this
      exact this
    have hw : ∀ v, write_word m (first + n * cs) v x = m x := fun v =>
      write_word_outside m _ v x (by omega)
    simp only [init_free_list]
    by_cases hlast : n = N - 1
    · rw [if_pos hlast]
      have hk : k = 0 := by omega
      subst hk
      simp only [init_free_list]
      exact hw 0
    · rw [if_neg hlast]
      have e : first + cs * (n + 1) = first + (n + 1) * cs := by rw [Nat.mul_comm]
      simp only [e]
      rw [ih (n + 1) _ x (by omega) (by
        rw [Nat.add_mul, Nat.one_mul]; omega)]
      exact hw _

/-- The loop of `allocate_block` threads the free list through the chunks in
ascending address order and ends it with zero. -/
theorem init_free_list_chain (cs first N : Nat) (hcs : 8 ≤ cs) (hf : first ≠ 0)
    (hfit : first + N * cs < size_max) :
    ∀ (k n : Nat) (m : memory), n + (k + 1) = N →
      free_chain (init_free_list cs first N (k + 1) n (first + n * cs) m) (first + n * cs)
        ((List.range' n (k + 1)).map (fun i => first + i * cs)) := by
  intro k
  induction k with
  | zero =>
    intro n m hn
    have hlast : n = N - 1 := by omega
    simp only [init_free_list, if_pos hlast]
    rw [chunk_range_succ]
    refine ⟨rfl, by omega, ?_⟩
    rw [read_write_word_same _ _ _ (by unfold size_max; omega)]
    simp [free_chain]
  | succ k ih =>
    intro n m hn
    have hlast : ¬ n = N - 1 := by omega
    have h1 : (n + 1) * cs ≤ N * cs := Nat.mul_le_mul_right cs (by omega)
    have e : first + cs * (n + 1) = first + (n + 1) * cs := by rw [Nat.mul_comm]
    rw [init_free_list, if_neg hlast]
    simp only [e]
    rw [chunk_range_succ]
    refine ⟨rfl, by omega, ?_⟩
    have hrd : read_word (init_free_list cs first N (k + 1) (n + 1) (first + (n + 1) * cs)
        (write_word m (first + n * cs) (first + (n + 1) * cs))) (first + n * cs) =
        first + (n + 1) * cs := by
      rw [read_word_congr _ (write_word m (first + n * cs) (first + (n + 1) * cs))]
      · exact read_write_word_same _ _ _ (by omega)
      · intro x hx1 hx2
        exact init_free_list_outside cs first N hcs (k + 1) (n + 1) _ x (by omega) (by
          rw [Nat.add_mul, Nat.one_mul]; omega)
    rw [hrd]
    exact ih (n + 1) _ (by omega)

/-! ## Construction -/

/-- The header that `allocate_block` sets up for the region `reg`. -/
theorem allocate_block_ok (s : memory_pool) (slot : block_slot) (previous hdr reg : Nat)
    (hh : hdr ≠ 0) (hr : reg ≠ 0) :
    s.allocate_block slot previous hdr reg =
      (.ok (), { store_slot s slot hdr with
        blocks := (store_slot s slot hdr).blocks ++
          [(hdr, block.init s.block_size s.chunk_size reg previous)],
        mem := init_mem s.block_size s.chunk_size reg (store_slot s slot hdr).mem }) := by
  unfold memory_pool.allocate_block
  simp only [if_neg hh, if_neg hr, block.create, block.init, init_mem]

theorem store_slot_mem (s : memory_pool) (slot : block_slot) (v : Nat) :
    (store_slot s slot v).mem = s.mem := by
  cases slot <;> rfl

theorem store_slot_sizes (s : memory_pool) (slot : block_slot) (v : Nat) :
    (store_slot s slot v).block_size = s.block_size ∧
      (store_slot s slot v).chunk_size = s.chunk_size ∧
      (store_slot s slot v).targs = s.targs := by
  cases slot <;> exact ⟨rfl, rfl, rfl⟩

/-- What a successful construction leaves: one header, linked as the head. -/
theorem create_ok (targs : template_args) (bs cs : Nat) (m : memory) (hdr reg : Nat)
    (hcs : sizeof_ptr ≤ cs) (hfit : bs % cs = 0) (hh : hdr ≠ 0) (hr : reg ≠ 0) :
    memory_pool.create targs bs cs m hdr reg = some (.ok
      { targs := targs, block_size := bs, chunk_size := cs, first_block := hdr,
        blocks := [(hdr, block.init bs cs reg 0)],
        mem := init_mem bs cs reg m }) := by
  unfold memory_pool.create
  have h0 : cs ≠ 0 := by unfold sizeof_ptr at hcs; omega
  rw [if_neg h0, if_neg (by simpa using hfit), if_neg (by simpa using hcs)]
  simp only [allocate_block_ok _ _ _ _ _ hh hr]
  rfl

/-! ## Chunk geometry -/

theorem chunks_mul (bs cs : Nat) (h : bs % cs = 0) : bs / cs * cs = bs :=
  Nat.div_mul_cancel (Nat.dvd_of_mod_eq_zero h)

/-- A chunk lies inside the region of its block. -/
theorem chunk_bounds (s : memory_pool) (b : block) (c : Nat) (hfit : s.block_size % s.chunk_size = 0)
    (he : b.block_end = b.block_beginning + s.block_size) (hc : is_chunk s b c) :
    b.block_beginning ≤ c ∧ c + s.chunk_size ≤ b.block_end := by
  obtain ⟨i, hi, rfl⟩ := hc
  have h1 : (i + 1) * s.chunk_size ≤ s.block_size / s.chunk_size * s.chunk_size :=
    Nat.mul_le_mul_right _ (by omega)
  rw [chunks_mul _ _ hfit, Nat.add_mul, Nat.one_mul] at h1
  omega

/-- Two different chunks of one block do not overlap. -/
theorem chunk_apart (s : memory_pool) (b : block) (c1 c2 : Nat) (h1 : is_chunk s b c1)
    (h2 : is_chunk s b c2) (hne : c1 ≠ c2) :
    c1 + s.chunk_size ≤ c2 ∨ c2 + s.chunk_size ≤ c1 := by
  obtain ⟨i, _, rfl⟩ := h1
  obtain ⟨j, _, rfl⟩ := h2
  rcases Nat.lt_trichotomy i j with h | h | h
  · left
    have : (i + 1) * s.chunk_size ≤ j * s.chunk_size := Nat.mul_le_mul_right _ (by omega)
    rw [Nat.add_mul, Nat.one_mul] at this
    omega
  · subst h; exact absurd rfl hne
  · right
    have : (j + 1) * s.chunk_size ≤ i * s.chunk_size := Nat.mul_le_mul_right _ (by omega)
    rw [Nat.add_mul, Nat.one_mul] at this
    omega

theorem in_block_of_chunk (s : memory_pool) (b : block) (c : Nat)
    (hfit : s.block_size % s.chunk_size = 0) (hcs : 0 < s.chunk_size)
    (he : b.block_end = b.block_beginning + s.block_size) (hc : is_chunk s b c) :
    in_block b c = true := by
  have := chunk_bounds s b c hfit he hc
  simp only [in_block, decide_eq_true_eq]
  omega

/-- A chunk of one block is outside every block that is apart from it. -/
theorem not_in_block_of_apart (s : memory_pool) (b b2 : block) (c : Nat)
    (hfit : s.block_size % s.chunk_size = 0)
    (he : b.block_end = b.block_beginning + s.block_size) (hc : is_chunk s b c)
    (hap : apart b b2) :
    ¬ (c ≥ b2.block_beginning ∧ c ≤ b2.block_end) ∧
      (c + s.chunk_size ≤ b2.block_beginning ∨ b2.block_end < c) := by
  have := chunk_bounds s b c hfit he hc
  unfold apart at hap
  omega

theorem apart_symm (b1 b2 : block) (h : apart b1 b2) : apart b2 b1 := by
  unfold apart at *; omega

/-! ## Updating one header of a well-formed list -/

theorem linked_update (pre post : header_heap) (a : Nat) (b b1 : block) (first prev : Nat)
    (hn : b1.next_block = b.next_block) (hp : b1.previous_block = b.previous_block)
    (h : linked first prev (pre ++ (a, b) :: post)) :
    linked first prev (pre ++ (a, b1) :: post) := by
  rw [linked_append] at h ⊢
  obtain ⟨nxt, lastk, h1, h2⟩ := h
  refine ⟨nxt, lastk, h1, ?_⟩
  simp only [linked] at h2 ⊢
  rw [hn, hp]
  exact h2

theorem hdr_keys_update (pre post : header_heap) (a : Nat) (b b1 : block) :
    hdr_keys (pre ++ (a, b1) :: post) = hdr_keys (pre ++ (a, b) :: post) := by
  simp [hdr_keys]

theorem list_wf_update (s : memory_pool) (pre post : header_heap) (a : Nat) (b b1 : block)
    (m : memory) (hs : s.blocks = pre ++ (a, b) :: post) (hw : list_wf s)
    (hn : b1.next_block = b.next_block) (hp : b1.previous_block = b.previous_block) :
    list_wf { s with blocks := pre ++ (a, b1) :: post, mem := m } := by
  refine ⟨by simp, ?_, ?_⟩
  · show (hdr_keys (pre ++ (a, b1) :: post)).Nodup
    rw [hdr_keys_update pre post a b b1, ← hs]
    exact hw.keys_nodup
  · show linked s.first_block 0 (pre ++ (a, b1) :: post)
    exact linked_update pre post a b b1 _ _ hn hp (hs ▸ hw.is_linked)

/-! ## What `get_available_chunk` does -/

/-- When a block has a free chunk, `get_available_chunk` pops the head of the
free list of the first such block. -/
theorem get_available_chunk_existing (s : memory_pool) (hdr reg : Nat) (hw : list_wf s)
    (pre post : header_heap) (a : Nat) (b : block) (hs : s.blocks = pre ++ (a, b) :: post)
    (hpre : ∀ e ∈ pre, e.2.available_chunks = 0) (hb : b.available_chunks ≠ 0) :
    s.get_available_chunk hdr reg = some (.ok b.next_free_chunk,
      { s with blocks := pre ++ (a, b.take s.chunk_size s.mem) :: post }) := by
  have hk := keys_split pre post a b (hs ▸ hw.keys_nodup)
  have hfind : s.blocks.find? (fun e => decide (e.2.available_chunks ≠ 0)) = some (a, b) := by
    rw [List.find?_eq_some]
    refine ⟨by simpa using hb, pre, post, hs, ?_⟩
    intro e he
    simp [hpre e he]
  have hloop := available_block_loop_spec s.blocks hw.keys_nodup s.blocks [] s.first_block 0
    s.blocks.length rfl hw.nonempty hw.is_linked (le_refl _)
  rw [hfind] at hloop
  have hr : hdr_read s.blocks a = some b := by rw [hs]; exact hdr_read_mid pre post a b hk.1
  unfold memory_pool.get_available_chunk
  simp only [hloop, hr, if_neg hb]
  rw [hs, hdr_write_mid pre post a b _ hk.1 hk.2.1]

/-- When every block is saturated, `get_available_chunk` appends a new block
after the tail and returns its first chunk. -/
theorem get_available_chunk_grow (s : memory_pool) (hdr reg : Nat) (hw : list_wf s)
    (pre : header_heap) (a : Nat) (b : block) (hs : s.blocks = pre ++ [(a, b)])
    (hall : ∀ e ∈ s.blocks, e.2.available_chunks = 0)
    (hh : hdr ≠ 0) (hnew : hdr ∉ hdr_keys s.blocks) (hr : reg ≠ 0) :
    s.get_available_chunk hdr reg = some (.ok reg,
      { s with
        blocks := pre ++ [(a, { b with next_block := hdr }),
          (hdr, (block.init s.block_size s.chunk_size reg a).take s.chunk_size
            (init_mem s.block_size s.chunk_size reg s.mem))],
        mem := init_mem s.block_size s.chunk_size reg s.mem }) := by
  have hk := keys_split pre [] a b (hs ▸ hw.keys_nodup)
  have hfind : s.blocks.find? (fun e => decide (e.2.available_chunks ≠ 0)) = none := by
    rw [List.find?_eq_none]
    intro e he
    simp [hall e he]
  have hloop := available_block_loop_spec s.blocks hw.keys_nodup s.blocks [] s.first_block 0
    s.blocks.length rfl hw.nonempty hw.is_linked (le_refl _)
  rw [hfind] at hloop
  have hlast : s.blocks.getLast? = some (a, b) := by rw [hs]; simp
  simp only [hlast, Option.map_some'] at hloop
  have hrd : hdr_read s.blocks a = some b := by rw [hs]; exact hdr_read_mid pre [] a b hk.1
  have hb0 : b.available_chunks = 0 := hall (a, b) (by rw [hs]; simp)
  have hnew2 : hdr ∉ hdr_keys (pre ++ [(a, { b with next_block := hdr })]) := by
    rw [hdr_keys_update pre [] a b, ← hs]; exact hnew
  unfold memory_pool.get_available_chunk
  simp only [hloop, hrd, if_pos hb0, allocate_block_ok _ _ _ _ _ hh hr, store_slot]
  rw [hs, hdr_write_mid pre [] a b _ hk.1 hk.2.1]
  have e1 : ∀ nb, pre ++ [(a, { b with next_block := hdr })] ++ [(hdr, nb)] =
      pre ++ (a, { b with next_block := hdr }) :: [(hdr, nb)] := by intro nb; simp
  simp only [e1, hdr_read_mid pre _ a _ hk.1]
  have e2 : ∀ nb, pre ++ (a, { b with next_block := hdr }) :: [(hdr, nb)] =
      (pre ++ [(a, { b with next_block := hdr })]) ++ (hdr, nb) :: [] := by intro nb; simp
  simp only [e2, hdr_read_mid _ [] hdr _ hnew2,
    hdr_write_mid _ [] hdr _ _ hnew2 (by simp [hdr_keys])]
  simp [block.take, block.init]

/-! ## What `release` does -/

theorem hdr_write_cons (e : Nat × block) (H : header_heap) (a : Nat) (f : block → block) :
    hdr_write (e :: H) a f = (if e.1 = a then (e.1, f e.2) else e) :: hdr_write H a f := by
  simp [hdr_write]

theorem filter_keys_not_mem (H : header_heap) (a : Nat) (h : a ∉ hdr_keys H) :
    H.filter (fun e => decide (e.1 ≠ a)) = H := by
  rw [List.filter_eq_self]
  intro e he
  simp only [ne_eq, decide_not, Bool.not_eq_eq_eq_not, Bool.not_true, decide_eq_false_iff_not]
  intro hx
  apply h
  rw [← hx]
  exact List.mem_map_of_mem Prod.fst he

theorem free_block_mid (s : memory_pool) (pre post : header_heap) (a : Nat) (b : block)
    (hs : s.blocks = pre ++ (a, b) :: post) (h1 : a ∉ hdr_keys pre) (h2 : a ∉ hdr_keys post) :
    s.free_block a = { s with blocks := pre ++ post } := by
  unfold memory_pool.free_block
  rw [hs, List.filter_append, List.filter_cons, filter_keys_not_mem pre a h1,
    filter_keys_not_mem post a h2]
  simp

/-- The pointers around one member of a well-formed list. -/
theorem linked_mid (pre post : header_heap) (a : Nat) (b : block) (first prev : Nat)
    (h : linked first prev (pre ++ (a, b) :: post)) :
    a ≠ 0 ∧ (pre = [] → b.previous_block = prev ∧ first = a) ∧
      (∀ pre1 a0 b0, pre = pre1 ++ [(a0, b0)] →
        b.previous_block = a0 ∧ a0 ≠ 0 ∧ b0.next_block = a) ∧
      (post = [] → b.next_block = 0) ∧
      (∀ a2 b2 post1, post = (a2, b2) :: post1 →
        b.next_block = a2 ∧ a2 ≠ 0 ∧ b2.previous_block = a) := by
  rw [linked_append] at h
  obtain ⟨nxt, lastk, h1, h2⟩ := h
  obtain ⟨h3, h4, h5, h6⟩ := h2
  simp only at h3 h4 h5 h6
  refine ⟨h4, ?_, ?_, ?_, ?_⟩
  · intro hp
    subst hp
    obtain ⟨h7, h8⟩ := h1
    exact ⟨by rw [h5, h8], by rw [h7, h3]⟩
  · intro pre1 a0 b0 hp
    subst hp
    rw [linked_seg_snoc] at h1
    obtain ⟨n1, k1, _, _, h9, _, h11, h12⟩ := h1
    simp only at h9 h11 h12
    exact ⟨by rw [h5, ← h12], h9, by rw [h11, h3]⟩
  · intro hp
    subst hp
    exact h6
  · intro a2 b2 post1 hp
    subst hp
    obtain ⟨h7, h8, h9, _⟩ := h6
    simp only at h7 h8 h9
    exact ⟨h7, h8, h9⟩

theorem list_cases_snoc (l : header_heap) :
    l = [] ∨ ∃ pre1 a0 b0, l = pre1 ++ [(a0, b0)] := by
  rcases List.eq_nil_or_concat l with h | ⟨pre1, e, h⟩
  · exact Or.inl h
  · exact Or.inr ⟨pre1, e.1, e.2, by rw [h]; simp⟩

/-- The first header whose closed address range holds `ptr` is where
`block_from_pointer` stops. -/
theorem block_from_pointer_mid (s : memory_pool) (ptr : Nat) (hw : list_wf s)
    (pre post : header_heap) (a : Nat) (b : block) (hs : s.blocks = pre ++ (a, b) :: post)
    (hpre : ∀ e ∈ pre, ¬ (ptr ≥ e.2.block_beginning ∧ ptr ≤ e.2.block_end))
    (hb : ptr ≥ b.block_beginning ∧ ptr ≤ b.block_end) :
    s.block_from_pointer ptr = some (.ok a) := by
  rw [block_from_pointer_spec s ptr hw]
  have : s.blocks.find? (fun e => decide (ptr ≥ e.2.block_beginning ∧ ptr ≤ e.2.block_end))
      = some (a, b) := by
    rw [List.find?_eq_some]
    refine ⟨by simpa using hb, pre, post, hs, ?_⟩
    intro e he
    simp only [Bool.not_eq_true', decide_eq_false_iff_not]
    exact hpre e he
  rw [this]

/-- When no header holds `ptr` in its closed address range,
`block_from_pointer` throws. -/
theorem block_from_pointer_none (s : memory_pool) (ptr : Nat) (hw : list_wf s)
    (hno : ∀ e ∈ s.blocks, ¬ (ptr ≥ e.2.block_beginning ∧ ptr ≤ e.2.block_end)) :
    s.block_from_pointer ptr = some (.error .not_in_pool) := by
  rw [block_from_pointer_spec s ptr hw]
  have : s.blocks.find? (fun e => decide (ptr ≥ e.2.block_beginning ∧ ptr ≤ e.2.block_end))
      = none := by
    rw [List.find?_eq_none]
    intro e he
    simp only [decide_eq_true_eq]
    exact hno e he
  rw [this]

/-- The first steps of `release` on a pointer that the header `a` holds in its
closed address range: the counters of that header are adjusted. -/
theorem release_found (s : memory_pool) (ptr : Nat) (hw : list_wf s) (hp : ptr ≠ 0)
    (pre post : header_heap) (a : Nat) (b : block) (hs : s.blocks = pre ++ (a, b) :: post)
    (hpre : ∀ e ∈ pre, ¬ (ptr ≥ e.2.block_beginning ∧ ptr ≤ e.2.block_end))
    (hb : ptr ≥ b.block_beginning ∧ ptr ≤ b.block_end) :
    s.release ptr =
      match release_unlink { s with blocks := pre ++ (a, b.give s.chunk_size) :: post }
          (b.give s.chunk_size) with
      | some s3 =>
        some { error := none, pool := s3.free_block a, ptr := 0,
               destroyed := s.runs_destructor }
      | none =>
        some { error := none,
               pool := release_push { s with blocks := pre ++ (a, b.give s.chunk_size) :: post }
                 a ptr (b.give s.chunk_size),
               ptr := 0, destroyed := s.runs_destructor } := by
  have hk := keys_split pre post a b (hs ▸ hw.keys_nodup)
  have hbp := block_from_pointer_mid s ptr hw pre post a b hs hpre hb
  have hwr : hdr_write s.blocks a (fun b => b.give s.chunk_size) =
      pre ++ (a, b.give s.chunk_size) :: post := by
    rw [hs]; exact hdr_write_mid pre post a b _ hk.1 hk.2.1
  unfold memory_pool.release
  rw [if_neg hp, hbp]
  simp only [hwr, hdr_read_mid pre post a _ hk.1]

/-- A release that does not retire the block pushes the chunk onto the free
list of the block. -/
theorem release_keep (s : memory_pool) (ptr : Nat) (hw : list_wf s) (hp : ptr ≠ 0)
    (pre post : header_heap) (a : Nat) (b : block) (hs : s.blocks = pre ++ (a, b) :: post)
    (hpre : ∀ e ∈ pre, ¬ (ptr ≥ e.2.block_beginning ∧ ptr ≤ e.2.block_end))
    (hb : ptr ≥ b.block_beginning ∧ ptr ≤ b.block_end)
    (hkeep : decr b.used_chunks ≠ 0 ∨ (pre = [] ∧ post = [])) :
    s.release ptr = some
      { error := none
        pool := { s with
          blocks := pre ++ (a, { b.give s.chunk_size with next_free_chunk := ptr }) :: post
          mem := write_word s.mem ptr
            (if incr b.available_chunks = 1 then 0 else b.next_free_chunk) }
        ptr := 0
        destroyed := s.runs_destructor } := by
  have hk := keys_split pre post a b (hs ▸ hw.keys_nodup)
  have hlm := linked_mid pre post a b _ _ (hs ▸ hw.is_linked)
  have hun : release_unlink { s with blocks := pre ++ (a, b.give s.chunk_size) :: post }
      (b.give s.chunk_size) = none := by
    unfold release_unlink
    rcases hkeep with h | ⟨h1, h2⟩
    · rw [if_neg (by simpa [block.give] using h)]
    · have e1 : (b.give s.chunk_size).previous_block = 0 := (hlm.2.1 h1).1
      have e2 : (b.give s.chunk_size).next_block = 0 := hlm.2.2.2.1 h2
      simp [e1, e2]
  rw [release_found s ptr hw hp pre post a b hs hpre hb, hun]
  simp only [release_push, hdr_write_mid pre post a _ _ hk.1 hk.2.1]
  by_cases h1 : incr b.available_chunks = 1
  · have : (b.give s.chunk_size).available_chunks = 1 := h1
    simp only [this, if_true, h1]
  · have : ¬ (b.give s.chunk_size).available_chunks = 1 := h1
    simp only [this, if_false, h1]
    rfl

/-- Releasing the last used chunk of a head block that has a successor
retires the block: the successor becomes the head. -/
theorem release_retire_head (s : memory_pool) (ptr : Nat) (hw : list_wf s) (hp : ptr ≠ 0)
    (post1 : header_heap) (a a2 : Nat) (b b2 : block)
    (hs : s.blocks = (a, b) :: (a2, b2) :: post1)
    (hb : ptr ≥ b.block_beginning ∧ ptr ≤ b.block_end)
    (hz : decr b.used_chunks = 0) :
    s.release ptr = some
      { error := none
        pool := { s with
          first_block := a2
          blocks := (a2, { b2 with previous_block := 0 }) :: post1 }
        ptr := 0
        destroyed := s.runs_destructor } := by
  have hs1 : s.blocks = [] ++ (a, b) :: ((a2, b2) :: post1) := hs
  have hlm := linked_mid [] _ a b _ _ (hs1 ▸ hw.is_linked)
  obtain ⟨hn1, hn2, _⟩ := hlm.2.2.2.2 a2 b2 post1 rfl
  have hpv := (hlm.2.1 rfl).1
  have hk2 : a ≠ a2 ∧ a ∉ hdr_keys post1 ∧ a2 ∉ hdr_keys post1 := by
    have := hw.keys_nodup
    rw [hs] at this
    simp only [hdr_keys, List.map_cons, List.nodup_cons, List.mem_cons, not_or] at this ⊢
    exact ⟨this.1.1, this.1.2, this.2.1⟩
  have hwr2 : hdr_write ((a, b.give s.chunk_size) :: (a2, b2) :: post1) a2
      (fun b => { b with previous_block := 0 }) =
      (a, b.give s.chunk_size) :: (a2, { b2 with previous_block := 0 }) :: post1 :=
    hdr_write_mid [(a, b.give s.chunk_size)] post1 a2 b2 _
      (by simp [hdr_keys]; exact fun h => hk2.1 h.symm) hk2.2.2
  have e0 : (b.give s.chunk_size).used_chunks = 0 := hz
  have e1 : (b.give s.chunk_size).previous_block = 0 := hpv
  have e2 : (b.give s.chunk_size).next_block = a2 := hn1
  have hun : release_unlink { s with blocks := [] ++ (a, b.give s.chunk_size) :: (a2, b2) :: post1 }
      (b.give s.chunk_size) = some { s with
        first_block := a2
        blocks := (a, b.give s.chunk_size) :: (a2, { b2 with previous_block := 0 }) :: post1 } := by
    unfold release_unlink
    simp only [e0, e1, e2, if_true, ne_eq, hn2, not_false_eq_true, List.nil_append, hwr2]
  rw [release_found s ptr hw hp [] _ a b hs1 (by simp) hb, hun]
  simp only
  rw [free_block_mid _ [] ((a2, { b2 with previous_block := 0 }) :: post1) a
    (b.give s.chunk_size) rfl (by simp [hdr_keys]) (by
      simp only [hdr_keys, List.map_cons, List.mem_cons, not_or]
      exact ⟨hk2.1, hk2.2.1⟩)]
  rfl

/-- Releasing the last used chunk of a block between two others retires the
block and links its neighbours to each other. -/
theorem release_retire_mid (s : memory_pool) (ptr : Nat) (hw : list_wf s) (hp : ptr ≠ 0)
    (pre1 post1 : header_heap) (a0 a a2 : Nat) (b0 b b2 : block)
    (hs : s.blocks = pre1 ++ (a0, b0) :: (a, b) :: (a2, b2) :: post1)
    (hpre : ∀ e ∈ pre1 ++ [(a0, b0)], ¬ (ptr ≥ e.2.block_beginning ∧ ptr ≤ e.2.block_end))
    (hb : ptr ≥ b.block_beginning ∧ ptr ≤ b.block_end)
    (hz : decr b.used_chunks = 0) :
    s.release ptr = some
      { error := none
        pool := { s with
          blocks := pre1 ++ (a0, { b0 with next_block := a2 }) ::
            (a2, { b2 with previous_block := a0 }) :: post1 }
        ptr := 0
        destroyed := s.runs_destructor } := by
  have hs1 : s.blocks = (pre1 ++ [(a0, b0)]) ++ (a, b) :: ((a2, b2) :: post1) := by
    rw [hs]; simp
  have hk := keys_split _ ((a2, b2) :: post1) a b (hs1 ▸ hw.keys_nodup)
  have hlm := linked_mid _ _ a b _ _ (hs1 ▸ hw.is_linked)
  obtain ⟨hn1, hn2, _⟩ := hlm.2.2.2.2 a2 b2 post1 rfl
  obtain ⟨hp1, hp2, _⟩ := hlm.2.2.1 pre1 a0 b0 rfl
  have hk0 := keys_split pre1 ((a, b) :: (a2, b2) :: post1) a0 b0 (hs ▸ hw.keys_nodup)
  have hs2 : s.blocks = (pre1 ++ [(a0, b0), (a, b)]) ++ (a2, b2) :: post1 := by
    rw [hs]; simp
  have hk2 := keys_split _ post1 a2 b2 (hs2 ▸ hw.keys_nodup)
  have hwr1 : hdr_write ((pre1 ++ [(a0, b0)]) ++ (a, b.give s.chunk_size) :: (a2, b2) :: post1)
      a0 (fun x => { x with next_block := a2 }) =
      pre1 ++ (a0, { b0 with next_block := a2 }) :: (a, b.give s.chunk_size) ::
        (a2, b2) :: post1 := by
    have := hdr_write_mid pre1 ((a, b.give s.chunk_size) :: (a2, b2) :: post1) a0 b0
      (fun x => { x with next_block := a2 }) hk0.1 (by
        have := hk0.2.1
        simpa [hdr_keys] using this)
    simpa using this
  have hwr2 : hdr_write (pre1 ++ (a0, { b0 with next_block := a2 }) ::
      (a, b.give s.chunk_size) :: (a2, b2) :: post1) a2
      (fun x => { x with previous_block := a0 }) =
      pre1 ++ (a0, { b0 with next_block := a2 }) :: (a, b.give s.chunk_size) ::
        (a2, { b2 with previous_block := a0 }) :: post1 := by
    have := hdr_write_mid (pre1 ++ [(a0, { b0 with next_block := a2 }),
      (a, b.give s.chunk_size)]) post1 a2 b2
      (fun x => { x with previous_block := a0 }) (by
        have := hk2.1
        simpa [hdr_keys] using this) hk2.2.1
    simpa using this
  have e0 : (b.give s.chunk_size).used_chunks = 0 := hz
  have e1 : (b.give s.chunk_size).previous_block = a0 := hp1
  have e2 : (b.give s.chunk_size).next_block = a2 := hn1
  have hun : release_unlink { s with blocks := (pre1 ++ [(a0, b0)]) ++
        (a, b.give s.chunk_size) :: (a2, b2) :: post1 }
      (b.give s.chunk_size) = some { s with
        blocks := pre1 ++ (a0, { b0 with next_block := a2 }) :: (a, b.give s.chunk_size) ::
        (a2, { b2 with previous_block := a0 }) :: post1 } := by
    unfold release_unlink
    simp only [e0, e1, e2, if_true, ne_eq, hn2, hp2, not_false_eq_true, if_false, hwr1, hwr2]
  rw [release_found s ptr hw hp _ _ a b hs1 hpre hb, hun]
  simp only
  rw [free_block_mid _ (pre1 ++ [(a0, { b0 with next_block := a2 })])
    ((a2, { b2 with previous_block := a0 }) :: post1) a
    (b.give s.chunk_size) (by simp) (by
      have := hk.1
      simpa [hdr_keys] using this) (by
      have := hk.2.1
      simpa [hdr_keys] using this)]
  simp

/-- Releasing the last used chunk of a tail block that has a predecessor
retires the block: the predecessor becomes the tail. -/
theorem release_retire_tail (s : memory_pool) (ptr : Nat) (hw : list_wf s) (hp : ptr ≠ 0)
    (pre1 : header_heap) (a0 a : Nat) (b0 b : block)
    (hs : s.blocks = pre1 ++ [(a0, b0), (a, b)])
    (hpre : ∀ e ∈ pre1 ++ [(a0, b0)], ¬ (ptr ≥ e.2.block_beginning ∧ ptr ≤ e.2.block_end))
    (hb : ptr ≥ b.block_beginning ∧ ptr ≤ b.block_end)
    (hz : decr b.used_chunks = 0) :
    s.release ptr = some
      { error := none
        pool := { s with blocks := pre1 ++ [(a0, { b0 with next_block := 0 })] }
        ptr := 0
        destroyed := s.runs_destructor } := by
  have hs1 : s.blocks = (pre1 ++ [(a0, b0)]) ++ (a, b) :: [] := by
    rw [hs]; simp
  have hk := keys_split _ [] a b (hs1 ▸ hw.keys_nodup)
  have hlm := linked_mid _ _ a b _ _ (hs1 ▸ hw.is_linked)
  have hn1 := hlm.2.2.2.1 rfl
  obtain ⟨hp1, hp2, _⟩ := hlm.2.2.1 pre1 a0 b0 rfl
  have hk0 := keys_split pre1 [(a, b)] a0 b0 (hs ▸ hw.keys_nodup)
  have hwr1 : hdr_write ((pre1 ++ [(a0, b0)]) ++ (a, b.give s.chunk_size) :: [])
      a0 (fun x => { x with next_block := 0 }) =
      pre1 ++ (a0, { b0 with next_block := 0 }) :: [(a, b.give s.chunk_size)] := by
    have := hdr_write_mid pre1 [(a, b.give s.chunk_size)] a0 b0
      (fun x => { x with next_block := 0 }) hk0.1 (by
        have := hk0.2.1
        simpa [hdr_keys] using this)
    simpa using this
  have e0 : (b.give s.chunk_size).used_chunks = 0 := hz
  have e1 : (b.give s.chunk_size).previous_block = a0 := hp1
  have e2 : (b.give s.chunk_size).next_block = 0 := hn1
  have hun : release_unlink { s with blocks := (pre1 ++ [(a0, b0)]) ++
        (a, b.give s.chunk_size) :: [] }
      (b.give s.chunk_size) = some { s with
        blocks := pre1 ++ (a0, { b0 with next_block := 0 }) :: [(a, b.give s.chunk_size)] } := by
    unfold release_unlink
    simp only [e0, e1, e2, if_true, ne_eq, hp2, not_true_eq_false, if_false, hwr1]
  rw [release_found s ptr hw hp _ _ a b hs1 hpre hb, hun]
  simp only
  rw [free_block_mid _ (pre1 ++ [(a0, { b0 with next_block := 0 })]) [] a
    (b.give s.chunk_size) (by simp) (by
      have := hk.1
      simpa [hdr_keys] using this) (by simp [hdr_keys])]
  simp

/-! ## Counter arithmetic without wrap-around -/

theorem incr_eq (x : Nat) (h : x + 1 < size_max) : incr x = x + 1 := by
  unfold incr; exact Nat.mod_eq_of_lt h

theorem decr_eq (x : Nat) (h : 0 < x) : decr x = x - 1 := by
  unfold decr; rw [if_neg (by omega)]

theorem add_sz_eq (x y : Nat) (h : x + y < size_max) : add_sz x y = x + y := by
  unfold add_sz; exact Nat.mod_eq_of_lt h

theorem sub_sz_eq (x y : Nat) (h : y ≤ x) (hx : x < size_max) : sub_sz x y = x - y := by
  unfold sub_sz
  have hy : y % size_max = y := Nat.mod_eq_of_lt (by omega)
  rw [hy]
  have : x + (size_max - y) = (x - y) + size_max := by omega
  rw [this, Nat.add_mod_right]
  exact Nat.mod_eq_of_lt (by omega)

/-! ## Separated regions -/

theorem regions_append (pre post : header_heap) :
    regions (pre ++ post) = regions pre ++ regions post := by
  simp [regions]

theorem regions_cons (e : Nat × block) (post : header_heap) :
    regions (e :: post) = (e.2.block_beginning, e.2.block_end) :: regions post := by
  simp [regions]

theorem mem_regions (H : header_heap) (e : Nat × block) (h : e ∈ H) :
    (e.2.block_beginning, e.2.block_end) ∈ regions H :=
  List.mem_map_of_mem (fun e => (e.2.block_beginning, e.2.block_end)) h

/-- Every other block of a separated list is apart from the block in the
middle. -/
theorem separated_mid (pre post : header_heap) (a : Nat) (b : block)
    (h : separated (pre ++ (a, b) :: post)) :
    ∀ e, e ∈ pre ∨ e ∈ post → apart e.2 b := by
  unfold separated at h
  rw [regions_append, regions_cons, List.pairwise_append, List.pairwise_cons] at h
  obtain ⟨_, ⟨h2, _⟩, h3⟩ := h
  intro e he
  rcases he with he | he
  · have := h3 _ (mem_regions pre e he) _ (List.mem_cons_self _ _)
    exact this
  · have := h2 _ (mem_regions post e he)
    simp only at this
    unfold apart
    omega

/-- Two different entries of a separated list with distinct addresses are
apart. -/
theorem separated_pair (H : header_heap) (hk : (hdr_keys H).Nodup) (h : separated H)
    (e1 e2 : Nat × block) (h1 : e1 ∈ H) (h2 : e2 ∈ H) (hne : e1 ≠ e2) : apart e1.2 e2.2 := by
  obtain ⟨pre, post, rfl⟩ := List.append_of_mem h2
  have hsp := keys_split pre post e2.1 e2.2 hk
  rcases List.mem_append.mp h1 with hx | hx
  · exact separated_mid pre post e2.1 e2.2 h e1 (Or.inl hx)
  · rcases List.mem_cons.mp hx with hx | hx
    · exact absurd hx hne
    · exact separated_mid pre post e2.1 e2.2 h e1 (Or.inr hx)

/-! ## Counting outstanding pointers -/

theorem countP_erase_of_mem (out : List Nat) (p : Nat) (f : Nat → Bool) (hp : p ∈ out) :
    out.countP f = (out.erase p).countP f + (if f p then 1 else 0) := by
  rw [List.Perm.countP_eq f (List.perm_cons_erase hp), List.countP_cons]

theorem countP_pos_of_mem (out : List Nat) (p : Nat) (f : Nat → Bool) (hp : p ∈ out)
    (hf : f p = true) : 0 < out.countP f :=
  List.countP_pos_iff.mpr ⟨p, hp, hf⟩

/-- Two different outstanding pointers in one block make its count at least
two. -/
theorem countP_two (out : List Nat) (p q : Nat) (f : Nat → Bool) (hp : p ∈ out) (hq : q ∈ out)
    (hne : p ≠ q) (hfp : f p = true) (hfq : f q = true) : 2 ≤ out.countP f := by
  rw [countP_erase_of_mem out p f hp, hfp]
  have : q ∈ out.erase p := (List.mem_erase_of_ne (Ne.symm hne)).mpr hq
  have := countP_pos_of_mem _ q f this hfq
  simp only [if_true]
  omega

/-! ## Transferring the invariant of one block -/

theorem is_chunk_congr (s s1 : memory_pool) (b b1 : block) (c : Nat)
    (hbs : s1.block_size = s.block_size) (hcs : s1.chunk_size = s.chunk_size)
    (hbeg : b1.block_beginning = b.block_beginning) :
    is_chunk s1 b1 c ↔ is_chunk s b c := by
  unfold is_chunk
  rw [hbs, hcs, hbeg]

theorem in_block_congr (b b1 : block) (hbeg : b1.block_beginning = b.block_beginning)
    (hend : b1.block_end = b.block_end) : in_block b1 = in_block b := by
  funext p
  unfold in_block
  rw [hbeg, hend]

/-- The invariant of a block survives an operation that changes neither the
block (list pointers apart), nor the link words of its free chunks, nor the
outstanding pointers inside it. -/
theorem block_ok_frame (s s1 : memory_pool) (out out1 : List Nat) (b b1 : block)
    (hbs : s1.block_size = s.block_size) (hcs : s1.chunk_size = s.chunk_size)
    (hsame : same_body b b1)
    (hmem : ∀ c, is_chunk s b c → c ∉ out → ∀ x, c ≤ x → x < c + 8 → s.mem x = s1.mem x)
    (hcount : out1.countP (in_block b) = out.countP (in_block b))
    (hout : ∀ c, is_chunk s b c → c ∉ out → c ∉ out1)
    (h : block_ok s out b) : block_ok s1 out1 b1 := by
  obtain ⟨e1, e2, e3, e4, e5, e6, e7, e8⟩ := hsame
  obtain ⟨fl, f1, f2, f3, f4⟩ := h.free_list
  refine ⟨?_, ?_, ?_, ?_, ?_, ?_, ?_, ?_, ?_, ?_⟩
  · rw [e7]; exact h.base_ne
  · rw [e1, e7]; exact h.base_eq
  · rw [e7, hcs]; exact h.base_aligned
  · rw [e8, e7, hbs]; exact h.end_eq
  · rw [e8]; exact h.end_lt
  · rw [e4, e5, hbs, hcs]; exact h.chunks
  · rw [e2, e4, hcs]; exact h.avail_space
  · rw [e3, e5, hcs]; exact h.used_space
  · rw [in_block_congr b b1 e7 e8, hcount, e5]; exact h.used_count
  · refine ⟨fl, ?_, by rw [e4]; exact f2, f3, ?_⟩
    · rw [e6]
      exact free_chain_congr s.mem s1.mem fl _
        (fun c hc x hx1 hx2 => hmem c (f4 c hc).1 (f4 c hc).2 x hx1 hx2) f1
    · intro c hc
      exact ⟨(is_chunk_congr s s1 b b1 c hbs hcs e7).mpr (f4 c hc).1,
        hout c (f4 c hc).1 (f4 c hc).2⟩

theorem same_body_refl (b : block) : same_body b b :=
  ⟨rfl, rfl, rfl, rfl, rfl, rfl, rfl, rfl⟩

/-! ## The free list of a new block -/

theorem mem_chunk_range (base cs n k c : Nat) :
    c ∈ (List.range' n k).map (fun i => base + i * cs) ↔
      ∃ i, n ≤ i ∧ i < n + k ∧ c = base + i * cs := by
  simp only [List.mem_map, List.mem_range'_1]
  constructor
  · rintro ⟨i, ⟨h1, h2⟩, rfl⟩
    exact ⟨i, h1, h2, rfl⟩
  · rintro ⟨i, h1, h2, rfl⟩
    exact ⟨i, ⟨h1, h2⟩, rfl⟩

theorem nodup_chunk_range (base cs n k : Nat) (hcs : 0 < cs) :
    ((List.range' n k).map (fun i => base + i * cs)).Nodup := by
  apply List.Nodup.map
  · intro i j hij
    simp only at hij
    have : i * cs = j * cs := by omega
    exact Nat.eq_of_mul_eq_mul_right hcs this
  · exact List.nodup_range' n k

theorem init_mem_outside (bs cs reg : Nat) (m : memory) (x : Nat) (hcs : 8 ≤ cs)
    (hfit : bs % cs = 0) (hx : x < reg ∨ reg + bs ≤ x) : init_mem bs cs reg m x = m x := by
  unfold init_mem
  have h := init_free_list_outside cs reg (bs / cs) hcs (bs / cs) 0 (mem_zero m reg bs) x
    (by omega) (by rw [chunks_mul bs cs hfit]; omega)
  rw [Nat.zero_mul, Nat.add_zero] at h
  rw [h]
  exact mem_zero_outside m reg bs x hx

theorem init_mem_chain (bs cs reg : Nat) (m : memory) (hcs : 8 ≤ cs) (hfit : bs % cs = 0)
    (hbs : 0 < bs) (hr : reg ≠ 0) (hlt : reg + bs < size_max) :
    free_chain (init_mem bs cs reg m) reg
      ((List.range' 0 (bs / cs)).map (fun i => reg + i * cs)) := by
  unfold init_mem
  have hN : 0 < bs / cs := by
    rcases Nat.eq_zero_or_pos (bs / cs) with h | h
    · have := chunks_mul bs cs hfit
      rw [h] at this
      omega
    · exact h
  obtain ⟨k, hk⟩ : ∃ k, bs / cs = k + 1 := ⟨bs / cs - 1, by omega⟩
  have h := init_free_list_chain cs reg (bs / cs) hcs hr
    (by rw [chunks_mul bs cs hfit]; exact hlt) k 0 (mem_zero m reg bs) (by omega)
  rw [Nat.zero_mul, Nat.add_zero, ← hk] at h
  exact h

theorem chunks_pos (bs cs : Nat) (hfit : bs % cs = 0) (hbs : 0 < bs) : 0 < bs / cs := by
  rcases Nat.eq_zero_or_pos (bs / cs) with h | h
  · have := chunks_mul bs cs hfit
    rw [h] at this
    omega
  · exact h

/-! ## The invariant after construction -/

theorem linked_single (a : Nat) (b : block) (prev : Nat) (ha : a ≠ 0)
    (hp : b.previous_block = prev) (hn : b.next_block = 0) : linked a prev [(a, b)] :=
  ⟨rfl, ha, hp, hn⟩

/-- The invariant of a block that `allocate_block` has just set up, while no
outstanding pointer lies in its region. -/
theorem block_ok_init (s1 : memory_pool) (out : List Nat) (reg prev : Nat) (m : memory)
    (hcs : 8 ≤ s1.chunk_size) (hfit : s1.block_size % s1.chunk_size = 0)
    (hbs : 0 < s1.block_size) (hr : reg ≠ 0) (hal : reg % s1.chunk_size = 0)
    (hlt : reg + s1.block_size < size_max)
    (hm : s1.mem = init_mem s1.block_size s1.chunk_size reg m)
    (hout : ∀ p ∈ out, p < reg ∨ reg + s1.block_size ≤ p) :
    block_ok s1 out (block.init s1.block_size s1.chunk_size reg prev) := by
  have hmul := chunks_mul _ _ hfit
  refine ⟨hr, rfl, hal, rfl, hlt, rfl, ?_, ?_, ?_, ?_⟩
  · show s1.block_size = s1.block_size / s1.chunk_size * s1.chunk_size
    exact hmul.symm
  · show 0 = 0 * s1.chunk_size
    simp
  · show out.countP (in_block (block.init s1.block_size s1.chunk_size reg prev)) = 0
    rw [List.countP_eq_zero]
    intro p hp
    have := hout p hp
    simp only [in_block, block.init, decide_eq_true_eq]
    omega
  · refine ⟨(List.range' 0 (s1.block_size / s1.chunk_size)).map
        (fun i => reg + i * s1.chunk_size), ?_, by simp [block.init],
        nodup_chunk_range _ _ _ _ (by omega), ?_⟩
    · rw [hm]
      exact init_mem_chain _ _ reg m hcs hfit hbs hr hlt
    · intro c hc
      rw [mem_chunk_range] at hc
      obtain ⟨i, _, hi, rfl⟩ := hc
      have hch : is_chunk s1 (block.init s1.block_size s1.chunk_size reg prev)
          (reg + i * s1.chunk_size) := ⟨i, by omega, rfl⟩
      refine ⟨hch, ?_⟩
      intro hx
      have h1 := hout _ hx
      have h2 := chunk_bounds s1 _ _ hfit rfl hch
      simp only [block.init] at h2
      omega

theorem create_inv (targs : template_args) (bs cs : Nat) (m : memory) (hdr reg : Nat)
    (s : memory_pool) (hbs : 0 < bs) (hT : targs.sizeof_T ≤ cs) (hf : fresh [] bs cs hdr reg)
    (h : memory_pool.create targs bs cs m hdr reg = some (.ok s)) : pool_inv s [] := by
  have hc0 : cs ≠ 0 := by
    intro h0
    simp [memory_pool.create, h0] at h
  have hfit : bs % cs = 0 := by
    by_contra hne
    simp [memory_pool.create, hc0, hne] at h
  have hcs : sizeof_ptr ≤ cs := by
    by_contra hne
    simp [memory_pool.create, hc0, hfit, hne] at h
  rw [create_ok targs bs cs m hdr reg hcs hfit hf.hdr_ne hf.reg_ne] at h
  simp only [Option.some.injEq, Except.ok.injEq] at h
  subst h
  have hcs8 : 8 ≤ cs := hcs
  refine ⟨⟨hcs, hfit, hbs, hT, ⟨by simp, by simp [hdr_keys], ?_⟩, ?_, ?_, List.nodup_nil,
    by simp⟩, ?_⟩
  · exact linked_single hdr _ 0 hf.hdr_ne rfl rfl
  · intro e he
    simp only [List.mem_singleton] at he
    subst he
    exact block_ok_init _ [] reg 0 m hcs8 hfit hbs hf.reg_ne hf.reg_aligned hf.reg_fits rfl
      (by simp)
  · simp [separated, regions]
  · intro hl
    simp at hl

/-! ## The invariant across `alloc` -/

theorem mem_replace (pre post : header_heap) (x x1 e : Nat × block)
    (h : e ∈ pre ++ x1 :: post) : e = x1 ∨ (e ∈ pre ∨ e ∈ post) ∧ e ∈ pre ++ x :: post := by
  rcases List.mem_append.mp h with h | h
  · exact Or.inr ⟨Or.inl h, List.mem_append_left _ h⟩
  · rcases List.mem_cons.mp h with h | h
    · exact Or.inl h
    · exact Or.inr ⟨Or.inr h, List.mem_append_right _ (List.mem_cons_of_mem _ h)⟩

theorem regions_replace (pre post : header_heap) (a : Nat) (b b1 : block)
    (hbeg : b1.block_beginning = b.block_beginning) (hend : b1.block_end = b.block_end) :
    regions (pre ++ (a, b1) :: post) = regions (pre ++ (a, b) :: post) := by
  simp [regions, hbeg, hend]

/-- Size facts that hold in every state of the invariant. -/
theorem inv_sizes (s : memory_pool) (out : List Nat) (hinv : pool_core s out) :
    8 ≤ s.chunk_size ∧ s.block_size / s.chunk_size * s.chunk_size = s.block_size ∧
      0 < s.block_size / s.chunk_size :=
  ⟨hinv.chunk_ge, chunks_mul _ _ hinv.fits, chunks_pos _ _ hinv.fits hinv.size_pos⟩

/-- Taking the head of the free list of a block that has a free chunk, and
constructing an element there, keeps the invariant. -/
theorem alloc_existing_core (s : memory_pool) (out : List Nat) (hinv : pool_core s out)
    (pre post : header_heap) (a : Nat) (b : block) (hs : s.blocks = pre ++ (a, b) :: post)
    (hb : b.available_chunks ≠ 0) (bytes : List Nat) (hlen : bytes.length ≤ s.chunk_size) :
    b.next_free_chunk ∉ out ∧ is_chunk s b b.next_free_chunk ∧
      pool_core { s with
        blocks := pre ++ (a, b.take s.chunk_size s.mem) :: post
        mem := write_bytes s.mem b.next_free_chunk bytes } (b.next_free_chunk :: out) := by
  obtain ⟨hcs8, hmul, hN⟩ := inv_sizes s out hinv
  have hmem : (a, b) ∈ s.blocks := by rw [hs]; simp
  have hok : block_ok s out b := hinv.blocks_ok (a, b) hmem
  obtain ⟨fl, f1, f2, f3, f4⟩ := hok.free_list
  cases fl with
  | nil => simp at f2; exact absurd f2.symm hb
  | cons c rest =>
  obtain ⟨g1, g2, g3⟩ := f1
  subst g1
  have hcc := (f4 b.next_free_chunk (List.mem_cons_self _ _)).1
  have hco := (f4 b.next_free_chunk (List.mem_cons_self _ _)).2
  have hcb := chunk_bounds s b b.next_free_chunk hinv.fits hok.end_eq hcc
  have hinb : in_block b b.next_free_chunk = true := in_block_of_chunk s b b.next_free_chunk hinv.fits (by omega) hok.end_eq hcc
  rw [List.nodup_cons] at f3
  simp only [List.length_cons] at f2
  have hsep : ∀ e, e ∈ pre ∨ e ∈ post → apart e.2 b :=
    separated_mid pre post a b (hs ▸ hinv.is_separated)
  have hch : b.available_chunks + b.used_chunks = s.block_size / s.chunk_size := hok.chunks
  have hend : b.block_end = b.block_beginning + s.block_size := hok.end_eq
  have hlt : b.block_end < size_max := hok.end_lt
  have hNle : s.block_size / s.chunk_size ≤ s.block_size := Nat.div_le_self _ _
  have hav : b.available_chunks * s.chunk_size ≤ s.block_size := by
    rw [← hmul]; exact Nat.mul_le_mul_right _ (by omega)
  have hus : b.used_chunks * s.chunk_size + s.chunk_size ≤ s.block_size := by
    have : (b.used_chunks + 1) * s.chunk_size ≤ s.block_size / s.chunk_size * s.chunk_size :=
      Nat.mul_le_mul_right _ (by omega)
    rw [hmul, Nat.add_mul, Nat.one_mul] at this
    exact this
  have hcsle : s.chunk_size ≤ b.available_chunks * s.chunk_size := by
    have : 1 * s.chunk_size ≤ b.available_chunks * s.chunk_size :=
      Nat.mul_le_mul_right _ (by omega)
    rw [Nat.one_mul] at this
    exact this
  refine ⟨hco, hcc, ?_⟩
  refine ⟨hinv.chunk_ge, hinv.fits, hinv.size_pos, hinv.elem_fits, ?_, ?_, ?_, ?_, ?_⟩
  · exact list_wf_update s pre post a b _ _ hs hinv.wf rfl rfl
  · intro e he
    rcases mem_replace pre post (a, b) _ e he with he | ⟨he1, he2⟩
    · subst he
      refine ⟨hok.base_ne, hok.base_eq, hok.base_aligned, hok.end_eq, hok.end_lt, ?_, ?_, ?_,
        ?_, ?_⟩
      · show decr b.available_chunks + incr b.used_chunks = s.block_size / s.chunk_size
        rw [decr_eq _ (by omega), incr_eq _ (by omega)]
        omega
      · show sub_sz b.available_space s.chunk_size = decr b.available_chunks * s.chunk_size
        rw [decr_eq _ (by omega), hok.avail_space, sub_sz_eq _ _ hcsle (by omega), Nat.sub_mul,
          Nat.one_mul]
      · show add_sz b.used_space s.chunk_size = incr b.used_chunks * s.chunk_size
        rw [incr_eq _ (by omega), hok.used_space, add_sz_eq _ _ (by omega), Nat.add_mul,
          Nat.one_mul]
      · show (b.next_free_chunk :: out).countP (in_block b) = incr b.used_chunks
        rw [List.countP_cons, hinb, hok.used_count, incr_eq _ (by omega)]
        simp
      · refine ⟨rest, ?_, ?_, f3.2, ?_⟩
        · show free_chain (write_bytes s.mem b.next_free_chunk bytes) (read_word s.mem b.next_free_chunk) rest
          apply free_chain_congr s.mem _ rest _ _ g3
          intro c2 hc2 x hx1 hx2
          have h2 := (f4 c2 (List.mem_cons_of_mem _ hc2)).1
          have hne : c2 ≠ b.next_free_chunk := fun h => f3.1 (h ▸ hc2)
          have := chunk_apart s b c2 b.next_free_chunk h2 hcc hne
          rw [write_bytes_outside _ _ _ _ (by omega)]
        · show rest.length = decr b.available_chunks
          rw [decr_eq _ (by omega)]
          omega
        · intro c2 hc2
          refine ⟨(f4 c2 (List.mem_cons_of_mem _ hc2)).1, ?_⟩
          intro hx
          rcases List.mem_cons.mp hx with hx | hx
          · exact f3.1 (hx ▸ hc2)
          · exact (f4 c2 (List.mem_cons_of_mem _ hc2)).2 hx
    · rw [← hs] at he2
      have hoke := hinv.blocks_ok e he2
      have hap := hsep e he1
      have hnb := not_in_block_of_apart s b e.2 b.next_free_chunk hinv.fits hok.end_eq hcc (apart_symm _ _ hap)
      refine block_ok_frame s _ out (b.next_free_chunk :: out) e.2 e.2 rfl rfl
        (same_body_refl _) ?_ ?_ ?_ hoke
      · intro c2 h2 _ x hx1 hx2
        have := not_in_block_of_apart s e.2 b c2 hinv.fits hoke.end_eq h2 hap
        show s.mem x = write_bytes s.mem b.next_free_chunk bytes x
        rw [write_bytes_outside _ _ _ _ (by omega)]
      · rw [List.countP_cons]
        have : in_block e.2 b.next_free_chunk = false := by
          simp only [in_block, decide_eq_false_iff_not]
          have := hnb.1
          omega
        rw [this]
        simp
      · intro c2 h2 h3 hx
        rcases List.mem_cons.mp hx with hx | hx
        · have := not_in_block_of_apart s e.2 b c2 hinv.fits hoke.end_eq h2 hap
          omega
        · exact h3 hx
  · show separated (pre ++ (a, b.take s.chunk_size s.mem) :: post)
    unfold separated
    rw [regions_replace pre post a b (b.take s.chunk_size s.mem) rfl rfl, ← hs]
    exact hinv.is_separated
  · exact List.nodup_cons.mpr ⟨hco, hinv.out_nodup⟩
  · intro p hp
    rcases List.mem_cons.mp hp with hp | hp
    · subst hp
      exact ⟨(a, b.take s.chunk_size s.mem), by simp, hcc⟩
    · obtain ⟨e, he, hce⟩ := hinv.out_chunks p hp
      rw [hs] at he
      rcases mem_replace pre post (a, b.take s.chunk_size s.mem) (a, b) e he with he | ⟨_, he2⟩
      · subst he
        exact ⟨(a, b.take s.chunk_size s.mem), by simp, hce⟩
      · exact ⟨e, he2, hce⟩

/-- Taking the head of the free list of a block that has a free chunk keeps
the whole invariant. -/
theorem alloc_existing_inv (s : memory_pool) (out : List Nat) (hinv : pool_inv s out)
    (pre post : header_heap) (a : Nat) (b : block) (hs : s.blocks = pre ++ (a, b) :: post)
    (hb : b.available_chunks ≠ 0) (bytes : List Nat) (hlen : bytes.length ≤ s.chunk_size) :
    pool_inv { s with
        blocks := pre ++ (a, b.take s.chunk_size s.mem) :: post
        mem := write_bytes s.mem b.next_free_chunk bytes } (b.next_free_chunk :: out) := by
  refine ⟨(alloc_existing_core s out hinv.core pre post a b hs hb bytes hlen).2.2, ?_⟩
  intro hl e he
  have hl2 : 1 < s.blocks.length := by
    rw [hs]; simpa using hl
  have hok : block_ok s out b := hinv.core.blocks_ok (a, b) (by rw [hs]; simp)
  have hch : b.available_chunks + b.used_chunks = s.block_size / s.chunk_size := hok.chunks
  have hend : b.block_end = b.block_beginning + s.block_size := hok.end_eq
  have hlt : b.block_end < size_max := hok.end_lt
  have hNle : s.block_size / s.chunk_size ≤ s.block_size := Nat.div_le_self _ _
  rcases mem_replace pre post (a, b) _ e he with he | ⟨_, he2⟩
  · subst he
    show incr b.used_chunks ≠ 0
    rw [incr_eq _ (by omega)]
    omega
  · rw [← hs] at he2
    exact hinv.busy hl2 e he2

/-- An outstanding pointer lies in the region of a live block. -/
theorem out_in_block (s : memory_pool) (out : List Nat) (hinv : pool_core s out) (p : Nat)
    (hp : p ∈ out) :
    ∃ e ∈ s.blocks, is_chunk s e.2 p ∧ e.2.block_beginning ≤ p ∧
      p + s.chunk_size ≤ e.2.block_end := by
  obtain ⟨e, he, hc⟩ := hinv.out_chunks p hp
  exact ⟨e, he, hc, chunk_bounds s e.2 p hinv.fits (hinv.blocks_ok e he).end_eq hc⟩

/-- The step `allocate_block` of an `alloc` that finds every block saturated
keeps the core invariant. -/
theorem allocate_block_core (s : memory_pool) (out : List Nat) (hinv : pool_core s out)
    (pre : header_heap) (a : Nat) (b : block) (hs : s.blocks = pre ++ [(a, b)])
    (hdr reg : Nat) (hf : fresh s.blocks s.block_size s.chunk_size hdr reg) :
    (∀ p ∈ out, p < reg ∨ reg + s.block_size < p) ∧
      pool_core { s with
        blocks := (pre ++ [(a, { b with next_block := hdr })]) ++
          (hdr, block.init s.block_size s.chunk_size reg a) :: []
        mem := init_mem s.block_size s.chunk_size reg s.mem } out := by
  obtain ⟨hcs8, hmul, hN⟩ := inv_sizes s out hinv
  have hout : ∀ p ∈ out, p < reg ∨ reg + s.block_size < p := by
    intro p hp
    obtain ⟨e, he, _, h1, h2⟩ := out_in_block s out hinv p hp
    have := hf.reg_apart e he
    omega
  refine ⟨hout, ?_⟩
  have hold : ∀ e ∈ pre ++ [(a, { b with next_block := hdr })],
      ∃ e0 ∈ s.blocks, e0.1 = e.1 ∧ same_body e0.2 e.2 := by
    intro e he
    rcases List.mem_append.mp he with he | he
    · exact ⟨e, by rw [hs]; exact List.mem_append_left _ he, rfl, same_body_refl _⟩
    · simp only [List.mem_singleton] at he
      subst he
      exact ⟨(a, b), by rw [hs]; simp, rfl, ⟨rfl, rfl, rfl, rfl, rfl, rfl, rfl, rfl⟩⟩
  have hkeys : hdr_keys (pre ++ [(a, { b with next_block := hdr })]) = hdr_keys s.blocks := by
    rw [hs]; exact hdr_keys_update pre [] a b _
  refine ⟨hinv.chunk_ge, hinv.fits, hinv.size_pos, hinv.elem_fits, ⟨by simp, ?_, ?_⟩, ?_, ?_,
    hinv.out_nodup, ?_⟩
  · show (hdr_keys ((pre ++ [(a, { b with next_block := hdr })]) ++
      (hdr, block.init s.block_size s.chunk_size reg a) :: [])).Nodup
    rw [hdr_keys_append, hkeys, List.nodup_append]
    refine ⟨hinv.wf.keys_nodup, by simp [hdr_keys], ?_⟩
    intro x hx hx2
    simp only [hdr_keys, List.map_cons, List.map_nil, List.mem_singleton] at hx2
    subst hx2
    exact hf.hdr_new hx
  · show linked s.first_block 0 ((pre ++ [(a, { b with next_block := hdr })]) ++
      (hdr, block.init s.block_size s.chunk_size reg a) :: [])
    have hl := hinv.wf.is_linked
    rw [hs, linked_append] at hl
    obtain ⟨nxt, lastk, h1, h2, h3, h4, _⟩ := hl
    rw [List.append_assoc, linked_append]
    exact ⟨nxt, lastk, h1, h2, h3, h4, rfl, hf.hdr_ne, rfl, rfl⟩
  · intro e he
    rcases List.mem_append.mp he with he | he
    · obtain ⟨e0, he0, _, hsb⟩ := hold e he
      have hok0 := hinv.blocks_ok e0 he0
      have hap := hf.reg_apart e0 he0
      refine block_ok_frame s _ out out e0.2 e.2 rfl rfl hsb ?_ rfl (fun _ _ h => h) hok0
      intro c hc _ x hx1 hx2
      have := chunk_bounds s e0.2 c hinv.fits hok0.end_eq hc
      show s.mem x = init_mem s.block_size s.chunk_size reg s.mem x
      rw [init_mem_outside _ _ _ _ _ hcs8 hinv.fits (by omega)]
    · simp only [List.mem_singleton] at he
      subst he
      exact block_ok_init _ out reg a s.mem hcs8 hinv.fits hinv.size_pos hf.reg_ne
        hf.reg_aligned hf.reg_fits rfl (fun p hp => by
          have := hout p hp
          show p < reg ∨ reg + s.block_size ≤ p
          omega)
  · show separated ((pre ++ [(a, { b with next_block := hdr })]) ++
      (hdr, block.init s.block_size s.chunk_size reg a) :: [])
    unfold separated
    rw [regions_append]
    have e1 : regions (pre ++ [(a, { b with next_block := hdr })]) = regions s.blocks := by
      rw [hs]; exact regions_replace pre [] a b _ rfl rfl
    rw [e1, List.pairwise_append]
    refine ⟨hinv.is_separated, by simp [regions], ?_⟩
    intro r hr r2 hr2
    simp only [regions, List.map_cons, List.map_nil, List.mem_singleton] at hr2
    subst hr2
    simp only [regions, List.mem_map] at hr
    obtain ⟨e, he, rfl⟩ := hr
    have := hf.reg_apart e he
    simp only [block.init]
    omega
  · intro p hp
    obtain ⟨e, he, hc⟩ := hinv.out_chunks p hp
    rw [hs] at he
    rcases mem_replace pre [] (a, { b with next_block := hdr }) (a, b) e he with he | ⟨_, he2⟩
    · subst he
      exact ⟨(a, { b with next_block := hdr }), by simp, hc⟩
    · exact ⟨e, List.mem_append_left _ he2, hc⟩

/-- An `alloc` that finds every block saturated, and so creates a block, keeps
the invariant. -/
theorem alloc_grow_inv (s : memory_pool) (out : List Nat) (hinv : pool_inv s out)
    (pre : header_heap) (a : Nat) (b : block) (hs : s.blocks = pre ++ [(a, b)])
    (hall : ∀ e ∈ s.blocks, e.2.available_chunks = 0)
    (hdr reg : Nat) (hf : fresh s.blocks s.block_size s.chunk_size hdr reg)
    (bytes : List Nat) (hlen : bytes.length ≤ s.chunk_size) :
    reg ∉ out ∧
      pool_inv { s with
        blocks := pre ++ [(a, { b with next_block := hdr }),
          (hdr, (block.init s.block_size s.chunk_size reg a).take s.chunk_size
            (init_mem s.block_size s.chunk_size reg s.mem))]
        mem := write_bytes (init_mem s.block_size s.chunk_size reg s.mem) reg bytes }
        (reg :: out) := by
  obtain ⟨hcs8, hmul, hN⟩ := inv_sizes s out hinv.core
  obtain ⟨hout, hcore⟩ := allocate_block_core s out hinv.core pre a b hs hdr reg hf
  have hstep := alloc_existing_core _ out hcore (pre ++ [(a, { b with next_block := hdr })]) []
    hdr (block.init s.block_size s.chunk_size reg a) rfl
    (by show s.block_size / s.chunk_size ≠ 0; omega) bytes hlen
  have hl : pre ++ [(a, { b with next_block := hdr }),
      (hdr, (block.init s.block_size s.chunk_size reg a).take s.chunk_size
        (init_mem s.block_size s.chunk_size reg s.mem))] =
      (pre ++ [(a, { b with next_block := hdr })]) ++
        (hdr, (block.init s.block_size s.chunk_size reg a).take s.chunk_size
          (init_mem s.block_size s.chunk_size reg s.mem)) :: [] := by simp
  rw [hl]
  refine ⟨hstep.1, hstep.2.2, ?_⟩
  intro _ e he
  have hNle : s.block_size / s.chunk_size ≤ s.block_size := Nat.div_le_self _ _
  rcases List.mem_append.mp he with he | he
  · have hused : ∀ e0 ∈ s.blocks, e0.2.used_chunks ≠ 0 := by
      intro e0 he0
      have h1 := (hinv.core.blocks_ok e0 he0).chunks
      have h2 := hall e0 he0
      omega
    rcases List.mem_append.mp he with he | he
    · exact hused e (by rw [hs]; exact List.mem_append_left _ he)
    · simp only [List.mem_singleton] at he
      subst he
      exact hused (a, b) (by rw [hs]; simp)
  · simp only [List.mem_singleton] at he
    subst he
    show incr 0 ≠ 0
    rw [incr_eq _ (by unfold size_max; omega)]
    omega

/-! ## The invariant across `release` -/

/-- What is known about an outstanding pointer: the block that owns it, and
that `block_from_pointer` passes over every block before that one. -/
theorem out_owner (s : memory_pool) (out : List Nat) (hinv : pool_core s out) (p : Nat)
    (hp : p ∈ out) :
    ∃ pre post a b, s.blocks = pre ++ (a, b) :: post ∧ is_chunk s b p ∧ p ≠ 0 ∧
      (∀ e ∈ pre, ¬ (p ≥ e.2.block_beginning ∧ p ≤ e.2.block_end)) ∧
      (p ≥ b.block_beginning ∧ p ≤ b.block_end) ∧ in_block b p = true ∧
      (∀ e, e ∈ pre ∨ e ∈ post → in_block e.2 p = false) := by
  obtain ⟨e, he, hc, h1, h2⟩ := out_in_block s out hinv p hp
  obtain ⟨pre, post, hs⟩ := List.append_of_mem he
  obtain ⟨a, b⟩ := e
  have hok : block_ok s out b := hinv.blocks_ok (a, b) he
  have hsep := separated_mid pre post a b (hs ▸ hinv.is_separated)
  have hcs8 : 8 ≤ s.chunk_size := hinv.chunk_ge
  have hbn : b.block_beginning ≠ 0 := hok.base_ne
  simp only at h1 h2
  refine ⟨pre, post, a, b, hs, hc, by omega, ?_, by omega, ?_, ?_⟩
  · intro e he
    exact (not_in_block_of_apart s b e.2 p hinv.fits hok.end_eq hc
      (apart_symm _ _ (hsep e (Or.inl he)))).1
  · simp only [in_block, decide_eq_true_eq]; omega
  · intro e he
    have := (not_in_block_of_apart s b e.2 p hinv.fits hok.end_eq hc
      (apart_symm _ _ (hsep e he))).1
    simp only [in_block, decide_eq_false_iff_not]
    omega

/-- A release that keeps the block keeps the invariant. -/
theorem release_keep_inv (s : memory_pool) (out : List Nat) (hinv : pool_inv s out) (p : Nat)
    (hp : p ∈ out) (pre post : header_heap) (a : Nat) (b : block)
    (hs : s.blocks = pre ++ (a, b) :: post) (hpc : is_chunk s b p)
    (hkeep : b.used_chunks ≠ 1 ∨ (pre = [] ∧ post = [])) :
    pool_inv { s with
      blocks := pre ++ (a, { b.give s.chunk_size with next_free_chunk := p }) :: post
      mem := write_word s.mem p
        (if incr b.available_chunks = 1 then 0 else b.next_free_chunk) } (out.erase p) := by
  have hc := hinv.core
  obtain ⟨hcs8, hmul, hN⟩ := inv_sizes s out hc
  have hmem : (a, b) ∈ s.blocks := by rw [hs]; simp
  have hok : block_ok s out b := hc.blocks_ok (a, b) hmem
  obtain ⟨fl, f1, f2, f3, f4⟩ := hok.free_list
  have hpb := chunk_bounds s b p hc.fits hok.end_eq hpc
  have hinb : in_block b p = true := in_block_of_chunk s b p hc.fits (by omega) hok.end_eq hpc
  have hsep : ∀ e, e ∈ pre ∨ e ∈ post → apart e.2 b :=
    separated_mid pre post a b (hs ▸ hc.is_separated)
  have hch : b.available_chunks + b.used_chunks = s.block_size / s.chunk_size := hok.chunks
  have hend : b.block_end = b.block_beginning + s.block_size := hok.end_eq
  have hlt : b.block_end < size_max := hok.end_lt
  have hbn : b.block_beginning ≠ 0 := hok.base_ne
  have hNle : s.block_size / s.chunk_size ≤ s.block_size := Nat.div_le_self _ _
  have hcnt : out.countP (in_block b) = b.used_chunks := hok.used_count
  have hupos : 0 < b.used_chunks := by
    rw [← hcnt]; exact countP_pos_of_mem out p _ hp hinb
  have hav : b.available_chunks * s.chunk_size + s.chunk_size ≤ s.block_size := by
    have : (b.available_chunks + 1) * s.chunk_size ≤ s.block_size / s.chunk_size * s.chunk_size :=
      Nat.mul_le_mul_right _ (by omega)
    rw [hmul, Nat.add_mul, Nat.one_mul] at this
    exact this
  have hus : b.used_chunks * s.chunk_size ≤ s.block_size := by
    rw [← hmul]; exact Nat.mul_le_mul_right _ (by omega)
  have hcsle : s.chunk_size ≤ b.used_chunks * s.chunk_size := by
    have : 1 * s.chunk_size ≤ b.used_chunks * s.chunk_size :=
      Nat.mul_le_mul_right _ (by omega)
    rw [Nat.one_mul] at this
    exact this
  have hpfl : p ∉ fl := fun h => (f4 p h).2 hp
  have hnfc : b.next_free_chunk < size_max := by
    cases fl with
    | nil => simp only [free_chain] at f1; rw [f1]; unfold size_max; omega
    | cons c rest =>
      obtain ⟨g1, _, _⟩ := f1
      have := chunk_bounds s b c hc.fits hok.end_eq (f4 c (List.mem_cons_self _ _)).1
      omega
  have hv : (if incr b.available_chunks = 1 then 0 else b.next_free_chunk) =
      b.next_free_chunk := by
    by_cases h1 : incr b.available_chunks = 1
    · rw [if_pos h1]
      rw [incr_eq _ (by omega)] at h1
      have : fl = [] := List.eq_nil_of_length_eq_zero (by omega)
      subst this
      simp only [free_chain] at f1
      exact f1.symm
    · rw [if_neg h1]
  rw [hv]
  refine ⟨⟨hc.chunk_ge, hc.fits, hc.size_pos, hc.elem_fits, ?_, ?_, ?_, ?_, ?_⟩, ?_⟩
  · exact list_wf_update s pre post a b _ _ hs hc.wf rfl rfl
  · intro e he
    rcases mem_replace pre post (a, b) _ e he with he | ⟨he1, he2⟩
    · subst he
      refine ⟨hok.base_ne, hok.base_eq, hok.base_aligned, hok.end_eq, hok.end_lt, ?_, ?_, ?_,
        ?_, ?_⟩
      · show incr b.available_chunks + decr b.used_chunks = s.block_size / s.chunk_size
        rw [decr_eq _ (by omega), incr_eq _ (by omega)]
        omega
      · show add_sz b.available_space s.chunk_size = incr b.available_chunks * s.chunk_size
        rw [incr_eq _ (by omega), hok.avail_space, add_sz_eq _ _ (by omega), Nat.add_mul,
          Nat.one_mul]
      · show sub_sz b.used_space s.chunk_size = decr b.used_chunks * s.chunk_size
        rw [decr_eq _ (by omega), hok.used_space, sub_sz_eq _ _ hcsle (by omega), Nat.sub_mul,
          Nat.one_mul]
      · show (out.erase p).countP (in_block b) = decr b.used_chunks
        have := countP_erase_of_mem out p (in_block b) hp
        rw [hinb, hcnt] at this
        rw [decr_eq _ (by omega)]
        simp only [if_true] at this
        omega
      · refine ⟨p :: fl, ⟨rfl, by omega, ?_⟩, ?_, List.nodup_cons.mpr ⟨hpfl, f3⟩, ?_⟩
        · show free_chain (write_word s.mem p b.next_free_chunk)
            (read_word (write_word s.mem p b.next_free_chunk) p) fl
          rw [read_write_word_same _ _ _ hnfc]
          apply free_chain_congr s.mem _ fl _ _ f1
          intro c2 hc2 x hx1 hx2
          have hne : c2 ≠ p := fun h => hpfl (h ▸ hc2)
          have := chunk_apart s b c2 p (f4 c2 hc2).1 hpc hne
          rw [write_word_outside _ _ _ _ (by omega)]
        · show (p :: fl).length = incr b.available_chunks
          rw [incr_eq _ (by omega)]
          simp only [List.length_cons]
          omega
        · intro c2 hc2
          rcases List.mem_cons.mp hc2 with hc2 | hc2
          · subst hc2
            exact ⟨hpc, fun h => (List.Nodup.not_mem_erase hc.out_nodup) h⟩
          · exact ⟨(f4 c2 hc2).1, fun h => (f4 c2 hc2).2 (List.mem_of_mem_erase h)⟩
    · rw [← hs] at he2
      have hoke := hc.blocks_ok e he2
      have hap := hsep e he1
      have hnb := not_in_block_of_apart s b e.2 p hc.fits hok.end_eq hpc (apart_symm _ _ hap)
      refine block_ok_frame s _ out (out.erase p) e.2 e.2 rfl rfl
        (same_body_refl _) ?_ ?_ ?_ hoke
      · intro c2 h2 _ x hx1 hx2
        have := not_in_block_of_apart s e.2 b c2 hc.fits hoke.end_eq h2 hap
        show s.mem x = write_word s.mem p b.next_free_chunk x
        rw [write_word_outside _ _ _ _ (by omega)]
      · have := countP_erase_of_mem out p (in_block e.2) hp
        have hf : in_block e.2 p = false := by
          simp only [in_block, decide_eq_false_iff_not]
          have := hnb.1
          omega
        rw [hf] at this
        simp only [Bool.false_eq_true, if_false, Nat.add_zero] at this
        exact this.symm
      · intro c2 _ h3 hx
        exact h3 (List.mem_of_mem_erase hx)
  · show separated (pre ++ (a, { b.give s.chunk_size with next_free_chunk := p }) :: post)
    unfold separated
    rw [regions_replace pre post a b { b.give s.chunk_size with next_free_chunk := p } rfl rfl,
      ← hs]
    exact hc.is_separated
  · exact List.Nodup.erase p hc.out_nodup
  · intro q hq
    obtain ⟨e, he, hce⟩ := hc.out_chunks q (List.mem_of_mem_erase hq)
    rw [hs] at he
    rcases mem_replace pre post (a, { b.give s.chunk_size with next_free_chunk := p }) (a, b) e he
      with he | ⟨_, he2⟩
    · subst he
      exact ⟨(a, { b.give s.chunk_size with next_free_chunk := p }), by simp, hce⟩
    · exact ⟨e, he2, hce⟩
  · intro hl e he
    have hl2 : 1 < s.blocks.length := by
      rw [hs]; simpa using hl
    rcases mem_replace pre post (a, b) _ e he with he | ⟨_, he2⟩
    · subst he
      show decr b.used_chunks ≠ 0
      rw [decr_eq _ (by omega)]
      rcases hkeep with h | ⟨h1, h2⟩
      · omega
      · subst h1 h2
        rw [hs] at hl2
        simp at hl2
    · rw [← hs] at he2
      exact hinv.busy hl2 e he2

theorem same_body_symm_fields (b b1 : block) (h : same_body b b1) :
    b1.used_chunks = b.used_chunks ∧ b1.block_beginning = b.block_beginning ∧
      b1.block_end = b.block_end :=
  ⟨h.2.2.2.2.1, h.2.2.2.2.2.2.1, h.2.2.2.2.2.2.2⟩

/-- A release that retires the block of the released chunk keeps the
invariant: the remaining headers are those of the other blocks, relinked. -/
theorem retire_inv (s : memory_pool) (out : List Nat) (hinv : pool_inv s out) (p : Nat)
    (hp : p ∈ out) (pre post : header_heap) (a : Nat) (b : block)
    (hs : s.blocks = pre ++ (a, b) :: post) (hpc : is_chunk s b p) (hu : b.used_chunks = 1)
    (first1 : Nat) (L1 : header_heap) (hne : L1 ≠ []) (hlink : linked first1 0 L1)
    (hsub : ∀ e1 ∈ L1, ∃ e ∈ pre ++ post, same_body e.2 e1.2)
    (hsup : ∀ e ∈ pre ++ post, ∃ e1 ∈ L1, same_body e.2 e1.2)
    (hkeys : hdr_keys L1 = hdr_keys (pre ++ post))
    (hreg : regions L1 = regions (pre ++ post)) :
    pool_inv { s with first_block := first1, blocks := L1 } (out.erase p) := by
  have hc := hinv.core
  obtain ⟨hcs8, hmul, hN⟩ := inv_sizes s out hc
  have hmem : (a, b) ∈ s.blocks := by rw [hs]; simp
  have hok : block_ok s out b := hc.blocks_ok (a, b) hmem
  have hinb : in_block b p = true := in_block_of_chunk s b p hc.fits (by omega) hok.end_eq hpc
  have hsep : ∀ e, e ∈ pre ∨ e ∈ post → apart e.2 b :=
    separated_mid pre post a b (hs ▸ hc.is_separated)
  have hcnt : out.countP (in_block b) = b.used_chunks := hok.used_count
  have hold : ∀ e ∈ pre ++ post, e ∈ s.blocks ∧ (e ∈ pre ∨ e ∈ post) := by
    intro e he
    rw [hs]
    rcases List.mem_append.mp he with h | h
    · exact ⟨List.mem_append_left _ h, Or.inl h⟩
    · exact ⟨List.mem_append_right _ (List.mem_cons_of_mem _ h), Or.inr h⟩
  have hlen : 1 < s.blocks.length := by
    obtain ⟨e1, he1⟩ := List.exists_mem_of_ne_nil L1 hne
    obtain ⟨e, he, _⟩ := hsub e1 he1
    have : 0 < (pre ++ post).length := List.length_pos_of_mem he
    rw [hs]
    simp only [List.length_append, List.length_cons] at this ⊢
    omega
  have hsl : (pre ++ post).Sublist (pre ++ (a, b) :: post) :=
    List.Sublist.append_left (List.sublist_cons_self _ _) pre
  refine ⟨⟨hc.chunk_ge, hc.fits, hc.size_pos, hc.elem_fits, ⟨hne, ?_, hlink⟩, ?_, ?_, ?_, ?_⟩, ?_⟩
  · show (hdr_keys L1).Nodup
    rw [hkeys]
    have := hc.wf.keys_nodup
    rw [hs] at this
    exact List.Nodup.sublist (List.Sublist.map _ hsl) this
  · intro e1 he1
    obtain ⟨e, he, hsb⟩ := hsub e1 he1
    obtain ⟨he2, he3⟩ := hold e he
    have hoke := hc.blocks_ok e he2
    have hap := hsep e he3
    have hnb := not_in_block_of_apart s b e.2 p hc.fits hok.end_eq hpc (apart_symm _ _ hap)
    refine block_ok_frame s _ out (out.erase p) e.2 e1.2 rfl rfl hsb (fun _ _ _ _ _ _ => rfl)
      ?_ ?_ hoke
    · have := countP_erase_of_mem out p (in_block e.2) hp
      have hf : in_block e.2 p = false := by
        simp only [in_block, decide_eq_false_iff_not]
        have := hnb.1
        omega
      rw [hf] at this
      simp only [Bool.false_eq_true, if_false, Nat.add_zero] at this
      exact this.symm
    · intro c2 _ h3 hx
      exact h3 (List.mem_of_mem_erase hx)
  · show separated L1
    unfold separated
    rw [hreg]
    have := hc.is_separated
    unfold separated at this
    rw [hs] at this
    exact List.Pairwise.sublist (List.Sublist.map _ hsl) this
  · exact List.Nodup.erase p hc.out_nodup
  · intro q hq
    have hq2 := (List.Nodup.mem_erase_iff hc.out_nodup).mp hq
    obtain ⟨e, he, hce⟩ := hc.out_chunks q hq2.2
    have hoke := hc.blocks_ok e he
    have hqe : in_block e.2 q = true :=
      in_block_of_chunk s e.2 q hc.fits (by omega) hoke.end_eq hce
    rw [hs] at he
    rcases List.mem_append.mp he with h | h
    · obtain ⟨e1, he1, hsb⟩ := hsup e (List.mem_append_left _ h)
      exact ⟨e1, he1, (is_chunk_congr s _ e.2 e1.2 q rfl rfl
        (same_body_symm_fields _ _ hsb).2.1).mpr hce⟩
    · rcases List.mem_cons.mp h with h | h
      · subst h
        have := countP_two out p q (in_block b) hp hq2.2 (Ne.symm hq2.1) hinb hqe
        omega
      · obtain ⟨e1, he1, hsb⟩ := hsup e (List.mem_append_right _ h)
        exact ⟨e1, he1, (is_chunk_congr s _ e.2 e1.2 q rfl rfl
          (same_body_symm_fields _ _ hsb).2.1).mpr hce⟩
  · intro _ e1 he1
    obtain ⟨e, he, hsb⟩ := hsub e1 he1
    have := hinv.busy hlen e (hold e he).1
    rw [(same_body_symm_fields _ _ hsb).1]
    exact this

/-- The release of an outstanding pointer returns normally, nulls the handle
and keeps the invariant. -/
theorem release_inv (s : memory_pool) (out : List Nat) (hinv : pool_inv s out) (p : Nat)
    (hp : p ∈ out) :
    ∃ r, s.release p = some r ∧ r.error = none ∧ r.ptr = 0 ∧
      r.destroyed = s.runs_destructor ∧ pool_inv r.pool (out.erase p) ∧
      (∀ x, (x < p ∨ p + 8 ≤ x) → r.pool.mem x = s.mem x) ∧
      r.pool.block_size = s.block_size ∧ r.pool.chunk_size = s.chunk_size ∧
      r.pool.targs = s.targs := by
  have hc := hinv.core
  obtain ⟨pre, post, a, b, hs, hpc, hp0, hpre, hb, hinb, _⟩ := out_owner s out hc p hp
  have hok : block_ok s out b := hc.blocks_ok (a, b) (by rw [hs]; simp)
  have hcnt : out.countP (in_block b) = b.used_chunks := hok.used_count
  have hupos : 0 < b.used_chunks := by
    rw [← hcnt]; exact countP_pos_of_mem out p _ hp hinb
  have hlk := hc.wf.is_linked
  by_cases hkeep : b.used_chunks ≠ 1 ∨ (pre = [] ∧ post = [])
  · have hk2 : decr b.used_chunks ≠ 0 ∨ (pre = [] ∧ post = []) := by
      rcases hkeep with h | h
      · left; rw [decr_eq _ hupos]; omega
      · right; exact h
    refine ⟨_, release_keep s p hc.wf hp0 pre post a b hs hpre hb hk2, rfl, rfl, rfl,
      release_keep_inv s out hinv p hp pre post a b hs hpc hkeep, ?_, rfl, rfl, rfl⟩
    intro x hx
    exact write_word_outside _ _ _ _ hx
  · simp only [not_or, not_not, not_and] at hkeep
    obtain ⟨hu, hns⟩ := hkeep
    have hz : decr b.used_chunks = 0 := by rw [decr_eq _ hupos]; omega
    rcases list_cases_snoc pre with hpn | ⟨pre1, a0, b0, hpn⟩
    · subst hpn
      cases post with
      | nil => exact absurd rfl (hns rfl)
      | cons e2 post1 =>
        obtain ⟨a2, b2⟩ := e2
        have hs0 : s.blocks = (a, b) :: (a2, b2) :: post1 := hs
        refine ⟨_, release_retire_head s p hc.wf hp0 post1 a a2 b b2 hs0 hb hz, rfl, rfl, rfl,
          ?_, fun _ _ => rfl, rfl, rfl, rfl⟩
        rw [hs0] at hlk
        obtain ⟨_, _, _, h4, h5, _, h7⟩ := hlk
        simp only at h4 h5 h7
        refine retire_inv s out hinv p hp [] ((a2, b2) :: post1) a b hs hpc hu a2
          ((a2, { b2 with previous_block := 0 }) :: post1) (by simp) ⟨rfl, h5, rfl, h7⟩
          ?_ ?_ ?_ ?_
        · intro e1 he1
          rcases List.mem_cons.mp he1 with h | h
          · subst h
            exact ⟨(a2, b2), by simp, ⟨rfl, rfl, rfl, rfl, rfl, rfl, rfl, rfl⟩⟩
          · exact ⟨e1, by simp [h], same_body_refl _⟩
        · intro e he
          simp only [List.nil_append, List.mem_cons] at he
          rcases he with h | h
          · subst h
            exact ⟨(a2, { b2 with previous_block := 0 }), by simp,
              ⟨rfl, rfl, rfl, rfl, rfl, rfl, rfl, rfl⟩⟩
          · exact ⟨e, by simp [h], same_body_refl _⟩
        · simp [hdr_keys]
        · simp [regions]
    · subst hpn
      cases post with
      | nil =>
        have hs0 : s.blocks = pre1 ++ [(a0, b0), (a, b)] := by rw [hs]; simp
        refine ⟨_, release_retire_tail s p hc.wf hp0 pre1 a0 a b0 b hs0 hpre hb hz, rfl, rfl, rfl,
          ?_, fun _ _ => rfl, rfl, rfl, rfl⟩
        rw [hs0, linked_append] at hlk
        obtain ⟨nxt, lastk, h1, h2, h3, h4, _⟩ := hlk
        simp only at h2 h3 h4
        show pool_inv { s with
          first_block := s.first_block
          blocks := pre1 ++ [(a0, { b0 with next_block := 0 })] } (out.erase p)
        refine retire_inv s out hinv p hp (pre1 ++ [(a0, b0)]) [] a b hs hpc hu s.first_block
          (pre1 ++ [(a0, { b0 with next_block := 0 })]) (by simp) ?_ ?_ ?_ ?_ ?_
        · rw [linked_append]
          exact ⟨nxt, lastk, h1, h2, h3, h4, rfl⟩
        · intro e1 he1
          rcases List.mem_append.mp he1 with h | h
          · exact ⟨e1, by simp [h], same_body_refl _⟩
          · simp only [List.mem_singleton] at h
            subst h
            exact ⟨(a0, b0), by simp, ⟨rfl, rfl, rfl, rfl, rfl, rfl, rfl, rfl⟩⟩
        · intro e he
          simp only [List.append_nil] at he
          rcases List.mem_append.mp he with h | h
          · exact ⟨e, by simp [h], same_body_refl _⟩
          · simp only [List.mem_singleton] at h
            subst h
            exact ⟨(a0, { b0 with next_block := 0 }), by simp,
              ⟨rfl, rfl, rfl, rfl, rfl, rfl, rfl, rfl⟩⟩
        · simp [hdr_keys]
        · simp [regions]
      | cons e2 post1 =>
        obtain ⟨a2, b2⟩ := e2
        have hs0 : s.blocks = pre1 ++ (a0, b0) :: (a, b) :: (a2, b2) :: post1 := by
          rw [hs]; simp
        refine ⟨_, release_retire_mid s p hc.wf hp0 pre1 post1 a0 a a2 b0 b b2 hs0 hpre hb hz,
          rfl, rfl, rfl, ?_, fun _ _ => rfl, rfl, rfl, rfl⟩
        rw [hs0, linked_append] at hlk
        obtain ⟨nxt, lastk, h1, h2, h3, h4, _, _, _, _, h9, _, h11⟩ := hlk
        simp only at h2 h3 h4 h9 h11
        show pool_inv { s with
          first_block := s.first_block
          blocks := pre1 ++ (a0, { b0 with next_block := a2 }) ::
            (a2, { b2 with previous_block := a0 }) :: post1 } (out.erase p)
        refine retire_inv s out hinv p hp (pre1 ++ [(a0, b0)]) ((a2, b2) :: post1) a b hs hpc hu
          s.first_block (pre1 ++ (a0, { b0 with next_block := a2 }) ::
            (a2, { b2 with previous_block := a0 }) :: post1) (by simp) ?_ ?_ ?_ ?_ ?_
        · rw [linked_append]
          exact ⟨nxt, lastk, h1, h2, h3, h4, rfl, h9, rfl, h11⟩
        · intro e1 he1
          rcases List.mem_append.mp he1 with h | h
          · exact ⟨e1, by simp [h], same_body_refl _⟩
          · rcases List.mem_cons.mp h with h | h
            · subst h
              exact ⟨(a0, b0), by simp, ⟨rfl, rfl, rfl, rfl, rfl, rfl, rfl, rfl⟩⟩
            · rcases List.mem_cons.mp h with h | h
              · subst h
                exact ⟨(a2, b2), by simp, ⟨rfl, rfl, rfl, rfl, rfl, rfl, rfl, rfl⟩⟩
              · exact ⟨e1, by simp [h], same_body_refl _⟩
        · intro e he
          simp only [List.append_assoc, List.singleton_append, List.mem_append,
            List.mem_cons] at he
          rcases he with h | h | h | h
          · exact ⟨e, by simp [h], same_body_refl _⟩
          · subst h
            exact ⟨(a0, { b0 with next_block := a2 }), by simp,
              ⟨rfl, rfl, rfl, rfl, rfl, rfl, rfl, rfl⟩⟩
          · subst h
            exact ⟨(a2, { b2 with previous_block := a0 }), by simp,
              ⟨rfl, rfl, rfl, rfl, rfl, rfl, rfl, rfl⟩⟩
          · exact ⟨e, by simp [h], same_body_refl _⟩
        · simp [hdr_keys]
        · simp [regions]

/-- Two different chunks of the pool do not overlap. -/
theorem chunks_disjoint (s : memory_pool) (out : List Nat) (hc : pool_core s out)
    (e1 e2 : Nat × block) (h1 : e1 ∈ s.blocks) (h2 : e2 ∈ s.blocks) (c1 c2 : Nat)
    (hc1 : is_chunk s e1.2 c1) (hc2 : is_chunk s e2.2 c2) (hne : c1 ≠ c2) :
    c1 + s.chunk_size ≤ c2 ∨ c2 + s.chunk_size ≤ c1 := by
  by_cases he : e1 = e2
  · subst he
    exact chunk_apart s e1.2 c1 c2 hc1 hc2 hne
  · have hap := separated_pair s.blocks hc.wf.keys_nodup hc.is_separated e1 e2 h1 h2 he
    have b1 := chunk_bounds s e1.2 c1 hc.fits (hc.blocks_ok e1 h1).end_eq hc1
    have b2 := chunk_bounds s e2.2 c2 hc.fits (hc.blocks_ok e2 h2).end_eq hc2
    unfold apart at hap
    omega

/-! ## The invariant across `alloc`, `release` and stores -/

/-- Under the invariant `alloc` succeeds: it returns a chunk that is not
outstanding, keeps the invariant, and leaves the chunks of all outstanding
pointers untouched. -/
theorem alloc_inv (s : memory_pool) (out : List Nat) (hinv : pool_inv s out)
    (hdr reg : Nat) (val : List Nat)
    (hf : fresh s.blocks s.block_size s.chunk_size hdr reg) :
    ∃ p s1, s.alloc hdr reg val = some (.ok p, s1) ∧ p ∉ out ∧ pool_inv s1 (p :: out) ∧
      (∀ q ∈ out, ∀ x, q ≤ x → x < q + s.chunk_size → s1.mem x = s.mem x) ∧
      s1.block_size = s.block_size ∧ s1.chunk_size = s.chunk_size ∧ s1.targs = s.targs := by
  have hc := hinv.core
  obtain ⟨hcs8, hmul, hN⟩ := inv_sizes s out hc
  have hlen : (val.take s.targs.sizeof_T).length ≤ s.chunk_size := by
    rw [List.length_take]
    have := hc.elem_fits
    omega
  cases hfind : s.blocks.find? (fun e => decide (e.2.available_chunks ≠ 0)) with
  | some e =>
    obtain ⟨a, b⟩ := e
    rw [List.find?_eq_some] at hfind
    obtain ⟨hb, pre, post, hs, hpre⟩ := hfind
    have hb2 : b.available_chunks ≠ 0 := by simpa using hb
    have hpre2 : ∀ e ∈ pre, e.2.available_chunks = 0 := by
      intro e he
      have := hpre e he
      simpa using this
    have hg := get_available_chunk_existing s hdr reg hc.wf pre post a b hs hpre2 hb2
    obtain ⟨h1, h2, _⟩ := alloc_existing_core s out hc pre post a b hs hb2 _ hlen
    have h3 := alloc_existing_inv s out hinv pre post a b hs hb2 _ hlen
    refine ⟨b.next_free_chunk, _, ?_, h1, h3, ?_, rfl, rfl, rfl⟩
    · unfold memory_pool.alloc
      rw [hg]
    · intro q hq x hx1 hx2
      obtain ⟨e, he, hce⟩ := hc.out_chunks q hq
      have hne : q ≠ b.next_free_chunk := fun h => h1 (h ▸ hq)
      have := chunks_disjoint s out hc e (a, b) he (by rw [hs]; simp) q _ hce h2 hne
      show write_bytes s.mem b.next_free_chunk _ x = s.mem x
      rw [write_bytes_outside _ _ _ _ (by omega)]
  | none =>
    rw [List.find?_eq_none] at hfind
    have hall : ∀ e ∈ s.blocks, e.2.available_chunks = 0 := by
      intro e he
      have := hfind e he
      simpa using this
    rcases list_cases_snoc s.blocks with h | ⟨pre, a, b, hs⟩
    · exact absurd h hc.wf.nonempty
    · have hg := get_available_chunk_grow s hdr reg hc.wf pre a b hs hall hf.hdr_ne hf.hdr_new
        hf.reg_ne
      obtain ⟨h1, h3⟩ := alloc_grow_inv s out hinv pre a b hs hall hdr reg hf _ hlen
      refine ⟨reg, _, ?_, h1, h3, ?_, rfl, rfl, rfl⟩
      · unfold memory_pool.alloc
        rw [hg]
      · intro q hq x hx1 hx2
        obtain ⟨e, he, _, hb1, hb2⟩ := out_in_block s out hc q hq
        have := hf.reg_apart e he
        have hcsbs : s.chunk_size ≤ s.block_size := by
          have : 1 * s.chunk_size ≤ s.block_size / s.chunk_size * s.chunk_size :=
            Nat.mul_le_mul_right _ (by omega)
          rw [hmul, Nat.one_mul] at this
          exact this
        show write_bytes (init_mem s.block_size s.chunk_size reg s.mem) reg _ x = s.mem x
        rw [write_bytes_outside _ _ _ _ (by omega),
          init_mem_outside _ _ _ _ _ hcs8 hc.fits (by omega)]

/-- A store into a chunk that the caller holds keeps the invariant. -/
theorem store_inv (s : memory_pool) (out : List Nat) (hinv : pool_inv s out) (q a v : Nat)
    (hq : q ∈ out) (h1 : q ≤ a) (h2 : a < q + s.chunk_size) :
    pool_inv { s with mem := Function.update s.mem a v } out := by
  have hc := hinv.core
  obtain ⟨hcs8, _, _⟩ := inv_sizes s out hc
  obtain ⟨eq, heq, hcq⟩ := hc.out_chunks q hq
  refine ⟨⟨hc.chunk_ge, hc.fits, hc.size_pos, hc.elem_fits,
    ⟨hc.wf.nonempty, hc.wf.keys_nodup, hc.wf.is_linked⟩, ?_, hc.is_separated, hc.out_nodup,
    hc.out_chunks⟩, hinv.busy⟩
  intro e he
  refine block_ok_frame s _ out out e.2 e.2 rfl rfl (same_body_refl _) ?_ rfl
    (fun _ _ h => h) (hc.blocks_ok e he)
  intro c hcc hco x hx1 hx2
  have hne : c ≠ q := fun h => hco (h ▸ hq)
  have := chunks_disjoint s out hc e eq he heq c q hcc hcq hne
  show s.mem x = Function.update s.mem a v x
  rw [Function.update_noteq (by omega)]

/-- Every reachable state satisfies the invariant. -/
theorem reachable_inv (s : memory_pool) (out : List Nat) (h : reachable s out) :
    pool_inv s out := by
  induction h with
  | create targs bs cs m hdr reg s hbs hT hf hcr => exact create_inv targs bs cs m hdr reg s hbs hT hf hcr
  | alloc s out hdr reg val p s1 _ hf ha ih =>
    obtain ⟨p2, s2, h1, _, h3, _⟩ := alloc_inv s out ih hdr reg val hf
    rw [h1] at ha
    simp only [Option.some.injEq, Prod.mk.injEq, Except.ok.injEq] at ha
    obtain ⟨rfl, rfl⟩ := ha
    exact h3
  | release s out p r _ hp hr _ ih =>
    obtain ⟨r2, h1, _, _, _, h5, _⟩ := release_inv s out ih p hp
    rw [h1] at hr
    simp only [Option.some.injEq] at hr
    subst hr
    exact h5
  | store s out q a v _ hq h1 h2 ih => exact store_inv s out ih q a v hq h1 h2

/-! ## Reading a free list -/

/-- The pairs that `dump_free_list` reports for the free list `fl`: each chunk
with the chunk after it, the last one with null. -/
theorem dump_free_list_loop_spec (m : memory) (fl : List Nat) :
    ∀ (head fuel : Nat), fl ≠ [] → free_chain m head fl → fl.length ≤ fuel →
      dump_free_list_loop m fuel head = some (fl.zip (fl.tail ++ [0])) := by
  induction fl with
  | nil => intro _ _ h; exact absurd rfl h
  | cons c rest ih =>
    intro head fuel _ hch hf
    obtain ⟨h1, _, h3⟩ := hch
    subst h1
    obtain ⟨fuel, rfl⟩ : ∃ k, fuel = k + 1 := ⟨fuel - 1, by simp at hf; omega⟩
    cases rest with
    | nil =>
      simp only [free_chain] at h3
      simp [dump_free_list_loop, h3]
    | cons c2 rest2 =>
      have hne : read_word m head ≠ 0 := by
        obtain ⟨h4, h5, _⟩ := h3
        rw [h4]; exact h5
      have h4 : read_word m head = c2 := h3.1
      simp only [dump_free_list_loop, if_pos hne]
      rw [ih (read_word m head) fuel (by simp) h3 (by simp at hf ⊢; omega)]
      simp [h4]

/-- In a state of the invariant, `block_from_pointer` maps every address
inside the region of a block to the header of that block. -/
theorem block_from_pointer_inside (s : memory_pool) (out : List Nat) (hc : pool_core s out)
    (a : Nat) (b : block) (hm : (a, b) ∈ s.blocks) (q : Nat)
    (hq : b.block_beginning ≤ q ∧ q ≤ b.block_end) :
    s.block_from_pointer q = some (.ok a) ∧ hdr_read s.blocks a = some b := by
  obtain ⟨pre, post, hs⟩ := List.append_of_mem hm
  have hsep := separated_mid pre post a b (hs ▸ hc.is_separated)
  have hk := keys_split pre post a b (hs ▸ hc.wf.keys_nodup)
  refine ⟨block_from_pointer_mid s q hc.wf pre post a b hs ?_ ⟨hq.1, hq.2⟩, ?_⟩
  · intro e he
    have := hsep e (Or.inl he)
    unfold apart at this
    omega
  · rw [hs]; exact hdr_read_mid pre post a b hk.1

/-- In a state of the invariant `dump_free_list` reports the free list of the
block. -/
theorem dump_free_list_inv (s : memory_pool) (out : List Nat) (hc : pool_core s out)
    (a : Nat) (b : block) (hm : (a, b) ∈ s.blocks) (q : Nat)
    (hq : b.block_beginning ≤ q ∧ q ≤ b.block_end) (fl : List Nat)
    (hfl : free_chain s.mem b.next_free_chunk fl) :
    s.dump_free_list q = some (.ok (fl.zip (fl.tail ++ [0]))) ∧
      fl.length = b.available_chunks ∧ fl.Nodup ∧ ∀ c ∈ fl, is_chunk s b c ∧ c ∉ out := by
  obtain ⟨h1, h2⟩ := block_from_pointer_inside s out hc a b hm q hq
  have hok : block_ok s out b := hc.blocks_ok (a, b) hm
  obtain ⟨fl2, f1, f2, f3, f4⟩ := hok.free_list
  have := free_chain_unique s.mem fl fl2 _ hfl f1
  subst this
  refine ⟨?_, f2, f3, f4⟩
  unfold memory_pool.dump_free_list
  rw [h1]
  simp only [h2]
  by_cases h0 : b.available_chunks = 0
  · rw [if_pos h0]
    have : fl = [] := List.eq_nil_of_length_eq_zero (by omega)
    subst this
    rfl
  · rw [if_neg h0]
    have hne : fl ≠ [] := by
      intro h
      subst h
      simp at f2
      exact h0 f2.symm
    have hch : b.available_chunks + b.used_chunks = s.block_size / s.chunk_size := hok.chunks
    rw [dump_free_list_loop_spec s.mem fl _ _ hne hfl (by omega)]

/-! ## Every chunk is free or outstanding -/

/-- The outstanding pointers inside the region of a block are chunks of that
block. -/
theorem out_chunk_of_block (s : memory_pool) (out : List Nat) (hc : pool_core s out)
    (e : Nat × block) (he : e ∈ s.blocks) (p : Nat) (hp : p ∈ out)
    (hin : in_block e.2 p = true) : is_chunk s e.2 p := by
  obtain ⟨e2, he2, hc2, h1, h2⟩ := out_in_block s out hc p hp
  by_cases heq : e2 = e
  · subst heq; exact hc2
  · have hap := separated_pair s.blocks hc.wf.keys_nodup hc.is_separated e2 e he2 he heq
    have hcs8 : 8 ≤ s.chunk_size := hc.chunk_ge
    simp only [in_block, decide_eq_true_eq] at hin
    unfold apart at hap
    omega

/-- In a state of the invariant each chunk of a block is on the free list of
the block or outstanding. -/
theorem chunk_free_or_out (s : memory_pool) (out : List Nat) (hc : pool_core s out)
    (e : Nat × block) (he : e ∈ s.blocks) (fl : List Nat)
    (hfl : free_chain s.mem e.2.next_free_chunk fl) (c : Nat) (hcc : is_chunk s e.2 c) :
    c ∈ fl ∨ c ∈ out := by
  obtain ⟨hcs8, hmul, hN⟩ := inv_sizes s out hc
  have hok := hc.blocks_ok e he
  obtain ⟨fl2, f1, f2, f3, f4⟩ := hok.free_list
  have := free_chain_unique s.mem fl fl2 _ hfl f1
  subst this
  have hnd : (fl ++ out.filter (in_block e.2)).Nodup := by
    rw [List.nodup_append]
    refine ⟨f3, List.Nodup.filter _ hc.out_nodup, ?_⟩
    intro x hx hx2
    exact (f4 x hx).2 (List.mem_filter.mp hx2).1
  have hsub : fl ++ out.filter (in_block e.2) ⊆
      (List.range' 0 (s.block_size / s.chunk_size)).map
        (fun i => e.2.block_beginning + i * s.chunk_size) := by
    intro x hx
    rw [mem_chunk_range]
    have hxc : is_chunk s e.2 x := by
      rcases List.mem_append.mp hx with h | h
      · exact (f4 x h).1
      · have := List.mem_filter.mp h
        exact out_chunk_of_block s out hc e he x this.1 this.2
    obtain ⟨i, hi, rfl⟩ := hxc
    exact ⟨i, by omega, by omega, rfl⟩
  have hperm := (List.subperm_of_subset hnd hsub).perm_of_length_le (by
    rw [List.length_append, ← List.countP_eq_length_filter, hok.used_count, f2, hok.chunks]
    simp)
  have hmem : c ∈ fl ++ out.filter (in_block e.2) := by
    rw [hperm.mem_iff, mem_chunk_range]
    obtain ⟨i, hi, rfl⟩ := hcc
    exact ⟨i, by omega, by omega, rfl⟩
  rcases List.mem_append.mp hmem with h | h
  · exact Or.inl h
  · exact Or.inr (List.mem_filter.mp h).1

/-! ## How `alloc` and `release` change the free list of a block -/

/-- The free list of a block, read off its invariant. -/
theorem free_list_of_chain (s : memory_pool) (out : List Nat) (hc : pool_core s out)
    (a : Nat) (b : block) (hm : (a, b) ∈ s.blocks) (fl : List Nat)
    (hfl : free_chain s.mem b.next_free_chunk fl) :
    fl.length = b.available_chunks ∧ fl.Nodup ∧ ∀ c ∈ fl, is_chunk s b c ∧ c ∉ out := by
  have hok : block_ok s out b := hc.blocks_ok (a, b) hm
  obtain ⟨fl2, f1, f2, f3, f4⟩ := hok.free_list
  have := free_chain_unique s.mem fl fl2 _ hfl f1
  subst this
  exact ⟨f2, f3, f4⟩

/-- After `alloc` took the head of a free list, the rest is the free list. -/
theorem alloc_existing_chain (s : memory_pool) (out : List Nat) (hc : pool_core s out)
    (a : Nat) (b : block) (hm : (a, b) ∈ s.blocks) (c : Nat) (rest : List Nat)
    (hfl : free_chain s.mem b.next_free_chunk (c :: rest)) (bytes : List Nat)
    (hlen : bytes.length ≤ s.chunk_size) :
    b.next_free_chunk = c ∧ b.available_chunks = rest.length + 1 ∧
      free_chain (write_bytes s.mem c bytes) (read_word s.mem c) rest := by
  obtain ⟨f2, f3, f4⟩ := free_list_of_chain s out hc a b hm _ hfl
  obtain ⟨g1, _, g3⟩ := hfl
  rw [List.nodup_cons] at f3
  refine ⟨g1, by simpa using f2.symm, ?_⟩
  apply free_chain_congr s.mem _ rest _ _ g3
  intro c2 hc2 x hx1 hx2
  have hne : c2 ≠ c := fun h => f3.1 (h ▸ hc2)
  have := chunk_apart s b c2 c (f4 c2 (List.mem_cons_of_mem _ hc2)).1
    (f4 c (List.mem_cons_self _ _)).1 hne
  have hcs8 : 8 ≤ s.chunk_size := hc.chunk_ge
  rw [write_bytes_outside _ _ _ _ (by omega)]

/-- A release that keeps the block stores the old head of the free list in
the released chunk, which becomes the new head. -/
theorem release_keep_chain (s : memory_pool) (out : List Nat) (hc : pool_core s out)
    (a : Nat) (b : block) (hm : (a, b) ∈ s.blocks) (p : Nat) (hp : p ∈ out)
    (hpc : is_chunk s b p) (fl : List Nat) (hfl : free_chain s.mem b.next_free_chunk fl) :
    (if incr b.available_chunks = 1 then 0 else b.next_free_chunk) = b.next_free_chunk ∧
      free_chain (write_word s.mem p b.next_free_chunk) p (p :: fl) := by
  obtain ⟨hcs8, hmul, hN⟩ := inv_sizes s out hc
  obtain ⟨f2, f3, f4⟩ := free_list_of_chain s out hc a b hm _ hfl
  have hok : block_ok s out b := hc.blocks_ok (a, b) hm
  have hpb := chunk_bounds s b p hc.fits hok.end_eq hpc
  have hend : b.block_end = b.block_beginning + s.block_size := hok.end_eq
  have hlt : b.block_end < size_max := hok.end_lt
  have hbn : b.block_beginning ≠ 0 := hok.base_ne
  have hch : b.available_chunks + b.used_chunks = s.block_size / s.chunk_size := hok.chunks
  have hNle : s.block_size / s.chunk_size ≤ s.block_size := Nat.div_le_self _ _
  have hpfl : p ∉ fl := fun h => (f4 p h).2 hp
  have hnfc : b.next_free_chunk < size_max := by
    cases fl with
    | nil => simp only [free_chain] at hfl; rw [hfl]; unfold size_max; omega
    | cons c rest =>
      obtain ⟨g1, _, _⟩ := hfl
      have := chunk_bounds s b c hc.fits hok.end_eq (f4 c (List.mem_cons_self _ _)).1
      omega
  constructor
  · by_cases h1 : incr b.available_chunks = 1
    · rw [if_pos h1]
      rw [incr_eq _ (by omega)] at h1
      have : fl = [] := List.eq_nil_of_length_eq_zero (by omega)
      subst this
      simp only [free_chain] at hfl
      exact hfl.symm
    · rw [if_neg h1]
  · refine ⟨rfl, by omega, ?_⟩
    rw [read_write_word_same _ _ _ hnfc]
    apply free_chain_congr s.mem _ fl _ _ hfl
    intro c2 hc2 x hx1 hx2
    have hne : c2 ≠ p := fun h => hpfl (h ▸ hc2)
    have := chunk_apart s b c2 p (f4 c2 hc2).1 hpc hne
    rw [write_word_outside _ _ _ _ (by omega)]

/-! ## Pools with one block -/

/-- In a pool with one block, `alloc` takes the head of the free list of that
block. -/
theorem alloc_single (s : memory_pool) (out : List Nat) (hinv : pool_inv s out)
    (a : Nat) (b : block) (hs : s.blocks = [(a, b)]) (c : Nat) (rest : List Nat)
    (hfl : free_chain s.mem b.next_free_chunk (c :: rest)) (hdr reg : Nat) (val : List Nat) :
    ∃ s1 b1, s.alloc hdr reg val = some (.ok c, s1) ∧ s1.blocks = [(a, b1)] ∧
      b1.block_beginning = b.block_beginning ∧ b1.block_end = b.block_end ∧
      b1.available_chunks = rest.length ∧
      pool_inv s1 (c :: out) ∧ free_chain s1.mem b1.next_free_chunk rest ∧
      s1.block_size = s.block_size ∧ s1.chunk_size = s.chunk_size := by
  have hc := hinv.core
  have hm : (a, b) ∈ s.blocks := by rw [hs]; simp
  have hlen : (val.take s.targs.sizeof_T).length ≤ s.chunk_size := by
    rw [List.length_take]
    have := hc.elem_fits
    omega
  obtain ⟨h1, h2, h3⟩ := alloc_existing_chain s out hc a b hm c rest hfl _ hlen
  have hb : b.available_chunks ≠ 0 := by omega
  have hs1 : s.blocks = [] ++ (a, b) :: [] := hs
  have hg := get_available_chunk_existing s hdr reg hc.wf [] [] a b hs1 (by simp) hb
  have hi := alloc_existing_inv s out hinv [] [] a b hs1 hb _ hlen
  rw [h1] at hg hi
  refine ⟨_, b.take s.chunk_size s.mem, ?_, rfl, rfl, rfl, ?_, hi, ?_, rfl, rfl⟩
  · unfold memory_pool.alloc
    rw [hg]
  · show decr b.available_chunks = rest.length
    rw [decr_eq _ (by omega)]
    omega
  · show free_chain (write_bytes s.mem c _) (read_word s.mem b.next_free_chunk) rest
    rw [h1]
    exact h3

/-- In a pool with one block, `release` of an outstanding pointer puts the
chunk at the head of the free list of that block. -/
theorem release_single (s : memory_pool) (out : List Nat) (hinv : pool_inv s out)
    (a : Nat) (b : block) (hs : s.blocks = [(a, b)]) (fl : List Nat)
    (hfl : free_chain s.mem b.next_free_chunk fl) (p : Nat) (hp : p ∈ out) :
    ∃ r b1, s.release p = some r ∧ r.error = none ∧ r.ptr = 0 ∧ r.pool.blocks = [(a, b1)] ∧
      b1.block_beginning = b.block_beginning ∧ b1.block_end = b.block_end ∧
      pool_inv r.pool (out.erase p) ∧ free_chain r.pool.mem b1.next_free_chunk (p :: fl) ∧
      r.pool.block_size = s.block_size ∧ r.pool.chunk_size = s.chunk_size := by
  have hc := hinv.core
  have hm : (a, b) ∈ s.blocks := by rw [hs]; simp
  obtain ⟨e, he, hce, hb1, hb2⟩ := out_in_block s out hc p hp
  rw [hs] at he
  simp only [List.mem_singleton] at he
  subst he
  simp only at hce hb1 hb2
  have hok : block_ok s out b := hc.blocks_ok (a, b) hm
  have hbn : b.block_beginning ≠ 0 := hok.base_ne
  have hcs8 : 8 ≤ s.chunk_size := hc.chunk_ge
  have hs1 : s.blocks = [] ++ (a, b) :: [] := hs
  have hr := release_keep s p hc.wf (by omega) [] [] a b hs1 (by simp) ⟨hb1, by omega⟩
    (Or.inr ⟨rfl, rfl⟩)
  have hi := release_keep_inv s out hinv p hp [] [] a b hs1 hce (Or.inr ⟨rfl, rfl⟩)
  obtain ⟨hv, hch⟩ := release_keep_chain s out hc a b hm p hp hce fl hfl
  rw [hv] at hr hi
  exact ⟨_, _, hr, rfl, rfl, rfl, rfl, rfl, hi, hch, rfl, rfl⟩

/-! ## The block list under arbitrary calls -/

theorem linked_keys_ne (H : header_heap) :
    ∀ (first prev : Nat), linked first prev H → ∀ k ∈ hdr_keys H, k ≠ 0 := by
  induction H with
  | nil => intro _ _ _ k hk; simp [hdr_keys] at hk
  | cons e rest ih =>
    intro first prev hl k hk
    obtain ⟨_, h2, _, h4⟩ := hl
    rw [hdr_keys_cons] at hk
    rcases List.mem_cons.mp hk with h | h
    · rw [h]; exact h2
    · exact ih _ _ h4 k h

/-- A list of pairwise distinct positive numbers below `n` has fewer than `n`
members. -/
theorem nodup_bounded_length (l : List Nat) (n : Nat) (hn : 0 < n) (hnd : l.Nodup)
    (h : ∀ x ∈ l, x ≠ 0 ∧ x < n) : l.length < n := by
  have hsub : l.toFinset ⊆ Finset.Ico 1 n := by
    intro x hx
    rw [List.mem_toFinset] at hx
    have := h x hx
    rw [Finset.mem_Ico]
    omega
  have hcard := Finset.card_le_card hsub
  rw [List.toFinset_card_of_nodup hnd, Nat.card_Ico] at hcard
  omega

theorem block_count_wf (s : memory_pool) (hw : list_wf s)
    (hlen : s.blocks.length < size_max) : s.block_count = some s.blocks.length := by
  have := block_count_loop_spec s.blocks hw.keys_nodup s.blocks [] s.first_block 0
    s.blocks.length 0 rfl hw.nonempty hw.is_linked (le_refl _) (by omega)
  rw [Nat.zero_add] at this
  exact this

/-- The structure that every call keeps: a well-formed block list of headers
whose addresses are below `2 ^ 64`. -/
theorem block_count_called (s : memory_pool) (hw : list_wf s)
    (hb : ∀ k ∈ hdr_keys s.blocks, k < size_max) :
    s.block_count = some s.blocks.length ∧ 1 ≤ s.blocks.length := by
  have hne := linked_keys_ne s.blocks _ _ hw.is_linked
  have hlen := nodup_bounded_length (hdr_keys s.blocks) size_max (by decide) hw.keys_nodup
    (fun x hx => ⟨hne x hx, hb x hx⟩)
  simp only [hdr_keys, List.length_map] at hlen
  exact ⟨block_count_wf s hw hlen, List.length_pos.mpr hw.nonempty⟩

/-- The headers that remain after a block was retired form a well-formed
list. -/
theorem retire_wf (s : memory_pool) (hw : list_wf s) (pre post : header_heap) (a : Nat)
    (b : block) (hs : s.blocks = pre ++ (a, b) :: post) (first1 : Nat) (L1 : header_heap)
    (hne : L1 ≠ []) (hlink : linked first1 0 L1)
    (hkeys : hdr_keys L1 = hdr_keys (pre ++ post)) :
    list_wf { s with first_block := first1, blocks := L1 } := by
  refine ⟨hne, ?_, hlink⟩
  show (hdr_keys L1).Nodup
  rw [hkeys]
  have := hw.keys_nodup
  rw [hs] at this
  exact List.Nodup.sublist
    (List.Sublist.map _ (List.Sublist.append_left (List.sublist_cons_self _ _) pre)) this

/-- On a well-formed block list `release` returns for every argument, throws
at most the out-of-range error (leaving the pool as it was), and leaves a
well-formed block list whose headers are among the former ones. -/
theorem release_wf (s : memory_pool) (p : Nat) (hw : list_wf s) :
    ∃ r, s.release p = some r ∧ list_wf r.pool ∧
      (∀ k ∈ hdr_keys r.pool.blocks, k ∈ hdr_keys s.blocks) ∧
      (r.error = none ∨ (r.error = some .not_in_pool ∧ r.pool = s ∧ r.ptr = p)) ∧
      ((∃ e ∈ s.blocks, e.2.block_beginning ≤ p ∧ p ≤ e.2.block_end) → r.error = none) := by
  by_cases hp : p = 0
  · refine ⟨⟨none, s, p, false⟩, ?_, hw, fun _ h => h, Or.inl rfl, fun _ => rfl⟩
    unfold memory_pool.release
    rw [if_pos hp]
  cases hfind : s.blocks.find?
      (fun e => decide (p ≥ e.2.block_beginning ∧ p ≤ e.2.block_end)) with
  | none =>
    rw [List.find?_eq_none] at hfind
    have hno : ∀ e ∈ s.blocks, ¬ (p ≥ e.2.block_beginning ∧ p ≤ e.2.block_end) := by
      intro e he
      have := hfind e he
      simp only [decide_eq_true_eq] at this
      exact this
    refine ⟨⟨some .not_in_pool, s, p, false⟩, ?_, hw, fun _ h => h, Or.inr ⟨rfl, rfl, rfl⟩, ?_⟩
    · unfold memory_pool.release
      rw [if_neg hp, block_from_pointer_none s p hw hno]
    · rintro ⟨e, he, h1, h2⟩
      exact absurd ⟨h1, h2⟩ (hno e he)
  | some e =>
    obtain ⟨a, b⟩ := e
    rw [List.find?_eq_some] at hfind
    obtain ⟨hb0, pre, post, hs, hpre0⟩ := hfind
    have hb : p ≥ b.block_beginning ∧ p ≤ b.block_end := by simpa using hb0
    have hpre : ∀ e ∈ pre, ¬ (p ≥ e.2.block_beginning ∧ p ≤ e.2.block_end) := by
      intro e he
      have := hpre0 e he
      simp only [Bool.not_eq_true', decide_eq_false_iff_not] at this
      exact this
    have hlk := hw.is_linked
    by_cases hkeep : decr b.used_chunks ≠ 0 ∨ (pre = [] ∧ post = [])
    · refine ⟨_, release_keep s p hw hp pre post a b hs hpre hb hkeep, ?_, ?_, Or.inl rfl,
        fun _ => rfl⟩
      · exact list_wf_update s pre post a b _ _ hs hw rfl rfl
      · intro k hk
        rw [hs]
        rw [hdr_keys_update pre post a b] at hk
        exact hk
    · simp only [not_or, not_not, not_and] at hkeep
      obtain ⟨hz, hns⟩ := hkeep
      have hsubkeys : ∀ k ∈ hdr_keys (pre ++ post), k ∈ hdr_keys s.blocks := by
        intro k hk
        rw [hs]
        rw [hdr_keys_append] at hk ⊢
        rcases List.mem_append.mp hk with h | h
        · exact List.mem_append_left _ h
        · exact List.mem_append_right _ (by rw [hdr_keys_cons]; exact List.mem_cons_of_mem _ h)
      rcases list_cases_snoc pre with hpn | ⟨pre1, a0, b0, hpn⟩
      · subst hpn
        cases post with
        | nil => exact absurd rfl (hns rfl)
        | cons e2 post1 =>
          obtain ⟨a2, b2⟩ := e2
          have hs0 : s.blocks = (a, b) :: (a2, b2) :: post1 := hs
          have hk : hdr_keys ((a2, { b2 with previous_block := 0 }) :: post1) =
              hdr_keys ([] ++ (a2, b2) :: post1) := by simp [hdr_keys]
          refine ⟨_, release_retire_head s p hw hp post1 a a2 b b2 hs0 hb hz, ?_, ?_,
            Or.inl rfl, fun _ => rfl⟩
          · rw [hs0] at hlk
            obtain ⟨_, _, _, h4, h5, _, h7⟩ := hlk
            simp only at h4 h5 h7
            exact retire_wf s hw [] ((a2, b2) :: post1) a b hs a2
              ((a2, { b2 with previous_block := 0 }) :: post1) (by simp) ⟨rfl, h5, rfl, h7⟩ hk
          · intro k hk2
            apply hsubkeys
            rw [← hk]
            exact hk2
      · subst hpn
        cases post with
        | nil =>
          have hs0 : s.blocks = pre1 ++ [(a0, b0), (a, b)] := by rw [hs]; simp
          have hk : hdr_keys (pre1 ++ [(a0, { b0 with next_block := 0 })]) =
              hdr_keys ((pre1 ++ [(a0, b0)]) ++ []) := by simp [hdr_keys]
          refine ⟨_, release_retire_tail s p hw hp pre1 a0 a b0 b hs0 hpre hb hz, ?_, ?_,
            Or.inl rfl, fun _ => rfl⟩
          · rw [hs0, linked_append] at hlk
            obtain ⟨nxt, lastk, h1, h2, h3, h4, _⟩ := hlk
            simp only at h2 h3 h4
            show list_wf { s with
              first_block := s.first_block
              blocks := pre1 ++ [(a0, { b0 with next_block := 0 })] }
            refine retire_wf s hw (pre1 ++ [(a0, b0)]) [] a b hs s.first_block
              (pre1 ++ [(a0, { b0 with next_block := 0 })]) (by simp) ?_ hk
            rw [linked_append]
            exact ⟨nxt, lastk, h1, h2, h3, h4, rfl⟩
          · intro k hk2
            apply hsubkeys
            rw [← hk]
            exact hk2
        | cons e2 post1 =>
          obtain ⟨a2, b2⟩ := e2
          have hs0 : s.blocks = pre1 ++ (a0, b0) :: (a, b) :: (a2, b2) :: post1 := by
            rw [hs]; simp
          have hk : hdr_keys (pre1 ++ (a0, { b0 with next_block := a2 }) ::
              (a2, { b2 with previous_block := a0 }) :: post1) =
              hdr_keys ((pre1 ++ [(a0, b0)]) ++ (a2, b2) :: post1) := by simp [hdr_keys]
          refine ⟨_, release_retire_mid s p hw hp pre1 post1 a0 a a2 b0 b b2 hs0 hpre hb hz,
            ?_, ?_, Or.inl rfl, fun _ => rfl⟩
          · rw [hs0, linked_append] at hlk
            obtain ⟨nxt, lastk, h1, h2, h3, h4, _, _, _, _, h9, _, h11⟩ := hlk
            simp only at h2 h3 h4 h9 h11
            show list_wf { s with
              first_block := s.first_block
              blocks := pre1 ++ (a0, { b0 with next_block := a2 }) ::
                (a2, { b2 with previous_block := a0 }) :: post1 }
            refine retire_wf s hw (pre1 ++ [(a0, b0)]) ((a2, b2) :: post1) a b hs s.first_block
              (pre1 ++ (a0, { b0 with next_block := a2 }) ::
                (a2, { b2 with previous_block := a0 }) :: post1) (by simp) ?_ hk
            rw [linked_append]
            exact ⟨nxt, lastk, h1, h2, h3, h4, rfl, h9, rfl, h11⟩
          · intro k hk2
            apply hsubkeys
            rw [← hk]
            exact hk2

/-- When every block is saturated and a system allocation fails,
`get_available_chunk` throws. -/
theorem get_available_chunk_grow_fail (s : memory_pool) (hdr reg : Nat) (hw : list_wf s)
    (pre : header_heap) (a : Nat) (b : block) (hs : s.blocks = pre ++ [(a, b)])
    (hall : ∀ e ∈ s.blocks, e.2.available_chunks = 0) (h0 : hdr = 0 ∨ reg = 0) :
    ∃ e s1, s.get_available_chunk hdr reg = some (.error e, s1) := by
  have hk := keys_split pre [] a b (hs ▸ hw.keys_nodup)
  have hfind : s.blocks.find? (fun e => decide (e.2.available_chunks ≠ 0)) = none := by
    rw [List.find?_eq_none]
    intro e he
    simp [hall e he]
  have hloop := available_block_loop_spec s.blocks hw.keys_nodup s.blocks [] s.first_block 0
    s.blocks.length rfl hw.nonempty hw.is_linked (le_refl _)
  rw [hfind] at hloop
  have hlast : s.blocks.getLast? = some (a, b) := by rw [hs]; simp
  simp only [hlast, Option.map_some'] at hloop
  have hrd : hdr_read s.blocks a = some b := by rw [hs]; exact hdr_read_mid pre [] a b hk.1
  have hb0 : b.available_chunks = 0 := hall (a, b) (by rw [hs]; simp)
  unfold memory_pool.get_available_chunk
  simp only [hloop, hrd, if_pos hb0]
  unfold memory_pool.allocate_block
  by_cases hh : hdr = 0
  · simp only [if_pos hh]
    exact ⟨_, _, rfl⟩
  · have hr : reg = 0 := by
      rcases h0 with h | h
      · exact absurd h hh
      · exact h
    simp only [if_neg hh, if_pos hr]
    exact ⟨_, _, rfl⟩

/-- On a well-formed block list an `alloc` that returns a chunk leaves a
well-formed block list: the headers are the former ones, followed by the new
header when the call created a block. -/
theorem alloc_wf (s : memory_pool) (hdr reg : Nat) (val : List Nat) (p : Nat)
    (s1 : memory_pool) (hw : list_wf s) (hnew : hdr ∉ hdr_keys s.blocks)
    (h : s.alloc hdr reg val = some (.ok p, s1)) :
    list_wf s1 ∧
      (hdr_keys s1.blocks = hdr_keys s.blocks ∨
        hdr_keys s1.blocks = hdr_keys s.blocks ++ [hdr]) := by
  cases hfind : s.blocks.find? (fun e => decide (e.2.available_chunks ≠ 0)) with
  | some e =>
    obtain ⟨a, b⟩ := e
    rw [List.find?_eq_some] at hfind
    obtain ⟨hb, pre, post, hs, hpre⟩ := hfind
    have hb2 : b.available_chunks ≠ 0 := by simpa using hb
    have hpre2 : ∀ e ∈ pre, e.2.available_chunks = 0 := by
      intro e he
      have := hpre e he
      simpa using this
    have hg := get_available_chunk_existing s hdr reg hw pre post a b hs hpre2 hb2
    unfold memory_pool.alloc at h
    rw [hg] at h
    simp only [Option.some.injEq, Prod.mk.injEq, Except.ok.injEq] at h
    rw [← h.2]
    refine ⟨list_wf_update s pre post a b _ _ hs hw rfl rfl, Or.inl ?_⟩
    show hdr_keys (pre ++ (a, b.take s.chunk_size s.mem) :: post) = hdr_keys s.blocks
    rw [hs]
    exact hdr_keys_update pre post a b _
  | none =>
    rw [List.find?_eq_none] at hfind
    have hall : ∀ e ∈ s.blocks, e.2.available_chunks = 0 := by
      intro e he
      have := hfind e he
      simpa using this
    rcases list_cases_snoc s.blocks with hnil | ⟨pre, a, b, hs⟩
    · exact absurd hnil hw.nonempty
    · by_cases h0 : hdr = 0 ∨ reg = 0
      · obtain ⟨e, s2, hfail⟩ := get_available_chunk_grow_fail s hdr reg hw pre a b hs hall h0
        unfold memory_pool.alloc at h
        rw [hfail] at h
        simp at h
      · simp only [not_or] at h0
        have hg := get_available_chunk_grow s hdr reg hw pre a b hs hall h0.1 hnew h0.2
        unfold memory_pool.alloc at h
        rw [hg] at h
        simp only [Option.some.injEq, Prod.mk.injEq, Except.ok.injEq] at h
        rw [← h.2]
        have hkeys : hdr_keys (pre ++ [(a, { b with next_block := hdr }),
            (hdr, (block.init s.block_size s.chunk_size reg a).take s.chunk_size
              (init_mem s.block_size s.chunk_size reg s.mem))]) =
            hdr_keys s.blocks ++ [hdr] := by
          rw [hs]
          simp [hdr_keys]
        refine ⟨⟨by simp, ?_, ?_⟩, Or.inr hkeys⟩
        · show (hdr_keys (pre ++ [(a, { b with next_block := hdr }),
            (hdr, (block.init s.block_size s.chunk_size reg a).take s.chunk_size
              (init_mem s.block_size s.chunk_size reg s.mem))])).Nodup
          rw [hkeys, List.nodup_append]
          refine ⟨hw.keys_nodup, by simp, ?_⟩
          intro x hx hx2
          simp only [List.mem_singleton] at hx2
          subst hx2
          exact hnew hx
        · show linked s.first_block 0 (pre ++ [(a, { b with next_block := hdr }),
            (hdr, (block.init s.block_size s.chunk_size reg a).take s.chunk_size
              (init_mem s.block_size s.chunk_size reg s.mem))])
          have hl := hw.is_linked
          rw [hs, linked_append] at hl
          obtain ⟨nxt, lastk, h1, h2, h3, h4, _⟩ := hl
          rw [linked_append]
          exact ⟨nxt, lastk, h1, h2, h3, h4, rfl, h0.1, rfl, rfl⟩

/-- Every state that arises from calls of `alloc` and `release` has a
well-formed block list whose header addresses are below `2 ^ 64`. -/
theorem called_wf (s : memory_pool) (h : called s) :
    list_wf s ∧ ∀ k ∈ hdr_keys s.blocks, k < size_max := by
  induction h with
  | create targs bs cs m hdr reg s hlt hcr =>
    have hc0 : cs ≠ 0 := by
      intro h0
      simp [memory_pool.create, h0] at hcr
    have hfit : bs % cs = 0 := by
      by_contra hne
      simp [memory_pool.create, hc0, hne] at hcr
    have hcs : sizeof_ptr ≤ cs := by
      by_contra hne
      simp [memory_pool.create, hc0, hfit, hne] at hcr
    have hh : hdr ≠ 0 := by
      intro h0
      simp [memory_pool.create, hc0, hfit, hcs, memory_pool.allocate_block, h0] at hcr
    have hr : reg ≠ 0 := by
      intro h0
      simp [memory_pool.create, hc0, hfit, hcs, memory_pool.allocate_block, hh, h0] at hcr
    rw [create_ok targs bs cs m hdr reg hcs hfit hh hr] at hcr
    simp only [Option.some.injEq, Except.ok.injEq] at hcr
    subst hcr
    refine ⟨⟨by simp, by simp [hdr_keys], linked_single hdr _ 0 hh rfl rfl⟩, ?_⟩
    intro k hk
    simp only [hdr_keys, List.map_cons, List.map_nil, List.mem_singleton] at hk
    rw [hk]
    exact hlt
  | alloc s hdr reg val p s1 _ hlt hnew ha ih =>
    obtain ⟨h1, h2⟩ := alloc_wf s hdr reg val p s1 ih.1 hnew ha
    refine ⟨h1, ?_⟩
    intro k hk
    rcases h2 with h2 | h2
    · rw [h2] at hk
      exact ih.2 k hk
    · rw [h2] at hk
      rcases List.mem_append.mp hk with h3 | h3
      · exact ih.2 k h3
      · simp only [List.mem_singleton] at h3
        rw [h3]
        exact hlt
  | release s p r _ hr ih =>
    obtain ⟨r2, h1, h2, h3, _⟩ := release_wf s p ih.1
    rw [h1] at hr
    simp only [Option.some.injEq] at hr
    subst hr
    exact ⟨h2, fun k hk => ih.2 k (h3 k hk)⟩
  | store s m _ ih =>
    exact ⟨⟨ih.1.nonempty, ih.1.keys_nodup, ih.1.is_linked⟩, ih.2⟩

/-! ## Counting blocks and reading counters under the invariant -/

/-- Under the invariant the pool has fewer than `2 ^ 64` blocks: the regions
start at pairwise distinct non-null addresses below `2 ^ 64`. -/
theorem inv_length_lt (s : memory_pool) (out : List Nat) (hc : pool_core s out) :
    s.blocks.length < size_max := by
  have hsep : (regions s.blocks).Pairwise (fun r1 r2 => r1.2 < r2.1 ∨ r2.2 < r1.1) :=
    hc.is_separated
  have hb : ∀ e ∈ s.blocks, e.2.block_beginning ≠ 0 ∧ e.2.block_beginning < size_max ∧
      e.2.block_beginning ≤ e.2.block_end := by
    intro e he
    have hok : block_ok s out e.2 := hc.blocks_ok e he
    have h1 := hok.end_eq
    have h2 := hok.end_lt
    exact ⟨hok.base_ne, by omega, by omega⟩
  have hnd : (s.blocks.map (fun e => e.2.block_beginning)).Nodup := by
    unfold regions at hsep
    rw [List.pairwise_map] at hsep
    unfold List.Nodup
    rw [List.pairwise_map]
    refine List.Pairwise.imp_of_mem ?_ hsep
    intro e1 e2 h1 h2 h
    have g1 := (hb e1 h1).2.2
    have g2 := (hb e2 h2).2.2
    simp only at h
    omega
  have := nodup_bounded_length _ size_max (by decide) hnd (by
    intro x hx
    rw [List.mem_map] at hx
    obtain ⟨e, he, rfl⟩ := hx
    exact ⟨(hb e he).1, (hb e he).2.1⟩)
  simpa using this

/-- Under the invariant `block_count` returns the number of blocks. -/
theorem block_count_inv (s : memory_pool) (out : List Nat) (hc : pool_core s out) :
    s.block_count = some s.blocks.length :=
  block_count_wf s hc.wf (inv_length_lt s out hc)

/-- Under the invariant the accessors of a block return the fields of its
header for every address inside the region. -/
theorem field_of_block_inside (s : memory_pool) (out : List Nat) (hc : pool_core s out)
    (a : Nat) (b : block) (hm : (a, b) ∈ s.blocks) (q : Nat)
    (hq : b.block_beginning ≤ q ∧ q ≤ b.block_end) (field : block → Nat) :
    s.field_of_block q field = some (.ok (field b)) := by
  obtain ⟨h1, h2⟩ := block_from_pointer_inside s out hc a b hm q hq
  unfold memory_pool.field_of_block
  rw [h1]
  simp only [h2]

/-! ## The entries of a full free list -/

theorem zip_chunk_range (reg cs N : Nat) : ∀ (n k : Nat), k + n = N →
    ((List.range' k n).map (fun i => reg + i * cs)).zip
      (((List.range' k n).map (fun i => reg + i * cs)).tail ++ [0]) =
    (List.range' k n).map
      (fun i => (reg + i * cs, if i + 1 < N then reg + (i + 1) * cs else 0)) := by
  intro n
  induction n with
  | zero => intro k _; rfl
  | succ n ih =>
    intro k hk
    cases n with
    | zero =>
      have : ¬ (k + 1 < N) := by omega
      simp [List.range', this]
    | succ n1 =>
      have h := ih (k + 1) (by omega)
      have hlt : k + 1 < N := by omega
      rw [List.range'_succ, List.map_cons, List.map_cons, List.tail_cons]
      rw [List.range'_succ, List.map_cons, List.cons_append, List.zip_cons_cons, if_pos hlt]
      rw [List.range'_succ, List.map_cons, List.tail_cons] at h
      rw [← List.range'_succ, h, List.range'_succ]

/-- The entries that `dump_free_list` reports for the free list that walks
all chunks of a region in address order. -/
theorem zip_full_free_list (reg cs n : Nat) :
    ((List.range' 0 n).map (fun i => reg + i * cs)).zip
      (((List.range' 0 n).map (fun i => reg + i * cs)).tail ++ [0]) =
    full_free_list reg cs n := by
  rw [zip_chunk_range reg cs n n 0 (by omega), ← List.range_eq_range']
  rfl

/-! ## Lists of headers that differ in their links only -/

theorem forall2_append {α β : Type} (R : α → β → Prop) :
    ∀ (l1 : List α) (l1b : List β) (l2 : List α) (l2b : List β),
      List.Forall₂ R l1 l1b → List.Forall₂ R l2 l2b →
      List.Forall₂ R (l1 ++ l2) (l1b ++ l2b) := by
  intro l1 l1b l2 l2b h1 h2
  induction h1 with
  | nil => exact h2
  | cons h _ ih => exact List.Forall₂.cons h ih

theorem forall2_same (l : header_heap) :
    List.Forall₂ (fun e e1 : Nat × block => e1.1 = e.1 ∧ same_body e.2 e1.2) l l := by
  induction l with
  | nil => exact List.Forall₂.nil
  | cons e l ih => exact List.Forall₂.cons ⟨rfl, same_body_refl _⟩ ih

theorem forall2_mem {α β : Type} (R : α → β → Prop) (l : List α) (lb : List β)
    (h : List.Forall₂ R l lb) : ∀ e ∈ l, ∃ e1 ∈ lb, R e e1 := by
  induction h with
  | nil => intro e he; simp at he
  | cons hr _ ih =>
    intro e he
    rcases List.mem_cons.mp he with h1 | h1
    · subst h1
      exact ⟨_, List.mem_cons_self _ _, hr⟩
    · obtain ⟨e1, g1, g2⟩ := ih e h1
      exact ⟨e1, List.mem_cons_of_mem _ g1, g2⟩

/-! ## The block list after a block was retired -/

/-- A `release` that takes the last used chunk of a block out of a pool with
several blocks leaves the other headers, in their order, changed at most in
their list pointers, and leaves the memory as it is. -/
theorem release_retire_shape (s : memory_pool) (p : Nat) (hw : list_wf s) (hp0 : p ≠ 0)
    (pre post : header_heap) (a : Nat) (b : block) (hs : s.blocks = pre ++ (a, b) :: post)
    (hpre : ∀ e ∈ pre, ¬ (p ≥ e.2.block_beginning ∧ p ≤ e.2.block_end))
    (hb : p ≥ b.block_beginning ∧ p ≤ b.block_end) (hu : b.used_chunks = 1)
    (hns : ¬ (pre = [] ∧ post = [])) :
    ∃ r, s.release p = some r ∧ r.error = none ∧ r.pool.mem = s.mem ∧
      List.Forall₂ (fun e e1 : Nat × block => e1.1 = e.1 ∧ same_body e.2 e1.2)
        (pre ++ post) r.pool.blocks ∧
      (pre = [] → r.pool.first_block = b.next_block) ∧
      (pre ≠ [] → r.pool.first_block = s.first_block) := by
  have hz : decr b.used_chunks = 0 := by rw [hu]; rfl
  have hlk := hw.is_linked
  rcases list_cases_snoc pre with hpn | ⟨pre1, a0, b0, hpn⟩
  · subst hpn
    cases post with
    | nil => exact absurd ⟨rfl, rfl⟩ hns
    | cons e2 post1 =>
      obtain ⟨a2, b2⟩ := e2
      have hs0 : s.blocks = (a, b) :: (a2, b2) :: post1 := hs
      rw [hs0] at hlk
      obtain ⟨_, _, _, h4, _⟩ := hlk
      simp only at h4
      refine ⟨_, release_retire_head s p hw hp0 post1 a a2 b b2 hs0 hb hz, rfl, rfl, ?_,
        fun _ => h4.symm, fun h => absurd rfl h⟩
      exact List.Forall₂.cons ⟨rfl, rfl, rfl, rfl, rfl, rfl, rfl, rfl, rfl⟩ (forall2_same post1)
  · subst hpn
    have hne : pre1 ++ [(a0, b0)] ≠ [] := by simp
    cases post with
    | nil =>
      have hs0 : s.blocks = pre1 ++ [(a0, b0), (a, b)] := by rw [hs]; simp
      refine ⟨_, release_retire_tail s p hw hp0 pre1 a0 a b0 b hs0 hpre hb hz, rfl, rfl, ?_,
        fun h => absurd h hne, fun _ => rfl⟩
      rw [List.append_nil]
      exact forall2_append _ _ _ _ _ (forall2_same pre1)
        (List.Forall₂.cons ⟨rfl, rfl, rfl, rfl, rfl, rfl, rfl, rfl, rfl⟩ List.Forall₂.nil)
    | cons e2 post1 =>
      obtain ⟨a2, b2⟩ := e2
      have hs0 : s.blocks = pre1 ++ (a0, b0) :: (a, b) :: (a2, b2) :: post1 := by
        rw [hs]; simp
      refine ⟨_, release_retire_mid s p hw hp0 pre1 post1 a0 a a2 b0 b b2 hs0 hpre hb hz,
        rfl, rfl, ?_, fun h => absurd h hne, fun _ => rfl⟩
      rw [List.append_assoc]
      exact forall2_append _ _ _ _ _ (forall2_same pre1)
        (List.Forall₂.cons ⟨rfl, rfl, rfl, rfl, rfl, rfl, rfl, rfl, rfl⟩
          (List.Forall₂.cons ⟨rfl, rfl, rfl, rfl, rfl, rfl, rfl, rfl, rfl⟩
            (forall2_same post1)))

theorem forall2_length {α β : Type} (R : α → β → Prop) (l : List α) (lb : List β)
    (h : List.Forall₂ R l lb) : l.length = lb.length := by
  induction h with
  | nil => rfl
  | cons _ _ ih => simp [ih]

/-! ## Example pools are reachable -/

theorem fresh_example : fresh pool16.blocks 16 8 4097 128 :=
  ⟨by decide, by decide, by decide, by decide, by decide, by decide⟩

theorem pool16_reachable : reachable pool16 [] :=
  reachable.create targs_u64 16 8 zero_mem 4096 64 pool16 (by decide) (by decide)
    ⟨by decide, by decide, by decide, by decide, by decide, by decide⟩
    (create_ok targs_u64 16 8 zero_mem 4096 64 (by decide) (by decide) (by decide) (by decide))

theorem pool16_a_alloc : pool16.alloc 4097 128 [1] = some (.ok 64, pool16_a) := rfl

theorem pool16_a_reachable : reachable pool16_a [64] :=
  reachable.alloc pool16 [] 4097 128 [1] 64 pool16_a pool16_reachable fresh_example
    pool16_a_alloc

theorem pool16_b_alloc : pool16_a.alloc 4097 128 [2] = some (.ok 72, pool16_b) := rfl

theorem pool16_b_reachable : reachable pool16_b [72, 64] :=
  reachable.alloc pool16_a [64] 4097 128 [2] 72 pool16_b pool16_a_reachable
    ⟨by decide, by decide, by decide, by decide, by decide, by decide⟩ pool16_b_alloc

theorem pool16_c_alloc : pool16_b.alloc 4097 128 [3] = some (.ok 128, pool16_c) := rfl

theorem pool16_c_reachable : reachable pool16_c [128, 72, 64] :=
  reachable.alloc pool16_b [72, 64] 4097 128 [3] 128 pool16_c pool16_b_reachable
    ⟨by decide, by decide, by decide, by decide, by decide, by decide⟩ pool16_c_alloc

/-! ## Construction (C1) -/

/-- C1: for every block size and every chunk size greater than zero, the
constructor `memory_pool(block_size, chunk_size)` throws an error whose
message contains "must fit" when `block_size % chunk_size != 0`, throws an
error whose message contains "at least" when the chunk size divides the block
size but is less than `sizeof(void *)`, which is 8, and otherwise (the system
allocation of the header and of the backing region having succeeded) returns
a pool for which `block_count()` is 1. -/
theorem create_outcomes (targs : template_args) (bs cs : Nat) (m : memory) (hdr reg : Nat)
    (hcs : 0 < cs) :
    sizeof_ptr = 8 ∧
    (bs % cs ≠ 0 → ∃ e, memory_pool.create targs bs cs m hdr reg = some (.error e) ∧
      contains_substring e.what "must fit") ∧
    (bs % cs = 0 → cs < sizeof_ptr →
      ∃ e, memory_pool.create targs bs cs m hdr reg = some (.error e) ∧
        contains_substring e.what "at least") ∧
    (bs % cs = 0 → sizeof_ptr ≤ cs → hdr ≠ 0 → reg ≠ 0 →
      ∃ s, memory_pool.create targs bs cs m hdr reg = some (.ok s) ∧
        s.block_count = some 1) := by
  have h0 : cs ≠ 0 := by omega
  refine ⟨rfl, ?_, ?_, ?_⟩
  · intro h
    refine ⟨.chunk_must_fit, ?_, by decide⟩
    unfold memory_pool.create
    rw [if_neg h0, if_pos h]
  · intro h1 h2
    refine ⟨.chunk_too_small, ?_, by decide⟩
    unfold memory_pool.create
    rw [if_neg h0, if_neg (by simpa using h1), if_pos (by simpa using h2)]
  · intro h1 h2 h3 h4
    refine ⟨_, create_ok targs bs cs m hdr reg h2 h1 h3 h4, ?_⟩
    simp [memory_pool.block_count, block_count_loop, hdr_read, block.init, incr, size_max]

/-- C1, on the pools of the test suite: `memory_pool<int>(32, 5)` fails with
"must fit", `memory_pool<int>(32, 2)` fails with "at least", and
`memory_pool<int>(4096, 8)` is constructed with one block. -/
theorem create_outcomes_witness :
    (∃ e, memory_pool.create ⟨4, false, true⟩ 32 5 zero_mem 4096 8192 = some (.error e) ∧
      contains_substring e.what "must fit") ∧
    (∃ e, memory_pool.create ⟨4, false, true⟩ 32 2 zero_mem 4096 8192 = some (.error e) ∧
      contains_substring e.what "at least") ∧
    (∃ s, memory_pool.create ⟨4, false, true⟩ 4096 8 zero_mem 4096 8192 = some (.ok s) ∧
      s.block_count = some 1) :=
  ⟨(create_outcomes ⟨4, false, true⟩ 32 5 zero_mem 4096 8192 (by decide)).2.1 (by decide),
   (create_outcomes ⟨4, false, true⟩ 32 2 zero_mem 4096 8192 (by decide)).2.2.1 (by decide)
     (by decide),
   (create_outcomes ⟨4, false, true⟩ 4096 8 zero_mem 4096 8192 (by decide)).2.2.2 (by decide)
     (by decide) (by decide) (by decide)⟩

/-! ## Counters (C10) -/

/-- C10: in every pool state reachable from construction by `alloc` and by
`release` of outstanding pointers, every block satisfies
`available_chunks + used_chunks == block_size / chunk_size` and
`available_space + used_space == block_size`. -/
theorem counters_balanced (s : memory_pool) (out : List Nat) (h : reachable s out) :
    ∀ e ∈ s.blocks,
      e.2.available_chunks + e.2.used_chunks = s.block_size / s.chunk_size ∧
      e.2.available_space + e.2.used_space = s.block_size := by
  intro e he
  have hinv := reachable_inv s out h
  have hok := hinv.core.blocks_ok e he
  refine ⟨hok.chunks, ?_⟩
  rw [hok.avail_space, hok.used_space, ← Nat.add_mul, hok.chunks]
  exact chunks_mul _ _ hinv.core.fits

/-- C10 on the pool `pool16` after three allocations (two blocks). -/
theorem counters_balanced_witness :
    List.Forall (fun e : Nat × block =>
      e.2.available_chunks + e.2.used_chunks = pool16_c.block_size / pool16_c.chunk_size ∧
      e.2.available_space + e.2.used_space = pool16_c.block_size) pool16_c.blocks :=
  List.forall_iff_forall_mem.mpr (counters_balanced pool16_c [128, 72, 64] pool16_c_reachable)

/-! ## Everything released -/

/-- In the executions that `reachable` covers (no two regions touch), a
sequence of `alloc` and `release` calls, each release applied to an
outstanding pointer, that leaves no pointer outstanding ends with
`block_count() == 1` and with one block that has `used_chunks == 0` and
`available_chunks == block_size / chunk_size`. The pool `pool16_adj`, whose
regions touch, behaves otherwise. -/
theorem all_released (s : memory_pool) (h : reachable s []) :
    s.block_count = some 1 ∧
      ∃ a b, s.blocks = [(a, b)] ∧ s.first_block = a ∧ b.used_chunks = 0 ∧
        b.available_chunks = s.block_size / s.chunk_size := by
  have hinv := reachable_inv s [] h
  have hused : ∀ e ∈ s.blocks, e.2.used_chunks = 0 := by
    intro e he
    have := (hinv.core.blocks_ok e he).used_count
    simpa using this.symm
  have hlen : s.blocks.length = 1 := by
    have h1 : 0 < s.blocks.length := List.length_pos.mpr hinv.core.wf.nonempty
    by_contra hne
    obtain ⟨e, he⟩ := List.exists_mem_of_ne_nil _ hinv.core.wf.nonempty
    exact hinv.busy (by omega) e he (hused e he)
  obtain ⟨e, hs⟩ := List.length_eq_one.mp hlen
  obtain ⟨a, b⟩ := e
  have hmem : (a, b) ∈ s.blocks := by rw [hs]; simp
  have hok : block_ok s [] b := hinv.core.blocks_ok (a, b) hmem
  have hu : b.used_chunks = 0 := hused (a, b) hmem
  refine ⟨?_, a, b, hs, ?_, hu, ?_⟩
  · rw [block_count_wf s hinv.core.wf (by rw [hlen]; unfold size_max; omega), hlen]
  · have := hinv.core.wf.is_linked
    rw [hs] at this
    exact this.1
  · have := hok.chunks
    omega

theorem pool16_r_release :
    pool16_a.release 64 = some ⟨none, pool16_r, 0, false⟩ := rfl

theorem pool16_r_reachable : reachable pool16_r [] :=
  reachable.release pool16_a [64] 64 ⟨none, pool16_r, 0, false⟩ pool16_a_reachable
    (by decide) pool16_r_release rfl

/-- The pool `pool16` after one `alloc` and the `release` of the returned
chunk, as an instance of `all_released`. -/
theorem all_released_witness :
    pool16_r.block_count = some 1 ∧
      ∃ a b, pool16_r.blocks = [(a, b)] ∧ pool16_r.first_block = a ∧ b.used_chunks = 0 ∧
        b.available_chunks = pool16_r.block_size / pool16_r.chunk_size :=
  all_released pool16_r pool16_r_reachable

/-! ## Looking up the block of a pointer (C6, C7) -/

/-- C6, the code at the failing input: in the pool `pool16`, whose only
block is `[64, 80)`, the address 80 is outside the half-open range of every
block, yet `block_from_pointer` returns the header of that block, and
`release(80)` returns without an error, nulls the handle and decrements
`used_chunks` of the block from 0 to `2 ^ 64 - 1`. -/
theorem block_end_accepted :
    (∀ e ∈ pool16.blocks, ¬ (e.2.block_beginning ≤ 80 ∧ 80 < e.2.block_end)) ∧
      pool16.block_from_pointer 80 = some (.ok 4096) ∧
      (pool16.release 80).map (fun r => (r.error, r.ptr, r.pool.blocks.map
        (fun e => (e.2.used_chunks, e.2.available_chunks)))) =
        some (none, 0, [(18446744073709551615, 3)]) :=
  ⟨by decide, rfl, rfl⟩

/-- C7: a `release(p)` that throws leaves the whole pool state (block list,
counters, `next_free_chunk`, memory) and the caller's handle as they were and
runs no destructor; and on every well-formed pool, for every non-null `p`
that no block holds in its address range, `release(p)` does throw the
out-of-range error "does not belong". -/
theorem failed_release_unchanged (s : memory_pool) (p : Nat) :
    (∀ r, s.release p = some r → r.error ≠ none →
      r.pool = s ∧ r.ptr = p ∧ r.destroyed = false) ∧
    (list_wf s → p ≠ 0 →
      (∀ e ∈ s.blocks, ¬ (e.2.block_beginning ≤ p ∧ p ≤ e.2.block_end)) →
      s.release p = some ⟨some .not_in_pool, s, p, false⟩ ∧
        pool_error.is_out_of_range .not_in_pool = true ∧
        contains_substring (pool_error.what .not_in_pool) "does not belong") := by
  constructor
  · intro r hr he
    unfold memory_pool.release at hr
    by_cases hp : p = 0
    · rw [if_pos hp] at hr
      simp only [Option.some.injEq] at hr
      subst hr
      exact absurd rfl he
    · rw [if_neg hp] at hr
      cases hbp : s.block_from_pointer p with
      | none => rw [hbp] at hr; simp at hr
      | some x =>
        cases x with
        | error e =>
          rw [hbp] at hr
          simp only [Option.some.injEq] at hr
          subst hr
          exact ⟨rfl, rfl, rfl⟩
        | ok a =>
          rw [hbp] at hr
          simp only at hr
          cases hrd : hdr_read (hdr_write s.blocks a fun b => b.give s.chunk_size) a with
          | none => rw [hrd] at hr; simp at hr
          | some ub =>
            rw [hrd] at hr
            simp only at hr
            cases hun : release_unlink
              { s with blocks := hdr_write s.blocks a fun b => b.give s.chunk_size } ub with
            | none =>
              rw [hun] at hr
              simp only [Option.some.injEq] at hr
              subst hr
              exact absurd rfl he
            | some s3 =>
              rw [hun] at hr
              simp only [Option.some.injEq] at hr
              subst hr
              exact absurd rfl he
  · intro hw hp hno
    refine ⟨?_, rfl, by decide⟩
    unfold memory_pool.release
    rw [if_neg hp, block_from_pointer_none s p hw (fun e he h => hno e he ⟨h.1, h.2⟩)]

/-- C7 on the pool `pool16`, whose only block is `[64, 80]`: `release(200)`
throws and changes nothing. -/
theorem failed_release_unchanged_witness :
    pool16.release 200 = some ⟨some .not_in_pool, pool16, 200, false⟩ ∧
      pool_error.is_out_of_range .not_in_pool = true ∧
      contains_substring (pool_error.what .not_in_pool) "does not belong" :=
  (failed_release_unchanged pool16 200).2
    ⟨by decide, by decide, ⟨rfl, by decide, rfl, rfl⟩⟩ (by decide) (by decide)

/-! ## Ownership of chunks (C8) -/

theorem dump_firsts (fl : List Nat) : (fl.zip (fl.tail ++ [0])).map Prod.fst = fl := by
  apply List.map_fst_zip
  cases fl <;> simp

theorem dump_length (fl : List Nat) : (fl.zip (fl.tail ++ [0])).length = fl.length := by
  cases fl <;> simp

theorem dump_seconds (fl : List Nat) (h : fl ≠ []) :
    (fl.zip (fl.tail ++ [0])).map Prod.snd = fl.tail ++ [0] := by
  apply List.map_snd_zip
  cases fl with
  | nil => exact absurd rfl h
  | cons c rest => simp

/-- C8, amended: in every pool state reachable from the construction of a pool
with a positive block size whose element type fits into one chunk
(`sizeof(T) <= chunk_size`), by `alloc` and by `release` of outstanding
pointers, where every region that `std::aligned_alloc` returns lies at least
one byte apart from the region of every live block, each chunk of each block
has exactly one holder: the addresses that `dump_free_list` reports for the
block (its free list) are not outstanding, and an address is a chunk of the
block exactly when it is on that free list or is an outstanding pointer
inside the block; consequently `alloc` never returns an address that is outstanding. -/
theorem chunk_ownership (s : memory_pool) (out : List Nat) (h : reachable s out) :
    (∀ e ∈ s.blocks, ∃ d, s.dump_free_list e.2.block_beginning = some (.ok d) ∧
      (∀ c ∈ d.map Prod.fst, c ∉ out) ∧
      (∀ c, is_chunk s e.2 c ↔ (c ∈ d.map Prod.fst ∨ (c ∈ out ∧ in_block e.2 c = true)))) ∧
    (∀ hdr reg val p s1, fresh s.blocks s.block_size s.chunk_size hdr reg →
      s.alloc hdr reg val = some (.ok p, s1) → p ∉ out) := by
  have hinv := reachable_inv s out h
  have hc := hinv.core
  obtain ⟨hcs8, hmul, hN⟩ := inv_sizes s out hc
  constructor
  · intro e he
    have hok := hc.blocks_ok e he
    obtain ⟨fl, f1, _⟩ := hok.free_list
    have hend : e.2.block_end = e.2.block_beginning + s.block_size := hok.end_eq
    obtain ⟨d1, _, _, d4⟩ := dump_free_list_inv s out hc e.1 e.2 he e.2.block_beginning
      ⟨le_refl _, by omega⟩ fl f1
    refine ⟨_, d1, ?_, ?_⟩
    · intro c hcm
      rw [dump_firsts] at hcm
      exact (d4 c hcm).2
    · intro c
      rw [dump_firsts]
      constructor
      · intro hcc
        rcases chunk_free_or_out s out hc e he fl f1 c hcc with h1 | h1
        · exact Or.inl h1
        · exact Or.inr ⟨h1, in_block_of_chunk s e.2 c hc.fits (by omega) hend hcc⟩
      · rintro (h1 | ⟨h1, h2⟩)
        · exact (d4 c h1).1
        · exact out_chunk_of_block s out hc e he c h1 h2
  · intro hdr reg val p s1 hf ha
    obtain ⟨p2, s2, h1, h2, _⟩ := alloc_inv s out hinv hdr reg val hf
    rw [h1] at ha
    simp only [Option.some.injEq, Prod.mk.injEq, Except.ok.injEq] at ha
    rw [← ha.1]
    exact h2

/-- C8, amended, on the pool `pool16` after three allocations. -/
theorem chunk_ownership_witness :
    (∀ e ∈ pool16_c.blocks, ∃ d, pool16_c.dump_free_list e.2.block_beginning = some (.ok d) ∧
      (∀ c ∈ d.map Prod.fst, c ∉ [128, 72, 64]) ∧
      (∀ c, is_chunk pool16_c e.2 c ↔
        (c ∈ d.map Prod.fst ∨ (c ∈ [128, 72, 64] ∧ in_block e.2 c = true)))) ∧
    (∀ hdr reg val p s1, fresh pool16_c.blocks pool16_c.block_size pool16_c.chunk_size hdr reg →
      pool16_c.alloc hdr reg val = some (.ok p, s1) → p ∉ [128, 72, 64]) :=
  chunk_ownership pool16_c [128, 72, 64] pool16_c_reachable

/-! ## Contents of outstanding chunks -/

/-- In the executions that `reachable` covers (the element size is at most
the chunk size and no two regions touch), an `alloc`, also one that creates a
block, changes no byte of any outstanding chunk, and the `release` of an
outstanding pointer `q` changes no byte of any other outstanding chunk. The
pool `pool16_adj`, whose regions touch, behaves otherwise. -/
theorem outstanding_chunks_kept (s : memory_pool) (out : List Nat) (h : reachable s out) :
    s.targs.sizeof_T ≤ s.chunk_size ∧
    (∀ hdr reg val p s1, fresh s.blocks s.block_size s.chunk_size hdr reg →
      s.alloc hdr reg val = some (.ok p, s1) →
      ∀ q ∈ out, ∀ x, q ≤ x → x < q + s.chunk_size → s1.mem x = s.mem x) ∧
    (∀ q ∈ out, ∀ r, s.release q = some r →
      ∀ q2 ∈ out, q2 ≠ q → ∀ x, q2 ≤ x → x < q2 + s.chunk_size → r.pool.mem x = s.mem x) := by
  have hinv := reachable_inv s out h
  have hc := hinv.core
  obtain ⟨hcs8, hmul, hN⟩ := inv_sizes s out hc
  refine ⟨hc.elem_fits, ?_, ?_⟩
  · intro hdr reg val p s1 hf ha
    obtain ⟨p2, s2, h1, _, _, h4, _⟩ := alloc_inv s out hinv hdr reg val hf
    rw [h1] at ha
    simp only [Option.some.injEq, Prod.mk.injEq, Except.ok.injEq] at ha
    rw [← ha.2]
    exact h4
  · intro q hq r hr q2 hq2 hne x hx1 hx2
    obtain ⟨r2, h1, _, _, _, _, h6, _⟩ := release_inv s out hinv q hq
    rw [h1] at hr
    simp only [Option.some.injEq] at hr
    subst hr
    obtain ⟨e, he, hce⟩ := hc.out_chunks q hq
    obtain ⟨e2, he2, hce2⟩ := hc.out_chunks q2 hq2
    have := chunks_disjoint s out hc e2 e he2 he q2 q hce2 hce hne
    exact h6 x (by omega)

/-- The pool `pool16` after three allocations, as an instance of
`outstanding_chunks_kept`. -/
theorem outstanding_chunks_kept_witness :
    pool16_c.targs.sizeof_T ≤ pool16_c.chunk_size ∧
    (∀ hdr reg val p s1, fresh pool16_c.blocks pool16_c.block_size pool16_c.chunk_size hdr reg →
      pool16_c.alloc hdr reg val = some (.ok p, s1) →
      ∀ q ∈ [128, 72, 64], ∀ x, q ≤ x → x < q + pool16_c.chunk_size →
        s1.mem x = pool16_c.mem x) ∧
    (∀ q ∈ [128, 72, 64], ∀ r, pool16_c.release q = some r →
      ∀ q2 ∈ [128, 72, 64], q2 ≠ q → ∀ x, q2 ≤ x → x < q2 + pool16_c.chunk_size →
        r.pool.mem x = pool16_c.mem x) :=
  outstanding_chunks_kept pool16_c [128, 72, 64] pool16_c_reachable

/-! ## Allocation order in a fresh block (C2) -/

/-- In a pool with one block whose free list is the chunks `k, k + 1, ...` in
ascending order, successive calls of `alloc` return these chunks in that
order. -/
theorem allocs_in_order (args : List (Nat × Nat × List Nat)) :
    ∀ (s : memory_pool) (out : List Nat) (a : Nat) (b : block) (k n : Nat),
      pool_inv s out → s.blocks = [(a, b)] →
      free_chain s.mem b.next_free_chunk
        ((List.range' k n).map (fun i => b.block_beginning + i * s.chunk_size)) →
      args.length ≤ n →
      ∃ s1 b1 out1, alloc_seq s args =
          some ((List.range' k args.length).map
            (fun i => b.block_beginning + i * s.chunk_size), s1) ∧
        s1.blocks = [(a, b1)] ∧ b1.block_beginning = b.block_beginning ∧
        b1.block_end = b.block_end ∧ b1.available_chunks = n - args.length ∧
        pool_inv s1 out1 ∧ s1.block_size = s.block_size ∧ s1.chunk_size = s.chunk_size := by
  induction args with
  | nil =>
    intro s out a b k n hinv hs hfl _
    have := (free_list_of_chain s out hinv.core a b (by rw [hs]; simp) _ hfl).1
    simp only [List.length_map, List.length_range'] at this
    exact ⟨s, b, out, rfl, hs, rfl, rfl, by simp [this], hinv, rfl, rfl⟩
  | cons x rest ih =>
    intro s out a b k n hinv hs hfl hlen
    obtain ⟨hdr, reg, val⟩ := x
    simp only [List.length_cons] at hlen
    obtain ⟨n1, rfl⟩ : ∃ n1, n = n1 + 1 := ⟨n - 1, by omega⟩
    rw [chunk_range_succ] at hfl
    obtain ⟨s1, b1, h1, h2, h3, h4, _, h6, h7, h8, h9⟩ :=
      alloc_single s out hinv a b hs _ _ hfl hdr reg val
    rw [← h3, ← h9] at h7
    obtain ⟨s2, b2, out2, i1, i2, i3, i4, i5, i6, i7, i8⟩ :=
      ih s1 (_ :: out) a b1 (k + 1) n1 h6 h2 h7 (by omega)
    refine ⟨s2, b2, out2, ?_, i2, by rw [i3, h3], by rw [i4, h4], by rw [i5]; simp, i6,
      i7.trans h8, i8.trans h9⟩
    simp only [alloc_seq, h1, i1, List.length_cons]
    rw [chunk_range_succ, h3, h9]

/-- C2, amended: in a freshly constructed pool for an element type that fits
into one chunk (`sizeof(T) <= chunk_size`), with `N = block_size / chunk_size`
chunks per block, the head block begins at the region `reg` obtained at
construction, and any `k <= N` successive calls of `alloc` (with no release
in between) return `reg + i * chunk_size` for `i = 0, ..., k - 1`, in this
order, hence in strictly ascending address order starting at
`block_beginning`; after the `N`-th call `dump_free_list` of the block is
empty. -/
theorem fresh_pool_allocs_ascending (targs : template_args) (bs cs : Nat) (m : memory)
    (hdr reg : Nat) (s : memory_pool) (hT : targs.sizeof_T ≤ cs)
    (hf : fresh [] bs cs hdr reg)
    (hcr : memory_pool.create targs bs cs m hdr reg = some (.ok s))
    (args : List (Nat × Nat × List Nat)) (hlen : args.length ≤ bs / cs) :
    s.block_address 0 = some (.ok reg) ∧
    ∃ s1, alloc_seq s args =
        some ((List.range args.length).map (fun i => reg + i * cs), s1) ∧
      ((List.range args.length).map (fun i => reg + i * cs)).Pairwise (fun x y => x < y) ∧
      (args.length = bs / cs → s1.dump_free_list reg = some (.ok [])) := by
  have hc0 : cs ≠ 0 := by
    intro h0
    simp [memory_pool.create, h0] at hcr
  have hfit : bs % cs = 0 := by
    by_contra hne
    simp [memory_pool.create, hc0, hne] at hcr
  have hcs8 : sizeof_ptr ≤ cs := by
    by_contra hne
    simp [memory_pool.create, hc0, hfit, hne] at hcr
  have hcr0 := hcr
  rw [create_ok targs bs cs m hdr reg hcs8 hfit hf.hdr_ne hf.reg_ne] at hcr
  simp only [Option.some.injEq, Except.ok.injEq] at hcr
  subst hcr
  have hsorted : ((List.range args.length).map (fun i => reg + i * cs)).Pairwise
      (fun x y => x < y) := by
    rw [List.pairwise_map]
    refine List.Pairwise.imp ?_ (List.pairwise_lt_range args.length)
    intro i j hij
    have : i * cs < j * cs := Nat.mul_lt_mul_of_pos_right hij (by omega)
    omega
  constructor
  · simp [memory_pool.block_address, hdr_read, block.init]
  · rcases Nat.eq_zero_or_pos bs with hbs | hbs
    · subst hbs
      have hnil : args = [] := by
        rw [Nat.zero_div] at hlen
        exact List.eq_nil_of_length_eq_zero (by omega)
      subst hnil
      refine ⟨_, rfl, hsorted, ?_⟩
      intro _
      simp [memory_pool.dump_free_list, memory_pool.block_from_pointer,
        block_from_pointer_loop, hdr_read, block.init, hf.hdr_ne]
    · have hinv := create_inv targs bs cs m hdr reg _ hbs hT hf hcr0
      have hcs : 8 ≤ cs := hcs8
      have hch := init_mem_chain bs cs reg m hcs hfit hbs hf.reg_ne hf.reg_fits
      obtain ⟨s1, b1, out1, h1, h2, h3, h4, h5, h6, _, _⟩ :=
        allocs_in_order args _ [] hdr (block.init bs cs reg 0) 0 (bs / cs) hinv rfl hch hlen
      refine ⟨s1, ?_, hsorted, ?_⟩
      · rw [List.range_eq_range']
        exact h1
      · intro hN
        have hb : b1.block_beginning = reg := h3
        have he : b1.block_end = reg + bs := h4
        obtain ⟨g1, g2⟩ := block_from_pointer_inside s1 out1 h6.core hdr b1
          (by rw [h2]; simp) reg (by omega)
        unfold memory_pool.dump_free_list
        rw [g1]
        simp only [g2]
        rw [if_pos (by rw [h5, hN]; simp)]

theorem create_pool16 :
    memory_pool.create targs_u64 16 8 zero_mem 4096 64 = some (.ok pool16) :=
  create_ok targs_u64 16 8 zero_mem 4096 64 (by decide) (by decide) (by decide) (by decide)

/-- C2, amended, on the pool `memory_pool<uint64_t>(16, 8)` with its block at
address
64: two calls of `alloc` return 64 and 72, and the free list is then
empty. -/
theorem fresh_pool_allocs_ascending_witness :
    pool16.block_address 0 = some (.ok 64) ∧
    ∃ s1, alloc_seq pool16 [(0, 0, [1]), (0, 0, [2])] =
        some ((List.range 2).map (fun i => 64 + i * 8), s1) ∧
      ((List.range 2).map (fun i => 64 + i * 8)).Pairwise (fun x y => x < y) ∧
      (2 = 16 / 8 → s1.dump_free_list 64 = some (.ok [])) :=
  fresh_pool_allocs_ascending targs_u64 16 8 zero_mem 4096 64 pool16 (by decide)
    ⟨by decide, by decide, by decide, by decide, by decide, by decide⟩ create_pool16
    [(0, 0, [1]), (0, 0, [2])] (by decide)

/-! ## Release order and the free list (C5) -/

/-- In a pool with one block, releasing outstanding chunks one after the other
puts them on the free list in reverse order. -/
theorem releases_in_reverse (idx : List Nat) :
    ∀ (s : memory_pool) (out : List Nat) (a : Nat) (b : block) (fl : List Nat),
      pool_inv s out → s.blocks = [(a, b)] → free_chain s.mem b.next_free_chunk fl →
      idx.Nodup → (∀ i ∈ idx, b.block_beginning + i * s.chunk_size ∈ out) →
      ∃ s1 b1 out1, release_seq s (idx.map (fun i => b.block_beginning + i * s.chunk_size)) =
          some s1 ∧
        s1.blocks = [(a, b1)] ∧ b1.block_beginning = b.block_beginning ∧
        b1.block_end = b.block_end ∧ pool_inv s1 out1 ∧
        free_chain s1.mem b1.next_free_chunk
          ((idx.map (fun i => b.block_beginning + i * s.chunk_size)).reverse ++ fl) := by
  induction idx with
  | nil =>
    intro s out a b fl hinv hs hfl _ _
    exact ⟨s, b, out, rfl, hs, rfl, rfl, hinv, by simpa using hfl⟩
  | cons i rest ih =>
    intro s out a b fl hinv hs hfl hnd hout
    rw [List.nodup_cons] at hnd
    have hcs8 : 8 ≤ s.chunk_size := hinv.core.chunk_ge
    obtain ⟨r, b1, h1, h2, _, h4, h5, h6, h7, h8, _, h10⟩ :=
      release_single s out hinv a b hs fl hfl _ (hout i (List.mem_cons_self _ _))
    have hrest : ∀ j ∈ rest, b1.block_beginning + j * r.pool.chunk_size ∈
        out.erase (b.block_beginning + i * s.chunk_size) := by
      intro j hj
      rw [h5, h10]
      apply (List.mem_erase_of_ne ?_).mpr (hout j (List.mem_cons_of_mem _ hj))
      intro heq
      have : j * s.chunk_size = i * s.chunk_size := by omega
      have : j = i := Nat.eq_of_mul_eq_mul_right (by omega) this
      exact hnd.1 (this ▸ hj)
    obtain ⟨s2, b2, out2, i1, i2, i3, i4, i5, i6⟩ := ih r.pool _ a b1 _ h7 h4 h8 hnd.2 hrest
    rw [h5, h10] at i1 i6
    refine ⟨s2, b2, out2, ?_, i2, by rw [i3, h5], by rw [i4, h6], i5, ?_⟩
    · simp only [List.map_cons, release_seq, h1, h2]
      exact i1
    · simpa using i6

/-- C5: in a reachable pool with one block whose `N` chunks are all
allocated, let the chunks with the pairwise distinct indices
`idx = [pi 0, ..., pi (t-1)]` (each below `N`, `t >= 1`) be released in this
order.
Then all releases return normally and `dump_free_list` of the block reports
`t` entries: the first components are the addresses of the released chunks in
reverse release order, each second component is the first component of the
next entry, and the last second component is null. -/
theorem free_list_reverse_of_releases (s : memory_pool) (out : List Nat)
    (h : reachable s out) (a : Nat) (b : block) (hs : s.blocks = [(a, b)])
    (hsat : b.available_chunks = 0) (idx : List Nat) (hne : idx ≠ []) (hnd : idx.Nodup)
    (hidx : ∀ i ∈ idx, i < s.block_size / s.chunk_size) (q : Nat)
    (hq : b.block_beginning ≤ q ∧ q < b.block_end) :
    ∃ s1, release_seq s (idx.map (fun i => b.block_beginning + i * s.chunk_size)) = some s1 ∧
      ∃ d, s1.dump_free_list q = some (.ok d) ∧ d.length = idx.length ∧
        d.map Prod.fst = (idx.map (fun i => b.block_beginning + i * s.chunk_size)).reverse ∧
        d.map Prod.snd = (d.map Prod.fst).tail ++ [0] := by
  have hinv := reachable_inv s out h
  have hc := hinv.core
  have hm : (a, b) ∈ s.blocks := by rw [hs]; simp
  have hok : block_ok s out b := hc.blocks_ok (a, b) hm
  obtain ⟨fl, f1, f2, _, _⟩ := hok.free_list
  have hnil : fl = [] := List.eq_nil_of_length_eq_zero (by omega)
  subst hnil
  have hout : ∀ i ∈ idx, b.block_beginning + i * s.chunk_size ∈ out := by
    intro i hi
    rcases chunk_free_or_out s out hc (a, b) hm [] f1 _ ⟨i, hidx i hi, rfl⟩ with h1 | h1
    · simp at h1
    · exact h1
  obtain ⟨s1, b1, out1, h1, h2, h3, h4, h5, h6⟩ :=
    releases_in_reverse idx s out a b [] hinv hs f1 hnd hout
  rw [List.append_nil] at h6
  obtain ⟨d1, _⟩ := dump_free_list_inv s1 out1 h5.core a b1 (by rw [h2]; simp) q
    (by rw [h3, h4]; omega) _ h6
  refine ⟨s1, h1, _, d1, ?_, dump_firsts _, ?_⟩
  · rw [dump_length]
    simp
  · rw [dump_firsts]
    exact dump_seconds _ (by simpa using hne)

theorem pool16_b_blocks : pool16_b.blocks = [(4096,
    { _block := 64, available_space := 0, used_space := 16, available_chunks := 0,
      used_chunks := 2, next_free_chunk := 0, block_beginning := 64, block_end := 80,
      next_block := 0, previous_block := 0 })] := by
  decide

/-- C5 on the pool `pool16` with both chunks allocated: releasing the chunk
with index 1 and then the chunk with index 0 leaves the free list 64, 72. -/
theorem free_list_reverse_of_releases_witness :
    ∃ s1, release_seq pool16_b ([1, 0].map (fun i => 64 + i * pool16_b.chunk_size)) = some s1 ∧
      ∃ d, s1.dump_free_list 64 = some (.ok d) ∧ d.length = [1, 0].length ∧
        d.map Prod.fst = ([1, 0].map (fun i => 64 + i * pool16_b.chunk_size)).reverse ∧
        d.map Prod.snd = (d.map Prod.fst).tail ++ [0] :=
  free_list_reverse_of_releases pool16_b [72, 64] pool16_b_reachable 4096 _ pool16_b_blocks rfl
    [1, 0] (by decide) (by decide) (by decide) 64 (by decide)

/-! ## Release followed by alloc (C4) -/

theorem pool16_d_alloc : pool16_c.alloc 4098 256 [4] = some (.ok 136, pool16_d) := rfl

theorem pool16_d_reachable : reachable pool16_d [136, 128, 72, 64] :=
  reachable.alloc pool16_c [128, 72, 64] 4098 256 [4] 136 pool16_d pool16_c_reachable
    ⟨by decide, by decide, by decide, by decide, by decide, by decide⟩ pool16_d_alloc

theorem pool16_e_release : pool16_d.release 64 = some ⟨none, pool16_e, 0, false⟩ := rfl

theorem pool16_e_reachable : reachable pool16_e [136, 128, 72] :=
  reachable.release pool16_d [136, 128, 72, 64] 64 ⟨none, pool16_e, 0, false⟩
    pool16_d_reachable (by decide) pool16_e_release rfl

/-- C4 as stated fails: in the reachable pool `pool16_e` the block
`[128, 144)` is saturated and holds the outstanding pointer 128, while the
block `[64, 80)` before it has the free chunk 64; `release(128)` followed by
`alloc()` returns 64, not 128. -/
theorem release_then_alloc_counterexample :
    ¬ (∀ (s : memory_pool) (out : List Nat) (p : Nat) (e : Nat × block) (hdr reg : Nat)
        (val : List Nat) (r : release_result),
        reachable s out → p ∈ out → e ∈ s.blocks → in_block e.2 p = true →
        e.2.available_chunks = 0 → fresh s.blocks s.block_size s.chunk_size hdr reg →
        s.release p = some r →
        ∃ s1, r.pool.alloc hdr reg val = some (.ok p, s1)) := by
  intro hall
  have hrel : pool16_e.release 128 =
      some ⟨none, pool_released (pool16_e.release 128) pool16, 0, false⟩ := rfl
  obtain ⟨s1, hs1⟩ := hall pool16_e [136, 128, 72]
    128 (4097, { _block := 128, available_space := 0, used_space := 16,
                 available_chunks := 0, used_chunks := 2, next_free_chunk := 0,
                 block_beginning := 128, block_end := 144, next_block := 0,
                 previous_block := 4096 }) 4098 256 [5] _
    pool16_e_reachable (by decide) (by decide) (by decide) rfl
    ⟨by decide, by decide, by decide, by decide, by decide, by decide⟩ hrel
  have hev : ((pool_released (pool16_e.release 128) pool16).alloc 4098 256 [5]).map
      (fun x => match x.1 with
        | .ok p => p
        | .error _ => 0) = some 64 := rfl
  simp only at hs1
  rw [hs1] at hev
  simp at hev

/-- C4, amended: in every reachable pool state, for every outstanding
pointer `p` whose block is saturated, if every block before that block in
list order is saturated too and the release does not retire the block (a
block holds at least two chunks, or the block is the only one), then
`release(p)` returns normally and the `alloc()` that follows immediately
returns the address `p`. -/
theorem release_then_alloc_same (s : memory_pool) (out : List Nat) (h : reachable s out)
    (p : Nat) (hp : p ∈ out) (pre post : header_heap) (a : Nat) (b : block)
    (hs : s.blocks = pre ++ (a, b) :: post) (hin : in_block b p = true)
    (hsat : b.available_chunks = 0) (hpre : ∀ e ∈ pre, e.2.available_chunks = 0)
    (hkeep : 2 ≤ s.block_size / s.chunk_size ∨ (pre = [] ∧ post = []))
    (hdr reg : Nat) (val : List Nat) :
    ∃ r s1, s.release p = some r ∧ r.error = none ∧ r.ptr = 0 ∧
      r.pool.alloc hdr reg val = some (.ok p, s1) := by
  have hinv := reachable_inv s out h
  have hc := hinv.core
  obtain ⟨hcs8, hmul, hN⟩ := inv_sizes s out hc
  have hm : (a, b) ∈ s.blocks := by rw [hs]; simp
  have hok : block_ok s out b := hc.blocks_ok (a, b) hm
  have hpc : is_chunk s b p := out_chunk_of_block s out hc (a, b) hm p hp hin
  have hpb := chunk_bounds s b p hc.fits hok.end_eq hpc
  have hbn : b.block_beginning ≠ 0 := hok.base_ne
  have hch : b.available_chunks + b.used_chunks = s.block_size / s.chunk_size := hok.chunks
  have hend : b.block_end = b.block_beginning + s.block_size := hok.end_eq
  have hlt : b.block_end < size_max := hok.end_lt
  have hNle : s.block_size / s.chunk_size ≤ s.block_size := Nat.div_le_self _ _
  have hsep := separated_mid pre post a b (hs ▸ hc.is_separated)
  have hpre2 : ∀ e ∈ pre, ¬ (p ≥ e.2.block_beginning ∧ p ≤ e.2.block_end) := by
    intro e he
    exact (not_in_block_of_apart s b e.2 p hc.fits hok.end_eq hpc
      (apart_symm _ _ (hsep e (Or.inl he)))).1
  have hk1 : b.used_chunks ≠ 1 ∨ (pre = [] ∧ post = []) := by
    rcases hkeep with h1 | h1
    · left; omega
    · right; exact h1
  have hk2 : decr b.used_chunks ≠ 0 ∨ (pre = [] ∧ post = []) := by
    rcases hkeep with h1 | h1
    · left; rw [decr_eq _ (by omega)]; omega
    · right; exact h1
  have hr := release_keep s p hc.wf (by omega) pre post a b hs hpre2 ⟨hpb.1, by omega⟩ hk2
  have hi := release_keep_inv s out hinv p hp pre post a b hs hpc hk1
  have hav : ({ b.give s.chunk_size with next_free_chunk := p } : block).available_chunks ≠ 0 := by
    show incr b.available_chunks ≠ 0
    rw [incr_eq _ (by omega)]
    omega
  have hg := get_available_chunk_existing _ hdr reg hi.core.wf pre post a _ rfl hpre hav
  have halloc : ∃ s1, memory_pool.alloc { s with
      blocks := pre ++ (a, { b.give s.chunk_size with next_free_chunk := p }) :: post
      mem := write_word s.mem p
        (if incr b.available_chunks = 1 then 0 else b.next_free_chunk) } hdr reg val =
      some (.ok p, s1) := by
    unfold memory_pool.alloc
    rw [hg]
    exact ⟨_, rfl⟩
  obtain ⟨s1, hs1⟩ := halloc
  exact ⟨_, s1, hr, rfl, rfl, hs1⟩

/-- C4, amended, on the pool `pool16` with both chunks of its only block
allocated: `release(72)` followed by `alloc()` returns 72. -/
theorem release_then_alloc_same_witness :
    ∃ r s1, pool16_b.release 72 = some r ∧ r.error = none ∧ r.ptr = 0 ∧
      r.pool.alloc 4097 128 [7] = some (.ok 72, s1) :=
  release_then_alloc_same pool16_b [72, 64] pool16_b_reachable 72 (by decide) [] [] 4096 _
    pool16_b_blocks (by decide) rfl (by decide) (Or.inl (by decide)) 4097 128 [7]

theorem pool16_c_blocks : pool16_c.blocks = [(4096, block16_full), (4097, block16_half)] := by
  decide

/-! ## Free lists (C11) -/

/-- C11, amended: in every pool state reachable from the construction of a
pool with a positive block size whose element type fits into one chunk
(`sizeof(T) <= chunk_size`), by `alloc` and by `release` of outstanding
pointers, where every region that `std::aligned_alloc` returns lies at least
one byte apart from the region of every live block, the free list of every
block is acyclic and ends in zero (the link words, followed from
`next_free_chunk`, visit pairwise distinct chunks and end with a zero link),
and
`dump_free_list` of the block returns exactly `available_chunks` entries with
pairwise distinct first components, each second component being the first
component of the next entry and the last second component being null; the
result is empty exactly when the block is saturated. -/
theorem free_lists_well_formed (s : memory_pool) (out : List Nat) (h : reachable s out)
    (e : Nat × block) (he : e ∈ s.blocks) (q : Nat)
    (hq : e.2.block_beginning ≤ q ∧ q < e.2.block_end) :
    ∃ d, s.dump_free_list q = some (.ok d) ∧ d.length = e.2.available_chunks ∧
      (d.map Prod.fst).Nodup ∧ free_chain s.mem e.2.next_free_chunk (d.map Prod.fst) ∧
      (d ≠ [] → d.map Prod.snd = (d.map Prod.fst).tail ++ [0]) ∧
      (d = [] ↔ e.2.available_chunks = 0) := by
  have hinv := reachable_inv s out h
  have hc := hinv.core
  obtain ⟨fl, f1, _⟩ := (hc.blocks_ok e he).free_list
  obtain ⟨d1, d2, d3, _⟩ := dump_free_list_inv s out hc e.1 e.2 he q ⟨hq.1, by omega⟩ fl f1
  refine ⟨_, d1, by rw [dump_length]; exact d2, by rw [dump_firsts]; exact d3,
    by rw [dump_firsts]; exact f1, ?_, ?_⟩
  · intro hne
    rw [dump_firsts]
    apply dump_seconds
    intro hnil
    subst hnil
    exact hne rfl
  · rw [← d2, ← dump_length fl]
    exact List.length_eq_zero.symm

/-- C11, amended, on the second block of the pool `pool16_c`, whose free list holds the
one chunk 136. -/
theorem free_lists_well_formed_witness :
    ∃ d, pool16_c.dump_free_list 130 = some (.ok d) ∧ d.length = block16_half.available_chunks ∧
      (d.map Prod.fst).Nodup ∧
      free_chain pool16_c.mem block16_half.next_free_chunk (d.map Prod.fst) ∧
      (d ≠ [] → d.map Prod.snd = (d.map Prod.fst).tail ++ [0]) ∧
      (d = [] ↔ block16_half.available_chunks = 0) :=
  free_lists_well_formed pool16_c [128, 72, 64] pool16_c_reachable (4097, block16_half)
    (by rw [pool16_c_blocks]; decide) 130 (by decide)

/-! ## Alignment of returned pointers (C12) -/

/-- C12, amended: in every pool state reachable from the construction of a
pool with a positive block size whose element type fits into one chunk
(`sizeof(T) <= chunk_size`), by `alloc` and by `release` of outstanding
pointers, where every region that `std::aligned_alloc(chunk_size,
block_size)` returns is a multiple of `chunk_size` and lies at least one byte
apart from the region of every live block, every outstanding pointer `p`
(every pointer that `alloc` returned and that was not released since) lies
in the region `[block_beginning, block_end)` of exactly one block of the
pool; the base of that block is a multiple of `chunk_size`, and so are
`p - block_beginning` and `p`. -/
theorem returned_pointers_aligned (s : memory_pool) (out : List Nat) (h : reachable s out)
    (p : Nat) (hp : p ∈ out) :
    ∃ e ∈ s.blocks, in_block e.2 p = true ∧ e.2.block_beginning % s.chunk_size = 0 ∧
      (p - e.2.block_beginning) % s.chunk_size = 0 ∧ p % s.chunk_size = 0 ∧
      ∀ e2 ∈ s.blocks, in_block e2.2 p = true → e2 = e := by
  have hinv := reachable_inv s out h
  have hc := hinv.core
  obtain ⟨hcs8, hmul, hN⟩ := inv_sizes s out hc
  obtain ⟨e, he, hce⟩ := hc.out_chunks p hp
  have hok := hc.blocks_ok e he
  have hin := in_block_of_chunk s e.2 p hc.fits (by omega) hok.end_eq hce
  have hb := chunk_bounds s e.2 p hc.fits hok.end_eq hce
  refine ⟨e, he, hin, hok.base_aligned, ?_, ?_, ?_⟩
  · obtain ⟨i, _, rfl⟩ := hce
    rw [Nat.add_sub_cancel_left]
    exact Nat.mul_mod_left _ _
  · obtain ⟨i, _, rfl⟩ := hce
    rw [Nat.add_mul_mod_self_right]
    exact hok.base_aligned
  · intro e2 he2 hin2
    by_contra hne
    have hap := separated_pair s.blocks hc.wf.keys_nodup hc.is_separated e2 e he2 he hne
    simp only [in_block, decide_eq_true_eq] at hin2
    unfold apart at hap
    omega

/-- C12, amended, on the pool `pool16_c` and its outstanding pointer 72. -/
theorem returned_pointers_aligned_witness :
    ∃ e ∈ pool16_c.blocks, in_block e.2 72 = true ∧
      e.2.block_beginning % pool16_c.chunk_size = 0 ∧
      (72 - e.2.block_beginning) % pool16_c.chunk_size = 0 ∧ 72 % pool16_c.chunk_size = 0 ∧
      ∀ e2 ∈ pool16_c.blocks, in_block e2.2 72 = true → e2 = e :=
  returned_pointers_aligned pool16_c [128, 72, 64] pool16_c_reachable 72 (by decide)

/-! ## The block list is never empty (C13) -/

/-- C13: in every pool state that arises from a successful construction by
any sequence of `alloc` calls that return a chunk and `release` calls
(releases that throw and releases of null included), the block list is not
empty: the head pointer `first_block` is not null and points to a live
header, and `block_count()` returns a number that is at least 1. -/
theorem block_list_never_empty (s : memory_pool) (h : called s) :
    s.blocks ≠ [] ∧ s.first_block ≠ 0 ∧ (∃ b, hdr_read s.blocks s.first_block = some b) ∧
      ∃ n, s.block_count = some n ∧ 1 ≤ n := by
  obtain ⟨hw, hb⟩ := called_wf s h
  obtain ⟨h1, h2⟩ := block_count_called s hw hb
  have hl := hw.is_linked
  obtain ⟨e, rest, hs⟩ := List.exists_cons_of_ne_nil hw.nonempty
  rw [hs] at hl
  obtain ⟨h3, h4, _⟩ := hl
  refine ⟨hw.nonempty, by rw [h3]; exact h4, ⟨e.2, ?_⟩, _, h1, h2⟩
  rw [hs, h3]
  simp [hdr_read]

theorem pool16_called : called pool16 :=
  called.create targs_u64 16 8 zero_mem 4096 64 pool16 (by decide) create_pool16

theorem pool16_a_called : called pool16_a :=
  called.alloc pool16 4097 128 [1] 64 pool16_a
    (called.release pool16 0 ⟨none, pool16, 0, false⟩
      (called.release pool16 200 ⟨some .not_in_pool, pool16, 200, false⟩ pool16_called rfl)
      rfl)
    (by decide) (by decide) pool16_a_alloc

/-- C13 on the pool `pool16` after a `release(200)` that throws, a release of
null and one `alloc`. -/
theorem block_list_never_empty_witness :
    pool16_a.blocks ≠ [] ∧ pool16_a.first_block ≠ 0 ∧
      (∃ b, hdr_read pool16_a.blocks pool16_a.first_block = some b) ∧
      ∃ n, pool16_a.block_count = some n ∧ 1 ≤ n :=
  block_list_never_empty pool16_a pool16_a_called

/-! ## The handle after a release (C19, C20) -/

/-- A release that returns normally leaves a null handle. -/
theorem release_ok_ptr (s : memory_pool) (p : Nat) (r : release_result)
    (hr : s.release p = some r) (he : r.error = none) : r.ptr = 0 := by
  unfold memory_pool.release at hr
  by_cases hp : p = 0
  · rw [if_pos hp] at hr
    simp only [Option.some.injEq] at hr
    subst hr
    exact hp
  · rw [if_neg hp] at hr
    cases hbp : s.block_from_pointer p with
    | none => rw [hbp] at hr; simp at hr
    | some x =>
      cases x with
      | error e =>
        rw [hbp] at hr
        simp only [Option.some.injEq] at hr
        subst hr
        simp at he
      | ok a =>
        rw [hbp] at hr
        simp only at hr
        cases hrd : hdr_read (hdr_write s.blocks a fun b => b.give s.chunk_size) a with
        | none => rw [hrd] at hr; simp at hr
        | some ub =>
          rw [hrd] at hr
          simp only at hr
          cases hun : release_unlink
            { s with blocks := hdr_write s.blocks a fun b => b.give s.chunk_size } ub with
          | none =>
            rw [hun] at hr
            simp only [Option.some.injEq] at hr
            subst hr
            rfl
          | some s3 =>
            rw [hun] at hr
            simp only [Option.some.injEq] at hr
            subst hr
            rfl

/-- C19: in every reachable pool state, for every pointer `p` that lies in
the region of some block of the pool, `release(p)` returns normally, and
every `release(p)` that returns normally leaves the caller's handle null
(whether the block is retired, was saturated before, or neither). -/
theorem release_nulls_handle (s : memory_pool) (out : List Nat) (h : reachable s out)
    (p : Nat) (hin : ∃ e ∈ s.blocks, in_block e.2 p = true) :
    (∃ r, s.release p = some r ∧ r.error = none) ∧
      ∀ r, s.release p = some r → r.error = none → r.ptr = 0 := by
  have hw := (reachable_inv s out h).core.wf
  obtain ⟨r, h1, _, _, _, h5⟩ := release_wf s p hw
  refine ⟨⟨r, h1, h5 ?_⟩, fun r hr he => release_ok_ptr s p r hr he⟩
  obtain ⟨e, he, hi⟩ := hin
  simp only [in_block, decide_eq_true_eq] at hi
  exact ⟨e, he, hi.1, by omega⟩

/-- C19 on the pool `pool16_c` and the pointer 130, which lies inside the
second block. -/
theorem release_nulls_handle_witness :
    (∃ r, pool16_c.release 130 = some r ∧ r.error = none) ∧
      ∀ r, pool16_c.release 130 = some r → r.error = none → r.ptr = 0 :=
  release_nulls_handle pool16_c [128, 72, 64] pool16_c_reachable 130
    ⟨(4097, block16_half), by rw [pool16_c_blocks]; decide, by decide⟩

/-- C20: for every pool state, `release` of a null handle returns without an
error and leaves the whole pool state (block list, counters, free lists,
memory) and the handle as they were. -/
theorem release_null (s : memory_pool) :
    s.release 0 = some { error := none, pool := s, ptr := 0, destroyed := false } := by
  unfold memory_pool.release
  rw [if_pos rfl]

/-! ## Releasing the last used chunk of the only block (C18) -/

theorem zip_head_fst (p : Nat) (fl : List Nat) :
    (((p :: fl).zip ((p :: fl).tail ++ [0])).head?).map Prod.fst = some p := by
  cases fl <;> rfl

/-- C18: in every reachable pool state with exactly one block
(`block_count() == 1`) and for every outstanding pointer `p` that is the last
used chunk of that block (`used_chunks_in_block(p) == 1`), `release(p)`
returns normally and keeps the block: afterwards the same header is live,
`block_count() == 1`, `used_chunks == 0`, `available_chunks ==
block_size / chunk_size`, and `p` is the head of the free list of the block
(the first entry of `dump_free_list`). -/
theorem sole_block_kept (s : memory_pool) (out : List Nat) (h : reachable s out)
    (hone : s.block_count = some 1) (p : Nat) (hp : p ∈ out)
    (hu : s.used_chunks_in_block p = some (.ok 1)) :
    ∃ r, s.release p = some r ∧ r.error = none ∧
      hdr_keys r.pool.blocks = hdr_keys s.blocks ∧
      r.pool.block_count = some 1 ∧
      r.pool.used_chunks_in_block p = some (.ok 0) ∧
      r.pool.available_chunks_in_block p = some (.ok (s.block_size / s.chunk_size)) ∧
      ∃ d, r.pool.dump_free_list p = some (.ok d) ∧ d.head?.map Prod.fst = some p := by
  have hinv := reachable_inv s out h
  have hc := hinv.core
  have hlen : s.blocks.length = 1 := by
    have := block_count_inv s out hc
    rw [hone] at this
    exact (Option.some.inj this).symm
  obtain ⟨e0, hs⟩ := List.length_eq_one.mp hlen
  obtain ⟨a, b⟩ := e0
  have hm : (a, b) ∈ s.blocks := by rw [hs]; exact List.mem_singleton.mpr rfl
  obtain ⟨e, he, _, hb1, hb2⟩ := out_in_block s out hc p hp
  have hee : e = (a, b) := by rw [hs] at he; exact List.mem_singleton.mp he
  subst hee
  have hcs : 0 < s.chunk_size := by have := hc.chunk_ge; unfold sizeof_ptr at this; omega
  have hq : b.block_beginning ≤ p ∧ p ≤ b.block_end := ⟨hb1, by simp only at hb2; omega⟩
  have hused : b.used_chunks = 1 := by
    have := field_of_block_inside s out hc a b hm p hq block.used_chunks
    unfold memory_pool.used_chunks_in_block at hu
    rw [hu] at this
    injection this with this
    injection this with this
    exact this.symm
  have hok : block_ok s out b := hc.blocks_ok (a, b) hm
  obtain ⟨fl, f1, f2, _⟩ := hok.free_list
  obtain ⟨r, b1, r1, r2, _, r4, r5, r6, r7, r8, r9, r10⟩ :=
    release_single s out hinv a b hs fl f1 p hp
  have hc1 := r7.core
  have hm1 : (a, b1) ∈ r.pool.blocks := by rw [r4]; exact List.mem_singleton.mpr rfl
  have hq1 : b1.block_beginning ≤ p ∧ p ≤ b1.block_end := by rw [r5, r6]; exact hq
  have hok1 : block_ok r.pool (out.erase p) b1 := hc1.blocks_ok (a, b1) hm1
  obtain ⟨g1, _, _⟩ := free_list_of_chain r.pool (out.erase p) hc1 a b1 hm1 (p :: fl) r8
  have hch := hok.chunks
  have hch1 := hok1.chunks
  rw [r9, r10] at hch1
  simp only [List.length_cons] at g1
  have hav : b1.available_chunks = s.block_size / s.chunk_size := by omega
  have hus : b1.used_chunks = 0 := by omega
  refine ⟨r, r1, r2, by rw [r4, hs]; rfl, ?_, ?_, ?_, ?_⟩
  · rw [block_count_inv r.pool _ hc1, r4]; rfl
  · have := field_of_block_inside r.pool _ hc1 a b1 hm1 p hq1 block.used_chunks
    unfold memory_pool.used_chunks_in_block
    rw [this, hus]
  · have := field_of_block_inside r.pool _ hc1 a b1 hm1 p hq1 block.available_chunks
    unfold memory_pool.available_chunks_in_block
    rw [this, hav]
  · obtain ⟨d1, _⟩ := dump_free_list_inv r.pool _ hc1 a b1 hm1 p hq1 (p :: fl) r8
    exact ⟨_, d1, zip_head_fst p fl⟩

/-- C18 on the pool `pool16_a`, whose only block has the one used chunk 64. -/
theorem sole_block_kept_witness :
    ∃ r, pool16_a.release 64 = some r ∧ r.error = none ∧
      hdr_keys r.pool.blocks = hdr_keys pool16_a.blocks ∧
      r.pool.block_count = some 1 ∧
      r.pool.used_chunks_in_block 64 = some (.ok 0) ∧
      r.pool.available_chunks_in_block 64 =
        some (.ok (pool16_a.block_size / pool16_a.chunk_size)) ∧
      ∃ d, r.pool.dump_free_list 64 = some (.ok d) ∧ d.head?.map Prod.fst = some 64 :=
  sole_block_kept pool16_a [64] pool16_a_reachable rfl 64 (by decide) rfl

/-! ## Counters of the head block of a fresh pool (C14) -/

/-- C14: in a freshly constructed pool with `N = block_size / chunk_size`
chunks per block, after `k` calls of `alloc` with `1 <= k <= N` and no
`release`, the head block (asked for through any address `q` of its region)
reports `available_chunks == N - k`, `used_chunks == k`,
`available_space == block_size - k * chunk_size` and
`used_space == k * chunk_size`, and `block_count() == 1`. -/
theorem fresh_pool_counters (targs : template_args) (bs cs : Nat) (m : memory)
    (hdr reg : Nat) (s : memory_pool) (hT : targs.sizeof_T ≤ cs)
    (hf : fresh [] bs cs hdr reg)
    (hcr : memory_pool.create targs bs cs m hdr reg = some (.ok s))
    (args : List (Nat × Nat × List Nat)) (hk : 1 ≤ args.length)
    (hlen : args.length ≤ bs / cs) :
    ∃ ps s1, alloc_seq s args = some (ps, s1) ∧ s1.block_count = some 1 ∧
      ∀ q, reg ≤ q → q < reg + bs →
        s1.available_chunks_in_block q = some (.ok (bs / cs - args.length)) ∧
        s1.used_chunks_in_block q = some (.ok args.length) ∧
        s1.available_space_in_block q = some (.ok (bs - args.length * cs)) ∧
        s1.used_space_in_block q = some (.ok (args.length * cs)) := by
  have hc0 : cs ≠ 0 := by
    intro h0
    simp [memory_pool.create, h0] at hcr
  have hfit : bs % cs = 0 := by
    by_contra hne
    simp [memory_pool.create, hc0, hne] at hcr
  have hcs8 : sizeof_ptr ≤ cs := by
    by_contra hne
    simp [memory_pool.create, hc0, hfit, hne] at hcr
  have hcr0 := hcr
  rw [create_ok targs bs cs m hdr reg hcs8 hfit hf.hdr_ne hf.reg_ne] at hcr
  simp only [Option.some.injEq, Except.ok.injEq] at hcr
  subst hcr
  have hbs : 0 < bs := by
    rcases Nat.eq_zero_or_pos bs with h0 | h0
    · rw [h0, Nat.zero_div] at hlen
      omega
    · exact h0
  have hinv := create_inv targs bs cs m hdr reg _ hbs hT hf hcr0
  have hcs : 8 ≤ cs := hcs8
  have hch := init_mem_chain bs cs reg m hcs hfit hbs hf.reg_ne hf.reg_fits
  obtain ⟨s1, b1, out1, h1, h2, h3, h4, h5, h6, h7, h8⟩ :=
    allocs_in_order args _ [] hdr (block.init bs cs reg 0) 0 (bs / cs) hinv rfl hch hlen
  have hb : b1.block_beginning = reg := h3
  have he : b1.block_end = reg + bs := h4
  have hbs1 : s1.block_size = bs := h7
  have hcs1 : s1.chunk_size = cs := h8
  have hm1 : (hdr, b1) ∈ s1.blocks := by rw [h2]; exact List.mem_singleton.mpr rfl
  have hok : block_ok s1 out1 b1 := h6.core.blocks_ok (hdr, b1) hm1
  have hch1 := hok.chunks
  have hsp := hok.avail_space
  have hus := hok.used_space
  rw [hbs1, hcs1] at hch1
  rw [hcs1] at hsp hus
  have hused : b1.used_chunks = args.length := by omega
  have hmul : bs = bs / cs * cs := by
    have := Nat.div_add_mod bs cs
    rw [hfit, Nat.add_zero, Nat.mul_comm] at this
    exact this.symm
  refine ⟨_, s1, h1, by rw [block_count_inv s1 out1 h6.core, h2]; rfl, ?_⟩
  intro q hq1 hq2
  have hq : b1.block_beginning ≤ q ∧ q ≤ b1.block_end := by omega
  have hfield := field_of_block_inside s1 out1 h6.core hdr b1 hm1 q hq
  refine ⟨?_, ?_, ?_, ?_⟩
  · unfold memory_pool.available_chunks_in_block
    rw [hfield, h5]
  · unfold memory_pool.used_chunks_in_block
    rw [hfield, hused]
  · unfold memory_pool.available_space_in_block
    rw [hfield, hsp, h5, Nat.sub_mul, ← hmul]
  · unfold memory_pool.used_space_in_block
    rw [hfield, hus, hused]

/-- C14 on the pool `memory_pool<uint64_t>(16, 8)` with its block at address
64, after one call of `alloc`. -/
theorem fresh_pool_counters_witness :
    ∃ ps s1, alloc_seq pool16 [(0, 0, [1])] = some (ps, s1) ∧ s1.block_count = some 1 ∧
      ∀ q, 64 ≤ q → q < 64 + 16 →
        s1.available_chunks_in_block q = some (.ok (16 / 8 - [(0, 0, [1])].length)) ∧
        s1.used_chunks_in_block q = some (.ok [(0, 0, [1])].length) ∧
        s1.available_space_in_block q = some (.ok (16 - [(0, 0, [1])].length * 8)) ∧
        s1.used_space_in_block q = some (.ok ([(0, 0, [1])].length * 8)) :=
  fresh_pool_counters targs_u64 16 8 zero_mem 4096 64 pool16 (by decide)
    ⟨by decide, by decide, by decide, by decide, by decide, by decide⟩
    (create_ok targs_u64 16 8 zero_mem 4096 64 (by decide) (by decide) (by decide) (by decide))
    [(0, 0, [1])] (by decide) (by decide)

/-! ## The free list of a new block (C16) -/

theorem full_free_list_spec (reg cs n : Nat) :
    (full_free_list reg cs n).length = n ∧
      ∀ i, i < n → (full_free_list reg cs n)[i]? =
        some (reg + i * cs, if i + 1 < n then reg + (i + 1) * cs else 0) := by
  unfold full_free_list
  refine ⟨by simp, ?_⟩
  intro i hi
  rw [List.getElem?_map, List.getElem?_range hi]
  rfl

/-- The free list that `dump_free_list` reports for a block whose header is
the one `allocate_block` leaves, in a pool state that satisfies the
invariant. -/
theorem dump_new_block (s : memory_pool) (out : List Nat) (hc : pool_core s out)
    (hdr reg previous : Nat) (m : memory) (nb : Nat)
    (hm : (hdr, { block.init s.block_size s.chunk_size reg previous with next_block := nb })
      ∈ s.blocks)
    (hmem : s.mem = init_mem s.block_size s.chunk_size reg m) (hr : reg ≠ 0)
    (hlt : reg + s.block_size < size_max) (q : Nat) (hq1 : reg ≤ q)
    (hq2 : q < reg + s.block_size) :
    s.dump_free_list q =
      some (.ok (full_free_list reg s.chunk_size (s.block_size / s.chunk_size))) := by
  obtain ⟨hcs8, _, _⟩ := inv_sizes s out hc
  have hch := init_mem_chain s.block_size s.chunk_size reg m hcs8 hc.fits hc.size_pos hr hlt
  rw [← hmem] at hch
  obtain ⟨d1, _⟩ := dump_free_list_inv s out hc hdr _ hm q
    (by simp only [block.init]; omega) _ (by simpa [block.init] using hch)
  rw [d1, zip_full_free_list]

/-- C16: in every successfully constructed pool with
`N = block_size / chunk_size >= 1` chunks per block, `dump_free_list` of the
block created by the constructor returns exactly `N` entries, entry `i` being
`(block_beginning + i * chunk_size, block_beginning + (i + 1) * chunk_size)`
for `i < N - 1` and `(block_beginning + (N - 1) * chunk_size, null)` for
`i = N - 1`; and the same holds, at the moment of its creation, for every
block that `alloc` creates later: in a reachable state whose last block has
the header address `a`, the call `allocate_block(&a->next_block, a)` that
`get_available_chunk` makes returns normally and leaves such a free list in
the new block. -/
theorem new_block_free_list :
    (∀ (targs : template_args) (bs cs : Nat) (m : memory) (hdr reg : Nat) (s : memory_pool),
      0 < bs → targs.sizeof_T ≤ cs → fresh [] bs cs hdr reg →
      memory_pool.create targs bs cs m hdr reg = some (.ok s) →
      ∀ q, reg ≤ q → q < reg + bs →
        ∃ d, s.dump_free_list q = some (.ok d) ∧ d.length = bs / cs ∧
          ∀ i, i < bs / cs → d[i]? =
            some (reg + i * cs, if i + 1 < bs / cs then reg + (i + 1) * cs else 0)) ∧
    (∀ (s : memory_pool) (out : List Nat), reachable s out →
      ∀ (pre : header_heap) (a : Nat) (b : block), s.blocks = pre ++ [(a, b)] →
      ∀ (hdr reg : Nat), fresh s.blocks s.block_size s.chunk_size hdr reg →
      ∃ s1, s.allocate_block (.next_block a) a hdr reg = (.ok (), s1) ∧
        ∀ q, reg ≤ q → q < reg + s.block_size →
          ∃ d, s1.dump_free_list q = some (.ok d) ∧
            d.length = s.block_size / s.chunk_size ∧
            ∀ i, i < s.block_size / s.chunk_size → d[i]? =
              some (reg + i * s.chunk_size,
                if i + 1 < s.block_size / s.chunk_size then reg + (i + 1) * s.chunk_size
                else 0)) := by
  constructor
  · intro targs bs cs m hdr reg s hbs hT hf hcr q hq1 hq2
    have hinv := create_inv targs bs cs m hdr reg s hbs hT hf hcr
    have hc0 : cs ≠ 0 := by
      intro h0
      simp [memory_pool.create, h0] at hcr
    have hfit : bs % cs = 0 := by
      by_contra hne
      simp [memory_pool.create, hc0, hne] at hcr
    have hcs8 : sizeof_ptr ≤ cs := by
      by_contra hne
      simp [memory_pool.create, hc0, hfit, hne] at hcr
    rw [create_ok targs bs cs m hdr reg hcs8 hfit hf.hdr_ne hf.reg_ne] at hcr
    simp only [Option.some.injEq, Except.ok.injEq] at hcr
    subst hcr
    have hd := dump_new_block _ [] hinv.core hdr reg 0 m 0 (List.mem_singleton.mpr rfl) rfl
      hf.reg_ne hf.reg_fits q hq1 hq2
    exact ⟨_, hd, (full_free_list_spec reg cs (bs / cs)).1,
      (full_free_list_spec reg cs (bs / cs)).2⟩
  · intro s out h pre a b hs hdr reg hf
    have hinv := reachable_inv s out h
    have hk := keys_split pre [] a b (hs ▸ hinv.core.wf.keys_nodup)
    obtain ⟨_, hcore⟩ := allocate_block_core s out hinv.core pre a b hs hdr reg hf
    refine ⟨_, allocate_block_ok s (.next_block a) a hdr reg hf.hdr_ne hf.reg_ne, ?_⟩
    intro q hq1 hq2
    have hst : ({ store_slot s (.next_block a) hdr with
        blocks := (store_slot s (.next_block a) hdr).blocks ++
          [(hdr, block.init s.block_size s.chunk_size reg a)],
        mem := init_mem s.block_size s.chunk_size reg (store_slot s (.next_block a) hdr).mem }
          : memory_pool) =
        { s with
          blocks := (pre ++ [(a, { b with next_block := hdr })]) ++
            (hdr, block.init s.block_size s.chunk_size reg a) :: []
          mem := init_mem s.block_size s.chunk_size reg s.mem } := by
      simp only [store_slot]
      rw [hs, hdr_write_mid pre [] a b _ hk.1 hk.2.1]
    rw [hst]
    have hd := dump_new_block _ out hcore hdr reg a s.mem 0
      (by simp [block.init]) rfl hf.reg_ne hf.reg_fits q hq1 hq2
    exact ⟨_, hd, (full_free_list_spec reg s.chunk_size (s.block_size / s.chunk_size)).1,
      (full_free_list_spec reg s.chunk_size (s.block_size / s.chunk_size)).2⟩

/-- C16 on the pool `memory_pool<uint64_t>(16, 8)` with its block at address
64, and on the block at address 128 that the third `alloc` creates in it. -/
theorem new_block_free_list_witness :
    (∃ d, pool16.dump_free_list 64 = some (.ok d) ∧ d.length = 16 / 8 ∧
      ∀ i, i < 16 / 8 → d[i]? =
        some (64 + i * 8, if i + 1 < 16 / 8 then 64 + (i + 1) * 8 else 0)) ∧
    (∃ s1, pool16_b.allocate_block (.next_block 4096) 4096 4097 128 = (.ok (), s1) ∧
      ∀ q, 128 ≤ q → q < 128 + pool16_b.block_size →
        ∃ d, s1.dump_free_list q = some (.ok d) ∧
          d.length = pool16_b.block_size / pool16_b.chunk_size ∧
          ∀ i, i < pool16_b.block_size / pool16_b.chunk_size → d[i]? =
            some (128 + i * pool16_b.chunk_size,
              if i + 1 < pool16_b.block_size / pool16_b.chunk_size
              then 128 + (i + 1) * pool16_b.chunk_size else 0)) :=
  ⟨new_block_free_list.1 targs_u64 16 8 zero_mem 4096 64 pool16 (by decide) (by decide)
      ⟨by decide, by decide, by decide, by decide, by decide, by decide⟩ create_pool16
      64 (by decide) (by decide),
    new_block_free_list.2 pool16_b [72, 64] pool16_b_reachable []
      4096 { block16_full with next_block := 0 } (by decide) 4097 128
      ⟨by decide, by decide, by decide, by decide, by decide, by decide⟩⟩

/-! ## Releasing the last used chunk of one of several blocks -/

/-- In the executions that `reachable` covers (no two regions touch; the
pool `pool16_adj`, whose regions touch, behaves otherwise): in every
reachable pool state with more than one block
(`block_count() == n`, `n > 1`) and for every outstanding pointer `p` that is
the last used chunk of its block `B` (`used_chunks_in_block(p) == 1`),
`release(p)` returns normally and removes exactly `B` from the block list:
`block_count()` becomes `n - 1`; the headers before and after `B` stay at
their addresses and in their order, with their counters, regions and
free-list heads unchanged, and they report the same counters and the same
`dump_free_list` as before; if `B` was the head, the new head is the
successor of `B` and its predecessor link is null, otherwise the head stays. -/
theorem last_chunk_retires_block (s : memory_pool) (out : List Nat) (h : reachable s out)
    (n : Nat) (hn : s.block_count = some n) (hmulti : 1 < n) (p : Nat) (hp : p ∈ out)
    (hu : s.used_chunks_in_block p = some (.ok 1)) :
    ∃ pre a b post r, s.blocks = pre ++ (a, b) :: post ∧ in_block b p = true ∧
      s.release p = some r ∧ r.error = none ∧ r.pool.block_count = some (n - 1) ∧
      List.Forall₂ (fun e e1 : Nat × block => e1.1 = e.1 ∧ same_body e.2 e1.2)
        (pre ++ post) r.pool.blocks ∧
      (∀ e ∈ pre ++ post, ∀ q, e.2.block_beginning ≤ q → q < e.2.block_end →
        r.pool.dump_free_list q = s.dump_free_list q ∧
        r.pool.available_chunks_in_block q = s.available_chunks_in_block q ∧
        r.pool.used_chunks_in_block q = s.used_chunks_in_block q ∧
        r.pool.available_space_in_block q = s.available_space_in_block q ∧
        r.pool.used_space_in_block q = s.used_space_in_block q) ∧
      (pre = [] → r.pool.first_block = b.next_block ∧
        ∃ b2, hdr_read r.pool.blocks b.next_block = some b2 ∧ b2.previous_block = 0) ∧
      (pre ≠ [] → r.pool.first_block = s.first_block) := by
  have hinv := reachable_inv s out h
  have hc := hinv.core
  obtain ⟨pre, post, a, b, hs, _, hp0, hpre, hb, hinb, _⟩ := out_owner s out hc p hp
  have hm : (a, b) ∈ s.blocks := by rw [hs]; simp
  have hused : b.used_chunks = 1 := by
    have := field_of_block_inside s out hc a b hm p hb block.used_chunks
    unfold memory_pool.used_chunks_in_block at hu
    rw [hu] at this
    injection this with this
    injection this with this
    exact this.symm
  have hlen : s.blocks.length = n := by
    have := block_count_inv s out hc
    rw [hn] at this
    exact (Option.some.inj this).symm
  have hns : ¬ (pre = [] ∧ post = []) := by
    rintro ⟨h1, h2⟩
    rw [hs, h1, h2] at hlen
    simp at hlen
    omega
  obtain ⟨r, r1, r2, r3, r4, r5, r6⟩ :=
    release_retire_shape s p hc.wf hp0 pre post a b hs hpre hb hused hns
  obtain ⟨r0, q1, _, _, _, q5, _, q7, q8, _⟩ := release_inv s out hinv p hp
  have hrr : r0 = r := Option.some.inj (q1.symm.trans r1)
  subst hrr
  have hc1 := q5.core
  have hlen1 : r0.pool.blocks.length = n - 1 := by
    rw [← forall2_length _ _ _ r4, ← hlen, hs]
    simp
  refine ⟨pre, a, b, post, r0, hs, hinb, r1, r2, ?_, r4, ?_, ?_, r6⟩
  · rw [block_count_inv r0.pool _ hc1, hlen1]
  · intro e he q hq1 hq2
    have hes : e ∈ s.blocks := by
      rw [hs]
      rcases List.mem_append.mp he with h1 | h1
      · exact List.mem_append_left _ h1
      · exact List.mem_append_right _ (List.mem_cons_of_mem _ h1)
    obtain ⟨e1, he1, _, _, c2, c3, c4, c5, c6, c7, c8⟩ := forall2_mem _ _ _ r4 e he
    have hq : e.2.block_beginning ≤ q ∧ q ≤ e.2.block_end := ⟨hq1, by omega⟩
    have hqr : e1.2.block_beginning ≤ q ∧ q ≤ e1.2.block_end := by rw [c7, c8]; exact hq
    obtain ⟨fl, f1, _⟩ := (hc.blocks_ok e hes).free_list
    obtain ⟨d1, _⟩ := dump_free_list_inv s out hc e.1 e.2 hes q hq fl f1
    obtain ⟨d2, _⟩ := dump_free_list_inv r0.pool _ hc1 e1.1 e1.2 he1 q hqr fl
      (by rw [r3, c6]; exact f1)
    have fs := field_of_block_inside s out hc e.1 e.2 hes q hq
    have fr := field_of_block_inside r0.pool _ hc1 e1.1 e1.2 he1 q hqr
    refine ⟨by rw [d1, d2], ?_, ?_, ?_, ?_⟩
    · unfold memory_pool.available_chunks_in_block
      rw [fs, fr, c4]
    · unfold memory_pool.used_chunks_in_block
      rw [fs, fr, c5]
    · unfold memory_pool.available_space_in_block
      rw [fs, fr, c2]
    · unfold memory_pool.used_space_in_block
      rw [fs, fr, c3]
  · intro hpre0
    have hfb := r5 hpre0
    refine ⟨hfb, ?_⟩
    have hlk := hc1.wf.is_linked
    rw [hfb] at hlk
    cases hbl : r0.pool.blocks with
    | nil => exact absurd hbl hc1.wf.nonempty
    | cons e rest =>
      rw [hbl] at hlk
      obtain ⟨k1, _, k3, _⟩ := hlk
      exact ⟨e.2, by simp [hdr_read, k1], k3⟩

theorem pool16_c_count : pool16_c.block_count = some 2 := rfl

/-- The pool `pool16_c` as an instance of `last_chunk_retires_block`:
releasing the chunk 128, the only used chunk of the second block, removes
that block. -/
theorem last_chunk_retires_block_witness :
    ∃ pre a b post r, pool16_c.blocks = pre ++ (a, b) :: post ∧ in_block b 128 = true ∧
      pool16_c.release 128 = some r ∧ r.error = none ∧ r.pool.block_count = some (2 - 1) ∧
      List.Forall₂ (fun e e1 : Nat × block => e1.1 = e.1 ∧ same_body e.2 e1.2)
        (pre ++ post) r.pool.blocks ∧
      (∀ e ∈ pre ++ post, ∀ q, e.2.block_beginning ≤ q → q < e.2.block_end →
        r.pool.dump_free_list q = pool16_c.dump_free_list q ∧
        r.pool.available_chunks_in_block q = pool16_c.available_chunks_in_block q ∧
        r.pool.used_chunks_in_block q = pool16_c.used_chunks_in_block q ∧
        r.pool.available_space_in_block q = pool16_c.available_space_in_block q ∧
        r.pool.used_space_in_block q = pool16_c.used_space_in_block q) ∧
      (pre = [] → r.pool.first_block = b.next_block ∧
        ∃ b2, hdr_read r.pool.blocks b.next_block = some b2 ∧ b2.previous_block = 0) ∧
      (pre ≠ [] → r.pool.first_block = pool16_c.first_block) :=
  last_chunk_retires_block pool16_c [128, 72, 64] pool16_c_reachable 2 pool16_c_count
    (by decide) 128 (by decide) rfl

/-! ## Number of blocks after `k` allocations (C15) -/

/-- The block list after an `alloc` on a pool all of whose blocks but the
last are saturated: the chunk comes from the last block when that has a free
chunk, and from a new block behind it otherwise. -/
theorem alloc_last_shape (s : memory_pool) (out : List Nat) (hinv : pool_inv s out)
    (pre : header_heap) (a : Nat) (b : block) (hs : s.blocks = pre ++ [(a, b)])
    (hpre : ∀ e ∈ pre, e.2.available_chunks = 0) (hdr reg : Nat) (val : List Nat)
    (hf : fresh s.blocks s.block_size s.chunk_size hdr reg) (p : Nat) (s1 : memory_pool)
    (h : s.alloc hdr reg val = some (.ok p, s1)) :
    pool_inv s1 (p :: out) ∧ s1.block_size = s.block_size ∧ s1.chunk_size = s.chunk_size ∧
      (b.available_chunks ≠ 0 → s1.blocks = pre ++ [(a, b.take s.chunk_size s.mem)]) ∧
      (b.available_chunks = 0 → s1.blocks = pre ++ [(a, { b with next_block := hdr }),
        (hdr, (block.init s.block_size s.chunk_size reg a).take s.chunk_size
          (init_mem s.block_size s.chunk_size reg s.mem))]) := by
  obtain ⟨p1, s2, a1, _, a3, _, a5, a6, _⟩ := alloc_inv s out hinv hdr reg val hf
  rw [h] at a1
  simp only [Option.some.injEq, Prod.mk.injEq, Except.ok.injEq] at a1
  obtain ⟨e1, e2⟩ := a1
  subst e1 e2
  refine ⟨a3, a5, a6, ?_, ?_⟩
  · intro hb
    unfold memory_pool.alloc at h
    rw [get_available_chunk_existing s hdr reg hinv.core.wf pre [] a b hs hpre hb] at h
    simp only [Option.some.injEq, Prod.mk.injEq, Except.ok.injEq] at h
    rw [← h.2]
  · intro hb
    have hall : ∀ e ∈ s.blocks, e.2.available_chunks = 0 := by
      intro e he
      rw [hs] at he
      rcases List.mem_append.mp he with h1 | h1
      · exact hpre e h1
      · rw [List.mem_singleton.mp h1]
        exact hb
    unfold memory_pool.alloc at h
    rw [get_available_chunk_grow s hdr reg hinv.core.wf pre a b hs hall hf.hdr_ne hf.hdr_new
      hf.reg_ne] at h
    simp only [Option.some.injEq, Prod.mk.injEq, Except.ok.injEq] at h
    rw [← h.2]

/-- What holds after `k` calls of `alloc` on a fresh pool: all blocks but the
last are saturated, the last holds the remaining used chunks, and the headers
are in the order of their creation. -/
theorem allocs_only_shape (targs : template_args) (bs cs : Nat) (m : memory) (hdr reg : Nat)
    (s0 : memory_pool) (hbs : 0 < bs) (hT : targs.sizeof_T ≤ cs)
    (hf : fresh [] bs cs hdr reg)
    (hcr : memory_pool.create targs bs cs m hdr reg = some (.ok s0))
    (k : Nat) (created : List Nat) (s : memory_pool) (hrun : allocs_only s0 k created s) :
    ∃ out pre a b, pool_inv s out ∧ s.block_size = bs ∧ s.chunk_size = cs ∧
      s.blocks = pre ++ [(a, b)] ∧
      (∀ e ∈ pre, e.2.available_chunks = 0 ∧ e.2.used_chunks = bs / cs) ∧
      k = pre.length * (bs / cs) + b.used_chunks ∧ (1 ≤ k → 1 ≤ b.used_chunks) ∧
      hdr_keys s.blocks = hdr :: created := by
  induction hrun with
  | start =>
    have hinv := create_inv targs bs cs m hdr reg s0 hbs hT hf hcr
    have hc0 : cs ≠ 0 := by
      intro h0
      simp [memory_pool.create, h0] at hcr
    have hfit : bs % cs = 0 := by
      by_contra hne
      simp [memory_pool.create, hc0, hne] at hcr
    have hcs8 : sizeof_ptr ≤ cs := by
      by_contra hne
      simp [memory_pool.create, hc0, hfit, hne] at hcr
    rw [create_ok targs bs cs m hdr reg hcs8 hfit hf.hdr_ne hf.reg_ne] at hcr
    simp only [Option.some.injEq, Except.ok.injEq] at hcr
    subst hcr
    refine ⟨[], [], hdr, block.init bs cs reg 0, hinv, rfl, rfl, rfl, ?_, ?_, ?_, rfl⟩
    · intro e he
      simp at he
    · simp [block.init]
    · intro h0
      omega
  | step k created s hdr1 reg1 val p s1 _ hfr hal ih =>
    obtain ⟨out, pre, a, b, hinv, i1, i2, i3, i4, i5, _, i7⟩ := ih
    have hc := hinv.core
    have hm : (a, b) ∈ s.blocks := by rw [i3]; simp
    have hok : block_ok s out b := hc.blocks_ok (a, b) hm
    have hch := hok.chunks
    rw [i1, i2] at hch
    have hlt : bs / cs < size_max := by
      have h1 := hok.end_eq
      have h2 := hok.end_lt
      have h3 : bs / cs ≤ bs := Nat.div_le_self bs cs
      rw [i1] at h1
      omega
    obtain ⟨j1, j2, j3, j4, j5⟩ := alloc_last_shape s out hinv pre a b i3
      (fun e he => (i4 e he).1) hdr1 reg1 val hfr p s1 hal
    by_cases hb : b.available_chunks = 0
    · have hbl := j5 hb
      have hlen : ¬ (s1.blocks.length = s.blocks.length) := by
        rw [hbl, i3]
        simp
      rw [if_neg hlen]
      refine ⟨p :: out, pre ++ [(a, { b with next_block := hdr1 })], hdr1,
        (block.init s.block_size s.chunk_size reg1 a).take s.chunk_size
          (init_mem s.block_size s.chunk_size reg1 s.mem), j1, j2.trans i1,
        j3.trans i2, by rw [hbl]; simp, ?_, ?_, ?_, ?_⟩
      · intro e he
        rcases List.mem_append.mp he with h1 | h1
        · exact i4 e h1
        · rw [List.mem_singleton.mp h1]
          exact ⟨hb, by simp only; omega⟩
      · simp only [block.take, block.init, List.length_append, List.length_singleton]
        rw [incr_eq 0 (by decide), Nat.add_mul, Nat.one_mul]
        omega
      · intro _
        simp only [block.take, block.init]
        rw [incr_eq 0 (by decide)]
      · rw [hbl]
        rw [i3] at i7
        simp only [hdr_keys, List.map_append, List.map_cons, List.map_nil] at i7 ⊢
        rw [← List.cons_append, ← i7]
        simp
    · have hbl := j4 hb
      have hlen : s1.blocks.length = s.blocks.length := by
        rw [hbl, i3]
        simp
      rw [if_pos hlen]
      refine ⟨p :: out, pre, a, b.take s.chunk_size s.mem, j1, j2.trans i1, j3.trans i2, hbl,
        i4, ?_, ?_, ?_⟩
      · simp only [block.take]
        rw [incr_eq _ (by omega)]
        omega
      · intro _
        simp only [block.take]
        rw [incr_eq _ (by omega)]
        omega
      · rw [hbl]
        rw [i3] at i7
        simp only [hdr_keys, List.map_append, List.map_cons, List.map_nil] at i7 ⊢
        exact i7

/-- C15: in a freshly constructed pool with `N = block_size / chunk_size >= 1`
chunks per block, after `k >= 1` calls of `alloc` and no `release`,
`block_count()` equals `ceil(k / N)`, every block but the last is saturated
(no available chunk, `N` used chunks), and the headers are in the list in the
order of their creation: the header of the constructor first, then the
headers that the calls of `alloc` created, in call order. -/
theorem allocs_block_count (targs : template_args) (bs cs : Nat) (m : memory) (hdr reg : Nat)
    (s0 : memory_pool) (hN : 1 ≤ bs / cs) (hT : targs.sizeof_T ≤ cs)
    (hf : fresh [] bs cs hdr reg)
    (hcr : memory_pool.create targs bs cs m hdr reg = some (.ok s0))
    (k : Nat) (created : List Nat) (s : memory_pool) (hrun : allocs_only s0 k created s)
    (hk : 1 ≤ k) :
    s.block_count = some ((k + bs / cs - 1) / (bs / cs)) ∧
      (∀ e ∈ s.blocks.dropLast, e.2.available_chunks = 0 ∧ e.2.used_chunks = bs / cs) ∧
      hdr_keys s.blocks = hdr :: created := by
  have hbs : 0 < bs := by
    rcases Nat.eq_zero_or_pos bs with h0 | h0
    · rw [h0, Nat.zero_div] at hN
      omega
    · exact h0
  obtain ⟨out, pre, a, b, hinv, i1, i2, i3, i4, i5, i6, i7⟩ :=
    allocs_only_shape targs bs cs m hdr reg s0 hbs hT hf hcr k created s hrun
  have hc := hinv.core
  have hok : block_ok s out b := hc.blocks_ok (a, b) (by rw [i3]; simp)
  have hch := hok.chunks
  rw [i1, i2] at hch
  have hu := i6 hk
  refine ⟨?_, ?_, i7⟩
  · rw [block_count_inv s out hc, i3]
    congr 1
    simp only [List.length_append, List.length_singleton]
    symm
    apply Nat.div_eq_of_lt_le
    · rw [Nat.add_mul, Nat.one_mul]
      omega
    · rw [Nat.succ_mul, Nat.add_mul, Nat.one_mul]
      omega
  · rw [i3, List.dropLast_concat]
    exact i4

theorem pool16_allocs_only : allocs_only pool16 3 [4097] pool16_c :=
  allocs_only.step 2 [] pool16_b 4097 128 [3] 128 pool16_c
    (allocs_only.step 1 [] pool16_a 4097 128 [2] 72 pool16_b
      (allocs_only.step 0 [] pool16 4097 128 [1] 64 pool16_a allocs_only.start
        fresh_example pool16_a_alloc)
      ⟨by decide, by decide, by decide, by decide, by decide, by decide⟩ pool16_b_alloc)
    ⟨by decide, by decide, by decide, by decide, by decide, by decide⟩ pool16_c_alloc

/-- C15 on the pool `memory_pool<uint64_t>(16, 8)` after three calls of
`alloc`: two blocks, the first saturated. -/
theorem allocs_block_count_witness :
    pool16_c.block_count = some ((3 + 16 / 8 - 1) / (16 / 8)) ∧
      (∀ e ∈ pool16_c.blocks.dropLast,
        e.2.available_chunks = 0 ∧ e.2.used_chunks = 16 / 8) ∧
      hdr_keys pool16_c.blocks = 4096 :: [4097] :=
  allocs_block_count targs_u64 16 8 zero_mem 4096 64 pool16 (by decide) (by decide)
    ⟨by decide, by decide, by decide, by decide, by decide, by decide⟩ create_pool16
    3 [4097] pool16_c pool16_allocs_only (by decide)

/-! ## `std::bit_width` and the shift of `adjust_chunk_size` -/

theorem bit_width_loop_spec : ∀ (fuel x : Nat), 0 < x → x < 2 ^ fuel →
    ∃ k, bit_width_loop fuel x = k + 1 ∧ 2 ^ k ≤ x ∧ x < 2 ^ (k + 1) := by
  intro fuel
  induction fuel with
  | zero =>
    intro x h0 h1
    simp at h1
    omega
  | succ fuel ih =>
    intro x h0 h1
    have hx : x ≠ 0 := by omega
    simp only [bit_width_loop, if_neg hx]
    rcases Nat.eq_zero_or_pos (x / 2) with hz | hp
    · have h1x : x = 1 := by omega
      refine ⟨0, ?_, by omega, by omega⟩
      rw [hz]
      cases fuel <;> simp [bit_width_loop]
    · have hlt : x / 2 < 2 ^ fuel := by
        rw [Nat.pow_succ] at h1
        omega
      obtain ⟨k, e1, e2, e3⟩ := ih (x / 2) hp hlt
      refine ⟨k + 1, by rw [e1], ?_, ?_⟩
      · rw [Nat.pow_succ]
        omega
      · rw [Nat.pow_succ] at e3 ⊢
        omega

/-- For a positive `size_t` value, `std::bit_width` is one more than the
exponent of the largest power of two that does not exceed the value. -/
theorem bit_width_spec (x : Nat) (h0 : 0 < x) (h1 : x < size_max) :
    ∃ k, bit_width x = k + 1 ∧ 2 ^ k ≤ x ∧ x < 2 ^ (k + 1) :=
  bit_width_loop_spec 64 x h0 h1

theorem wrap_int_small (v : Nat) (h : v < 2 ^ 31) : wrap_int (v : Int) = (v : Int) := by
  unfold wrap_int
  have h2 : ((v : Int) + 2 ^ 31) % 2 ^ 32 = (v : Int) + 2 ^ 31 := by
    apply Int.emod_eq_of_lt
    · omega
    · omega
  rw [h2]
  omega

theorem size_t_of_int_nat (v : Nat) (h : v < 2 ^ 64) : size_t_of_int (v : Int) = v := by
  unfold size_t_of_int
  have h2 : (v : Int) % 2 ^ 64 = (v : Int) := by
    apply Int.emod_eq_of_lt
    · omega
    · omega
  rw [h2]
  exact Int.toNat_natCast v

/-- The value of the expression
`static_cast<size_t>(static_cast<int>(2 << (bw - 1)))` when `bw = k + 1` and
the result fits into an `int`. -/
theorem shift_small (k : Nat) (hk : k < 30) :
    shl_int 2 (((k + 1 : Nat) : Int) - 1) = some ((2 ^ (k + 1) : Nat) : Int) := by
  have e : ((k + 1 : Nat) : Int) - 1 = (k : Int) := by omega
  have hp : 2 ^ (k + 1) < 2 ^ 31 := Nat.pow_lt_pow_right (by decide) (by omega)
  rw [e]
  unfold shl_int
  rw [if_pos ⟨by omega, by omega⟩, Int.toNat_natCast]
  have e2 : (2 : Int) * 2 ^ k = ((2 ^ (k + 1) : Nat) : Int) := by
    rw [Nat.pow_succ]
    push_cast
    ring
  rw [e2, wrap_int_small _ hp]

/-- For a request of at least 8 and less than `2 ^ 30` bytes
`adjust_chunk_size` returns `2 ^ bit_width(n)`. -/
theorem adjust_chunk_size_eq (n : Nat) (h8 : 8 ≤ n) (hlt : n < 2 ^ 30) :
    ∃ k, bit_width n = k + 1 ∧ 2 ^ k ≤ n ∧ n < 2 ^ (k + 1) ∧ k < 30 ∧
      global_allocator.adjust_chunk_size n = some (2 ^ (k + 1)) := by
  obtain ⟨k, e1, e2, e3⟩ := bit_width_spec n (by omega) (by unfold size_max; omega)
  have hk : k < 30 := by
    by_contra hge
    have : 2 ^ 30 ≤ 2 ^ k := Nat.pow_le_pow_right (by decide) (by omega)
    omega
  refine ⟨k, e1, e2, e3, hk, ?_⟩
  unfold global_allocator.adjust_chunk_size
  rw [if_neg (by omega)]
  simp only [e1, shift_small k hk]
  rw [size_t_of_int_nat]
  have : 2 ^ (k + 1) < 2 ^ 64 := Nat.pow_lt_pow_right (by decide) (by omega)
  exact this

/-! ## The size class of a request (C21, C22, C23, C24) -/

/-- C21, as stated, fails: 8 is a power of two that is at least 8, and
`adjust_chunk_size(8)` is 16 and not 8. -/
theorem adjust_chunk_size_counterexample :
    (8 : Nat) = 2 ^ 3 ∧ global_allocator.adjust_chunk_size 8 = some 16 ∧
      global_allocator.adjust_chunk_size 8 ≠ some 8 := by
  decide

/-- C21, amended: for every requested byte count `n < 2 ^ 30`,
`adjust_chunk_size(n)` is 8 when `n < 8`, and otherwise it is the smallest
power of two that is strictly greater than `n`; an `n >= 8` that is a power
of two is therefore mapped to `2 * n` and not to itself. -/
theorem adjust_chunk_size_next_power (n : Nat) (hlt : n < 2 ^ 30) :
    (n < 8 → global_allocator.adjust_chunk_size n = some 8) ∧
    (8 ≤ n → ∃ k, global_allocator.adjust_chunk_size n = some (2 ^ k) ∧ n < 2 ^ k ∧
      (∀ j, n < 2 ^ j → 2 ^ k ≤ 2 ^ j) ∧
      (∀ j, n = 2 ^ j → global_allocator.adjust_chunk_size n = some (2 * n))) := by
  constructor
  · intro h
    unfold global_allocator.adjust_chunk_size
    rw [if_pos h]
  · intro h8
    obtain ⟨k, _, e2, e3, _, e5⟩ := adjust_chunk_size_eq n h8 hlt
    refine ⟨k + 1, e5, e3, ?_, ?_⟩
    · intro j hj
      apply Nat.pow_le_pow_right (by decide)
      by_contra hjk
      have : 2 ^ j ≤ 2 ^ k := Nat.pow_le_pow_right (by decide) (by omega)
      omega
    · intro j hj
      have hjk : j = k := by
        rw [hj] at e2 e3
        have h1 : k ≤ j := (Nat.pow_le_pow_iff_right (by decide)).mp e2
        have h2 : j < k + 1 := (Nat.pow_lt_pow_iff_right (by decide)).mp e3
        omega
      rw [e5, hj, hjk, Nat.pow_succ, Nat.mul_comm]

/-- C21, amended, on the requests 5, 8 and 100. -/
theorem adjust_chunk_size_next_power_witness :
    global_allocator.adjust_chunk_size 5 = some 8 ∧
    (∃ k, global_allocator.adjust_chunk_size 8 = some (2 ^ k) ∧ 8 < 2 ^ k ∧
      (∀ j, 8 < 2 ^ j → 2 ^ k ≤ 2 ^ j) ∧
      (∀ j, 8 = 2 ^ j → global_allocator.adjust_chunk_size 8 = some (2 * 8))) ∧
    (∃ k, global_allocator.adjust_chunk_size 100 = some (2 ^ k) ∧ 100 < 2 ^ k ∧
      (∀ j, 100 < 2 ^ j → 2 ^ k ≤ 2 ^ j) ∧
      (∀ j, 100 = 2 ^ j → global_allocator.adjust_chunk_size 100 = some (2 * 100))) :=
  ⟨(adjust_chunk_size_next_power 5 (by decide)).1 (by decide),
    (adjust_chunk_size_next_power 8 (by decide)).2 (by decide),
    (adjust_chunk_size_next_power 100 (by decide)).2 (by decide)⟩

/-- C22: the code at requests of `2 ^ 30` bytes and more. For `n = 2 ^ 30` the
`int` expression `2 << 30` wraps to `-2 ^ 31`, and `adjust_chunk_size`
returns `2 ^ 64 - 2 ^ 31`, which is not a power of two; for `n = 2 ^ 31` it
returns 0, which is neither a power of two nor at least 8; for `n = 2 ^ 32`
the shift count is 32 and the expression has no defined value. -/
theorem adjust_chunk_size_int_overflow :
    global_allocator.adjust_chunk_size (2 ^ 30) = some (2 ^ 64 - 2 ^ 31) ∧
    (∀ k, (2 ^ 64 - 2 ^ 31 : Nat) ≠ 2 ^ k) ∧
    global_allocator.adjust_chunk_size (2 ^ 31) = some 0 ∧
    (∀ k, (0 : Nat) ≠ 2 ^ k) ∧
    global_allocator.adjust_chunk_size (2 ^ 32) = none := by
  refine ⟨by decide, ?_, by decide, ?_, by decide⟩
  · intro k hk
    rcases Nat.lt_or_ge k 64 with h | h
    · have hall : ∀ j, j < 64 → (2 ^ 64 - 2 ^ 31 : Nat) ≠ 2 ^ j := by decide
      exact hall k h hk
    · have : 2 ^ 64 ≤ 2 ^ k := Nat.pow_le_pow_right (by decide) h
      omega
  · intro k hk
    have := Nat.two_pow_pos k
    omega

/-- C23, as stated, fails: for the request `n = 8` the size class is 16,
which exceeds `2 * n - 1 = 15`. -/
theorem size_class_bound_counterexample :
    ∃ c, (8 : Nat) ≤ 8 ∧ global_allocator.adjust_chunk_size 8 = some c ∧ ¬ (c ≤ 2 * 8 - 1) :=
  ⟨16, by decide, by decide, by decide⟩

/-- C23, amended: for every requested byte count `n` with `8 <= n < 2 ^ 30`,
the size class `c = adjust_chunk_size(n)` that `global_allocator::allocate(n)`
uses exceeds `n` and over-allocates by at most a factor of two:
`n < c <= 2 * n`. -/
theorem size_class_at_most_double (n : Nat) (h8 : 8 ≤ n) (hlt : n < 2 ^ 30) :
    ∃ c, global_allocator.adjust_chunk_size n = some c ∧ n < c ∧ c ≤ 2 * n := by
  obtain ⟨k, _, e2, e3, _, e5⟩ := adjust_chunk_size_eq n h8 hlt
  refine ⟨_, e5, e3, ?_⟩
  rw [Nat.pow_succ]
  omega

/-- C23, amended, on the request of 24 bytes, whose size class is 32. -/
theorem size_class_at_most_double_witness :
    ∃ c, global_allocator.adjust_chunk_size 24 = some c ∧ 24 < c ∧ c ≤ 2 * 24 :=
  size_class_at_most_double 24 (by decide) (by decide)

/-- C24: for every element size `s = sizeof(T)` and every count `c`, the size
class that `pool_allocator::deallocate(p, c)` computes inline from `c * s`
(a `size_t` product) and passes to `global_allocator::deallocate` is
`adjust_chunk_size(c * s)`; for `s > 0` and `c <= SIZE_MAX / s`, the counts
that `pool_allocator::allocate` does not reject, the product does not wrap
and `allocate(c)` forwards the same `c * s` to `global_allocator::allocate`,
which uses the size class `adjust_chunk_size(c * s)`; so `deallocate` looks
up the registry under the class that `allocate` used. -/
theorem deallocate_uses_allocate_class (s c : Nat) :
    pool_allocator.deallocate_chunk_size s c =
      global_allocator.adjust_chunk_size ((c * s) % size_max) ∧
    (∀ (g : global_allocator) (p : Nat), pool_allocator.deallocate s (some g) p c =
      match global_allocator.adjust_chunk_size ((c * s) % size_max) with
      | none => none
      | some chunk_size =>
        match g.deallocate p chunk_size with
        | none => none
        | some (some _, _) => none
        | some (none, g1) => some (some g1)) ∧
    (0 < s → c ≤ (size_max - 1) / s →
      (c * s) % size_max = c * s ∧
      ∀ (g : global_allocator) (env : alloc_env), pool_allocator.allocate s (some g) c env =
        match g.allocate (c * s) env with
        | none => none
        | some (.error e, g1) => some (.error (.pool e), some g1)
        | some (.ok t, g1) =>
          if t ≠ 0 then some (.ok t, some g1) else some (.error .bad_alloc, some g1)) := by
  refine ⟨rfl, fun g p => rfl, ?_⟩
  intro hs hc
  have hmul : c * s < size_max := by
    have h1 : c * s ≤ (size_max - 1) / s * s := Nat.mul_le_mul_right s hc
    have h2 : (size_max - 1) / s * s ≤ size_max - 1 := Nat.div_mul_le_self _ _
    have h3 : 0 < size_max := by decide
    omega
  have hmod : (c * s) % size_max = c * s := Nat.mod_eq_of_lt hmul
  refine ⟨hmod, ?_⟩
  intro g env
  unfold pool_allocator.allocate
  simp only
  rw [if_neg (by omega), if_neg (by omega), hmod]

/-- C24 for `T = uint32_t` and the count 5: both sides use the size class
`adjust_chunk_size(20) = 32`. -/
theorem deallocate_uses_allocate_class_witness :
    pool_allocator.deallocate_chunk_size 4 5 = some 32 ∧
    global_allocator.adjust_chunk_size ((5 * 4) % size_max) = some 32 ∧
    (5 * 4) % size_max = 5 * 4 :=
  ⟨(deallocate_uses_allocate_class 4 5).1.trans (by decide), by decide,
    ((deallocate_uses_allocate_class 4 5).2.2 (by decide) (by decide)).1⟩

/-! ## The registry and the heap of pools -/

theorem map_find_some_mem (m : List (Nat × Nat)) (k a : Nat) (h : map_find m k = some a) :
    (k, a) ∈ m := by
  induction m with
  | nil => simp [map_find] at h
  | cons e rest ih =>
    simp only [map_find] at h
    by_cases he : e.1 = k
    · rw [if_pos he] at h
      have h2 : e.2 = a := Option.some.inj h
      have : e = (k, a) := by rw [← he, ← h2]
      rw [this]
      exact List.mem_cons_self _ _
    · rw [if_neg he] at h
      exact List.mem_cons_of_mem _ (ih h)

theorem map_find_none_not_mem (m : List (Nat × Nat)) (k : Nat) (h : map_find m k = none) :
    k ∉ m.map Prod.fst := by
  induction m with
  | nil => simp
  | cons e rest ih =>
    simp only [map_find] at h
    by_cases he : e.1 = k
    · rw [if_pos he] at h
      simp at h
    · rw [if_neg he] at h
      simp only [List.map_cons, List.mem_cons, not_or]
      exact ⟨fun hk => he hk.symm, ih h⟩

theorem map_find_mem (m : List (Nat × Nat)) (hk : (m.map Prod.fst).Nodup) (e : Nat × Nat)
    (he : e ∈ m) : map_find m e.1 = some e.2 := by
  induction m with
  | nil => simp at he
  | cons e0 rest ih =>
    simp only [List.map_cons, List.nodup_cons] at hk
    simp only [map_find]
    rcases List.mem_cons.mp he with h | h
    · rw [h, if_pos rfl]
    · have hne : e0.1 ≠ e.1 := by
        intro heq
        apply hk.1
        rw [heq]
        exact List.mem_map_of_mem Prod.fst h
      rw [if_neg hne]
      exact ih hk.2 h

theorem map_find_cons_ne (m : List (Nat × Nat)) (c a c1 : Nat) (h : c1 ≠ c) :
    map_find ((c, a) :: m) c1 = map_find m c1 := by
  simp only [map_find]
  rw [if_neg (fun h2 => h h2.symm)]

theorem map_find_cons_same (m : List (Nat × Nat)) (c a : Nat) :
    map_find ((c, a) :: m) c = some a := by
  simp [map_find]

theorem map_assign_absent (m : List (Nat × Nat)) (c v : Nat) (h : map_find m c = none) :
    map_assign m c v = (c, v) :: m := by
  unfold map_assign
  rw [h]

theorem pool_read_filter (P : pool_heap) (a a1 : Nat) (h : a1 ≠ a) :
    pool_read (P.filter (fun e => decide (e.1 ≠ a))) a1 = pool_read P a1 := by
  induction P with
  | nil => rfl
  | cons e rest ih =>
    by_cases he : e.1 = a
    · have : decide (e.1 ≠ a) = false := by simp [he]
      rw [List.filter_cons_of_neg (by simp [he]), ih]
      simp only [pool_read]
      rw [if_neg (by rw [he]; exact fun h2 => h h2.symm)]
    · rw [List.filter_cons_of_pos (by simp [he])]
      simp only [pool_read, ih]

theorem pool_read_store_same (P : pool_heap) (a : Nat) (s : memory_pool) :
    pool_read (pool_store P a s) a = some s := by
  simp [pool_store, pool_read]

theorem pool_read_store_other (P : pool_heap) (a : Nat) (s : memory_pool) (a1 : Nat)
    (h : a1 ≠ a) : pool_read (pool_store P a s) a1 = pool_read P a1 := by
  unfold pool_store
  simp only [pool_read]
  rw [if_neg (fun h2 => h h2.symm)]
  exact pool_read_filter P a a1 h

/-! ## The count of used chunks -/

theorem used_total_mid (pre post : header_heap) (a : Nat) (b : block) :
    ((pre ++ (a, b) :: post).map (fun e => e.2.used_chunks)).sum =
      (pre.map (fun e => e.2.used_chunks)).sum + b.used_chunks +
        (post.map (fun e => e.2.used_chunks)).sum := by
  simp only [List.map_append, List.map_cons, List.sum_append, List.sum_cons]
  omega

/-- An `alloc` under the invariant returns a chunk that was not outstanding,
keeps the invariant and raises the count of used chunks by one; the results
of `new block` and `std::aligned_alloc` matter only when every block is
saturated. -/
theorem alloc_counts (s : memory_pool) (out : List Nat) (hinv : pool_inv s out)
    (hdr reg : Nat) (val : List Nat)
    (hf : (∀ e ∈ s.blocks, e.2.available_chunks = 0) →
      fresh s.blocks s.block_size s.chunk_size hdr reg) :
    ∃ p s1, s.alloc hdr reg val = some (.ok p, s1) ∧ p ∉ out ∧ pool_inv s1 (p :: out) ∧
      s1.block_size = s.block_size ∧ s1.chunk_size = s.chunk_size ∧ s1.targs = s.targs ∧
      s1.used_chunks_total = s.used_chunks_total + 1 := by
  have hc := hinv.core
  obtain ⟨hcs8, hmul, hN⟩ := inv_sizes s out hc
  have hlen : (val.take s.targs.sizeof_T).length ≤ s.chunk_size := by
    rw [List.length_take]
    have := hc.elem_fits
    omega
  cases hfind : s.blocks.find? (fun e => decide (e.2.available_chunks ≠ 0)) with
  | some e =>
    obtain ⟨a, b⟩ := e
    rw [List.find?_eq_some] at hfind
    obtain ⟨hb, pre, post, hs, hpre⟩ := hfind
    have hb2 : b.available_chunks ≠ 0 := by simpa using hb
    have hpre2 : ∀ e ∈ pre, e.2.available_chunks = 0 := by
      intro e he
      have := hpre e he
      simpa using this
    have hg := get_available_chunk_existing s hdr reg hc.wf pre post a b hs hpre2 hb2
    obtain ⟨h1, _, _⟩ := alloc_existing_core s out hc pre post a b hs hb2 _ hlen
    have h3 := alloc_existing_inv s out hinv pre post a b hs hb2 _ hlen
    have hok : block_ok s out b := hc.blocks_ok (a, b) (by rw [hs]; simp)
    have hch := hok.chunks
    have hend := hok.end_eq
    have hlt := hok.end_lt
    have hNle : s.block_size / s.chunk_size ≤ s.block_size := Nat.div_le_self _ _
    refine ⟨b.next_free_chunk, _, ?_, h1, h3, rfl, rfl, rfl, ?_⟩
    · unfold memory_pool.alloc
      rw [hg]
    · unfold memory_pool.used_chunks_total
      show ((pre ++ (a, b.take s.chunk_size s.mem) :: post).map _).sum = _
      rw [hs, used_total_mid, used_total_mid]
      simp only [block.take]
      rw [incr_eq _ (by omega)]
      omega
  | none =>
    rw [List.find?_eq_none] at hfind
    have hall : ∀ e ∈ s.blocks, e.2.available_chunks = 0 := by
      intro e he
      have := hfind e he
      simpa using this
    have hfr := hf hall
    rcases list_cases_snoc s.blocks with h | ⟨pre, a, b, hs⟩
    · exact absurd h hc.wf.nonempty
    · have hg := get_available_chunk_grow s hdr reg hc.wf pre a b hs hall hfr.hdr_ne
        hfr.hdr_new hfr.reg_ne
      obtain ⟨h1, h3⟩ := alloc_grow_inv s out hinv pre a b hs hall hdr reg hfr _ hlen
      refine ⟨reg, _, ?_, h1, h3, rfl, rfl, rfl, ?_⟩
      · unfold memory_pool.alloc
        rw [hg]
      · unfold memory_pool.used_chunks_total
        show ((pre ++ [(a, { b with next_block := hdr }),
          (hdr, (block.init s.block_size s.chunk_size reg a).take s.chunk_size
            (init_mem s.block_size s.chunk_size reg s.mem))]).map _).sum = _
        rw [hs]
        simp only [List.map_append, List.map_cons, List.map_nil, List.sum_append,
          List.sum_cons, List.sum_nil, block.take, block.init]
        rw [incr_eq 0 (by decide)]
        omega

/-! ## `create_pool` -/

theorem create_some_valid (targs : template_args) (bs cs : Nat) (m : memory) (hdr reg : Nat)
    (s : memory_pool) (h : memory_pool.create targs bs cs m hdr reg = some (.ok s)) :
    sizeof_ptr ≤ cs ∧ bs % cs = 0 := by
  have hc0 : cs ≠ 0 := by
    intro h0
    simp [memory_pool.create, h0] at h
  have hfit : bs % cs = 0 := by
    by_contra hne
    simp [memory_pool.create, hc0, hne] at h
  have hcs8 : sizeof_ptr ≤ cs := by
    by_contra hne
    simp [memory_pool.create, hc0, hfit, hne] at h
  exact ⟨hcs8, hfit⟩

theorem create_created (targs : template_args) (bs cs : Nat) (m : memory) (hdr reg : Nat)
    (hcs : sizeof_ptr ≤ cs) (hfit : bs % cs = 0) (hh : hdr ≠ 0) (hr : reg ≠ 0) :
    memory_pool.create targs bs cs m hdr reg =
      some (.ok (memory_pool.created targs bs cs m hdr reg)) :=
  create_ok targs bs cs m hdr reg hcs hfit hh hr

theorem create_pool_present (g : global_allocator) (size c : Nat) (env : alloc_env) (a : Nat)
    (h : map_find g.local_blocks c = some a) :
    g.create_pool size c env = some ((c, a), g) := by
  unfold global_allocator.create_pool
  rw [h]

/-- A call of `create_pool` for a class without a pool takes a chunk of the
meta-pool and registers the pool constructed in it. -/
theorem create_pool_absent (g : global_allocator) (outs : Nat → List Nat)
    (hinv : ga_inv g outs) (size c : Nat) (env : alloc_env)
    (hf : env_fresh g size c env) (habs : map_find g.local_blocks c = none)
    (hcs : sizeof_ptr ≤ c) (hfit : size % c = 0) :
    ∃ p gb1, p ∉ g.local_blocks.map Prod.snd ∧
      pool_inv gb1 (p :: g.local_blocks.map Prod.snd) ∧
      g.global_block.alloc env.meta_hdr env.meta_reg env.pool_val = some (.ok p, gb1) ∧
      g.create_pool size c env = some ((c, p),
        { g with
          global_block := gb1
          local_blocks := (c, p) :: g.local_blocks
          pools := pool_store g.pools p
            (memory_pool.created targs_pool_type size c env.pool_mem env.pool_hdr
              env.pool_reg) }) := by
  obtain ⟨p, gb1, a1, a2, a3, _⟩ := alloc_inv g.global_block _ hinv.meta_inv env.meta_hdr
    env.meta_reg env.pool_val (hf.meta_fresh habs)
  have hpf := hf.pool_fresh habs
  refine ⟨p, gb1, a2, a3, a1, ?_⟩
  unfold global_allocator.create_pool
  rw [habs]
  simp only [a1, create_created targs_pool_type size c env.pool_mem env.pool_hdr env.pool_reg
    hcs hfit hpf.hdr_ne hpf.reg_ne, map_assign_absent _ _ _ habs]

theorem create_pool_some_valid (g : global_allocator) (outs : Nat → List Nat)
    (hinv : ga_inv g outs) (size c : Nat) (env : alloc_env)
    (hf : env_fresh g size c env) (habs : map_find g.local_blocks c = none)
    (it : Nat × Nat) (g1 : global_allocator)
    (h : g.create_pool size c env = some (it, g1)) : sizeof_ptr ≤ c ∧ size % c = 0 := by
  obtain ⟨p, gb1, a1, _⟩ := alloc_inv g.global_block _ hinv.meta_inv env.meta_hdr
    env.meta_reg env.pool_val (hf.meta_fresh habs)
  unfold global_allocator.create_pool at h
  rw [habs] at h
  simp only [a1] at h
  cases hcr : memory_pool.create targs_pool_type size c env.pool_mem env.pool_hdr
      env.pool_reg with
  | none => rw [hcr] at h; simp at h
  | some r =>
    cases r with
    | error e => rw [hcr] at h; simp at h
    | ok s => exact create_some_valid _ _ _ _ _ _ s hcr

theorem snd_injective (m : List (Nat × Nat)) (hn : (m.map Prod.snd).Nodup)
    (hk : (m.map Prod.fst).Nodup) (e1 e2 : Nat × Nat) (h1 : e1 ∈ m) (h2 : e2 ∈ m)
    (h : e1.2 = e2.2) : e1 = e2 := by
  induction m with
  | nil => simp at h1
  | cons e rest ih =>
    simp only [List.map_cons, List.nodup_cons] at hn hk
    rcases List.mem_cons.mp h1 with g1 | g1
    · rcases List.mem_cons.mp h2 with g2 | g2
      · rw [g1, g2]
      · exfalso
        apply hn.1
        rw [← g1, h]
        exact List.mem_map_of_mem Prod.snd g2
    · rcases List.mem_cons.mp h2 with g2 | g2
      · exfalso
        apply hn.1
        rw [← g2, ← h]
        exact List.mem_map_of_mem Prod.snd g1
      · exact ih hn.2 hk.2 g1 g2

/-- The invariant after the pool registered under the class `c` changed its
state. -/
theorem ga_inv_update_pool (g : global_allocator) (outs : Nat → List Nat)
    (hinv : ga_inv g outs) (c a : Nat) (hfind : map_find g.local_blocks c = some a)
    (s1 : memory_pool) (out1 : List Nat) (h1 : pool_inv s1 out1) (h2 : s1.chunk_size = c)
    (h3 : s1.targs = targs_pool_type) :
    ga_inv { g with pools := pool_store g.pools a s1 } (Function.update outs c out1) := by
  have hmem := map_find_some_mem _ _ _ hfind
  refine ⟨hinv.meta_inv, hinv.keys_nodup, ?_, ?_⟩
  · intro e he
    by_cases hec : e.1 = c
    · have hfe := map_find_mem _ hinv.keys_nodup e he
      rw [hec, hfind] at hfe
      have hea : e.2 = a := (Option.some.inj hfe).symm
      refine ⟨s1, ?_, ?_, ?_, h3⟩
      · show pool_read (pool_store g.pools a s1) e.2 = some s1
        rw [hea]
        exact pool_read_store_same _ _ _
      · rw [hec, Function.update_same]
        exact h1
      · rw [hec]
        exact h2
    · have hne : e.2 ≠ a := by
        intro hea
        have := snd_injective _ hinv.meta_inv.core.out_nodup hinv.keys_nodup e (c, a) he hmem hea
        exact hec (by rw [this])
      obtain ⟨s, q1, q2, q3, q4⟩ := hinv.pools_ok e he
      refine ⟨s, ?_, ?_, q3, q4⟩
      · show pool_read (pool_store g.pools a s1) e.2 = some s
        rw [pool_read_store_other _ _ _ _ hne]
        exact q1
      · rw [Function.update_noteq hec]
        exact q2
  · intro c1 hc1
    have hne : c1 ≠ c := by
      intro h
      rw [h] at hc1
      have hc2 : map_find g.local_blocks c = none := hc1
      rw [hfind] at hc2
      simp at hc2
    rw [Function.update_noteq hne]
    exact hinv.unregistered c1 hc1

/-- The invariant after `create_pool` registered a new pool. -/
theorem ga_inv_register (g : global_allocator) (outs : Nat → List Nat)
    (hinv : ga_inv g outs) (c p : Nat) (habs : map_find g.local_blocks c = none)
    (gb1 : memory_pool) (hp : p ∉ g.local_blocks.map Prod.snd)
    (hgb : pool_inv gb1 (p :: g.local_blocks.map Prod.snd))
    (s : memory_pool) (hs : pool_inv s []) (h2 : s.chunk_size = c)
    (h3 : s.targs = targs_pool_type) :
    ga_inv { g with
      global_block := gb1
      local_blocks := (c, p) :: g.local_blocks
      pools := pool_store g.pools p s } outs := by
  refine ⟨hgb, ?_, ?_, ?_⟩
  · show (((c, p) :: g.local_blocks).map Prod.fst).Nodup
    rw [List.map_cons, List.nodup_cons]
    exact ⟨map_find_none_not_mem _ _ habs, hinv.keys_nodup⟩
  · intro e he
    rcases List.mem_cons.mp he with h | h
    · refine ⟨s, ?_, ?_, ?_, h3⟩
      · show pool_read (pool_store g.pools p s) e.2 = some s
        rw [h]
        exact pool_read_store_same _ _ _
      · rw [h]
        show pool_inv s (outs c)
        rw [hinv.unregistered c habs]
        exact hs
      · rw [h]
        exact h2
    · have hne : e.2 ≠ p := by
        intro hep
        apply hp
        rw [← hep]
        exact List.mem_map_of_mem Prod.snd h
      obtain ⟨s0, q1, q2, q3, q4⟩ := hinv.pools_ok e h
      refine ⟨s0, ?_, q2, q3, q4⟩
      show pool_read (pool_store g.pools p s) e.2 = some s0
      rw [pool_read_store_other _ _ _ _ hne]
      exact q1
  · intro c1 hc1
    have hc2 : map_find ((c, p) :: g.local_blocks) c1 = none := hc1
    have hne : c1 ≠ c := by
      intro h
      rw [h, map_find_cons_same] at hc2
      simp at hc2
    rw [map_find_cons_ne _ _ _ _ hne] at hc2
    exact hinv.unregistered c1 hc2

/-! ## `allocate` and `deallocate` -/

theorem created_inv (size c : Nat) (env : alloc_env) (hsize : 0 < size)
    (hcs : sizeof_ptr ≤ c) (hfit : size % c = 0)
    (hpf : fresh [] size c env.pool_hdr env.pool_reg) :
    pool_inv (memory_pool.created targs_pool_type size c env.pool_mem env.pool_hdr
      env.pool_reg) [] :=
  create_inv targs_pool_type size c env.pool_mem env.pool_hdr env.pool_reg _ hsize
    (Nat.zero_le c) hpf
    (create_created targs_pool_type size c env.pool_mem env.pool_hdr env.pool_reg hcs hfit
      hpf.hdr_ne hpf.reg_ne)

theorem created_available (size c : Nat) (env : alloc_env) (hsize : 0 < size)
    (hfit : size % c = 0) :
    ¬ ∀ e ∈ (memory_pool.created targs_pool_type size c env.pool_mem env.pool_hdr
      env.pool_reg).blocks, e.2.available_chunks = 0 := by
  intro h
  have h1 := h (env.pool_hdr, block.init size c env.pool_reg 0) (List.mem_singleton.mpr rfl)
  have h2 : 0 < size / c := chunks_pos size c hfit hsize
  simp only [block.init] at h1
  omega

/-- The effect of `create_pool(size, c)` followed by `alloc()` on the pool of
the class `c`, which is what `allocate` does once it has the size class. -/
theorem allocate_core (g : global_allocator) (outs : Nat → List Nat) (hinv : ga_inv g outs)
    (size c : Nat) (env : alloc_env) (hsize : 0 < size) (hf : env_fresh g size c env)
    (hvalid : map_find g.local_blocks c = none → sizeof_ptr ≤ c ∧ size % c = 0) :
    ∃ a g1 s p s1, g.create_pool size c env = some ((c, a), g1) ∧
      pool_read g1.pools a = some s ∧ s.alloc env.hdr env.reg [] = some (.ok p, s1) ∧
      map_find g1.local_blocks c = some a ∧ p ∉ outs c ∧
      s1.used_chunks_total = s.used_chunks_total + 1 ∧ s1.chunk_size = c ∧
      ga_inv { g1 with pools := pool_store g1.pools a s1 }
        (Function.update outs c (p :: outs c)) ∧
      (∀ a0, map_find g.local_blocks c = some a0 → g1 = g) ∧
      (map_find g.local_blocks c = none →
        g1.local_blocks = (c, a) :: g.local_blocks ∧ a ∉ g.local_blocks.map Prod.snd ∧
        g1.pools = pool_store g.pools a s ∧ g1.count_ref = g.count_ref ∧
        g.global_block.alloc env.meta_hdr env.meta_reg env.pool_val =
          some (.ok a, g1.global_block) ∧
        s = memory_pool.created targs_pool_type size c env.pool_mem env.pool_hdr
          env.pool_reg) := by
  cases hfind : map_find g.local_blocks c with
  | some a =>
    have hmem := map_find_some_mem _ _ _ hfind
    obtain ⟨s, q1, q2, q3, q4⟩ := hinv.pools_ok (c, a) hmem
    obtain ⟨p, s1, b1, b2, b3, _, b5, b6, b7⟩ := alloc_counts s (outs c) q2 env.hdr env.reg []
      (fun _ => hf.grow_fresh a s hfind q1)
    refine ⟨a, g, s, p, s1, create_pool_present g size c env a hfind, q1, b1, hfind, b2, b7,
      b5.trans q3, ?_, fun _ _ => rfl, fun h => by simp at h⟩
    exact ga_inv_update_pool g outs hinv c a hfind s1 _ b3 (b5.trans q3) (b6.trans q4)
  | none =>
    obtain ⟨hcs, hfit⟩ := hvalid hfind
    obtain ⟨a, gb1, c1, c2, c3, c4⟩ := create_pool_absent g outs hinv size c env hf hfind
      hcs hfit
    have hpf := hf.pool_fresh hfind
    have hsinv := created_inv size c env hsize hcs hfit hpf
    have hg1 := ga_inv_register g outs hinv c a hfind gb1 c1 c2 _ hsinv rfl rfl
    have ho : outs c = [] := hinv.unregistered c hfind
    obtain ⟨p, s1, b1, b2, b3, _, b5, b6, b7⟩ := alloc_counts _ [] hsinv env.hdr env.reg []
      (fun h => absurd h (created_available size c env hsize hfit))
    have hfind1 : map_find ((c, a) :: g.local_blocks) c = some a := map_find_cons_same _ _ _
    refine ⟨a, _, _, p, s1, c4, pool_read_store_same _ _ _, b1, hfind1, by rw [ho]; exact b2,
      b7, b5, ?_, fun a0 h => by simp at h, fun _ => ⟨rfl, c1, rfl, rfl, c3, rfl⟩⟩
    have := ga_inv_update_pool _ outs hg1 c a hfind1 s1 (p :: outs c) (by rw [ho]; exact b3)
      b5 b6
    exact this

/-- The result of `allocate(n)` in terms of `create_pool` and `alloc`. -/
theorem allocate_unfold (g : global_allocator) (n c : Nat) (env : alloc_env)
    (hc : global_allocator.adjust_chunk_size n = some c) (a : Nat) (g1 : global_allocator)
    (s : memory_pool) (r : Except pool_error Nat) (s1 : memory_pool)
    (h1 : g.create_pool (global_allocator.usable_size_from_chunk_size c) c env =
      some ((c, a), g1))
    (h2 : pool_read g1.pools a = some s) (h3 : s.alloc env.hdr env.reg [] = some (r, s1)) :
    g.allocate n env = some (r, { g1 with pools := pool_store g1.pools a s1 }) := by
  unfold global_allocator.allocate
  simp only [hc, h1, h2, h3]

/-- A call of `deallocate` for an outstanding pointer of the class `c`
releases it in the pool of that class. -/
theorem deallocate_spec (g : global_allocator) (outs : Nat → List Nat) (hinv : ga_inv g outs)
    (p c : Nat) (hp : p ∈ outs c) :
    ∃ a s r, map_find g.local_blocks c = some a ∧ pool_read g.pools a = some s ∧
      s.release p = some r ∧ r.error = none ∧
      g.deallocate p c = some (none, { g with pools := pool_store g.pools a r.pool }) ∧
      ga_inv { g with pools := pool_store g.pools a r.pool }
        (Function.update outs c ((outs c).erase p)) := by
  cases hfind : map_find g.local_blocks c with
  | none =>
    have := hinv.unregistered c hfind
    rw [this] at hp
    simp at hp
  | some a =>
    have hmem := map_find_some_mem _ _ _ hfind
    obtain ⟨s, q1, q2, q3, q4⟩ := hinv.pools_ok (c, a) hmem
    obtain ⟨r, r1, r2, _, _, r5, _, _, r8, r9⟩ := release_inv s (outs c) q2 p hp
    refine ⟨a, s, r, rfl, q1, r1, r2, ?_, ?_⟩
    · unfold global_allocator.deallocate
      simp only [hfind, q1, r1, r2]
    · exact ga_inv_update_pool g outs hinv c a hfind r.pool _ r5 (r8.trans q3) (r9.trans q4)

theorem pool_type_size_adjusted_eq : pool_type_size_adjusted = 32 := by decide

/-- The invariant holds in every reachable state of the allocator. -/
theorem ga_reachable_inv (g : global_allocator) (outs : Nat → List Nat)
    (h : ga_reachable g outs) : ga_inv g outs := by
  induction h with
  | create m hdr reg g hf hcr =>
    unfold global_allocator.create at hcr
    cases hm : memory_pool.create targs_global_pool 32768 pool_type_size_adjusted m hdr reg with
    | none => rw [hm] at hcr; simp at hcr
    | some r =>
      cases r with
      | error e => rw [hm] at hcr; simp at hcr
      | ok gb =>
        rw [hm] at hcr
        simp only [Option.some.injEq, Except.ok.injEq] at hcr
        subst hcr
        have hinv := create_inv targs_global_pool 32768 pool_type_size_adjusted m hdr reg gb
          (by decide) (by decide) hf hm
        exact ⟨hinv, List.nodup_nil, fun e he => by simp at he, fun _ _ => rfl⟩
  | create_pool g outs size c env it g1 _ hsize hf hcp ih =>
    cases hfind : map_find g.local_blocks c with
    | some a =>
      rw [create_pool_present g size c env a hfind] at hcp
      simp only [Option.some.injEq, Prod.mk.injEq] at hcp
      rw [← hcp.2]
      exact ih
    | none =>
      obtain ⟨hcs, hfit⟩ := create_pool_some_valid g outs ih size c env hf hfind it g1 hcp
      obtain ⟨a, gb1, c1, c2, _, c4⟩ := create_pool_absent g outs ih size c env hf hfind
        hcs hfit
      rw [c4] at hcp
      simp only [Option.some.injEq, Prod.mk.injEq] at hcp
      rw [← hcp.2]
      exact ga_inv_register g outs ih c a hfind gb1 c1 c2 _
        (created_inv size c env hsize hcs hfit (hf.pool_fresh hfind)) rfl rfl
  | allocate g outs n c env p g1 _ hc hsize hf hal ih =>
    have hvalid : map_find g.local_blocks c = none →
        sizeof_ptr ≤ c ∧ global_allocator.usable_size_from_chunk_size c % c = 0 := by
      intro habs
      unfold global_allocator.allocate at hal
      simp only [hc] at hal
      cases hcp : g.create_pool (global_allocator.usable_size_from_chunk_size c) c env with
      | none => rw [hcp] at hal; simp at hal
      | some x => exact create_pool_some_valid g outs ih _ c env hf habs x.1 x.2 hcp
    obtain ⟨a, g2, s, p1, s1, d1, d2, d3, _, _, _, _, d8, _⟩ :=
      allocate_core g outs ih _ c env hsize hf hvalid
    rw [allocate_unfold g n c env hc a g2 s _ s1 d1 d2 d3] at hal
    simp only [Option.some.injEq, Prod.mk.injEq, Except.ok.injEq] at hal
    rw [← hal.1, ← hal.2]
    exact d8
  | deallocate g outs p c g1 _ hp hde ih =>
    obtain ⟨a, s, r, _, _, _, _, e5, e6⟩ := deallocate_spec g outs ih p c hp
    rw [e5] at hde
    simp only [Option.some.injEq, Prod.mk.injEq, true_and] at hde
    rw [← hde]
    exact e6
  | count g outs n _ ih =>
    exact ⟨ih.meta_inv, ih.keys_nodup, ih.pools_ok, ih.unregistered⟩

/-! ## Example states -/

theorem ga_new_create : global_allocator.create zero_mem 8192 65536 = some (.ok ga_new) := by
  unfold global_allocator.create
  rw [create_created targs_global_pool 32768 pool_type_size_adjusted zero_mem 8192 65536
    (by decide) (by decide) (by decide) (by decide)]
  rfl

theorem ga_new_reachable : ga_reachable ga_new (fun _ => []) :=
  ga_reachable.create zero_mem 8192 65536 ga_new
    ⟨by decide, by decide, by decide, by decide, by decide, by decide⟩ ga_new_create

theorem env_example_fresh (size c : Nat) (h1 : 262144 % c = 0)
    (h2 : 262144 + size < size_max) : env_fresh ga_new size c env_example :=
  ⟨fun _ => ⟨by decide, by decide, by decide, by decide, by decide, by decide⟩,
    fun _ => ⟨by decide, by decide, by decide, h1, h2, fun e he => by simp at he⟩,
    fun a s h => by simp [ga_new, map_find] at h⟩

/-! ## `allocate` (C25) -/

/-- The size class of a request of less than `2 ^ 30` bytes is at least 8 and
at most `2 ^ 30`, and the block size of its pool is a thousand chunks. -/
theorem class_valid (n : Nat) (hn : n < 2 ^ 30) :
    ∃ c, global_allocator.adjust_chunk_size n = some c ∧ 8 ≤ c ∧ c ≤ 2 ^ 30 ∧
      global_allocator.usable_size_from_chunk_size c = c * 1000 := by
  have husable : ∀ c, c ≤ 2 ^ 30 →
      global_allocator.usable_size_from_chunk_size c = c * 1000 := by
    intro c hc
    unfold global_allocator.usable_size_from_chunk_size
    have : c * 1000 % size_max = c * 1000 :=
      Nat.mod_eq_of_lt (by unfold size_max; omega)
    simp only [this, ite_self]
  rcases Nat.lt_or_ge n 8 with h | h
  · refine ⟨8, ?_, by decide, by decide, husable 8 (by decide)⟩
    unfold global_allocator.adjust_chunk_size
    rw [if_pos h]
  · obtain ⟨k, _, e2, e3, e4, e5⟩ := adjust_chunk_size_eq n h hn
    have h1 : 2 ^ (k + 1) ≤ 2 ^ 30 := Nat.pow_le_pow_right (by decide) (by omega)
    have h2 : 2 ^ 3 ≤ 2 ^ k := by
      apply Nat.pow_le_pow_right (by decide)
      by_contra hk
      have : 2 ^ (k + 1) ≤ 2 ^ 3 := Nat.pow_le_pow_right (by decide) (by omega)
      omega
    refine ⟨2 ^ (k + 1), e5, ?_, h1, husable _ h1⟩
    rw [Nat.pow_succ]
    omega

theorem used_total_created (targs : template_args) (bs cs : Nat) (m : memory) (hdr reg : Nat) :
    (memory_pool.created targs bs cs m hdr reg).used_chunks_total = 0 := by
  simp [memory_pool.used_chunks_total, memory_pool.created, block.init]

/-- C25: in every reachable state of the global allocator and for every
request `n < 2 ^ 30`, with allocations that succeed, `allocate(n)` returns a
chunk `p` and leaves the registry with a pool for the size class
`c = adjust_chunk_size(n)`: the pool that was registered under `c` before,
with the registry and the meta-pool as they were, or, when there was none, a
new pool put into the registry. The chunk is taken from that pool: `p` was
not outstanding, the pool afterwards holds `p` and the pointers that were
outstanding, and its count of used chunks has grown by exactly one (from
zero for a new pool). Every pool registered under another size class stays
registered and unchanged. -/
theorem allocate_takes_from_class_pool (g : global_allocator) (outs : Nat → List Nat)
    (h : ga_reachable g outs) (n : Nat) (hn : n < 2 ^ 30) (env : alloc_env)
    (hf : ∀ c, global_allocator.adjust_chunk_size n = some c →
      env_fresh g (global_allocator.usable_size_from_chunk_size c) c env) :
    ∃ c a p g1 s1, global_allocator.adjust_chunk_size n = some c ∧
      g.allocate n env = some (.ok p, g1) ∧
      map_find g1.local_blocks c = some a ∧ pool_read g1.pools a = some s1 ∧
      s1.chunk_size = c ∧ p ∉ outs c ∧ pool_inv s1 (p :: outs c) ∧
      (∀ a0 s, map_find g.local_blocks c = some a0 → pool_read g.pools a0 = some s →
        a = a0 ∧ g1.local_blocks = g.local_blocks ∧ g1.global_block = g.global_block ∧
        s1.used_chunks_total = s.used_chunks_total + 1) ∧
      (map_find g.local_blocks c = none →
        g1.local_blocks = (c, a) :: g.local_blocks ∧ s1.used_chunks_total = 1) ∧
      (∀ c1, c1 ≠ c → map_find g1.local_blocks c1 = map_find g.local_blocks c1 ∧
        ∀ a1, map_find g.local_blocks c1 = some a1 →
          pool_read g1.pools a1 = pool_read g.pools a1) ∧
      ga_reachable g1 (Function.update outs c (p :: outs c)) := by
  have hinv := ga_reachable_inv g outs h
  obtain ⟨c, hc, hc8, hc30, hus⟩ := class_valid n hn
  have hfc := hf c hc
  have hsize : 0 < global_allocator.usable_size_from_chunk_size c := by rw [hus]; omega
  have hvalid : map_find g.local_blocks c = none →
      sizeof_ptr ≤ c ∧ global_allocator.usable_size_from_chunk_size c % c = 0 := by
    intro _
    rw [hus]
    exact ⟨hc8, Nat.mul_mod_right c 1000⟩
  obtain ⟨a, g2, s, p, s1, d1, d2, d3, d4, d5, d6, d7, d8, d9, d10⟩ :=
    allocate_core g outs hinv _ c env hsize hfc hvalid
  have hal := allocate_unfold g n c env hc a g2 s _ s1 d1 d2 d3
  have hrd : pool_read (pool_store g2.pools a s1) a = some s1 := pool_read_store_same _ _ _
  have hmem := map_find_some_mem _ _ _ d4
  obtain ⟨s2, q1, q2, _, _⟩ := d8.pools_ok (c, a) hmem
  have hs2 : s2 = s1 := by
    have q1b : pool_read (pool_store g2.pools a s1) a = some s2 := q1
    rw [hrd] at q1b
    exact (Option.some.inj q1b).symm
  rw [hs2] at q2
  simp only [Function.update_same] at q2
  refine ⟨c, a, p, _, s1, hc, hal, d4, hrd, d7, d5, q2, ?_, ?_, ?_,
    ga_reachable.allocate g outs n c env p _ h hc hsize hfc hal⟩
  · intro a0 s0 h0 hr0
    have hg := d9 a0 h0
    subst hg
    have ha : a = a0 := by
      rw [d4] at h0
      exact Option.some.inj h0
    rw [← ha, d2] at hr0
    have hss : s = s0 := Option.some.inj hr0
    rw [← hss]
    exact ⟨ha, rfl, rfl, d6⟩
  · intro habs
    obtain ⟨e1, _, _, _, _, e6⟩ := d10 habs
    refine ⟨e1, ?_⟩
    rw [d6, e6, used_total_created]
  · intro c1 hc1
    cases hfind : map_find g.local_blocks c with
    | some a0 =>
      have hg := d9 a0 hfind
      subst hg
      refine ⟨rfl, ?_⟩
      intro a1 h1
      have hne : a1 ≠ a := by
        intro heq
        have := snd_injective _ hinv.meta_inv.core.out_nodup hinv.keys_nodup (c1, a1) (c, a)
          (map_find_some_mem _ _ _ h1) hmem heq
        exact hc1 (congrArg Prod.fst this)
      exact pool_read_store_other _ _ _ _ hne
    | none =>
      obtain ⟨e1, e2, e3, _, _, _⟩ := d10 hfind
      have hlb : map_find g2.local_blocks c1 = map_find g.local_blocks c1 := by
        rw [e1]
        exact map_find_cons_ne _ _ _ _ hc1
      refine ⟨hlb, ?_⟩
      intro a1 h1
      have hne : a1 ≠ a := by
        intro heq
        apply e2
        rw [← heq]
        exact List.mem_map_of_mem Prod.snd (map_find_some_mem _ _ _ h1)
      show pool_read (pool_store g2.pools a s1) a1 = pool_read g.pools a1
      rw [pool_read_store_other _ _ _ _ hne, e3, pool_read_store_other _ _ _ _ hne]

/-- C25 on the allocator right after construction and a request of 8 bytes,
whose size class is 16. -/
theorem allocate_takes_from_class_pool_witness :
    ∃ c a p g1 s1, global_allocator.adjust_chunk_size 8 = some c ∧
      ga_new.allocate 8 env_example = some (.ok p, g1) ∧
      map_find g1.local_blocks c = some a ∧ pool_read g1.pools a = some s1 ∧
      s1.chunk_size = c ∧ p ∉ (fun _ => ([] : List Nat)) c ∧
      pool_inv s1 (p :: (fun _ => ([] : List Nat)) c) ∧
      (∀ a0 s, map_find ga_new.local_blocks c = some a0 → pool_read ga_new.pools a0 = some s →
        a = a0 ∧ g1.local_blocks = ga_new.local_blocks ∧
        g1.global_block = ga_new.global_block ∧
        s1.used_chunks_total = s.used_chunks_total + 1) ∧
      (map_find ga_new.local_blocks c = none →
        g1.local_blocks = (c, a) :: ga_new.local_blocks ∧ s1.used_chunks_total = 1) ∧
      (∀ c1, c1 ≠ c → map_find g1.local_blocks c1 = map_find ga_new.local_blocks c1 ∧
        ∀ a1, map_find ga_new.local_blocks c1 = some a1 →
          pool_read g1.pools a1 = pool_read ga_new.pools a1) ∧
      ga_reachable g1 (Function.update (fun _ => ([] : List Nat)) c
        (p :: (fun _ => ([] : List Nat)) c)) :=
  allocate_takes_from_class_pool ga_new (fun _ => []) ga_new_reachable 8 (by decide)
    env_example (fun c hc => by
      have h16 : global_allocator.adjust_chunk_size 8 = some 16 := by decide
      rw [h16] at hc
      have hc16 : c = 16 := (Option.some.inj hc).symm
      subst hc16
      exact env_example_fresh _ 16 (by decide) (by decide))

/-! ## `deallocate` for a class without a pool (C26) -/

/-- C26: for every state of the global allocator, every pointer `p` and every
size class `c` for which no pool is registered, `deallocate(p, c)` returns
without an exception and leaves the allocator as it is: the registry, the
meta-pool and every registered pool are unchanged, and no pool is created
for `c`. -/
theorem deallocate_without_pool (g : global_allocator) (p c : Nat)
    (h : map_find g.local_blocks c = none) :
    g.deallocate p c = some (none, g) ∧
      ∀ g1, g.deallocate p c = some (none, g1) → map_find g1.local_blocks c = none := by
  have h1 : g.deallocate p c = some (none, g) := by
    unfold global_allocator.deallocate
    rw [h]
  refine ⟨h1, ?_⟩
  intro g1 h2
  rw [h1] at h2
  simp only [Option.some.injEq, Prod.mk.injEq, true_and] at h2
  rw [← h2]
  exact h

/-- C26 on the allocator right after construction, which has no pool for the
size class 16. -/
theorem deallocate_without_pool_witness :
    ga_new.deallocate 524288 16 = some (none, ga_new) ∧
      ∀ g1, ga_new.deallocate 524288 16 = some (none, g1) →
        map_find g1.local_blocks 16 = none :=
  deallocate_without_pool ga_new 524288 16 rfl

/-! ## `create_pool` twice (C27) -/

/-- C27: in every reachable state of the global allocator and for every valid
size class `c` (at least `sizeof(void *)`, with a block size `size` that is
a multiple of `c`), with allocations that succeed, `create_pool`
returns; and a second call for `c`, with any block size and whatever the
allocations would return, yields the same registry entry as the first and
leaves the allocator exactly as the first call left it: nothing more is
taken from the meta-pool and the registry is the same. -/
theorem create_pool_idempotent (g : global_allocator) (outs : Nat → List Nat)
    (h : ga_reachable g outs) (size c : Nat) (env : alloc_env)
    (hcs : sizeof_ptr ≤ c) (hfit : size % c = 0) (hf : env_fresh g size c env) :
    ∃ it g1, g.create_pool size c env = some (it, g1) ∧ it.1 = c ∧
      map_find g1.local_blocks c = some it.2 ∧
      ∀ size2 env2, g1.create_pool size2 c env2 = some (it, g1) := by
  have hinv := ga_reachable_inv g outs h
  cases hfind : map_find g.local_blocks c with
  | some a =>
    exact ⟨(c, a), g, create_pool_present g size c env a hfind, rfl, hfind,
      fun size2 env2 => create_pool_present g size2 c env2 a hfind⟩
  | none =>
    obtain ⟨p, gb1, _, _, _, c4⟩ := create_pool_absent g outs hinv size c env hf hfind hcs hfit
    refine ⟨(c, p), _, c4, rfl, map_find_cons_same _ _ _, ?_⟩
    intro size2 env2
    exact create_pool_present _ size2 c env2 p (map_find_cons_same _ _ _)

/-- C27 on the allocator right after construction and the size class 16. -/
theorem create_pool_idempotent_witness :
    ∃ it g1, ga_new.create_pool 16000 16 env_example = some (it, g1) ∧ it.1 = 16 ∧
      map_find g1.local_blocks 16 = some it.2 ∧
      ∀ size2 env2, g1.create_pool size2 16 env2 = some (it, g1) :=
  create_pool_idempotent ga_new (fun _ => []) ga_new_reachable 16000 16 env_example
    (by decide) (by decide) (env_example_fresh 16000 16 (by decide) (by decide))

/-! ## The array-length check of `pool_allocator::allocate` (C28) -/

/-- C28: for every element size `s = sizeof(T) > 0`, every count `c` and
every live singleton, `pool_allocator::allocate(c)` with `c > SIZE_MAX / s`
throws `std::bad_array_new_length` and leaves the global allocator as it is
(no pool is created and no chunk is taken); with `c <= SIZE_MAX / s` the
product `c * s` does not wrap, and it is the byte count that the call
forwards to `global_allocator::allocate`. -/
theorem allocate_array_length (s : Nat) (hs : 0 < s) (g : global_allocator) (c : Nat)
    (env : alloc_env) :
    (c > (size_max - 1) / s →
      pool_allocator.allocate s (some g) c env =
        some (.error .bad_array_new_length, some g)) ∧
    (c ≤ (size_max - 1) / s →
      c * s < size_max ∧ (c * s) % size_max = c * s ∧
      pool_allocator.allocate s (some g) c env =
        match g.allocate (c * s) env with
        | none => none
        | some (.error e, g1) => some (.error (.pool e), some g1)
        | some (.ok t, g1) =>
          if t ≠ 0 then some (.ok t, some g1) else some (.error .bad_alloc, some g1)) := by
  constructor
  · intro hc
    unfold pool_allocator.allocate
    simp only
    rw [if_neg (by omega), if_pos hc]
  · intro hc
    have hmul : c * s < size_max := by
      have h1 : c * s ≤ (size_max - 1) / s * s := Nat.mul_le_mul_right s hc
      have h2 : (size_max - 1) / s * s ≤ size_max - 1 := Nat.div_mul_le_self _ _
      have h3 : 0 < size_max := by decide
      omega
    have hmod : (c * s) % size_max = c * s := Nat.mod_eq_of_lt hmul
    refine ⟨hmul, hmod, ?_⟩
    unfold pool_allocator.allocate
    simp only
    rw [if_neg (by omega), if_neg (by omega), hmod]

/-- C28 for `T = uint64_t` on the allocator right after construction: the
count `2 ^ 61`, whose byte count would be `2 ^ 64`, is rejected, and for the
count 3 the byte count 24 does not wrap. -/
theorem allocate_array_length_witness :
    pool_allocator.allocate 8 (some ga_new) (2 ^ 61) env_example =
      some (.error .bad_array_new_length, some ga_new) ∧
    3 * 8 < size_max ∧ (3 * 8) % size_max = 3 * 8 :=
  ⟨(allocate_array_length 8 (by decide) ga_new (2 ^ 61) env_example).1 (by decide),
    ((allocate_array_length 8 (by decide) ga_new 3 env_example).2 (by decide)).1,
    ((allocate_array_length 8 (by decide) ga_new 3 env_example).2 (by decide)).2.1⟩

/-! ## The destructor of a pool -/

theorem destroy_loop_spec (H : header_heap) : ∀ (s : memory_pool) (next prev fuel : Nat),
    s.blocks = H → (hdr_keys H).Nodup → linked next prev H → H.length ≤ fuel →
    ∃ s1, destroy_loop s fuel next = some s1 ∧ s1.blocks = [] := by
  induction H with
  | nil =>
    intro s next prev fuel hs _ hl _
    have hn : next = 0 := hl
    refine ⟨s, ?_, hs⟩
    cases fuel <;> simp [destroy_loop, hn]
  | cons e rest ih =>
    intro s next prev fuel hs hk hl hlen
    obtain ⟨l1, l2, _, l4⟩ := hl
    simp only [hdr_keys, List.map_cons, List.nodup_cons] at hk
    simp only [List.length_cons] at hlen
    obtain ⟨f, rfl⟩ : ∃ f, fuel = f + 1 := ⟨fuel - 1, by omega⟩
    have hne : next ≠ 0 := by rw [l1]; exact l2
    have hrd : hdr_read s.blocks next = some e.2 := by
      rw [hs, l1]
      simp [hdr_read]
    have hfb : (s.free_block next).blocks = rest := by
      show s.blocks.filter (fun x => decide (x.1 ≠ next)) = rest
      rw [hs, l1, List.filter_cons_of_neg (by simp)]
      exact filter_keys_not_mem rest e.1 hk.1
    simp only [destroy_loop, if_neg hne, hrd]
    exact ih (s.free_block next) e.2.next_block e.1 f hfb hk.2 l4 (by omega)

/-- The destructor of a pool with a well-formed block list returns and leaves
no block. -/
theorem destroy_wf (s : memory_pool) (hw : list_wf s) :
    ∃ s1, s.destroy = some s1 ∧ s1.blocks = [] :=
  destroy_loop_spec s.blocks s s.first_block 0 s.blocks.length rfl hw.keys_nodup hw.is_linked
    (le_refl _)

/-! ## The loop of the tear-down -/

/-- The loop of `~pool_allocator()` releases every registered pool, in the
order of the registry, when the registered pools are the outstanding chunks
of the meta-pool; a meta-pool with `dest = false` runs no destructor, so the
heap of pools stays as it is. -/
theorem release_pools_spec (m : List (Nat × Nat)) : ∀ (gb : memory_pool) (P : pool_heap),
    pool_inv gb (m.map Prod.snd) → gb.targs.dest = false →
    ∃ gb1 m1, release_pools gb m P =
        some (m.map (fun e => adapter_event.pool_released e.1 e.2), gb1, m1, P) ∧
      pool_inv gb1 [] := by
  induction m with
  | nil =>
    intro gb P hinv _
    exact ⟨gb, [], rfl, hinv⟩
  | cons e rest ih =>
    intro gb P hinv hd
    obtain ⟨r, r1, r2, _, r4, r5, _, _, _, r9⟩ := release_inv gb _ hinv e.2
      (by rw [List.map_cons]; exact List.mem_cons_self _ _)
    have hdes : r.destroyed = false := by
      rw [r4]
      unfold memory_pool.runs_destructor
      rw [hd]
      rfl
    rw [List.map_cons, List.erase_cons_head] at r5
    obtain ⟨gb1, m1, i1, i2⟩ := ih r.pool P r5 (by rw [r9]; exact hd)
    refine ⟨gb1, (e.1, r.ptr) :: m1, ?_, i2⟩
    simp [release_pools, r1, r2, hdes, run_pool_destructor, i1]

/-- An `alloc` under the invariant keeps the template arguments. -/
theorem alloc_targs_inv (s : memory_pool) (out : List Nat) (hinv : pool_inv s out)
    (hdr reg : Nat) (val : List Nat)
    (hf : fresh s.blocks s.block_size s.chunk_size hdr reg) (p : Nat) (s1 : memory_pool)
    (h : s.alloc hdr reg val = some (.ok p, s1)) : s1.targs = s.targs := by
  obtain ⟨p1, s2, a1, _, _, _, _, _, a7⟩ := alloc_inv s out hinv hdr reg val hf
  rw [h] at a1
  simp only [Option.some.injEq, Prod.mk.injEq, Except.ok.injEq] at a1
  rw [a1.2]
  exact a7

/-- The meta-pool of every reachable allocator is a
`memory_pool<pool_type, false>`. -/
theorem ga_reachable_meta_targs (g : global_allocator) (outs : Nat → List Nat)
    (h : ga_reachable g outs) : g.global_block.targs = targs_global_pool := by
  induction h with
  | create m hdr reg g hf hcr =>
    unfold global_allocator.create at hcr
    rw [create_created targs_global_pool 32768 pool_type_size_adjusted m hdr reg
      (by decide) (by decide) hf.hdr_ne hf.reg_ne] at hcr
    simp only [Option.some.injEq, Except.ok.injEq] at hcr
    rw [← hcr]
    rfl
  | create_pool g outs size c env it g1 hg _ hf hcp ih =>
    have hinv := ga_reachable_inv g outs hg
    cases hfind : map_find g.local_blocks c with
    | some a =>
      rw [create_pool_present g size c env a hfind] at hcp
      simp only [Option.some.injEq, Prod.mk.injEq] at hcp
      rw [← hcp.2]
      exact ih
    | none =>
      obtain ⟨hcs, hfit⟩ := create_pool_some_valid g outs hinv size c env hf hfind it g1 hcp
      obtain ⟨a, gb1, _, _, c3, c4⟩ := create_pool_absent g outs hinv size c env hf hfind
        hcs hfit
      rw [c4] at hcp
      simp only [Option.some.injEq, Prod.mk.injEq] at hcp
      rw [← hcp.2]
      show gb1.targs = targs_global_pool
      rw [alloc_targs_inv g.global_block _ hinv.meta_inv _ _ _ (hf.meta_fresh hfind) a gb1 c3]
      exact ih
  | allocate g outs n c env p g1 hg hc hsize hf hal ih =>
    have hinv := ga_reachable_inv g outs hg
    have hvalid : map_find g.local_blocks c = none →
        sizeof_ptr ≤ c ∧ global_allocator.usable_size_from_chunk_size c % c = 0 := by
      intro habs
      unfold global_allocator.allocate at hal
      simp only [hc] at hal
      cases hcp : g.create_pool (global_allocator.usable_size_from_chunk_size c) c env with
      | none => rw [hcp] at hal; simp at hal
      | some x => exact create_pool_some_valid g outs hinv _ c env hf habs x.1 x.2 hcp
    obtain ⟨a, g2, s, p1, s1, d1, d2, d3, _, _, _, _, _, d9, d10⟩ :=
      allocate_core g outs hinv _ c env hsize hf hvalid
    rw [allocate_unfold g n c env hc a g2 s _ s1 d1 d2 d3] at hal
    simp only [Option.some.injEq, Prod.mk.injEq, Except.ok.injEq] at hal
    rw [← hal.2]
    show g2.global_block.targs = targs_global_pool
    cases hfind : map_find g.local_blocks c with
    | some a0 =>
      rw [d9 a0 hfind]
      exact ih
    | none =>
      obtain ⟨_, _, _, _, e5, _⟩ := d10 hfind
      rw [alloc_targs_inv g.global_block _ hinv.meta_inv _ _ _ (hf.meta_fresh hfind) a _ e5]
      exact ih
  | deallocate g outs p c g1 hg hp hde ih =>
    have hinv := ga_reachable_inv g outs hg
    obtain ⟨a, s, r, _, _, _, _, e5, _⟩ := deallocate_spec g outs hinv p c hp
    rw [e5] at hde
    simp only [Option.some.injEq, Prod.mk.injEq, true_and] at hde
    rw [← hde]
    exact ih
  | count g outs n _ ih => exact ih

/-! ## One lifecycle event -/

theorem initialize_pool_null (m : memory) (hdr reg : Nat)
    (hf : fresh [] 32768 pool_type_size_adjusted hdr reg) :
    ∃ g, pool_allocator.initialize_pool none m hdr reg = some (.ok (), some g) ∧
      g.count_ref = 1 ∧ g.local_blocks = [] ∧ pool_inv g.global_block [] := by
  have hcr := create_created targs_global_pool 32768 pool_type_size_adjusted m hdr reg
    (by decide) (by decide) hf.hdr_ne hf.reg_ne
  have hinv := create_inv targs_global_pool 32768 pool_type_size_adjusted m hdr reg _
    (by decide) (by decide) hf hcr
  refine ⟨{ count_ref := 1,
            global_block := memory_pool.created targs_global_pool 32768
              pool_type_size_adjusted m hdr reg,
            local_blocks := [], pools := [] }, ?_, rfl, rfl, hinv⟩
  simp only [pool_allocator.initialize_pool, global_allocator.create, hcr]
  rfl

/-- Every lifecycle event that can happen returns, keeps the invariant, moves
the number of live adapters by one, and runs `delete _global` exactly when it
is the destruction of the last live adapter. -/
theorem step_spec (st : adapters) (hinv : lifecycle_inv st) (ev : lifecycle_event)
    (rest : List lifecycle_event) (hv : events_valid st.live (ev :: rest))
    (hlt : st.live + 1 < 2 ^ 63) :
    ∃ st1, st.step ev = some st1 ∧ lifecycle_inv st1 ∧ events_valid st1.live rest ∧
      st1.live ≤ st.live + 1 ∧
      (st1.deleted = st.deleted + 1 ∨ st1.deleted = st.deleted) ∧
      (st1.deleted = st.deleted + 1 ↔ (ev = .destroy ∧ st1.live = 0)) := by
  have hlt2 : ((st.live : Nat) : Int) + 1 < 2 ^ 63 := by omega
  cases ev with
  | construct m hdr reg =>
    obtain ⟨hv1, hv2⟩ := hv
    cases hG : st._global with
    | none =>
      obtain ⟨g, i1, i2, i3, i4⟩ := initialize_pool_null m hdr reg hv1
      have hl0 : st.live = 0 := by
        unfold lifecycle_inv at hinv
        rw [hG] at hinv
        exact hinv
      refine ⟨{ st with live := st.live + 1, _global := some g }, ?_, ?_, hv2, le_refl _,
        Or.inr rfl, ?_⟩
      · simp only [adapters.step, hG, i1]
      · show 0 < st.live + 1 ∧ g.count_ref = ((st.live + 1 : Nat) : Int) ∧ _
        rw [hl0]
        exact ⟨by decide, i2, i3, i4⟩
      · simp
    | some g =>
      unfold lifecycle_inv at hinv
      rw [hG] at hinv
      obtain ⟨h1, h2, h3, h4⟩ := hinv
      refine ⟨{ st with live := st.live + 1,
                        _global := some { g with count_ref := g.count_ref + 1 } },
        ?_, ?_, hv2, le_refl _, Or.inr rfl, ?_⟩
      · simp only [adapters.step, hG, pool_allocator.initialize_pool]
        rw [if_pos (by rw [h2]; exact hlt2)]
      · show 0 < st.live + 1 ∧ g.count_ref + 1 = ((st.live + 1 : Nat) : Int) ∧ _
        exact ⟨by omega, by rw [h2]; push_cast; rfl, h3, h4⟩
      · simp
  | copy =>
    obtain ⟨hv1, hv2⟩ := hv
    cases hG : st._global with
    | none =>
      unfold lifecycle_inv at hinv
      rw [hG] at hinv
      omega
    | some g =>
      unfold lifecycle_inv at hinv
      rw [hG] at hinv
      obtain ⟨h1, h2, h3, h4⟩ := hinv
      refine ⟨{ st with live := st.live + 1,
                        _global := some { g with count_ref := g.count_ref + 1 } },
        ?_, ?_, hv2, le_refl _, Or.inr rfl, ?_⟩
      · simp only [adapters.step, hG, pool_allocator.copy]
        rw [if_neg (by omega), if_pos (by rw [h2]; exact hlt2)]
      · show 0 < st.live + 1 ∧ g.count_ref + 1 = ((st.live + 1 : Nat) : Int) ∧ _
        exact ⟨by omega, by rw [h2]; push_cast; rfl, h3, h4⟩
      · simp
  | move =>
    obtain ⟨hv1, hv2⟩ := hv
    cases hG : st._global with
    | none =>
      unfold lifecycle_inv at hinv
      rw [hG] at hinv
      omega
    | some g =>
      unfold lifecycle_inv at hinv
      rw [hG] at hinv
      obtain ⟨h1, h2, h3, h4⟩ := hinv
      refine ⟨{ st with live := st.live + 1,
                        _global := some { g with count_ref := g.count_ref + 1 } },
        ?_, ?_, hv2, le_refl _, Or.inr rfl, ?_⟩
      · simp only [adapters.step, hG, pool_allocator.move]
        rw [if_neg (by omega), if_pos (by rw [h2]; exact hlt2)]
      · show 0 < st.live + 1 ∧ g.count_ref + 1 = ((st.live + 1 : Nat) : Int) ∧ _
        exact ⟨by omega, by rw [h2]; push_cast; rfl, h3, h4⟩
      · simp
  | destroy =>
    obtain ⟨hv1, hv2⟩ := hv
    cases hG : st._global with
    | none =>
      unfold lifecycle_inv at hinv
      rw [hG] at hinv
      omega
    | some g =>
      unfold lifecycle_inv at hinv
      rw [hG] at hinv
      obtain ⟨h1, h2, h3, h4⟩ := hinv
      have hnu : ¬ (g.count_ref - 1 < -((2 : Int) ^ 63)) := by rw [h2]; omega
      by_cases hlast : st.live = 1
      · obtain ⟨s1, d1, _⟩ := destroy_wf g.global_block h4.core.wf
        refine ⟨{ live := st.live - 1, _global := none, deleted := st.deleted + 1 },
          ?_, ?_, hv2, by simp only; omega, Or.inl rfl, ?_⟩
        · simp only [adapters.step, hG, pool_allocator.destroy]
          rw [if_neg (by omega), if_neg hnu, if_pos (by rw [h2, hlast]; decide)]
          simp only [h3, release_pools, d1]
          rfl
        · show st.live - 1 = 0
          omega
        · simp only [true_and, true_iff]
          omega
      · refine ⟨{ live := st.live - 1,
                  _global := some { g with count_ref := g.count_ref - 1 },
                  deleted := st.deleted + 0 },
          ?_, ?_, hv2, by simp only; omega, Or.inr rfl, ?_⟩
        · simp only [adapters.step, hG, pool_allocator.destroy]
          rw [if_neg (by omega), if_neg hnu, if_neg (by rw [h2]; omega)]
          rfl
        · show 0 < st.live - 1 ∧ g.count_ref - 1 = ((st.live - 1 : Nat) : Int) ∧ _
          exact ⟨by omega, by rw [h2]; omega, h3, h4⟩
        · simp only [Nat.add_zero, true_and]
          constructor
          · intro h
            omega
          · intro h
            omega

/-! ## The reference count of the singleton (C29) -/

/-- The events of a valid list happen one after the other, and each of them
has the properties of `step_spec`. -/
theorem run_spec (pre : List lifecycle_event) : ∀ (st : adapters) (ev : lifecycle_event)
    (suf : List lifecycle_event), lifecycle_inv st →
    events_valid st.live (pre ++ ev :: suf) →
    st.live + (pre ++ ev :: suf).length < 2 ^ 63 →
    ∃ st0 st1, st.run pre = some st0 ∧ st0.step ev = some st1 ∧ lifecycle_inv st1 ∧
      (st1.deleted = st0.deleted + 1 ∨ st1.deleted = st0.deleted) ∧
      (st1.deleted = st0.deleted + 1 ↔ (ev = .destroy ∧ st1.live = 0)) := by
  induction pre with
  | nil =>
    intro st ev suf hinv hv hlen
    simp only [List.nil_append, List.length_cons] at hv hlen
    obtain ⟨st1, h1, h2, _, _, h5, h6⟩ := step_spec st hinv ev suf hv (by omega)
    exact ⟨st, st1, rfl, h1, h2, h5, h6⟩
  | cons e pre ih =>
    intro st ev suf hinv hv hlen
    simp only [List.cons_append, List.length_cons] at hv hlen
    obtain ⟨st1, h1, h2, h3, h4, _, _⟩ := step_spec st hinv e _ hv (by omega)
    obtain ⟨st2, st3, i1, i2, i3, i4, i5⟩ := ih st1 ev suf h2 h3 (by omega)
    refine ⟨st2, st3, ?_, i2, i3, i4, i5⟩
    simp only [adapters.run, h1]
    exact i1

/-- C29: for every sequence of lifecycle events of the adapters that can
happen (default construction with allocations that succeed; copy
construction, move construction and destruction of a live adapter), starting
with no adapter and a null singleton, every event returns, and after each
event: the singleton is null exactly when no adapter is live; when it is not
null its reference count equals the number of live adapters; and
`delete _global` has run in the event exactly when the event is the
destruction that leaves no live adapter, which is the destruction that brings
the count to zero. -/
theorem lifecycle_ref_count (evs : List lifecycle_event) (hv : events_valid 0 evs)
    (hlen : evs.length < 2 ^ 63) :
    ∀ pre ev suf, evs = pre ++ ev :: suf →
      ∃ st0 st1, adapters.start.run pre = some st0 ∧ st0.step ev = some st1 ∧
        (st1._global = none ↔ st1.live = 0) ∧
        (∀ g, st1._global = some g → g.count_ref = st1.live) ∧
        (st1.deleted = st0.deleted + 1 ∨ st1.deleted = st0.deleted) ∧
        (st1.deleted = st0.deleted + 1 ↔ (ev = .destroy ∧ st1.live = 0)) := by
  intro pre ev suf he
  subst he
  obtain ⟨st0, st1, h1, h2, h3, h4, h5⟩ := run_spec pre adapters.start ev suf rfl hv
    (by show 0 + _ < _; omega)
  refine ⟨st0, st1, h1, h2, ?_, ?_, h4, h5⟩
  · cases hG : st1._global with
    | none =>
      have h0 : st1.live = 0 := by
        unfold lifecycle_inv at h3
        rw [hG] at h3
        exact h3
      exact ⟨fun _ => h0, fun _ => rfl⟩
    | some g =>
      have hpos : 0 < st1.live := by
        unfold lifecycle_inv at h3
        rw [hG] at h3
        exact h3.1
      constructor
      · intro hn
        cases hn
      · intro hz
        omega
  · intro g hG
    unfold lifecycle_inv at h3
    rw [hG] at h3
    exact h3.2.1

/-- C29 on the events construct, copy, destroy, destroy: the second
destruction is the last of the four events, and it is the one that deletes
the singleton. -/
theorem lifecycle_ref_count_witness :
    ∃ st0 st1,
      adapters.start.run [.construct zero_mem 8192 65536, .copy, .destroy] = some st0 ∧
      st0.step .destroy = some st1 ∧
      (st1._global = none ↔ st1.live = 0) ∧
      (∀ g, st1._global = some g → g.count_ref = st1.live) ∧
      (st1.deleted = st0.deleted + 1 ∨ st1.deleted = st0.deleted) ∧
      (st1.deleted = st0.deleted + 1 ↔
        (lifecycle_event.destroy = lifecycle_event.destroy ∧ st1.live = 0)) :=
  lifecycle_ref_count [.construct zero_mem 8192 65536, .copy, .destroy, .destroy]
    ⟨⟨by decide, by decide, by decide, by decide, by decide, by decide⟩, by decide, by decide,
      by decide, trivial⟩ (by decide)
    [.construct zero_mem 8192 65536, .copy, .destroy] .destroy [] rfl

/-! ## The order of the tear-down (C30) -/

theorem released_nodup (m : List (Nat × Nat)) (hk : (m.map Prod.fst).Nodup) :
    (m.map (fun e => adapter_event.pool_released e.1 e.2)).Nodup := by
  induction m with
  | nil => exact List.nodup_nil
  | cons e rest ih =>
    simp only [List.map_cons, List.nodup_cons] at hk ⊢
    refine ⟨?_, ih hk.2⟩
    intro hmem
    rw [List.mem_map] at hmem
    obtain ⟨e1, h1, h2⟩ := hmem
    injection h2 with h3 h4
    apply hk.1
    rw [← h3]
    exact List.mem_map_of_mem Prod.fst h1

/-- C30: in every reachable state of the allocator in which one adapter is
left (the reference count is one), the destruction of that adapter returns
and tears the singleton down in this order: one call of
`global_block.release` for every entry of the size-class map, in the order of
the map, each entry exactly once; then `delete _global`, which destroys the
meta-pool; then the reset of `_global` to null. All releases happen before
the meta-pool is destroyed and before the pointer is reset. -/
theorem teardown_order (g : global_allocator) (outs : Nat → List Nat)
    (h : ga_reachable g outs) (hcount : g.count_ref = 1) :
    ∃ evs, pool_allocator.destroy (some g) = some (evs, none) ∧
      evs = g.local_blocks.map (fun e => adapter_event.pool_released e.1 e.2) ++
        [.meta_pool_destroyed, .global_reset] ∧
      (∀ e ∈ g.local_blocks, evs.count (.pool_released e.1 e.2) = 1) ∧
      evs.count .meta_pool_destroyed = 1 ∧ evs.count .global_reset = 1 := by
  have hinv := ga_reachable_inv g outs h
  have hdest : g.global_block.targs.dest = false := by
    rw [ga_reachable_meta_targs g outs h]
    rfl
  obtain ⟨gb1, m1, r1, r2⟩ := release_pools_spec g.local_blocks g.global_block g.pools
    hinv.meta_inv hdest
  obtain ⟨s1, d1, _⟩ := destroy_wf gb1 r2.core.wf
  have hnd := released_nodup g.local_blocks hinv.keys_nodup
  refine ⟨_, ?_, rfl, ?_, ?_, ?_⟩
  · simp only [pool_allocator.destroy]
    rw [if_neg (by rw [hcount]; decide), if_pos (by rw [hcount]; decide)]
    simp only [r1, d1]
  · intro e he
    rw [List.count_append]
    have h1 : (g.local_blocks.map (fun e => adapter_event.pool_released e.1 e.2)).count
        (.pool_released e.1 e.2) = 1 :=
      List.count_eq_one_of_mem hnd (List.mem_map_of_mem _ he)
    rw [h1]
    simp
  · rw [List.count_append]
    have h1 : (g.local_blocks.map (fun e => adapter_event.pool_released e.1 e.2)).count
        .meta_pool_destroyed = 0 := by
      rw [List.count_eq_zero]
      intro hmem
      rw [List.mem_map] at hmem
      obtain ⟨_, _, h2⟩ := hmem
      cases h2
    rw [h1]
    simp
  · rw [List.count_append]
    have h1 : (g.local_blocks.map (fun e => adapter_event.pool_released e.1 e.2)).count
        .global_reset = 0 := by
      rw [List.count_eq_zero]
      intro hmem
      rw [List.mem_map] at hmem
      obtain ⟨_, _, h2⟩ := hmem
      cases h2
    rw [h1]
    simp

theorem ga_one_block_alloc :
    ga_new.global_block.alloc 8193 131072 [] = some (.ok 65536, ga_one_block) := rfl

theorem ga_one_create_pool :
    ga_new.create_pool 16000 16 env_example =
      some ((16, 65536), { ga_one with count_ref := 0 }) := by
  unfold global_allocator.create_pool
  have h1 : map_find ga_new.local_blocks 16 = none := rfl
  have h2 : ga_new.global_block.alloc env_example.meta_hdr env_example.meta_reg
      env_example.pool_val = some (.ok 65536, ga_one_block) := ga_one_block_alloc
  have h3 := create_created targs_pool_type 16000 16 env_example.pool_mem
    env_example.pool_hdr env_example.pool_reg (by decide) (by decide) (by decide) (by decide)
  simp only [h1, h2, h3]
  rfl

theorem ga_one_reachable : ga_reachable ga_one (fun _ => []) :=
  ga_reachable.count _ _ 1
    (ga_reachable.create_pool ga_new (fun _ => []) 16000 16 env_example (16, 65536) _
      ga_new_reachable (by decide) (env_example_fresh 16000 16 (by decide) (by decide))
      ga_one_create_pool)

/-- C30 on the allocator `ga_one`, which has one registered pool and is held
by one adapter. -/
theorem teardown_order_witness :
    ∃ evs, pool_allocator.destroy (some ga_one) = some (evs, none) ∧
      evs = ga_one.local_blocks.map (fun e => adapter_event.pool_released e.1 e.2) ++
        [.meta_pool_destroyed, .global_reset] ∧
      (∀ e ∈ ga_one.local_blocks, evs.count (.pool_released e.1 e.2) = 1) ∧
      evs.count .meta_pool_destroyed = 1 ∧ evs.count .global_reset = 1 :=
  teardown_order ga_one (fun _ => []) ga_one_reachable rfl

/-! ## Construction with a block size of zero (C32) -/

/-- C32: the code at `block_size == 0`. The constructor
`memory_pool<uint64_t>(0, 8)` returns normally when its two allocations
succeed (`0 % 8 == 0`, and `8 >= sizeof(void *)`), and leaves a pool whose
blocks hold `0 / 8 = 0` chunks. The first `alloc` on that pool creates a
second block of zero bytes at the region `reg = 128` and returns `128`, the
address just past that block; `available_chunks` of the new block wraps from
zero to `2 ^ 64 - 1`. -/
theorem zero_block_size_accepted :
    memory_pool.create targs_u64 0 8 zero_mem 4096 64 = some (.ok pool_zero) ∧
    pool_zero.block_size = 0 ∧ pool_zero.block_size / pool_zero.chunk_size = 0 ∧
    ∃ s1, pool_zero.alloc 4097 128 [1] = some (.ok 128, s1) ∧
      (hdr_read s1.blocks 4097).map block.block_beginning = some 128 ∧
      (hdr_read s1.blocks 4097).map block.block_end = some 128 ∧
      (hdr_read s1.blocks 4097).map block.available_chunks = some (2 ^ 64 - 1) :=
  ⟨rfl, rfl, by decide, _, rfl, by decide, by decide, by decide⟩

/-! ## Equality of adapters (C33) -/

/-- C33: for every two adapters `a` and `b`, of the same or of different
element types and however each of them was constructed, `a == b` is true and
`a != b` is false. -/
theorem adapters_always_equal (a b : adapter) :
    pool_allocator.operator_eq a b = true ∧ pool_allocator.operator_ne a b = false :=
  ⟨rfl, rfl⟩

/-! ## The size class as a power of two (C34) -/

/-- C34: for every byte count `n` with `8 <= n < 2 ^ 30`,
`adjust_chunk_size(n)` equals `2 ^ bit_width(n)`, which is the smallest power
of two strictly greater than `n`; a request of 8 bytes yields the size class
16. -/
theorem adjust_chunk_size_bit_width (n : Nat) (h8 : 8 ≤ n) (hlt : n < 2 ^ 30) :
    global_allocator.adjust_chunk_size n = some (2 ^ bit_width n) ∧ n < 2 ^ bit_width n ∧
      (∀ j, n < 2 ^ j → 2 ^ bit_width n ≤ 2 ^ j) ∧
      global_allocator.adjust_chunk_size 8 = some 16 := by
  obtain ⟨k, e1, e2, e3, _, e5⟩ := adjust_chunk_size_eq n h8 hlt
  rw [e1]
  refine ⟨e5, e3, ?_, by decide⟩
  intro j hj
  apply Nat.pow_le_pow_right (by decide)
  by_contra hjk
  have : 2 ^ j ≤ 2 ^ k := Nat.pow_le_pow_right (by decide) (by omega)
  omega

/-- C34 on the request of 8 bytes. -/
theorem adjust_chunk_size_bit_width_witness :
    global_allocator.adjust_chunk_size 8 = some (2 ^ bit_width 8) ∧ 8 < 2 ^ bit_width 8 ∧
      (∀ j, 8 < 2 ^ j → 2 ^ bit_width 8 ≤ 2 ^ j) ∧
      global_allocator.adjust_chunk_size 8 = some 16 :=
  adjust_chunk_size_bit_width 8 (by decide) (by decide)

/-! ## The block that `alloc` takes its chunk from (C35) -/

/-- C35: in every reachable pool state, `alloc` takes its chunk from the
first block in list order that has an available chunk: it returns the head
`next_free_chunk` of the free list of that block, sets `next_free_chunk` to
the link stored in the returned chunk, moves one chunk from the available to
the used count, and leaves the list of blocks otherwise as it is (no block is
created). When every block is saturated, and the allocations succeed, `alloc`
appends a new block behind the former tail: the tail's `next_block` is the
new header, the new header's `previous_block` is the tail and its
`next_block` is null, and the chunk returned is the `block_beginning` of the
new block. -/
theorem alloc_first_available (s : memory_pool) (out : List Nat) (h : reachable s out)
    (hdr reg : Nat) (val : List Nat) :
    (∀ pre a b post, s.blocks = pre ++ (a, b) :: post →
      (∀ e ∈ pre, e.2.available_chunks = 0) → b.available_chunks ≠ 0 →
      ∃ s1 b1, s.alloc hdr reg val = some (.ok b.next_free_chunk, s1) ∧
        s1.blocks = pre ++ (a, b1) :: post ∧ s1.first_block = s.first_block ∧
        b1.next_free_chunk = read_word s.mem b.next_free_chunk ∧
        b1.used_chunks = b.used_chunks + 1 ∧
        b1.available_chunks = b.available_chunks - 1 ∧
        b1.next_block = b.next_block ∧ b1.previous_block = b.previous_block ∧
        b1.block_beginning = b.block_beginning ∧ b1.block_end = b.block_end) ∧
    ((∀ e ∈ s.blocks, e.2.available_chunks = 0) →
      fresh s.blocks s.block_size s.chunk_size hdr reg →
      ∃ pre a b s1 nb, s.blocks = pre ++ [(a, b)] ∧
        s.alloc hdr reg val = some (.ok reg, s1) ∧
        s1.blocks = pre ++ [(a, { b with next_block := hdr }), (hdr, nb)] ∧
        s1.first_block = s.first_block ∧
        nb.previous_block = a ∧ nb.next_block = 0 ∧ nb.block_beginning = reg ∧
        nb.used_chunks = 1) := by
  have hinv := reachable_inv s out h
  have hc := hinv.core
  constructor
  · intro pre a b post hs hpre hb
    have hg := get_available_chunk_existing s hdr reg hc.wf pre post a b hs hpre hb
    have hok : block_ok s out b := hc.blocks_ok (a, b) (by rw [hs]; simp)
    have hch := hok.chunks
    have hend := hok.end_eq
    have hlt := hok.end_lt
    have hNle : s.block_size / s.chunk_size ≤ s.block_size := Nat.div_le_self _ _
    refine ⟨{ s with
        blocks := pre ++ (a, b.take s.chunk_size s.mem) :: post
        mem := write_bytes s.mem b.next_free_chunk (val.take s.targs.sizeof_T) },
      b.take s.chunk_size s.mem, ?_, rfl, rfl, rfl, ?_, ?_, rfl, rfl, rfl, rfl⟩
    · unfold memory_pool.alloc
      rw [hg]
    · simp only [block.take]
      exact incr_eq _ (by omega)
    · simp only [block.take]
      exact decr_eq _ (by omega)
  · intro hall hf
    rcases list_cases_snoc s.blocks with hnil | ⟨pre, a, b, hs⟩
    · exact absurd hnil hc.wf.nonempty
    · have hg := get_available_chunk_grow s hdr reg hc.wf pre a b hs hall hf.hdr_ne
        hf.hdr_new hf.reg_ne
      refine ⟨pre, a, b,
        { s with
          blocks := pre ++ [(a, { b with next_block := hdr }),
            (hdr, (block.init s.block_size s.chunk_size reg a).take s.chunk_size
              (init_mem s.block_size s.chunk_size reg s.mem))]
          mem := write_bytes (init_mem s.block_size s.chunk_size reg s.mem) reg
            (val.take s.targs.sizeof_T) },
        (block.init s.block_size s.chunk_size reg a).take s.chunk_size
          (init_mem s.block_size s.chunk_size reg s.mem), hs, ?_, rfl, rfl, rfl, rfl, rfl, ?_⟩
      · unfold memory_pool.alloc
        rw [hg]
      · simp only [block.take, block.init]
        exact incr_eq 0 (by decide)

theorem pool16_a_blocks : pool16_a.blocks = [] ++ (4096, block16_one) :: [] := by decide

/-- C35 on the pool `pool16_a`, whose only block has the free chunk 72, and
on the pool `pool16_b`, whose only block is saturated. -/
theorem alloc_first_available_witness :
    (∃ s1 b1, pool16_a.alloc 4097 128 [2] = some (.ok block16_one.next_free_chunk, s1) ∧
      s1.blocks = [] ++ (4096, b1) :: [] ∧ s1.first_block = pool16_a.first_block ∧
      b1.next_free_chunk = read_word pool16_a.mem block16_one.next_free_chunk ∧
      b1.used_chunks = block16_one.used_chunks + 1 ∧
      b1.available_chunks = block16_one.available_chunks - 1 ∧
      b1.next_block = block16_one.next_block ∧
      b1.previous_block = block16_one.previous_block ∧
      b1.block_beginning = block16_one.block_beginning ∧
      b1.block_end = block16_one.block_end) ∧
    (∃ pre a b s1 nb, pool16_b.blocks = pre ++ [(a, b)] ∧
      pool16_b.alloc 4097 128 [3] = some (.ok 128, s1) ∧
      s1.blocks = pre ++ [(a, { b with next_block := 4097 }), (4097, nb)] ∧
      s1.first_block = pool16_b.first_block ∧
      nb.previous_block = a ∧ nb.next_block = 0 ∧ nb.block_beginning = 128 ∧
      nb.used_chunks = 1) :=
  ⟨(alloc_first_available pool16_a [64] pool16_a_reachable 4097 128 [2]).1 [] 4096
      block16_one [] pool16_a_blocks (by decide) (by decide),
    (alloc_first_available pool16_b [72, 64] pool16_b_reachable 4097 128 [3]).2
      (by rw [pool16_b_blocks]; decide)
      ⟨by decide, by decide, by decide, by decide, by decide, by decide⟩⟩

/-! ## Walking the block list -/

/-- A `release` runs the destructor of the element only when the condition
of its `if constexpr` holds. -/
theorem release_destroyed (s : memory_pool) (p : Nat) (r : release_result)
    (hr : s.release p = some r) : r.destroyed = false ∨ r.destroyed = s.runs_destructor := by
  unfold memory_pool.release at hr
  by_cases hp : p = 0
  · rw [if_pos hp] at hr
    simp only [Option.some.injEq] at hr
    subst hr
    exact Or.inl rfl
  · rw [if_neg hp] at hr
    cases hbp : s.block_from_pointer p with
    | none => rw [hbp] at hr; simp at hr
    | some x =>
      cases x with
      | error e =>
        rw [hbp] at hr
        simp only [Option.some.injEq] at hr
        subst hr
        exact Or.inl rfl
      | ok a =>
        rw [hbp] at hr
        simp only at hr
        cases hrd : hdr_read (hdr_write s.blocks a fun b => b.give s.chunk_size) a with
        | none => rw [hrd] at hr; simp at hr
        | some ub =>
          rw [hrd] at hr
          simp only at hr
          cases hun : release_unlink
            { s with blocks := hdr_write s.blocks a fun b => b.give s.chunk_size } ub with
          | none =>
            rw [hun] at hr
            simp only [Option.some.injEq] at hr
            subst hr
            exact Or.inr rfl
          | some s3 =>
            rw [hun] at hr
            simp only [Option.some.injEq] at hr
            subst hr
            exact Or.inr rfl

/-! ## Construction of a per-class pool -/

/-- The constructor throws a configuration error only when one of its two
checks fails. -/
theorem create_no_configuration_error (targs : template_args) (bs cs : Nat) (m : memory)
    (hdr reg : Nat) (hcs : sizeof_ptr ≤ cs) (hfit : bs % cs = 0) :
    memory_pool.create targs bs cs m hdr reg ≠ some (.error .chunk_must_fit) ∧
      memory_pool.create targs bs cs m hdr reg ≠ some (.error .chunk_too_small) := by
  have hc0 : cs ≠ 0 := by unfold sizeof_ptr at hcs; omega
  by_cases hh : hdr = 0
  · simp [memory_pool.create, memory_pool.allocate_block, hc0, hfit, hcs, hh]
  · by_cases hr : reg = 0
    · simp [memory_pool.create, memory_pool.allocate_block, hc0, hfit, hcs, hh, hr]
    · rw [create_ok targs bs cs m hdr reg hcs hfit hh hr]
      simp

/-! ## The pool of a size class (C36) -/

/-- C36: for every byte count `n < 2 ^ 30`, with `c = adjust_chunk_size(n)`:
`usable_size_from_chunk_size(c)` is `c * 1000`, a multiple of `c`, and
`c >= 8`, so the constructor `pool_type(c * 1000, c)` throws neither
configuration error, and returns when its allocations succeed. A call
`allocate(n)` that finds no pool of the class `c` registers a pool with block
size `c * 1000` and chunk size `c`, and every block of a pool with these sizes
holds exactly 1000 chunks, available and used together, in the state that
`allocate` leaves and in every reachable state. -/
theorem class_pool_thousand_chunks (n : Nat) (hn : n < 2 ^ 30) :
    ∃ c, global_allocator.adjust_chunk_size n = some c ∧
      global_allocator.usable_size_from_chunk_size c = c * 1000 ∧
      (c * 1000) % c = 0 ∧ 8 ≤ c ∧
      (∀ m hdr reg,
        memory_pool.create targs_pool_type (global_allocator.usable_size_from_chunk_size c) c
          m hdr reg ≠ some (.error .chunk_must_fit) ∧
        memory_pool.create targs_pool_type (global_allocator.usable_size_from_chunk_size c) c
          m hdr reg ≠ some (.error .chunk_too_small) ∧
        (hdr ≠ 0 → reg ≠ 0 →
          memory_pool.create targs_pool_type (global_allocator.usable_size_from_chunk_size c)
            c m hdr reg =
            some (.ok (memory_pool.created targs_pool_type (c * 1000) c m hdr reg)))) ∧
      (∀ g outs env, ga_reachable g outs → map_find g.local_blocks c = none →
        env_fresh g (global_allocator.usable_size_from_chunk_size c) c env →
        ∃ a p g1 s1, g.allocate n env = some (.ok p, g1) ∧
          map_find g1.local_blocks c = some a ∧ pool_read g1.pools a = some s1 ∧
          s1.block_size = c * 1000 ∧ s1.chunk_size = c ∧
          ∀ e ∈ s1.blocks, e.2.available_chunks + e.2.used_chunks = 1000) ∧
      (∀ s out, reachable s out → s.block_size = c * 1000 → s.chunk_size = c →
        ∀ e ∈ s.blocks, e.2.available_chunks + e.2.used_chunks = 1000) := by
  obtain ⟨c, hc, hc8, hc30, hus⟩ := class_valid n hn
  have hfit : (c * 1000) % c = 0 := Nat.mul_mod_right c 1000
  have hdiv : c * 1000 / c = 1000 := Nat.mul_div_cancel_left 1000 (by omega)
  have hcs : sizeof_ptr ≤ c := hc8
  refine ⟨c, hc, hus, hfit, hc8, ?_, ?_, ?_⟩
  · intro m hdr reg
    rw [hus]
    obtain ⟨h1, h2⟩ := create_no_configuration_error targs_pool_type (c * 1000) c m hdr reg
      hcs hfit
    exact ⟨h1, h2, fun hh hr => create_created targs_pool_type (c * 1000) c m hdr reg hcs hfit
      hh hr⟩
  · intro g outs env hg habs hf
    have hinv := ga_reachable_inv g outs hg
    have hsize : 0 < global_allocator.usable_size_from_chunk_size c := by rw [hus]; omega
    have hvalid : map_find g.local_blocks c = none →
        sizeof_ptr ≤ c ∧ global_allocator.usable_size_from_chunk_size c % c = 0 := by
      intro _
      rw [hus]
      exact ⟨hcs, hfit⟩
    obtain ⟨a, g2, s, p, s1, d1, d2, d3, d4, _, _, d7, _, _, d10⟩ :=
      allocate_core g outs hinv _ c env hsize hf hvalid
    obtain ⟨_, _, _, _, _, e6⟩ := d10 habs
    have hal := allocate_unfold g n c env hc a g2 s _ s1 d1 d2 d3
    have hsinv : pool_inv s [] := by
      rw [e6]
      exact created_inv _ c env hsize hcs (by rw [hus]; exact hfit) (hf.pool_fresh habs)
    obtain ⟨p1, s2, b1, _, b3, b4, _, _, _⟩ := alloc_counts s [] hsinv env.hdr env.reg []
      (fun hsat => absurd hsat (by
        rw [e6]
        exact created_available _ c env hsize (by rw [hus]; exact hfit)))
    rw [d3] at b1
    simp only [Option.some.injEq, Prod.mk.injEq, Except.ok.injEq] at b1
    obtain ⟨hp1, hs2⟩ := b1
    subst hp1 hs2
    have hbs : s1.block_size = c * 1000 := by
      rw [b4, e6]
      exact hus
    refine ⟨a, p, _, s1, hal, d4, pool_read_store_same _ _ _, hbs, d7, ?_⟩
    intro e he
    have hok : block_ok s1 [p] e.2 := b3.core.blocks_ok e he
    have hch := hok.chunks
    rw [hbs, d7, hdiv] at hch
    exact hch
  · intro s out hr hbs hcsz e he
    have hok : block_ok s out e.2 := (reachable_inv s out hr).core.blocks_ok e he
    have hch := hok.chunks
    rw [hbs, hcsz, hdiv] at hch
    exact hch

/-- C36 on the request of 8 bytes, whose size class is 16. -/
theorem class_pool_thousand_chunks_witness :
    ∃ c, global_allocator.adjust_chunk_size 8 = some c ∧
      global_allocator.usable_size_from_chunk_size c = c * 1000 ∧
      (c * 1000) % c = 0 ∧ 8 ≤ c ∧
      (∀ m hdr reg,
        memory_pool.create targs_pool_type (global_allocator.usable_size_from_chunk_size c) c
          m hdr reg ≠ some (.error .chunk_must_fit) ∧
        memory_pool.create targs_pool_type (global_allocator.usable_size_from_chunk_size c) c
          m hdr reg ≠ some (.error .chunk_too_small) ∧
        (hdr ≠ 0 → reg ≠ 0 →
          memory_pool.create targs_pool_type (global_allocator.usable_size_from_chunk_size c)
            c m hdr reg =
            some (.ok (memory_pool.created targs_pool_type (c * 1000) c m hdr reg)))) ∧
      (∀ g outs env, ga_reachable g outs → map_find g.local_blocks c = none →
        env_fresh g (global_allocator.usable_size_from_chunk_size c) c env →
        ∃ a p g1 s1, g.allocate 8 env = some (.ok p, g1) ∧
          map_find g1.local_blocks c = some a ∧ pool_read g1.pools a = some s1 ∧
          s1.block_size = c * 1000 ∧ s1.chunk_size = c ∧
          ∀ e ∈ s1.blocks, e.2.available_chunks + e.2.used_chunks = 1000) ∧
      (∀ s out, reachable s out → s.block_size = c * 1000 → s.chunk_size = c →
        ∀ e ∈ s.blocks, e.2.available_chunks + e.2.used_chunks = 1000) :=
  class_pool_thousand_chunks 8 (by decide)

/-! ## Blocks without a used chunk (C37) -/

/-- C39, as stated, fails: for an element type of 16 bytes and chunks of 8
bytes the constructor `memory_pool<T>(24, 8)` returns normally although
`sizeof(T) > chunk_size`. The chunk 72 then holds the link 80 of the free
list; the first `alloc` returns 64 and the construction of the element stores
16 bytes, which overwrites the link in the chunk 72; the second `alloc`
returns 72, takes the overwritten word as the new head of the free list, and
its construction overwrites the second half of the first element, which is
outstanding. -/
theorem oversized_element_overwrites_link :
    memory_pool.create targs_two_words 24 8 zero_mem 4096 64 = some (.ok pool_wide) ∧
    ¬ (pool_wide.targs.sizeof_T ≤ pool_wide.chunk_size) ∧
    read_word pool_wide.mem 72 = 80 ∧
    pool_wide.alloc 4097 128 (List.replicate 16 255) = some (.ok 64, pool_wide_a) ∧
    read_word pool_wide_a.mem 72 = 2 ^ 64 - 1 ∧
    ∃ s2, pool_wide_a.alloc 4097 128 (List.replicate 16 1) = some (.ok 72, s2) ∧
      (hdr_read s2.blocks 4096).map block.next_free_chunk = some (2 ^ 64 - 1) ∧
      pool_wide_a.mem 72 = 255 ∧ s2.mem 72 = 1 :=
  ⟨rfl, by decide, by decide, rfl, by decide, _, rfl, by decide, by decide, by decide⟩

/-! ## Releases that run no destructor (C40) -/

/-- C40: a pool instantiated with `dest = false` never runs the destructor of
the released element, whatever `release` does with the chunk. The meta-pool
of every reachable allocator is such a pool; so the loop of the tear-down,
which releases every registered per-class pool to the meta-pool, returns and
leaves the heap of per-class pools as it was: no per-class pool loses a
block. Had a release run the destructor of a pool, that pool would have
freed all its blocks. -/
theorem release_without_destructor :
    (∀ (s : memory_pool) (p : Nat) (r : release_result), s.targs.dest = false →
      s.release p = some r → r.destroyed = false) ∧
    (∀ (g : global_allocator) (outs : Nat → List Nat), ga_reachable g outs →
      g.global_block.targs.dest = false ∧
      ∃ evs gb1 m1, release_pools g.global_block g.local_blocks g.pools =
        some (evs, gb1, m1, g.pools)) ∧
    (∀ (P : pool_heap) (a : Nat) (s : memory_pool), pool_read P a = some s → list_wf s →
      ∃ s1, run_pool_destructor P a true = some (pool_store P a s1) ∧ s1.blocks = []) := by
  refine ⟨?_, ?_, ?_⟩
  · intro s p r hd hr
    rcases release_destroyed s p r hr with h1 | h1
    · exact h1
    · rw [h1]
      unfold memory_pool.runs_destructor
      rw [hd]
      rfl
  · intro g outs hg
    have hinv := ga_reachable_inv g outs hg
    have hdest : g.global_block.targs.dest = false := by
      rw [ga_reachable_meta_targs g outs hg]
      rfl
    obtain ⟨gb1, m1, r1, _⟩ := release_pools_spec g.local_blocks g.global_block g.pools
      hinv.meta_inv hdest
    exact ⟨hdest, _, gb1, m1, r1⟩
  · intro P a s hrd hw
    obtain ⟨s1, d1, d2⟩ := destroy_wf s hw
    refine ⟨s1, ?_, d2⟩
    simp [run_pool_destructor, hrd, d1]

/-- C40 on the allocator `ga_one`, whose meta-pool holds the pool of the size
class 16 in the chunk 65536. -/
theorem release_without_destructor_witness :
    (∀ r, ga_one_block.release 65536 = some r → r.destroyed = false) ∧
    (ga_one.global_block.targs.dest = false ∧
      ∃ evs gb1 m1, release_pools ga_one.global_block ga_one.local_blocks ga_one.pools =
        some (evs, gb1, m1, ga_one.pools)) :=
  ⟨fun r hr => release_without_destructor.1 ga_one_block 65536 r rfl hr,
    release_without_destructor.2.1 ga_one (fun _ => []) ga_one_reachable⟩

/-! ## Construction of an element that fits into a chunk (C39, amended) -/

/-- C39, amended: in every reachable state of a pool whose element type fits
into a chunk (`sizeof(T) <= chunk_size`, which the constructor does not
check), with allocations that succeed, `alloc` returns a chunk `p` and the
in-place construction of the element, the only step of `alloc` after
`get_available_chunk`, writes inside `[p, p + chunk_size)` only: every other
chunk of the pool keeps all its bytes, so the construction overwrites neither
the free-list link stored in a free chunk nor the payload of another
outstanding chunk, and the state after `alloc` is again a reachable state. -/
theorem construction_inside_chunk (s : memory_pool) (out : List Nat) (h : reachable s out)
    (hdr reg : Nat) (val : List Nat)
    (hf : fresh s.blocks s.block_size s.chunk_size hdr reg) :
    s.targs.sizeof_T ≤ s.chunk_size ∧
    ∃ p s0 s1, s.get_available_chunk hdr reg = some (.ok p, s0) ∧
      s.alloc hdr reg val = some (.ok p, s1) ∧
      s1.mem = write_bytes s0.mem p (val.take s.targs.sizeof_T) ∧
      (∀ x, x < p ∨ p + s.chunk_size ≤ x → s1.mem x = s0.mem x) ∧
      (∀ e ∈ s.blocks, ∀ c, is_chunk s e.2 c → c ≠ p →
        ∀ x, c ≤ x → x < c + s.chunk_size → s1.mem x = s.mem x) ∧
      reachable s1 (p :: out) := by
  have hinv := reachable_inv s out h
  have hc := hinv.core
  obtain ⟨hcs8, hmul, hN⟩ := inv_sizes s out hc
  have hlen : (val.take s.targs.sizeof_T).length ≤ s.chunk_size := by
    rw [List.length_take]
    have := hc.elem_fits
    omega
  refine ⟨hc.elem_fits, ?_⟩
  cases hfind : s.blocks.find? (fun e => decide (e.2.available_chunks ≠ 0)) with
  | some e =>
    obtain ⟨a, b⟩ := e
    rw [List.find?_eq_some] at hfind
    obtain ⟨hb, pre, post, hs, hpre⟩ := hfind
    have hb2 : b.available_chunks ≠ 0 := by simpa using hb
    have hpre2 : ∀ e ∈ pre, e.2.available_chunks = 0 := by
      intro e he
      have := hpre e he
      simpa using this
    have hg := get_available_chunk_existing s hdr reg hc.wf pre post a b hs hpre2 hb2
    obtain ⟨_, h2, _⟩ := alloc_existing_core s out hc pre post a b hs hb2 _ hlen
    have hal : s.alloc hdr reg val = some (.ok b.next_free_chunk,
        { s with
          blocks := pre ++ (a, b.take s.chunk_size s.mem) :: post
          mem := write_bytes s.mem b.next_free_chunk (val.take s.targs.sizeof_T) }) := by
      unfold memory_pool.alloc
      rw [hg]
    refine ⟨b.next_free_chunk, _, _, hg, hal, rfl, ?_, ?_,
      reachable.alloc s out hdr reg val _ _ h hf hal⟩
    · intro x hx
      exact write_bytes_outside _ _ _ _ (by omega)
    · intro e he c hce hne x hx1 hx2
      have := chunks_disjoint s out hc e (a, b) he (by rw [hs]; simp) c _ hce h2 hne
      exact write_bytes_outside _ _ _ _ (by omega)
  | none =>
    rw [List.find?_eq_none] at hfind
    have hall : ∀ e ∈ s.blocks, e.2.available_chunks = 0 := by
      intro e he
      have := hfind e he
      simpa using this
    rcases list_cases_snoc s.blocks with hnil | ⟨pre, a, b, hs⟩
    · exact absurd hnil hc.wf.nonempty
    · have hg := get_available_chunk_grow s hdr reg hc.wf pre a b hs hall hf.hdr_ne hf.hdr_new
        hf.reg_ne
      have hal : s.alloc hdr reg val = some (.ok reg,
          { s with
            blocks := pre ++ [(a, { b with next_block := hdr }),
              (hdr, (block.init s.block_size s.chunk_size reg a).take s.chunk_size
                (init_mem s.block_size s.chunk_size reg s.mem))]
            mem := write_bytes (init_mem s.block_size s.chunk_size reg s.mem) reg
              (val.take s.targs.sizeof_T) }) := by
        unfold memory_pool.alloc
        rw [hg]
      have hcsbs : s.chunk_size ≤ s.block_size := by
        have : 1 * s.chunk_size ≤ s.block_size / s.chunk_size * s.chunk_size :=
          Nat.mul_le_mul_right _ (by omega)
        rw [hmul, Nat.one_mul] at this
        exact this
      refine ⟨reg, _, _, hg, hal, rfl, ?_, ?_, reachable.alloc s out hdr reg val _ _ h hf hal⟩
      · intro x hx
        exact write_bytes_outside _ _ _ _ (by omega)
      · intro e he c hce hne x hx1 hx2
        have hok : block_ok s out e.2 := hc.blocks_ok e he
        have hb := chunk_bounds s e.2 c hc.fits hok.end_eq hce
        have := hf.reg_apart e he
        show write_bytes (init_mem s.block_size s.chunk_size reg s.mem) reg _ x = s.mem x
        rw [write_bytes_outside _ _ _ _ (by omega),
          init_mem_outside _ _ _ _ _ hcs8 hc.fits (by omega)]

/-- C39, amended, on the pool `pool16_a`, whose element type `uint64_t` fills
a chunk of 8 bytes. -/
theorem construction_inside_chunk_witness :
    pool16_a.targs.sizeof_T ≤ pool16_a.chunk_size ∧
    ∃ p s0 s1, pool16_a.get_available_chunk 4097 128 = some (.ok p, s0) ∧
      pool16_a.alloc 4097 128 [2] = some (.ok p, s1) ∧
      s1.mem = write_bytes s0.mem p ([2].take pool16_a.targs.sizeof_T) ∧
      (∀ x, x < p ∨ p + pool16_a.chunk_size ≤ x → s1.mem x = s0.mem x) ∧
      (∀ e ∈ pool16_a.blocks, ∀ c, is_chunk pool16_a e.2 c → c ≠ p →
        ∀ x, c ≤ x → x < c + pool16_a.chunk_size → s1.mem x = pool16_a.mem x) ∧
      reachable s1 (p :: [64]) :=
  construction_inside_chunk pool16_a [64] pool16_a_reachable 4097 128 [2]
    ⟨by decide, by decide, by decide, by decide, by decide, by decide⟩

/-! ## Regions that touch (C3, C9, C17)

`std::aligned_alloc` may return, for a new block, the region that begins at
the `block_end` of a live block. `block_from_pointer` accepts
`ptr == block_end` (see C6), so the first chunk of the upper block is taken
for a chunk of the lower block, which comes first in the block list. -/

/-- C17, the code at the failing input: `memory_pool<uint64_t>(16, 8)` with
its first block at `[64, 80)`; three calls of `alloc` return 64, 72 and 80,
the third one creating the second block at `[80, 96)`. The pool has two
blocks and the pointer 80 is the only used chunk of its block `[80, 96)`.
`release(80)` returns normally but is booked on the block `[64, 80)`:
`block_count()` is still 2, both headers are still live, the block
`[80, 96)` still has `used_chunks == 1` and is not removed, and the block
`[64, 80)` has lost one of its two used chunks. -/
theorem adjacent_block_not_retired :
    memory_pool.create targs_u64 16 8 zero_mem 4096 64 = some (.ok pool16) ∧
    pool16.alloc 4097 128 [1] = some (.ok 64, pool16_a) ∧
    pool16_a.alloc 4097 128 [2] = some (.ok 72, pool16_b) ∧
    pool16_b.alloc 4097 80 [3] = some (.ok 80, pool16_adj) ∧
    pool16_adj.block_count = some 2 ∧
    (hdr_read pool16_adj.blocks 4096).map
      (fun b => (b.block_beginning, b.block_end, b.used_chunks)) = some (64, 80, 2) ∧
    (hdr_read pool16_adj.blocks 4097).map
      (fun b => (b.block_beginning, b.block_end, b.used_chunks)) = some (80, 96, 1) ∧
    pool16_adj.release 80 = some ⟨none, pool16_adj_r, 0, false⟩ ∧
    pool16_adj_r.block_count = some 2 ∧
    hdr_keys pool16_adj_r.blocks = [4096, 4097] ∧
    (hdr_read pool16_adj_r.blocks 4096).map
      (fun b => (b.block_beginning, b.block_end, b.used_chunks)) = some (64, 80, 1) ∧
    (hdr_read pool16_adj_r.blocks 4097).map
      (fun b => (b.block_beginning, b.block_end, b.used_chunks)) = some (80, 96, 1) :=
  ⟨create_pool16, rfl, rfl, rfl, rfl, rfl, rfl, rfl, rfl, rfl, rfl, rfl⟩

/-- C3, the code at the failing input: `memory_pool<uint64_t>(16, 8)` with
its blocks at `[64, 80)` and `[80, 96)`, after three calls of `alloc` that
returned 64, 72 and 80. The caller releases the three pointers in the order
80, 64, 72. `release(80)` is booked on the block `[64, 80)`; `release(64)`
then finds that block without a used chunk and frees it, although the chunk
72 is outstanding; `release(72)` throws `std::out_of_range` and leaves the
pool and the handle as they were. The pool ends with one block whose
`used_chunks` is 1 and whose `available_chunks` is 1, not 0 and 2. -/
theorem adjacent_blocks_release_all :
    memory_pool.create targs_u64 16 8 zero_mem 4096 64 = some (.ok pool16) ∧
    pool16.alloc 4097 128 [1] = some (.ok 64, pool16_a) ∧
    pool16_a.alloc 4097 128 [2] = some (.ok 72, pool16_b) ∧
    pool16_b.alloc 4097 80 [3] = some (.ok 80, pool16_adj) ∧
    pool16_adj.release 80 = some ⟨none, pool16_adj_r, 0, false⟩ ∧
    pool16_adj_r.release 64 = some ⟨none, pool16_adj_rr, 0, false⟩ ∧
    pool16_adj_rr.release 72 = some ⟨some .not_in_pool, pool16_adj_rr, 72, false⟩ ∧
    pool16_adj_rr.block_count = some 1 ∧
    pool16_adj_rr.used_chunks_in_block 80 = some (.ok 1) ∧
    pool16_adj_rr.available_chunks_in_block 80 = some (.ok 1) ∧
    pool16_adj_rr.block_size / pool16_adj_rr.chunk_size = 2 :=
  ⟨create_pool16, rfl, rfl, rfl, rfl, rfl, rfl, rfl, rfl, rfl, rfl⟩

/-- C9, the code at the failing input: `memory_pool<uint64_t>(16, 8)` (the
element has the size of a chunk) with its blocks at `[64, 80)` and
`[80, 96)`, after three calls of `alloc` that stored 1, 2 and 3 at 64, 72 and
80. `release(80)` is booked on the block `[64, 80)`, and `release(64)` frees
that block while the pointer 72 is outstanding. One more `alloc` returns 88
and saturates the remaining block; the word at 72 is still 2. The next
`alloc` creates a block, for which `std::aligned_alloc` returns the freed
region 64 again: `allocate_block` clears the region, so the word at 72,
which the caller still holds, becomes 0. The `alloc` after that returns the
outstanding pointer 72 itself and stores 6 there. -/
theorem adjacent_blocks_chunk_overwritten :
    memory_pool.create targs_u64 16 8 zero_mem 4096 64 = some (.ok pool16) ∧
    pool16.targs.sizeof_T ≤ pool16.chunk_size ∧
    pool16.alloc 4097 128 [1] = some (.ok 64, pool16_a) ∧
    pool16_a.alloc 4097 128 [2] = some (.ok 72, pool16_b) ∧
    pool16_b.alloc 4097 80 [3] = some (.ok 80, pool16_adj) ∧
    pool16_adj.release 80 = some ⟨none, pool16_adj_r, 0, false⟩ ∧
    pool16_adj_r.release 64 = some ⟨none, pool16_adj_rr, 0, false⟩ ∧
    pool16_adj_rr.alloc 4098 256 [4] = some (.ok 88, pool16_adj_s) ∧
    read_word pool16_adj_s.mem 72 = 2 ∧
    pool16_adj_s.alloc 4098 64 [5] = some (.ok 64, pool16_adj_t) ∧
    read_word pool16_adj_t.mem 72 = 0 ∧
    pool16_adj_t.alloc 4099 256 [6] = some (.ok 72, pool16_adj_u) ∧
    read_word pool16_adj_u.mem 72 = 6 :=
  ⟨create_pool16, by decide, rfl, rfl, rfl, rfl, rfl, rfl, by decide, rfl, by decide, rfl,
    by decide⟩

/-! ## An element wider than a chunk (C2, C8, C11, C12)

The constructor compares `chunk_size` with `sizeof(void *)` only, so
`memory_pool<T>(32, 8)` is constructed for a `T` of 16 bytes. The
construction of an element at the chunk 64 then also fills the chunk 72,
whose first word is a link of the free list. -/

/-- C2, as stated, fails: `memory_pool<T>(32, 8)` for a `T` of 16 bytes is
constructed with its block at 64, which holds `N = 4` chunks. Three calls of
`alloc` that construct the element `(0x45, 0x32)` return 64, 72 and 50, not
64, 72 and 80: the second member of the first element has replaced the link
in the chunk 72. The addresses are not ascending. -/
theorem oversized_allocs_not_ascending :
    memory_pool.create targs_two_words 32 8 zero_mem 4096 64 = some (.ok pool_args) ∧
    fresh [] 32 8 4096 64 ∧
    ¬ (targs_two_words.sizeof_T ≤ 8) ∧
    pool_args.block_address 0 = some (.ok 64) ∧
    alloc_seq pool_args [(4097, 128, args_val), (4097, 128, args_val), (4097, 128, args_val)] =
      some ([64, 72, 50], pool_args_c) ∧
    3 ≤ 32 / 8 ∧
    [64, 72, 50] ≠ (List.range 3).map (fun i => 64 + i * 8) ∧
    ¬ [64, 72, 50].Pairwise (fun x y => x < y) :=
  ⟨rfl, ⟨by decide, by decide, by decide, by decide, by decide, by decide⟩, by decide, rfl,
    rfl, by decide, by decide, by decide⟩

/-- C8, as stated, fails: in `memory_pool<T>(32, 8)` for a `T` of 16 bytes,
after one `alloc` that constructs the element `(0x45, 0x32)` at 64, the
pointer 64 is the only outstanding one and `dump_free_list` reports the free
list 72, 50. The address 80 is a chunk of the block and is neither on the
free list nor outstanding, and the address 50 is on the free list and is no
chunk of the block. -/
theorem oversized_chunk_without_holder :
    memory_pool.create targs_two_words 32 8 zero_mem 4096 64 = some (.ok pool_args) ∧
    pool_args.alloc 4097 128 args_val = some (.ok 64, pool_args_a) ∧
    pool_args_a.dump_free_list 64 = some (.ok [(72, 50), (50, 0)]) ∧
    ∃ b, pool_args_a.blocks = [(4096, b)] ∧ b.block_beginning = 64 ∧
      is_chunk pool_args_a b 80 ∧ 80 ∉ [(72, 50), (50, 0)].map Prod.fst ∧ 80 ∉ [64] ∧
      50 ∈ [(72, 50), (50, 0)].map Prod.fst ∧ ¬ is_chunk pool_args_a b 50 := by
  refine ⟨rfl, rfl, rfl, _, rfl, rfl, ⟨2, by decide, rfl⟩, by decide, by decide, by decide, ?_⟩
  rintro ⟨i, _, h⟩
  change 50 = 64 + i * 8 at h
  omega

/-- C11, as stated, fails: in `memory_pool<T>(32, 8)` for a `T` of 16 bytes,
after one `alloc` that constructs the element `(0x45, 0x32)` at 64, the block
has `available_chunks == 3`, but `dump_free_list` returns the two entries
`(72, 50)` and `(50, 0)`. -/
theorem oversized_free_list_short :
    memory_pool.create targs_two_words 32 8 zero_mem 4096 64 = some (.ok pool_args) ∧
    pool_args.alloc 4097 128 args_val = some (.ok 64, pool_args_a) ∧
    pool_args_a.available_chunks_in_block 64 = some (.ok 3) ∧
    pool_args_a.dump_free_list 64 = some (.ok [(72, 50), (50, 0)]) ∧
    [(72, 50), (50, 0)].length ≠ 3 :=
  ⟨rfl, rfl, rfl, rfl, by decide⟩

/-- C12, as stated, fails: in `memory_pool<T>(32, 8)` for a `T` of 16 bytes,
whose only block is `[64, 96)`, three calls of `alloc` that construct the
element `(0x45, 0x32)` return 64, 72 and 50. The pointer 50 lies in no block
of the pool and is no multiple of `chunk_size`. -/
theorem oversized_pointer_outside_block :
    memory_pool.create targs_two_words 32 8 zero_mem 4096 64 = some (.ok pool_args) ∧
    pool_args.alloc 4097 128 args_val = some (.ok 64, pool_args_a) ∧
    pool_args_a.alloc 4097 128 args_val = some (.ok 72, pool_args_b) ∧
    pool_args_b.alloc 4097 128 args_val = some (.ok 50, pool_args_c) ∧
    regions pool_args_c.blocks = [(64, 96)] ∧
    (∀ e ∈ pool_args_c.blocks, in_block e.2 50 = false) ∧
    50 % pool_args_c.chunk_size ≠ 0 :=
  ⟨rfl, rfl, rfl, rfl, rfl, by decide, by decide⟩

end pool
